import Mathlib

/-!
# Segregated free-list allocator of `Malloc_Lab/solution/malloclab-handout/mm.c`

Shallow embedding of the allocator for the ILP32 build the lab uses (`unsigned int`,
`size_t` and pointers are all 4 bytes; `SET_PTR` stores a pointer in one word).

* Addresses and sizes are natural numbers below `2 ^ 32`; every C arithmetic operation that
  can wrap is reduced modulo `2 ^ 32`.
* The arena is the byte range `[mem_start_brk, mem_brk)` of the simulated memory system.  Memory
  is read and written one aligned 4-byte word at a time (`GET`, `PUT`); an access that is not
  word aligned or not inside the arena has no defined behaviour in C and yields the fault `access`.
* Loops that follow free-list links carry a fuel equal to the arena size in bytes.  A walk that
  stays inside the arena and visits more nodes than the arena has bytes has revisited an
  address, so running out of fuel means the C loop does not terminate; it yields the fault `loop`.
* The null pointer is the address `0`, which lies outside every arena (`0 < mem_start_brk`).
-/

namespace MM

/-! ## Definitions -/

/-- Allocator state: the memory system of `memlib` and the global bucket array of `mm.c`. -/
structure Heap where
  /-- Word stored at a word-aligned byte address. -/
  mem : Nat → Nat
  /-- First byte of the arena. -/
  mem_start_brk : Nat
  /-- One past the last byte of the arena. -/
  mem_brk : Nat
  /-- Highest value `mem_brk` may take. -/
  mem_max_addr : Nat
  /-- The array `segregated_free_lists[LISTSIZE]` of bucket heads. -/
  segregated_free_lists : Nat → Nat

/-- How an execution leaves the defined behaviour of the program. -/
inductive Fault where
  /-- A word access outside the arena or not word aligned. -/
  | access
  /-- A free-list walk that never ends. -/
  | loop
  /-- A call of `memcpy` whose source and destination overlap. -/
  | overlap
  deriving DecidableEq, Repr

/-- Result of running a piece of the program: a value, or a fault. -/
abbrev Res (α : Type) : Type := Except Fault α

def ALIGNMENT : Nat := 8

def WSIZE : Nat := 4

def DSIZE : Nat := 8

def INITCHUNKSIZE : Nat := 64

def CHUNKSIZE : Nat := 4096

def LISTSIZE : Nat := 16

/-- Number of values of a 32-bit word. -/
def WORD : Nat := 4294967296

/-- Pointer or `size_t` addition, wrapping at 32 bits. -/
def padd (p k : Nat) : Nat := (p + k) % WORD

/-- Pointer or `size_t` subtraction, wrapping at 32 bits. -/
def psub (p k : Nat) : Nat := (p + (WORD - k % WORD)) % WORD

/-- The macro `ALIGN(size)`: `((size) + (ALIGNMENT-1)) & ~0x7`. -/
def ALIGN (size : Nat) : Nat := padd size (ALIGNMENT - 1) &&& 0xFFFFFFF8

/-- The macro `MAX(x, y)`. -/
def MAX (x y : Nat) : Nat := if x > y then x else y

/-- The macro `PACK(size, alloc)`. -/
def PACK (size alloc : Nat) : Nat := size ||| alloc

/-- Whether the word at `p` may be accessed: aligned and inside the arena. -/
def inArena (h : Heap) (p : Nat) : Prop :=
  h.mem_start_brk ≤ p ∧ p + WSIZE ≤ h.mem_brk ∧ p % WSIZE = 0

instance (h : Heap) (p : Nat) : Decidable (inArena h p) := by
  unfold inArena; exact inferInstance

/-- The macro `GET(p)`. -/
def GET (h : Heap) (p : Nat) : Res Nat :=
  if inArena h p then .ok (h.mem p) else .error .access

/-- The macros `PUT(p, val)` and `SET_PTR(p, ptr)`. -/
def PUT (h : Heap) (p val : Nat) : Res Heap :=
  if inArena h p then
    .ok { h with mem := fun a => if a = p then val % WORD else h.mem a }
  else .error .access

/-- The macro `GET_SIZE(p)`. -/
def GET_SIZE (h : Heap) (p : Nat) : Res Nat :=
  (GET h p).map (fun w => w &&& 0xFFFFFFF8)

/-- The macro `GET_ALLOC(p)`. -/
def GET_ALLOC (h : Heap) (p : Nat) : Res Nat :=
  (GET h p).map (fun w => w &&& 1)

/-- The macro `HDRP(ptr)`. -/
def HDRP (ptr : Nat) : Nat := psub ptr WSIZE

/-- The macro `FTRP(ptr)`. -/
def FTRP (h : Heap) (ptr : Nat) : Res Nat := do
  let sz ← GET_SIZE h (HDRP ptr)
  pure (psub (padd ptr sz) DSIZE)

/-- The macro `PREV_BLK_PTR(ptr)`. -/
def PREV_BLK_PTR (h : Heap) (ptr : Nat) : Res Nat := do
  let sz ← GET_SIZE h (psub ptr DSIZE)
  pure (psub ptr sz)

/-- The macro `NEXT_BLK_PTR(ptr)`. -/
def NEXT_BLK_PTR (h : Heap) (ptr : Nat) : Res Nat := do
  let sz ← GET_SIZE h (psub ptr WSIZE)
  pure (padd ptr sz)

/-- The macro `PRED_PTR(ptr)`. -/
def PRED_PTR (ptr : Nat) : Nat := ptr

/-- The macro `SUCC_PTR(ptr)`. -/
def SUCC_PTR (ptr : Nat) : Nat := padd ptr WSIZE

/-- The macro `PRED(ptr)`. -/
def PRED (h : Heap) (ptr : Nat) : Res Nat := GET h ptr

/-- The macro `SUCC(ptr)`. -/
def SUCC (h : Heap) (ptr : Nat) : Res Nat := GET h (SUCC_PTR ptr)

/-- Assignment `segregated_free_lists[i] = ptr`. -/
def setList (h : Heap) (i ptr : Nat) : Heap :=
  { h with segregated_free_lists := fun j => if j = i then ptr else h.segregated_free_lists j }

/-- Fuel for the loops that follow free-list links: the arena size in bytes. -/
def fuel (h : Heap) : Nat := h.mem_brk - h.mem_start_brk

/-- Modelled from the spec: `initialize()` of the arena collaborator (`mem_init` of memlib.c,
which is not among the sources).  It creates an empty arena at address `base` that can grow
to `cap` bytes; the memory contents `m0` and the bucket array `l0` are whatever they were. -/
def mem_init (base cap : Nat) (m0 l0 : Nat → Nat) : Heap :=
  { mem := m0, mem_start_brk := base, mem_brk := base, mem_max_addr := base + cap,
    segregated_free_lists := l0 }

/-- Modelled from the spec: `extend(deltaBytes) -> regionStart | Failure` of the arena
collaborator (`mem_sbrk` of memlib.c, which is not among the sources).  The arena grows by
`incr` bytes and the old break is returned; `none` is the failure signal `(void *)-1`, given
when the arena cannot grow that far, and then nothing changes. -/
def mem_sbrk (h : Heap) (incr : Nat) : Option (Nat × Heap) :=
  if h.mem_brk + incr ≤ h.mem_max_addr then
    some (h.mem_brk, { h with mem_brk := h.mem_brk + incr })
  else none

/-- The bucket loop shared by `insert_node` and `delete_node`:
`while ((listnumber < LISTSIZE - 1) && (size > 1)) { size >>= 1; listnumber++; }`.
The result is the final `(listnumber, size)`.  The first argument counts the iterations
still possible; `listnumber` rises by one per iteration, so `LISTSIZE - 1` of them suffice. -/
def bucket_loop : Nat → Nat → Nat → Nat × Nat
  | 0, listnumber, size => (listnumber, size)
  | k + 1, listnumber, size =>
    if listnumber < LISTSIZE - 1 ∧ size > 1 then bucket_loop k (listnumber + 1) (size >>> 1)
    else (listnumber, size)

/-- The position loop of `insert_node`:
`while ((succ_ptr != NULL) && (GET_SIZE(HDRP(succ_ptr)) < size))`.
The result is the final `(pred_ptr, succ_ptr)`. -/
def insert_walk (h : Heap) (size : Nat) : Nat → Nat → Nat → Res (Nat × Nat)
  | 0, _, _ => .error .loop
  | k + 1, pred_ptr, succ_ptr =>
    if succ_ptr = 0 then .ok (pred_ptr, succ_ptr)
    else do
      let sz ← GET_SIZE h (HDRP succ_ptr)
      if sz < size then do
        let nx ← SUCC h succ_ptr
        insert_walk h size k succ_ptr nx
      else .ok (pred_ptr, succ_ptr)

/-- The function `insert_node`. -/
def insert_node (h : Heap) (block_ptr : Nat) : Res Heap := do
  let size0 ← GET_SIZE h (HDRP block_ptr)
  let (listnumber, size) := bucket_loop (LISTSIZE - 1) 0 size0
  let (pred_ptr, succ_ptr) ←
    insert_walk h size (fuel h + 1) 0 (h.segregated_free_lists listnumber)
  if succ_ptr ≠ 0 then
    if pred_ptr ≠ 0 then do
      let h ← PUT h (PRED_PTR block_ptr) pred_ptr
      let h ← PUT h (SUCC_PTR block_ptr) succ_ptr
      let h ← PUT h (PRED_PTR succ_ptr) block_ptr
      PUT h (SUCC_PTR pred_ptr) block_ptr
    else do
      let h ← PUT h (PRED_PTR block_ptr) 0
      let h ← PUT h (SUCC_PTR block_ptr) succ_ptr
      let h ← PUT h (PRED_PTR succ_ptr) block_ptr
      pure (setList h listnumber block_ptr)
  else
    if pred_ptr ≠ 0 then do
      let h ← PUT h (PRED_PTR block_ptr) pred_ptr
      let h ← PUT h (SUCC_PTR block_ptr) 0
      PUT h (SUCC_PTR pred_ptr) block_ptr
    else do
      let h ← PUT h (SUCC_PTR block_ptr) 0
      let h ← PUT h (PRED_PTR block_ptr) 0
      pure (setList h listnumber block_ptr)

/-- The function `delete_node`. -/
def delete_node (h : Heap) (block_ptr : Nat) : Res Heap := do
  let size0 ← GET_SIZE h (HDRP block_ptr)
  let (listnumber, _) := bucket_loop (LISTSIZE - 1) 0 size0
  let s ← SUCC h block_ptr
  if s ≠ 0 then do
    let p ← PRED h block_ptr
    if p ≠ 0 then do
      let p1 ← PRED h block_ptr
      let s1 ← SUCC h block_ptr
      let h ← PUT h (SUCC_PTR p1) s1
      let s2 ← SUCC h block_ptr
      let p2 ← PRED h block_ptr
      PUT h (PRED_PTR s2) p2
    else do
      let s1 ← SUCC h block_ptr
      let h ← PUT h (PRED_PTR s1) 0
      let s2 ← SUCC h block_ptr
      pure (setList h listnumber s2)
  else do
    let p ← PRED h block_ptr
    if p ≠ 0 then do
      let p1 ← PRED h block_ptr
      PUT h (SUCC_PTR p1) 0
    else
      pure (setList h listnumber 0)

/-- Second case of `coalesce`: the previous block is allocated, the next block is free. -/
def coalesce_next (h : Heap) (block_ptr size : Nat) : Res (Nat × Heap) := do
  let h ← delete_node h block_ptr
  let nx ← NEXT_BLK_PTR h block_ptr
  let h ← delete_node h nx
  let nx ← NEXT_BLK_PTR h block_ptr
  let nsz ← GET_SIZE h (HDRP nx)
  let size := padd size nsz
  let h ← PUT h (HDRP block_ptr) (PACK size 0)
  let ft ← FTRP h block_ptr
  let h ← PUT h ft (PACK size 0)
  let h ← insert_node h block_ptr
  pure (block_ptr, h)

/-- Third case of `coalesce`: the previous block is free, the next block is allocated. -/
def coalesce_prev (h : Heap) (block_ptr size : Nat) : Res (Nat × Heap) := do
  let pv ← PREV_BLK_PTR h block_ptr
  let h ← delete_node h pv
  let h ← delete_node h block_ptr
  let pv ← PREV_BLK_PTR h block_ptr
  let psz ← GET_SIZE h (HDRP pv)
  let size := padd size psz
  let ft ← FTRP h block_ptr
  let h ← PUT h ft (PACK size 0)
  let pv ← PREV_BLK_PTR h block_ptr
  let h ← PUT h (HDRP pv) (PACK size 0)
  let pv ← PREV_BLK_PTR h block_ptr
  let h ← insert_node h pv
  pure (pv, h)

/-- Fourth case of `coalesce`: the previous block and the next block are both free. -/
def coalesce_both (h : Heap) (block_ptr size : Nat) : Res (Nat × Heap) := do
  let pv ← PREV_BLK_PTR h block_ptr
  let h ← delete_node h pv
  let h ← delete_node h block_ptr
  let nx ← NEXT_BLK_PTR h block_ptr
  let h ← delete_node h nx
  let pv ← PREV_BLK_PTR h block_ptr
  let psz ← GET_SIZE h (HDRP pv)
  let nx ← NEXT_BLK_PTR h block_ptr
  let nsz ← GET_SIZE h (HDRP nx)
  let size := padd size (padd psz nsz)
  let pv ← PREV_BLK_PTR h block_ptr
  let h ← PUT h (HDRP pv) (PACK size 0)
  let nx ← NEXT_BLK_PTR h block_ptr
  let ft ← FTRP h nx
  let h ← PUT h ft (PACK size 0)
  let pv ← PREV_BLK_PTR h block_ptr
  let h ← insert_node h pv
  pure (pv, h)

/-- The function `coalesce`; the result is the returned block pointer and the new state. -/
def coalesce (h : Heap) (block_ptr : Nat) : Res (Nat × Heap) := do
  let pv ← PREV_BLK_PTR h block_ptr
  let prev_allocated_flag ← GET_ALLOC h (HDRP pv)
  let nx ← NEXT_BLK_PTR h block_ptr
  let next_allocated_flag ← GET_ALLOC h (HDRP nx)
  let size ← GET_SIZE h (HDRP block_ptr)
  if prev_allocated_flag ≠ 0 ∧ next_allocated_flag ≠ 0 then .ok (block_ptr, h)
  else if prev_allocated_flag ≠ 0 ∧ next_allocated_flag = 0 then coalesce_next h block_ptr size
  else if prev_allocated_flag = 0 ∧ next_allocated_flag ≠ 0 then coalesce_prev h block_ptr size
  else coalesce_both h block_ptr size

/-- The function `extend_heap`; a returned pointer `0` is `NULL`. -/
def extend_heap (h : Heap) (size : Nat) : Res (Nat × Heap) :=
  let size := ALIGN size
  match mem_sbrk h size with
  | none => .ok (0, h)
  | some (ptr, h) => do
    let h ← PUT h (HDRP ptr) (PACK size 0)
    let ft ← FTRP h ptr
    let h ← PUT h ft (PACK size 0)
    let nx ← NEXT_BLK_PTR h ptr
    let h ← PUT h (HDRP nx) (PACK 0 1)
    let h ← insert_node h ptr
    coalesce h ptr

/-- The function `place`. -/
def place (h : Heap) (block_ptr size : Nat) : Res (Nat × Heap) := do
  let free_size ← GET_SIZE h (HDRP block_ptr)
  let remaining_size := psub free_size size
  let h ← delete_node h block_ptr
  if remaining_size < DSIZE * 2 then do
    let h ← PUT h (HDRP block_ptr) (PACK free_size 1)
    let ft ← FTRP h block_ptr
    let h ← PUT h ft (PACK free_size 1)
    pure (block_ptr, h)
  else do
    let h ← PUT h (HDRP block_ptr) (PACK size 1)
    let ft ← FTRP h block_ptr
    let h ← PUT h ft (PACK size 1)
    let nx ← NEXT_BLK_PTR h block_ptr
    let h ← PUT h (HDRP nx) (PACK remaining_size 0)
    let nx ← NEXT_BLK_PTR h block_ptr
    let ft ← FTRP h nx
    let h ← PUT h ft (PACK remaining_size 0)
    let nx ← NEXT_BLK_PTR h block_ptr
    let h ← insert_node h nx
    pure (block_ptr, h)

/-- The inner loop of `mm_malloc`:
`while ((ptr != NULL) && ((GET_SIZE(HDRP(ptr)) < size))) ptr = SUCC(ptr);`.
The result is the final `ptr`. -/
def find_walk (h : Heap) (size : Nat) : Nat → Nat → Res Nat
  | 0, _ => .error .loop
  | k + 1, ptr =>
    if ptr = 0 then .ok ptr
    else do
      let sz ← GET_SIZE h (HDRP ptr)
      if sz < size then do
        let nx ← SUCC h ptr
        find_walk h size k nx
      else .ok ptr

/-- The `for` loop of `mm_malloc` over the buckets, from iteration `i` with `cnt` iterations
to go.  The result is the final `ptr`; it is `0` (`NULL`) when no bucket gave a block. -/
def find_loop (h : Heap) (size : Nat) : Nat → Nat → Nat → Res Nat
  | 0, _, _ => .ok 0
  | cnt + 1, i, searchsize =>
    if searchsize ≤ 1 ∧ h.segregated_free_lists i ≠ 0 then do
      let ptr ← find_walk h size (fuel h + 1) (h.segregated_free_lists i)
      if ptr ≠ 0 then .ok ptr
      else find_loop h size cnt (i + 1) (searchsize >>> 1)
    else find_loop h size cnt (i + 1) (searchsize >>> 1)

/-- The size adjustment at the head of `mm_malloc` and `mm_realloc`. -/
def adjust (size : Nat) : Nat :=
  if size ≤ DSIZE then 2 * DSIZE else ALIGN (padd size DSIZE)

/-- The function `mm_malloc`; a returned pointer `0` is `NULL`. -/
def mm_malloc (h : Heap) (size : Nat) : Res (Nat × Heap) :=
  if size = 0 then .ok (0, h)
  else do
    let size := adjust size
    let ptr ← find_loop h size LISTSIZE 0 size
    if ptr = 0 then do
      let (ptr, h) ← extend_heap h (MAX size CHUNKSIZE)
      if ptr = 0 then .ok (0, h)
      else place h ptr size
    else place h ptr size

/-- The function `mm_free`. -/
def mm_free (h : Heap) (block_ptr : Nat) : Res Heap := do
  let size ← GET_SIZE h (HDRP block_ptr)
  let h ← PUT h (HDRP block_ptr) (PACK size 0)
  let ft ← FTRP h block_ptr
  let h ← PUT h ft (PACK size 0)
  let h ← insert_node h block_ptr
  let (_, h) ← coalesce h block_ptr
  pure h

/-- The function `mm_init`; the returned integer is `0` on success and `-1` on failure. -/
def mm_init (h : Heap) : Res (Int × Heap) :=
  let h := { h with segregated_free_lists :=
    fun i => if i < LISTSIZE then 0 else h.segregated_free_lists i }
  match mem_sbrk h (4 * WSIZE) with
  | none => .ok (-1, h)
  | some (heap, h) => do
    let h ← PUT h heap 0
    let h ← PUT h (padd heap (1 * WSIZE)) (PACK DSIZE 1)
    let h ← PUT h (padd heap (2 * WSIZE)) (PACK DSIZE 1)
    let h ← PUT h (padd heap (3 * WSIZE)) (PACK 0 1)
    let (ptr, h) ← extend_heap h INITCHUNKSIZE
    if ptr = 0 then .ok (-1, h) else .ok (0, h)

/-- The words copied by `memcpy`, lowest address first; the last argument counts the words
still to copy.  A word is copied as it is, whatever it holds. -/
def memcpy_words (h : Heap) : Nat → Nat → Nat → Res Heap
  | _, _, 0 => .ok h
  | dst, src, k + 1 =>
    if inArena h src ∧ inArena h dst then
      memcpy_words { h with mem := fun a => if a = dst then h.mem src else h.mem a }
        (padd dst WSIZE) (padd src WSIZE) k
    else .error .access

/-- The C library function `memcpy(dst, src, n)` for a byte count `n` that is a multiple of
the word size, which is how `mm_realloc` calls it (`n` is a block size).  The `n / 4` words
from `src` on are copied to `dst` on; when the two ranges overlap the C standard leaves the
behaviour undefined, which is the fault `overlap`. -/
def memcpy (h : Heap) (dst src n : Nat) : Res Heap :=
  if src < dst + n ∧ dst < src + n then .error .overlap
  else memcpy_words h dst src (n / WSIZE)

/-- Case 2.1 of `mm_realloc`: the next block is the epilogue, the heap is extended. -/
def realloc_extend (h : Heap) (block_ptr size : Nat) : Res (Nat × Heap) := do
  let cur ← GET_SIZE h (HDRP block_ptr)
  let extend_size := MAX (psub size cur) CHUNKSIZE
  let (r, h) ← extend_heap h extend_size
  if r = 0 then .ok (0, h)
  else do
    let nx ← NEXT_BLK_PTR h block_ptr
    let h ← delete_node h nx
    let cur ← GET_SIZE h (HDRP block_ptr)
    let new_size := padd cur extend_size
    let h ← PUT h (HDRP block_ptr) (PACK new_size 1)
    let ft ← FTRP h block_ptr
    let h ← PUT h ft (PACK new_size 1)
    pure (block_ptr, h)

/-- Case 2.2 of `mm_realloc` once `new_size >= size` holds: the next block is absorbed. -/
def realloc_merge (h : Heap) (block_ptr new_size : Nat) : Res (Nat × Heap) := do
  let nx ← NEXT_BLK_PTR h block_ptr
  let h ← delete_node h nx
  let h ← PUT h (HDRP block_ptr) (PACK new_size 1)
  let ft ← FTRP h block_ptr
  let h ← PUT h ft (PACK new_size 1)
  pure (block_ptr, h)

/-- Case 2.3 of `mm_realloc`: a new block is allocated, the old one copied and freed. -/
def realloc_copy (h : Heap) (block_ptr size : Nat) : Res (Nat × Heap) := do
  let (new_block, h) ← mm_malloc h size
  let n ← GET_SIZE h (HDRP block_ptr)
  let h ← memcpy h new_block block_ptr n
  let h ← mm_free h block_ptr
  pure (new_block, h)

/-- The function `mm_realloc`; a returned pointer `0` is `NULL`. -/
def mm_realloc (h : Heap) (block_ptr size : Nat) : Res (Nat × Heap) :=
  if size = 0 then .ok (0, h)
  else do
    let size := adjust size
    let cur ← GET_SIZE h (HDRP block_ptr)
    if size ≤ cur then .ok (block_ptr, h)
    else do
      let nx ← NEXT_BLK_PTR h block_ptr
      let nsz ← GET_SIZE h (HDRP nx)
      if nsz = 0 then realloc_extend h block_ptr size
      else do
        let nx ← NEXT_BLK_PTR h block_ptr
        let na ← GET_ALLOC h (HDRP nx)
        if na = 0 then do
          let nx ← NEXT_BLK_PTR h block_ptr
          let nsz ← GET_SIZE h (HDRP nx)
          let cur ← GET_SIZE h (HDRP block_ptr)
          let new_size := padd nsz cur
          if new_size ≥ size then realloc_merge h block_ptr new_size
          else realloc_copy h block_ptr size
        else realloc_copy h block_ptr size

/-- Memory after storing `v` at address `p`. -/
def upd (m : Nat → Nat) (p v : Nat) : Nat → Nat := fun a => if a = p then v else m a

/-- The state with its memory replaced. -/
def setMem (h : Heap) (m : Nat → Nat) : Heap := { h with mem := m }

/-- A block of the arena: payload address, size in bytes (tags included), allocated flag. -/
structure Blk where
  addr : Nat
  size : Nat
  alloc : Nat
  deriving DecidableEq

/-- The blocks `bs` lie back to back from payload address `p` to payload address `q` in memory
`m`, each with a header and a footer that encode its size and flag. -/
def Tiled (m : Nat → Nat) : Nat → List Blk → Nat → Prop
  | p, [], q => p = q
  | p, b :: bs, q => b.addr = p ∧ 8 ≤ b.size ∧ b.size % 8 = 0 ∧ b.alloc ≤ 1 ∧
      m (p - 4) = b.size + b.alloc ∧ m (p + b.size - 8) = b.size + b.alloc ∧
      Tiled m (p + b.size) bs q

/-- What `Tiled` says about one of its blocks. -/
structure BlkOk (m : Nat → Nat) (p q : Nat) (b : Blk) : Prop where
  lo : p ≤ b.addr
  hi : b.addr + b.size ≤ q
  size_ge : 8 ≤ b.size
  size_mod : b.size % 8 = 0
  alloc_le : b.alloc ≤ 1
  hdr : m (b.addr - 4) = b.size + b.alloc
  ftr : m (b.addr + b.size - 8) = b.size + b.alloc

/-- The last element of `l`, or `d` when `l` is empty. -/
def lastD : List Nat → Nat → Nat
  | [], d => d
  | x :: l, _ => lastD l x

/-- The nodes `l` are linked in memory `m` from pointer `cur` on: each node's predecessor
word holds the node before it (`prev` for the first) and each node's successor word holds the
node after it (`nxt` for the last). -/
def LSeg (m : Nat → Nat) : Nat → Nat → List Nat → Nat → Prop
  | _, cur, [], nxt => cur = nxt
  | prev, cur, x :: xs, nxt => cur = x ∧ x ≠ 0 ∧ m x = prev ∧ LSeg m x (m (x + 4)) xs nxt

/-- Bucket index that `insert_node` and `delete_node` compute for a block size. -/
def bucket (size : Nat) : Nat := (bucket_loop (LISTSIZE - 1) 0 size).1

/-- Value of `size` that the bucket loop leaves behind. -/
def shifted (size : Nat) : Nat := (bucket_loop (LISTSIZE - 1) 0 size).2

/-- The prologue block of an arena that starts at `base`. -/
def pro (base : Nat) : Blk := ⟨base + 8, 8, 1⟩

/-- The heap `h` holds the blocks `bs` between prologue and epilogue, and bucket `i` of the
free-list index holds the nodes `FL i`, each of them a free block of `bs` in its bucket. -/
structure Core (h : Heap) (bs : List Blk) (FL : Nat → List Nat) : Prop where
  base_pos : 0 < h.mem_start_brk
  base_mod : h.mem_start_brk % 8 = 0
  brk_le : h.mem_brk ≤ h.mem_max_addr
  max_lt : h.mem_max_addr < WORD
  tiled : Tiled h.mem (h.mem_start_brk + 8) (pro h.mem_start_brk :: bs) h.mem_brk
  epi : h.mem (h.mem_brk - 4) = 1
  size_ge : ∀ b ∈ bs, 16 ≤ b.size
  linked : ∀ i, i < LISTSIZE → LSeg h.mem 0 (h.segregated_free_lists i) (FL i) 0
  node : ∀ i, ∀ x ∈ FL i, ∃ b ∈ bs, b.addr = x ∧ b.alloc = 0 ∧ bucket b.size = i
  nodup : ∀ i, (FL i).Nodup

/-- Facts about the place of a block inside the arena. -/
structure InHeap (h : Heap) (b : Blk) : Prop where
  lo : h.mem_start_brk + 16 ≤ b.addr
  hi : b.addr + b.size ≤ h.mem_brk
  brk_lt : h.mem_brk < WORD
  addr_mod : b.addr % 8 = 0
  base_mod : h.mem_start_brk % 8 = 0
  size_ge : 16 ≤ b.size
  size_mod : b.size % 8 = 0
  alloc_le : b.alloc ≤ 1
  hdr : h.mem (b.addr - 4) = b.size + b.alloc
  ftr : h.mem (b.addr + b.size - 8) = b.size + b.alloc

/-- The word before payload address `p` is a tag for size `s` and flag `a`. -/
structure HdrAt (h : Heap) (p s a : Nat) : Prop where
  in_hdr : inArena h (p - 4)
  p_ge : 8 ≤ p
  lt : p + s < WORD
  mod : s % 8 = 0
  a_le : a ≤ 1
  hdr : h.mem (p - 4) = s + a

/-- No two blocks that touch are both free. -/
def NoAdj (bs : List Blk) : Prop :=
  ∀ x ∈ bs, ∀ y ∈ bs, x.addr + x.size = y.addr → x.alloc ≠ 0 ∨ y.alloc ≠ 0

/-- The word at address `a` lies in the payload of an allocated block of `bs`. -/
def Payload (bs : List Blk) (a : Nat) : Prop :=
  ∃ c ∈ bs, c.alloc = 1 ∧ c.addr ≤ a ∧ a + 8 < c.addr + c.size

/-- The representation invariant together with the two global properties of the allocator:
every free block is in the index, and free blocks never touch. -/
structure Good (h : Heap) (bs : List Blk) (FL : Nat → List Nat) : Prop where
  core : Core h bs FL
  listed : ∀ b ∈ bs, b.alloc = 0 → b.addr ∈ FL (bucket b.size)
  noadj : NoAdj bs

/-- The state with its break moved. -/
def setBrk (h : Heap) (k : Nat) : Heap := { h with mem_brk := k }

/-- Heap states reached from a successful `mm_init` on a fresh arena by calls of `mm_malloc`
whose request size does not wrap around (`n + 15 < 2 ^ 32`) and calls of `mm_free` on live
pointers, together with the list of live pointers. -/
inductive Reach : Heap → List Nat → Prop
  | init (base cap : Nat) (m0 l0 : Nat → Nat) (h : Heap) :
      base % 8 = 0 → 0 < base → base + cap < WORD →
      mm_init (mem_init base cap m0 l0) = Except.ok (0, h) → Reach h []
  | malloc (h h' : Heap) (live : List Nat) (n p : Nat) :
      Reach h live → n + 15 < WORD → mm_malloc h n = Except.ok (p, h') →
      Reach h' (if p = 0 then live else p :: live)
  | free (h h' : Heap) (live : List Nat) (p : Nat) :
      Reach h live → p ∈ live → mm_free h p = Except.ok h' →
      Reach h' (live.filter (fun q => q ≠ p))

/-- The invariant of reachable states: the heap is well formed and the live pointers are the
addresses of its allocated blocks. -/
def Inv (h : Heap) (live : List Nat) : Prop :=
  ∃ bs FL, Good h bs FL ∧ ∀ p, p ∈ live ↔ ∃ c ∈ bs, c.addr = p ∧ c.alloc = 1

/-- The blocks met when the arena is walked by header sizes from payload address `p` until a
header of size `0` (the epilogue) is met.  The first argument bounds the number of headers
visited. -/
def walk (h : Heap) : Nat → Nat → Res (List Blk)
  | 0, _ => .error .loop
  | k + 1, p => do
    let sz ← GET_SIZE h (HDRP p)
    let al ← GET_ALLOC h (HDRP p)
    if sz = 0 then pure []
    else do
      let nx ← NEXT_BLK_PTR h p
      let rest ← walk h k nx
      pure (⟨p, sz, al⟩ :: rest)

/-- The nodes met when successor links are followed from `p` until `NULL`.  The first argument
bounds the number of nodes visited. -/
def chain (h : Heap) : Nat → Nat → Res (List Nat)
  | 0, _ => .error .loop
  | k + 1, p =>
    if p = 0 then pure []
    else do
      let nx ← SUCC h p
      let rest ← chain h k nx
      pure (p :: rest)

/-- Payload address of the prologue block. -/
def prologue (h : Heap) : Nat := h.mem_start_brk + 2 * WSIZE

/-- Payload address of the first block after the prologue. -/
def first_block (h : Heap) : Nat := h.mem_start_brk + 4 * WSIZE

/-- The blocks between prologue and epilogue, found by walking the arena. -/
def blocks (h : Heap) : Res (List Blk) := walk h (fuel h + 1) (first_block h)

/-- The nodes of bucket `i`, found by following successor links from its head. -/
def bucket_nodes (h : Heap) (i : Nat) : Res (List Nat) :=
  chain h (fuel h + 1) (h.segregated_free_lists i)

instance instDecidableEqRes {α : Type} [DecidableEq α] : DecidableEq (Res α)
  | .ok a, .ok b =>
    if e : a = b then isTrue (by rw [e]) else isFalse (fun e' => e (Except.ok.inj e'))
  | .error a, .error b =>
    if e : a = b then isTrue (by rw [e]) else isFalse (fun e' => e (Except.error.inj e'))
  | .ok _, .error _ => isFalse (fun e => Except.noConfusion e)
  | .error _, .ok _ => isFalse (fun e => Except.noConfusion e)

/-- A fresh arena at address 8 that can grow to one megabyte, all memory words zero. -/
def fresh_arena : Heap := mem_init 8 1048576 (fun _ => 0) (fun _ => 0)

/-- A fresh arena at address 8 that can grow to 80 bytes only: `mm_init` uses all of it. -/
def small_arena : Heap := mem_init 8 80 (fun _ => 0) (fun _ => 0)

/-- Run: `mm_init`, then `p = mm_malloc(4294967295)`.  The result is the return code of
`mm_init`, the pointer `p` and the size in the header of the block at `p`. -/
def run_huge_request : Res (Int × Nat × Nat) := do
  let (r, h) ← mm_init fresh_arena
  let (p, h) ← mm_malloc h 4294967295
  let sz ← GET_SIZE h (HDRP p)
  pure (r, p, sz)

/-- Run: `mm_init`, then `mm_malloc(4294967295)`.  The result is the block sequence. -/
def run_huge_request_blocks : Res (List Blk) := do
  let (_, h) ← mm_init fresh_arena
  let (_, h) ← mm_malloc h 4294967295
  blocks h

/-- Run: `mm_init`, `a = mm_malloc(8)`, `b = mm_malloc(8)`, `mm_free(a)`,
`c = mm_malloc(4294967288)`.  The result is the state and `(a, b, c)`. -/
def run_wrap_to_zero : Res (Heap × Nat × Nat × Nat) := do
  let (_, h) ← mm_init fresh_arena
  let (a, h) ← mm_malloc h 8
  let (b, h) ← mm_malloc h 8
  let h ← mm_free h a
  let (c, h) ← mm_malloc h 4294967288
  pure (h, a, b, c)

/-- Run `run_wrap_to_zero`, then `mm_free(c)`.  The result is `c` and the block sequence. -/
def run_adjacent_free : Res (Nat × List Blk) := do
  let (h, _, _, c) ← run_wrap_to_zero
  let h ← mm_free h c
  let bs ← blocks h
  pure (c, bs)

/-- Run `run_wrap_to_zero`.  The result is `(a, b, c)`, the block sequence and the nodes of
buckets 4 and 5. -/
def run_index_mismatch : Res ((Nat × Nat × Nat) × List Blk × List Nat × List Nat) := do
  let (h, abc) ← run_wrap_to_zero
  let bs ← blocks h
  let n4 ← bucket_nodes h 4
  let n5 ← bucket_nodes h 5
  pure (abc, bs, n4, n5)

/-- Run `run_wrap_to_zero`.  The result is the header word and the footer word of the
prologue block. -/
def run_prologue_tags : Res (Nat × Nat) := do
  let (h, _) ← run_wrap_to_zero
  let w ← GET h (HDRP (prologue h))
  let ft ← FTRP h (prologue h)
  let v ← GET h ft
  pure (w, v)

/-- Run: `mm_init`, `a = mm_malloc(16)`, `b = mm_malloc(16)`, `mm_free(a)`.  The result is
`(a, b)`, the nodes of bucket 4 and the block sizes of these nodes. -/
def run_bucket_order : Res ((Nat × Nat) × List Nat × List Nat) := do
  let (_, h) ← mm_init fresh_arena
  let (a, h) ← mm_malloc h 16
  let (b, h) ← mm_malloc h 16
  let h ← mm_free h a
  let nodes ← bucket_nodes h 4
  let sizes ← nodes.mapM (fun x => GET_SIZE h (HDRP x))
  pure ((a, b), nodes, sizes)

/-- The scenario of the specification: `A = mm_malloc(100)`, `B = mm_malloc(200)`,
`mm_free(A)`, `C = mm_malloc(90)`, `mm_free(B)`, `D = mm_malloc(290)` on a fresh arena. -/
structure Scenario where
  /-- Return code of `mm_init`. -/
  init : Int
  /-- The pointers `A`, `B`, `C`, `D`. -/
  ptrs : Nat × Nat × Nat × Nat
  /-- Arena end after the first two allocations. -/
  brk2 : Nat
  /-- Arena end after `C = mm_malloc(90)`. -/
  brk3 : Nat
  /-- Block sequence after `mm_free(B)`. -/
  merged : List Blk
  /-- Arena end after `D = mm_malloc(290)`. -/
  brk5 : Nat
  deriving DecidableEq

/-- Run of the scenario from the arena `h0`. -/
def run_scenario (h0 : Heap) : Res Scenario := do
  let (r, h) ← mm_init h0
  let (a, h) ← mm_malloc h 100
  let (b, h) ← mm_malloc h 200
  let brk2 := h.mem_brk
  let h ← mm_free h a
  let (c, h) ← mm_malloc h 90
  let brk3 := h.mem_brk
  let h ← mm_free h b
  let merged ← blocks h
  let (d, h) ← mm_malloc h 290
  pure ⟨r, (a, b, c, d), brk2, brk3, merged, h.mem_brk⟩

/-- The loop `p = mm_malloc(n); mm_free(p);` run `k` times. -/
def alloc_free_loop (n : Nat) : Nat → Heap → Res Heap
  | 0, h => .ok h
  | k + 1, h => do
    let (p, h) ← mm_malloc h n
    let h ← mm_free h p
    alloc_free_loop n k h

/-- Run: `mm_init`, then the loop `p = mm_malloc(n); mm_free(p);` `k` times.  The result is
the arena size in bytes. -/
def run_loop (n k : Nat) : Res Nat := do
  let (_, h) ← mm_init fresh_arena
  let h ← alloc_free_loop n k h
  pure (h.mem_brk - h.mem_start_brk)

/-- The state a run ends in; the empty arena when the run faults. -/
def heap_of (x : Res Heap) : Heap :=
  match x with
  | .ok h => h
  | .error _ => fresh_arena

/-- State after a successful `mm_init` on the fresh arena. -/
def fresh_heap : Heap := heap_of ((mm_init fresh_arena).map Prod.snd)

/-- State after `mm_init` and `mm_malloc(8)`, which returns the pointer 24. -/
def one_block_heap : Heap := heap_of ((mm_malloc fresh_heap 8).map Prod.snd)

/-- State after `mm_init` on the small arena, which leaves no room to grow. -/
def small_heap : Heap := heap_of ((mm_init small_arena).map Prod.snd)

/-- Run: `mm_init`, `a = mm_malloc(8)`, `r = mm_realloc(a, 0)`.  The result is `a`, `r`, the
allocated flag of the block at `a` after the call, and the allocated flag of that block when
`mm_free(a)` is called instead. -/
def run_realloc_zero : Res (Nat × Nat × Nat × Nat) := do
  let (_, h) ← mm_init fresh_arena
  let (a, h) ← mm_malloc h 8
  let (r, h1) ← mm_realloc h a 0
  let flag ← GET_ALLOC h1 (HDRP a)
  let h2 ← mm_free h a
  let freed ← GET_ALLOC h2 (HDRP a)
  pure (a, r, flag, freed)

/-- State after `mm_init` on the small arena and `mm_malloc(56)`, which returns the pointer
24 and uses the whole arena. -/
def small_full_heap : Heap := heap_of ((mm_malloc small_heap 56).map Prod.snd)

/-- Run on the small arena: `mm_init`, `a = mm_malloc(8)`, `b = mm_malloc(8)`, then
`m = mm_malloc(112)` and, instead of it, `mm_realloc(a, 100)`, whose target size is 112.  The
result is `a`, `b`, `m` and the pointer that `mm_realloc` returns, if it returns. -/
def run_fallback_null : Res (Nat × Nat × Nat × Res Nat) := do
  let (_, h) ← mm_init small_arena
  let (a, h) ← mm_malloc h 8
  let (b, h) ← mm_malloc h 8
  let (m, _) ← mm_malloc h 112
  pure (a, b, m, (mm_realloc h a 100).map Prod.fst)

/-- State after `mm_init` and `mm_malloc(56)` on the fresh arena; the call returns the pointer
24 and its block is the only block of the arena. -/
def full_block_heap : Heap := heap_of ((mm_malloc fresh_heap 56).map Prod.snd)

/-- State after `mm_init`, `mm_malloc(8)` and `mm_malloc(8)` on the fresh arena; the calls
return the pointers 24 and 40. -/
def two_block_heap : Heap := heap_of ((mm_malloc one_block_heap 8).map Prod.snd)

/-- The blocks `bs` lie back to back from payload address `p` to payload address `q`. -/
def Laid : Nat → List Blk → Nat → Prop
  | p, [], q => p = q
  | p, b :: bs, q => b.addr = p ∧ 8 ≤ b.size ∧ b.size % 8 = 0 ∧ b.alloc ≤ 1 ∧
      Laid (p + b.size) bs q

/-- State after `mm_init` on the fresh arena and `delete_node` on its one free block: the
block at 24 is free and in no bucket. -/
def unlinked_heap : Heap := heap_of (delete_node fresh_heap 24)

/-- The last block of `pre` when it is free, as a list of at most one block. -/
def free_last (pre : List Blk) : List Blk :=
  match pre.getLast? with
  | some c => if c.alloc = 0 then [c] else []
  | none => []

/-- The first block of `post` when it is free, as a list of at most one block. -/
def free_head (post : List Blk) : List Blk :=
  match post.head? with
  | some d => if d.alloc = 0 then [d] else []
  | none => []

/-- Sum of the sizes of the blocks `l`. -/
def total (l : List Blk) : Nat := (l.map Blk.size).sum

/-- The block sequence `pre ++ [b] ++ post` after the free block `b` has been merged with
those of its two neighbours that are free. -/
def coalesced (pre : List Blk) (b : Blk) (post : List Blk) : List Blk :=
  pre.take (pre.length - (free_last pre).length) ++
    [⟨b.addr - total (free_last pre), total (free_last pre) + b.size + total (free_head post), 0⟩]
    ++ post.drop (free_head post).length

/-- State of `mm_free(24)` on `one_block_heap` at its call of `coalesce`: the tags of the block
at 24 are cleared and the block is in the index, next to the free block at 40. -/
def marked_heap : Heap := heap_of (do
  let size ← GET_SIZE one_block_heap (HDRP 24)
  let h ← PUT one_block_heap (HDRP 24) (PACK size 0)
  let ft ← FTRP h 24
  let h ← PUT h ft (PACK size 0)
  insert_node h 24)

/-- Run: `mm_init`, `p = mm_malloc(70000)`, `mm_free(p)`, `q = mm_malloc(70000)`.  The result
is `(p, q)`, the block sequence and the nodes of bucket 15 before the second `mm_malloc`, the
bucket that `insert_node` computes for the adjusted size of the request, and the arena end
before and after the second `mm_malloc`. -/
def run_skipped_bucket : Res ((Nat × Nat) × (List Blk × List Nat) × Nat × Nat × Nat) := do
  let (_, h) ← mm_init fresh_arena
  let (p, h) ← mm_malloc h 70000
  let h ← mm_free h p
  let bs ← blocks h
  let nodes ← bucket_nodes h 15
  let brk1 := h.mem_brk
  let (q, h) ← mm_malloc h 70000
  pure ((p, q), (bs, nodes), bucket (adjust 70000), brk1, h.mem_brk)

/-- Run: `mm_init`, `a = mm_malloc(64)`, `b = mm_malloc(8)`, `c = mm_malloc(104)`,
`d = mm_malloc(8)`, `mm_free(a)`, `mm_free(c)`, `e = mm_malloc(64)`.  The result is
`(a, c, e)`, the nodes of bucket 6 with their block sizes before the last `mm_malloc`, and
the adjusted size of the last request with the size of the block at `e` before that call. -/
def run_first_fit : Res ((Nat × Nat × Nat) × (List Nat × List Nat) × Nat × Nat) := do
  let (_, h) ← mm_init fresh_arena
  let (a, h) ← mm_malloc h 64
  let (_, h) ← mm_malloc h 8
  let (c, h) ← mm_malloc h 104
  let (_, h) ← mm_malloc h 8
  let h ← mm_free h a
  let h ← mm_free h c
  let nodes ← bucket_nodes h 6
  let sizes ← nodes.mapM (fun x => GET_SIZE h (HDRP x))
  let (e, _) ← mm_malloc h 64
  let taken ← GET_SIZE h (HDRP e)
  pure ((a, c, e), (nodes, sizes), adjust 64, taken)

/-- Heap states reached from a successful `mm_init` on a fresh arena by calls of `mm_malloc`
with `n + 15 < 2 ^ 32`, calls of `mm_free` on live pointers and calls of `mm_realloc` on live
pointers with `n + 23 < 2 ^ 32`, together with the list of live pointers. -/
inductive ReachR : Heap → List Nat → Prop
  | init (base cap : Nat) (m0 l0 : Nat → Nat) (h : Heap) :
      base % 8 = 0 → 0 < base → base + cap < WORD →
      mm_init (mem_init base cap m0 l0) = Except.ok (0, h) → ReachR h []
  | malloc (h h' : Heap) (live : List Nat) (n p : Nat) :
      ReachR h live → n + 15 < WORD → mm_malloc h n = Except.ok (p, h') →
      ReachR h' (if p = 0 then live else p :: live)
  | free (h h' : Heap) (live : List Nat) (p : Nat) :
      ReachR h live → p ∈ live → mm_free h p = Except.ok h' →
      ReachR h' (live.filter (fun q => q ≠ p))
  | realloc (h h' : Heap) (live : List Nat) (p n q : Nat) :
      ReachR h live → p ∈ live → n + 23 < WORD → mm_realloc h p n = Except.ok (q, h') →
      ReachR h' (if q = 0 then live else q :: live.filter (fun x => x ≠ p))

/-- Run: `mm_init`, `a = mm_malloc(8)`, `b = mm_malloc(8)`, `c = mm_malloc(8)`, `mm_free(b)`,
`q = mm_realloc(a, 4294967280)`.  The result is `(a, b, c, q)`, the block sequence and the
nodes of buckets 4 and 5 at the end. -/
def run_realloc_wrap : Res ((Nat × Nat × Nat × Nat) × List Blk × List Nat × List Nat) := do
  let (_, h) ← mm_init fresh_arena
  let (a, h) ← mm_malloc h 8
  let (b, h) ← mm_malloc h 8
  let (c, h) ← mm_malloc h 8
  let h ← mm_free h b
  let (q, h) ← mm_realloc h a 4294967280
  let bs ← blocks h
  let n4 ← bucket_nodes h 4
  let n5 ← bucket_nodes h 5
  pure ((a, b, c, q), bs, n4, n5)

/-- State after `mm_init`, `mm_malloc(8)` and `mm_realloc(24, 20)` on the fresh arena; the
last call returns the pointer 24. -/
def grown_heap : Heap := heap_of ((mm_realloc one_block_heap 24 20).map Prod.snd)

/-- Heap states reached from a successful `mm_init` on a fresh arena by calls of `mm_malloc`
whose request size does not wrap around (`n + 15 < 2 ^ 32`) and calls of `mm_free` on live
pointers, together with the live allocations: the returned pointer and the requested number
of bytes of every allocation that has not been freed. -/
inductive ReachS : Heap → List (Nat × Nat) → Prop
  | init (base cap : Nat) (m0 l0 : Nat → Nat) (h : Heap) :
      base % 8 = 0 → 0 < base → base + cap < WORD →
      mm_init (mem_init base cap m0 l0) = Except.ok (0, h) → ReachS h []
  | malloc (h h' : Heap) (live : List (Nat × Nat)) (n p : Nat) :
      ReachS h live → n + 15 < WORD → mm_malloc h n = Except.ok (p, h') →
      ReachS h' (if p = 0 then live else (p, n) :: live)
  | free (h h' : Heap) (live : List (Nat × Nat)) (p : Nat) :
      ReachS h live → p ∈ live.map Prod.fst → mm_free h p = Except.ok h' →
      ReachS h' (live.filter (fun q => q.1 ≠ p))

/-- Run `run_wrap_to_zero`, then `d = mm_malloc(8)`.  The result is `(a, b, c, d)`. -/
def run_reused_live : Res (Nat × Nat × Nat × Nat) := do
  let (h, a, b, c) ← run_wrap_to_zero
  let (d, _) ← mm_malloc h 8
  pure (a, b, c, d)

/-- A state with an arena from 8 to 88 whose words all hold 65. -/
def plain_heap : Heap :=
  { mem := fun _ => 65, mem_start_brk := 8, mem_brk := 88, mem_max_addr := 1048584,
    segregated_free_lists := fun _ => 0 }

/-- Run: `mm_init`, `p = mm_malloc(4294967289)`, `mm_free(p)`.  The result is the state and
`p`. -/
def run_tiny_block : Res (Heap × Nat) := do
  let (_, h) ← mm_init fresh_arena
  let (p, h) ← mm_malloc h 4294967289
  let h ← mm_free h p
  pure (h, p)

/-- Run `run_tiny_block`.  The result is `p`, the nodes of bucket 5 and the sizes in the
headers of these nodes. -/
def run_misfiled : Res (Nat × List Nat × List Nat) := do
  let (h, p) ← run_tiny_block
  let nodes ← bucket_nodes h 5
  let sizes ← nodes.mapM (fun x => GET_SIZE h (HDRP x))
  pure (p, nodes, sizes)

/-- Run `run_tiny_block`.  The result is the block sequence, the header word at which the
walk ends, and the first and the last address of the arena. -/
def run_short_walk : Res (List Blk × Nat × Nat × Nat) := do
  let (h, _) ← run_tiny_block
  let bs ← blocks h
  let w ← GET h (HDRP 32)
  pure (bs, w, h.mem_start_brk, h.mem_brk)

/-- Run: `mm_init`, `p = mm_malloc(4294967289)`, `mm_free(p)`.  The result is the block
sequence before the two calls, `p` with the end of the arena before and after `mm_malloc`,
and the block sequence after the two calls. -/
def run_round_trip : Res (List Blk × (Nat × Nat × Nat) × List Blk) := do
  let (_, h) ← mm_init fresh_arena
  let bs0 ← blocks h
  let (p, h1) ← mm_malloc h 4294967289
  let h2 ← mm_free h1 p
  let bs2 ← blocks h2
  pure (bs0, (p, h.mem_brk, h1.mem_brk), bs2)

/-- Run: `mm_init`, `a = mm_malloc(8)`, `b = mm_malloc(8)`, `c = mm_malloc(8)`, `mm_free(b)`,
then `mm_realloc(a, 4294967280)` as far as its call `q = mm_malloc(size)` in case 2.3.  The
result is `(a, q)`, the adjusted `size`, what `mm_realloc` reads on its way to case 2.3 (the
size of the block at `a`, the size and the flag of the block after it), and the sizes in the
headers of `a` and of `q` when `memcpy` is called. -/
def run_copy_overrun : Res ((Nat × Nat) × Nat × (Nat × Nat × Nat) × Nat × Nat) := do
  let (_, h) ← mm_init fresh_arena
  let (a, h) ← mm_malloc h 8
  let (b, h) ← mm_malloc h 8
  let (_, h) ← mm_malloc h 8
  let h ← mm_free h b
  let size := adjust 4294967280
  let cur ← GET_SIZE h (HDRP a)
  let nx ← NEXT_BLK_PTR h a
  let nsz ← GET_SIZE h (HDRP nx)
  let na ← GET_ALLOC h (HDRP nx)
  let (q, h1) ← mm_malloc h size
  let old ← GET_SIZE h1 (HDRP a)
  let new ← GET_SIZE h1 (HDRP q)
  pure ((a, q), size, (cur, nsz, na), old, new)

/-- Run: `mm_init`, `a = mm_malloc(8)`, `b = mm_malloc(8)`, `c = mm_malloc(8)`, `mm_free(b)`,
`d = mm_malloc(4294967288)`.  The result is `(a, b, c, d)`, the header word and the footer
word of the block at `a` before the last call, and the two words after it. -/
def run_footer_lost : Res ((Nat × Nat × Nat × Nat) × (Nat × Nat) × (Nat × Nat)) := do
  let (_, h) ← mm_init fresh_arena
  let (a, h) ← mm_malloc h 8
  let (b, h) ← mm_malloc h 8
  let (c, h) ← mm_malloc h 8
  let h ← mm_free h b
  let hd0 ← GET h (HDRP a)
  let ft ← FTRP h a
  let w0 ← GET h ft
  let (d, h') ← mm_malloc h 4294967288
  let hd1 ← GET h' (HDRP a)
  let w1 ← GET h' ft
  pure ((a, b, c, d), (hd0, w0), (hd1, w1))

/-- Run: `mm_init`, `p = mm_malloc(4294967289)`, `q = mm_malloc(40)`, `mm_free(p)`, then
`mm_realloc(q, 100)` statement by statement through its case 2.1.  The result is `[p, q]`;
the adjusted `size`, the size `cur` in the header of `q`, the size in the header of the
block after `q` and `extend_size`; the end of the arena before `extend_heap`, the pointer it
returns and the end of the arena after it; `new_size`, the header word of `q` after it is
written and the address `FTRP(q)` of the footer write; and the pointer given by the whole
call `mm_realloc(q, 100)`. -/
def run_extend_wrapped : Res (List Nat × List Nat × List Nat × List Nat × Res Nat) := do
  let (_, h) ← mm_init fresh_arena
  let (p, h) ← mm_malloc h 4294967289
  let (q, h) ← mm_malloc h 40
  let h ← mm_free h p
  let size := adjust 100
  let cur ← GET_SIZE h (HDRP q)
  let nx ← NEXT_BLK_PTR h q
  let nsz ← GET_SIZE h (HDRP nx)
  let extend_size := MAX (psub size cur) CHUNKSIZE
  let (r, h1) ← extend_heap h extend_size
  let nx1 ← NEXT_BLK_PTR h1 q
  let h2 ← delete_node h1 nx1
  let cur2 ← GET_SIZE h2 (HDRP q)
  let new_size := padd cur2 extend_size
  let h3 ← PUT h2 (HDRP q) (PACK new_size 1)
  let w ← GET h3 (HDRP q)
  let ft ← FTRP h3 q
  pure ([p, q], [size, cur, nsz, extend_size], [h.mem_brk, r, h1.mem_brk], [new_size, w, ft],
    (mm_realloc h q 100).map Prod.fst)

/-- Run: `mm_init`, `a = mm_malloc(8)`, `b = mm_malloc(8)`, `c = mm_malloc(8)`, `mm_free(b)`,
`d = mm_malloc(4294967288)`, then `r = mm_realloc(a, 20)`.  The result is `[a, b, c, d]`;
the adjusted size of the request and what `mm_realloc` reads (the size of the block at `a`,
the pointer of the block after it, its size and its flag); the 16 buckets before the call;
the 16 buckets after the call; and the header word of `c` before the call, `r`, the header
word of `a` after the call and the end of the arena before and after the call. -/
def run_merge_wrapped :
    Res (List Nat × List Nat × List (List Nat) × List (List Nat) × List Nat) := do
  let (_, h) ← mm_init fresh_arena
  let (a, h) ← mm_malloc h 8
  let (b, h) ← mm_malloc h 8
  let (c, h) ← mm_malloc h 8
  let h ← mm_free h b
  let (d, h) ← mm_malloc h 4294967288
  let cur ← GET_SIZE h (HDRP a)
  let nx ← NEXT_BLK_PTR h a
  let nsz ← GET_SIZE h (HDRP nx)
  let na ← GET_ALLOC h (HDRP nx)
  let l ← (List.range LISTSIZE).mapM (bucket_nodes h)
  let wc ← GET h (HDRP c)
  let (r, h1) ← mm_realloc h a 20
  let l1 ← (List.range LISTSIZE).mapM (bucket_nodes h1)
  let wa ← GET h1 (HDRP a)
  pure ([a, b, c, d], [adjust 20, cur, nx, nsz, na], l, l1,
    [wc, r, wa, h.mem_brk, h1.mem_brk])

end MM

/-!
# Matrix transpose of `Cache_Lab/solution/cachelab-handout/trans.c`

Shallow embedding of `transpose_submit`, `trans` and `is_transpose`.

* A C `int` is an integer between `INT_MIN` and `INT_MAX` (32 bits); an addition that leaves
  this range has no defined behaviour in C and yields the fault `overflow`.
* The arrays `A[N][M]` and `B[M][N]` do not alias: `A` is a function that is only read, `B` is
  the state that is written.  An access `X[r][c]` outside `0 ≤ r < rows`, `0 ≤ c < cols` yields
  the fault `bounds`.
* A `for` loop carries a bound on its number of iterations; running out of it yields the fault
  `loop`.
-/

namespace CacheLab

/-! ## Definitions -/

/-- How an execution leaves the defined behaviour of the program. -/
inductive Err where
  /-- An array access outside the array. -/
  | bounds
  /-- A signed addition whose result is not an `int`. -/
  | overflow
  /-- A loop that exceeds its iteration bound. -/
  | loop
  deriving DecidableEq, Repr

/-- Result of running a piece of the program: a value, or a fault. -/
abbrev R (α : Type) : Type := Except Err α

def INT_MAX : Int := 2147483647

def INT_MIN : Int := -2147483648

/-- The sum `a + b` of two C `int`s. -/
def iadd (a b : Int) : R Int :=
  if INT_MIN ≤ a + b ∧ a + b ≤ INT_MAX then .ok (a + b) else .error .overflow

/-- The difference `a - b` of two C `int`s. -/
def isub (a b : Int) : R Int :=
  if INT_MIN ≤ a - b ∧ a - b ≤ INT_MAX then .ok (a - b) else .error .overflow

/-- A two-dimensional `int` array, as a function of row and column. -/
abbrev Mat : Type := Int → Int → Int

/-- The read `X[r][c]` of an array with `rows` rows and `cols` columns. -/
def rd (X : Mat) (rows cols r c : Int) : R Int :=
  if 0 ≤ r ∧ r < rows ∧ 0 ≤ c ∧ c < cols then .ok (X r c) else .error .bounds

/-- The array `X` with `v` at row `r`, column `c`. -/
def upd2 (X : Mat) (r c v : Int) : Mat := fun r' c' => if r' = r ∧ c' = c then v else X r' c'

/-- The write `X[r][c] = v` to an array with `rows` rows and `cols` columns. -/
def wr (X : Mat) (rows cols r c v : Int) : R Mat :=
  if 0 ≤ r ∧ r < rows ∧ 0 ≤ c ∧ c < cols then .ok (upd2 X r c v) else .error .bounds

/-- The loop `for (...; cond; step) body` from the value `i` of the loop variable, on the
state `s`.  The first argument bounds the number of iterations. -/
def loop {σ : Type} (cond : Int → R Bool) (body : Int → σ → R σ) (step : Int → R Int) :
    Nat → Int → σ → R σ
  | 0, _, _ => .error .loop
  | f + 1, i, s => do
    let c ← cond i
    if c then do
      let s ← body i s
      let i ← step i
      loop cond body step f i s
    else pure s

/-- Body of the innermost loop of the branch `N == 32`: row `k` of the 8 columns from `j`. -/
def row32 (M N : Int) (A : Mat) (j k : Int) (B : Mat) : R Mat := do
  let temp_value0 ← rd A N M k j
  let j1 ← iadd j 1
  let temp_value1 ← rd A N M k j1
  let j2 ← iadd j 2
  let temp_value2 ← rd A N M k j2
  let j3 ← iadd j 3
  let temp_value3 ← rd A N M k j3
  let j4 ← iadd j 4
  let temp_value4 ← rd A N M k j4
  let j5 ← iadd j 5
  let temp_value5 ← rd A N M k j5
  let j6 ← iadd j 6
  let temp_value6 ← rd A N M k j6
  let j7 ← iadd j 7
  let temp_value7 ← rd A N M k j7
  let B ← wr B M N j k temp_value0
  let j1 ← iadd j 1
  let B ← wr B M N j1 k temp_value1
  let j2 ← iadd j 2
  let B ← wr B M N j2 k temp_value2
  let j3 ← iadd j 3
  let B ← wr B M N j3 k temp_value3
  let j4 ← iadd j 4
  let B ← wr B M N j4 k temp_value4
  let j5 ← iadd j 5
  let B ← wr B M N j5 k temp_value5
  let j6 ← iadd j 6
  let B ← wr B M N j6 k temp_value6
  let j7 ← iadd j 7
  wr B M N j7 k temp_value7

/-- The branch `N == 32` of `transpose_submit`. -/
def transpose32 (M N : Int) (A B : Mat) : R Mat :=
  loop (fun i => pure (decide (i < N)))
    (fun i B =>
      loop (fun j => pure (decide (j < M)))
        (fun j B =>
          loop (fun k => do let e ← iadd i 8; pure (decide (k < e)))
            (fun k B => row32 M N A j k B) (fun k => iadd k 1) 9 i B)
        (fun j => iadd j 8) (M.toNat + 1) 0 B)
    (fun i => iadd i 8) (N.toNat + 1) 0 B

/-- Body of the first inner loop of the branch `N == 64`: row `k` of the 8 columns from
`j`. -/
def row64 (M N : Int) (A : Mat) (j k : Int) (B : Mat) : R Mat := do
  let temp_value0 ← rd A N M k j
  let j1 ← iadd j 1
  let temp_value1 ← rd A N M k j1
  let j2 ← iadd j 2
  let temp_value2 ← rd A N M k j2
  let j3 ← iadd j 3
  let temp_value3 ← rd A N M k j3
  let j4 ← iadd j 4
  let temp_value4 ← rd A N M k j4
  let j5 ← iadd j 5
  let temp_value5 ← rd A N M k j5
  let j6 ← iadd j 6
  let temp_value6 ← rd A N M k j6
  let j7 ← iadd j 7
  let temp_value7 ← rd A N M k j7
  let B ← wr B M N j k temp_value0
  let j1 ← iadd j 1
  let B ← wr B M N j1 k temp_value1
  let j2 ← iadd j 2
  let B ← wr B M N j2 k temp_value2
  let j3 ← iadd j 3
  let B ← wr B M N j3 k temp_value3
  let k4 ← iadd k 4
  let B ← wr B M N j k4 temp_value7
  let j1 ← iadd j 1
  let k4 ← iadd k 4
  let B ← wr B M N j1 k4 temp_value6
  let j2 ← iadd j 2
  let k4 ← iadd k 4
  let B ← wr B M N j2 k4 temp_value5
  let j3 ← iadd j 3
  let k4 ← iadd k 4
  wr B M N j3 k4 temp_value4

/-- The index `j + 3 - l`. -/
def idx_down (j l : Int) : R Int := do
  let a ← iadd j 3
  isub a l

/-- The index `j + 4 + l`. -/
def idx_up (j l : Int) : R Int := do
  let a ← iadd j 4
  iadd a l

/-- Body of the second inner loop of the branch `N == 64`, for the loop variable `l`. -/
def fix64 (M N : Int) (A : Mat) (i j l : Int) (B : Mat) : R Mat := do
  let i4 ← iadd i 4
  let d ← idx_down j l
  let temp_value0 ← rd A N M i4 d
  let i5 ← iadd i 5
  let d ← idx_down j l
  let temp_value1 ← rd A N M i5 d
  let i6 ← iadd i 6
  let d ← idx_down j l
  let temp_value2 ← rd A N M i6 d
  let i7 ← iadd i 7
  let d ← idx_down j l
  let temp_value3 ← rd A N M i7 d
  let i4 ← iadd i 4
  let u ← idx_up j l
  let temp_value4 ← rd A N M i4 u
  let i5 ← iadd i 5
  let u ← idx_up j l
  let temp_value5 ← rd A N M i5 u
  let i6 ← iadd i 6
  let u ← idx_up j l
  let temp_value6 ← rd A N M i6 u
  let i7 ← iadd i 7
  let u ← idx_up j l
  let temp_value7 ← rd A N M i7 u
  let u ← idx_up j l
  let d ← idx_down j l
  let i4 ← iadd i 4
  let v ← rd B M N d i4
  let B ← wr B M N u i v
  let u ← idx_up j l
  let i1 ← iadd i 1
  let d ← idx_down j l
  let i5 ← iadd i 5
  let v ← rd B M N d i5
  let B ← wr B M N u i1 v
  let u ← idx_up j l
  let i2 ← iadd i 2
  let d ← idx_down j l
  let i6 ← iadd i 6
  let v ← rd B M N d i6
  let B ← wr B M N u i2 v
  let u ← idx_up j l
  let i3 ← iadd i 3
  let d ← idx_down j l
  let i7 ← iadd i 7
  let v ← rd B M N d i7
  let B ← wr B M N u i3 v
  let d ← idx_down j l
  let i4 ← iadd i 4
  let B ← wr B M N d i4 temp_value0
  let d ← idx_down j l
  let i5 ← iadd i 5
  let B ← wr B M N d i5 temp_value1
  let d ← idx_down j l
  let i6 ← iadd i 6
  let B ← wr B M N d i6 temp_value2
  let d ← idx_down j l
  let i7 ← iadd i 7
  let B ← wr B M N d i7 temp_value3
  let u ← idx_up j l
  let i4 ← iadd i 4
  let B ← wr B M N u i4 temp_value4
  let u ← idx_up j l
  let i5 ← iadd i 5
  let B ← wr B M N u i5 temp_value5
  let u ← idx_up j l
  let i6 ← iadd i 6
  let B ← wr B M N u i6 temp_value6
  let u ← idx_up j l
  let i7 ← iadd i 7
  wr B M N u i7 temp_value7

/-- The branch `N == 64` of `transpose_submit`. -/
def transpose64 (M N : Int) (A B : Mat) : R Mat :=
  loop (fun i => pure (decide (i < N)))
    (fun i B =>
      loop (fun j => pure (decide (j < M)))
        (fun j B => do
          let B ← loop (fun k => do let e ← iadd i 4; pure (decide (k < e)))
            (fun k B => row64 M N A j k B) (fun k => iadd k 1) 5 i B
          loop (fun l => pure (decide (l < 4)))
            (fun l B => fix64 M N A i j l B) (fun l => iadd l 1) 5 0 B)
        (fun j => iadd j 8) (M.toNat + 1) 0 B)
    (fun i => iadd i 8) (N.toNat + 1) 0 B

/-- The condition `x < y + 16 && x < Z` of the two inner loops of the last branch. -/
def cond16 (y Z x : Int) : R Bool := do
  let e ← iadd y 16
  if x < e then pure (decide (x < Z)) else pure false

/-- Body of the innermost loop of the last branch, for the loop variable `l`, on the state
`(B, temp_position, temp_value)`. -/
def cell (M N : Int) (A : Mat) (k l : Int) (s : Mat × Int × Int) : R (Mat × Int × Int) :=
  if l = k then do
    let v ← rd A N M k k
    pure (s.1, k, v)
  else do
    let v ← rd A N M k l
    let B ← wr s.1 M N l k v
    pure (B, s.2.1, s.2.2)

/-- Body of the loop over `k` of the last branch. -/
def row16 (M N : Int) (A : Mat) (j k : Int) (B : Mat) : R Mat := do
  let s ← loop (cond16 j M) (cell M N A k) (fun l => iadd l 1) 17 j (B, -1, 0)
  if s.2.1 ≠ -1 then wr s.1 M N s.2.1 s.2.1 s.2.2 else pure s.1

/-- The last branch of `transpose_submit`. -/
def transpose16 (M N : Int) (A B : Mat) : R Mat :=
  loop (fun i => pure (decide (i < N)))
    (fun i B =>
      loop (fun j => pure (decide (j < M)))
        (fun j B => loop (cond16 i N) (fun k B => row16 M N A j k B) (fun k => iadd k 1) 17 i B)
        (fun j => iadd j 16) (M.toNat + 1) 0 B)
    (fun i => iadd i 16) (N.toNat + 1) 0 B

/-- The function `transpose_submit`; the result is the array `B` after the call. -/
def transpose_submit (M N : Int) (A B : Mat) : R Mat :=
  if N = 32 then transpose32 M N A B
  else if N = 64 then transpose64 M N A B
  else transpose16 M N A B

/-- The function `trans`; the result is the array `B` after the call. -/
def trans (M N : Int) (A B : Mat) : R Mat :=
  loop (fun i => pure (decide (i < N)))
    (fun i B =>
      loop (fun j => pure (decide (j < M)))
        (fun j B => do
          let tmp ← rd A N M i j
          wr B M N j i tmp)
        (fun j => iadd j 1) (M.toNat + 1) 0 B)
    (fun i => iadd i 1) (N.toNat + 1) 0 B

/-- The loop over `j` of `is_transpose` in row `i`; the result `true` stands for the
`return 0` inside the loop. -/
def is_transpose_row (M N : Int) (A B : Mat) (i : Int) : Nat → Int → R Bool
  | 0, _ => .error .loop
  | f + 1, j =>
    if j < M then do
      let a ← rd A N M i j
      let b ← rd B M N j i
      if a ≠ b then pure true
      else do
        let j ← iadd j 1
        is_transpose_row M N A B i f j
    else pure false

/-- The loop over `i` of `is_transpose`; the result `true` stands for `return 0`. -/
def is_transpose_rows (M N : Int) (A B : Mat) : Nat → Int → R Bool
  | 0, _ => .error .loop
  | f + 1, i =>
    if i < N then do
      let r ← is_transpose_row M N A B i (M.toNat + 1) 0
      if r then pure true
      else do
        let i ← iadd i 1
        is_transpose_rows M N A B f i
    else pure false

/-- The function `is_transpose`. -/
def is_transpose (M N : Int) (A B : Mat) : R Int := do
  let r ← is_transpose_rows M N A B (N.toNat + 1) 0
  if r then pure 0 else pure 1

/-- The array `B` with the transpose of `A` in rows `r0 ≤ r < r1`, columns `c0 ≤ c < c1`. -/
def fill (A B : Mat) (r0 r1 c0 c1 : Int) : Mat :=
  fun r c => if r0 ≤ r ∧ r < r1 ∧ c0 ≤ c ∧ c < c1 then A c r else B r c

/-- The array `B` while the first inner loop of the branch `N == 64` works on the tile at rows
`i`, columns `j` of `A`, before the iteration `k`: the upper left quarter of the tile of `B`
holds transposed values in the columns done, and the upper right quarter holds in the columns
done the values that belong to the lower left quarter, in reverse row order. -/
def stage1 (A B : Mat) (i j k : Int) : Mat :=
  fun r c =>
    if j ≤ r ∧ r < j + 4 ∧ i ≤ c ∧ c < k then A c r
    else if j ≤ r ∧ r < j + 4 ∧ i + 4 ≤ c ∧ c < k + 4 then A (c - 4) (2 * j + 7 - r)
    else B r c

/-- The array `B` while the second inner loop of the branch `N == 64` works on the tile at
rows `i`, columns `j` of `A`, before the iteration `l`. -/
def stage2 (A B : Mat) (i j l : Int) : Mat :=
  fun r c =>
    if j ≤ r ∧ r < j + 4 ∧ i ≤ c ∧ c < i + 4 then A c r
    else if j + 4 - l ≤ r ∧ r < j + 4 ∧ i + 4 ≤ c ∧ c < i + 8 then A c r
    else if j ≤ r ∧ r < j + 4 - l ∧ i + 4 ≤ c ∧ c < i + 8 then A (c - 4) (2 * j + 7 - r)
    else if j + 4 ≤ r ∧ r < j + 4 + l ∧ i ≤ c ∧ c < i + 8 then A c r
    else B r c

/-- An array `A` with 67 rows and 61 columns whose elements are all different. -/
def sample_A : Mat := fun r c => r * 61 + c

/-- An array `B` of zeros. -/
def zero_B : Mat := fun _ _ => 0

end CacheLab

/-!
# Cache simulator of `Cache_Lab/solution/cachelab-handout/csim.c`

Shallow embedding of `GetSystemTime` and `UpdateSet`.

* The clock is an input.  `GetSystemTime` is a function of the reading `(tv_sec, tv_usec)` that
  `gettimeofday` stores in `tv`; `UpdateSet`, which calls `GetSystemTime` once on each of its
  paths, takes the reading of that call as an argument.
* In `1000.0 * tv.tv_sec + tv.tv_usec * 1000000` the second product is a product of `long`s
  (64 bits); the first product and the sum are `double`s, whose arithmetic on whole numbers is
  exact below `2 ^ 53`, and the conversion of such a sum to `uint64_t` changes nothing.  A
  reading whose sum is not below `2 ^ 53` is outside the model and yields the fault `inexact`.
* The counters of `Result` are C `int`s; an increment beyond `INT_MAX` has no defined
  behaviour and yields the fault `overflow`.
* A set is the list of its lines, `set.length` the length of that list; an access to a line
  beyond it yields the fault `bounds`.
-/

namespace CSim

/-! ## Definitions -/

/-- How an execution leaves the model. -/
inductive Trouble where
  /-- A clock reading whose time stamp is not computed exactly. -/
  | inexact
  /-- An increment of an `int` beyond `INT_MAX`. -/
  | overflow
  /-- An access to a line outside the set. -/
  | bounds
  deriving DecidableEq, Repr

/-- Result of running a piece of the program: a value, or a fault. -/
abbrev Run (α : Type) : Type := Except Trouble α

/-- The type `Line`. -/
structure Line where
  valid : Bool
  tag : Nat
  timeStamp : Nat
  deriving DecidableEq, Repr

/-- The type `Result`. -/
structure Result where
  hit : Int
  miss : Int
  eviction : Int
  deriving DecidableEq, Repr

def UINT64_MAX : Nat := 18446744073709551615

/-- The function `GetSystemTime`, for the clock reading `tv_sec`, `tv_usec`. -/
def GetSystemTime (tv_sec tv_usec : Nat) : Run Nat :=
  if 1000 * tv_sec + tv_usec * 1000000 < 2 ^ 53 then .ok (1000 * tv_sec + tv_usec * 1000000)
  else .error .inexact

/-- The increment `x++` of an `int`. -/
def incr (x : Int) : Run Int :=
  if x + 1 ≤ 2147483647 then .ok (x + 1) else .error .overflow

/-- Assignment to fields of `set.lines[i]`: the line becomes `f` of what it was. -/
def setLine (set : List Line) (i : Nat) (f : Line → Line) : Run (List Line) :=
  match set[i]? with
  | some l => .ok (set.set i (f l))
  | none => .error .bounds

/-- The first loop of `UpdateSet`, from index `i` on the lines not yet visited: the index of
the first valid line that holds `tag`, if there is one. -/
def hit_loop (tag : Nat) : List Line → Nat → Option Nat
  | [], _ => none
  | l :: ls, i => if l.tag = tag ∧ l.valid = true then some i else hit_loop tag ls (i + 1)

/-- The second loop of `UpdateSet`, from index `i` on the lines not yet visited: the index of
the first line that is not valid, if there is one. -/
def empty_loop : List Line → Nat → Option Nat
  | [], _ => none
  | l :: ls, i => if l.valid = false then some i else empty_loop ls (i + 1)

/-- The third loop of `UpdateSet`, from index `i` on the lines not yet visited, with the
current values of `oldestTime` and `oldestLine`: the final value of `oldestLine`. -/
def oldest_loop : List Line → Nat → Nat → Nat → Nat
  | [], _, _, oldestLine => oldestLine
  | l :: ls, i, oldestTime, oldestLine =>
    if l.timeStamp < oldestTime then oldest_loop ls (i + 1) l.timeStamp i
    else oldest_loop ls (i + 1) oldestTime oldestLine

/-- The function `UpdateSet`, with the clock reading of its call of `GetSystemTime`; the
result is the set as the call leaves it and the returned `Result`. -/
def UpdateSet (set : List Line) (result : Result) (tag tv_sec tv_usec : Nat) :
    Run (List Line × Result) :=
  match hit_loop tag set 0 with
  | some i => do
    let hit ← incr result.hit
    let t ← GetSystemTime tv_sec tv_usec
    let set ← setLine set i (fun l => { l with timeStamp := t })
    pure (set, { result with hit := hit })
  | none => do
    let miss ← incr result.miss
    let result := { result with miss := miss }
    match empty_loop set 0 with
    | some i => do
      let t ← GetSystemTime tv_sec tv_usec
      let set ← setLine set i (fun _ => { timeStamp := t, valid := true, tag := tag })
      pure (set, result)
    | none => do
      let eviction ← incr result.eviction
      let oldestLine := oldest_loop set 0 UINT64_MAX 0
      let t ← GetSystemTime tv_sec tv_usec
      let set ← setLine set oldestLine (fun l => { l with timeStamp := t, tag := tag })
      pure (set, { result with eviction := eviction })

/-- Run on a set of two lines as `calloc` leaves them: an access with tag 1 at the clock
reading `(0, 999999)`, an access with tag 2 at `(1, 0)`, an access with tag 3 at `(1, 1)`. -/
def run_two_lines : Run (List Line × Result) := do
  let (set, result) ← UpdateSet [⟨false, 0, 0⟩, ⟨false, 0, 0⟩] ⟨0, 0, 0⟩ 1 0 999999
  let (set, result) ← UpdateSet set result 2 1 0
  UpdateSet set result 3 1 1

end CSim

namespace MM

/-! ## Theorems -/

/-! ## Word arithmetic -/

theorem and_mask (x : Nat) (hx : x < WORD) : x &&& 0xFFFFFFF8 = x - x % 8 := by
  have h1 : x - x % 8 = (x >>> 3) <<< 3 := by
    rw [Nat.shiftRight_eq_div_pow, Nat.shiftLeft_eq]; omega
  have h2 : (0xFFFFFFF8 : Nat) = (2 ^ 29 - 1) <<< 3 := by decide
  rw [h1, h2]
  apply Nat.eq_of_testBit_eq
  intro i
  simp only [Nat.testBit_and, Nat.testBit_shiftLeft, Nat.testBit_two_pow_sub_one,
    Nat.testBit_shiftRight]
  have e : 3 ≤ i → 3 + (i - 3) = i := fun h => by omega
  by_cases h3 : 3 ≤ i
  · by_cases h4 : i < 32
    · have : i - 3 < 29 := by omega
      simp [h3, this, e h3]
    · have h5 : x < 2 ^ i := lt_of_lt_of_le hx (by
        have : WORD = 2 ^ 32 := by norm_num [WORD]
        rw [this]; exact Nat.pow_le_pow_right (by norm_num) (by omega))
      simp [Nat.testBit_lt_two_pow h5, e h3]
  · simp [h3]

theorem PACK_eq (s a : Nat) (hs : s % 8 = 0) (ha : a ≤ 1) : PACK s a = s + a := by
  have h1 : s = 2 ^ 3 * (s / 8) := by omega
  have h2 : a < 2 ^ 3 := by omega
  unfold PACK
  rw [h1, ← Nat.mul_add_lt_is_or h2]

theorem tag_size (s a : Nat) (hs : s % 8 = 0) (ha : a ≤ 1) (hlt : s + a < WORD) :
    (s + a) &&& 0xFFFFFFF8 = s := by
  rw [and_mask _ hlt]; omega

theorem tag_alloc (s a : Nat) (hs : s % 8 = 0) (ha : a ≤ 1) : (s + a) &&& 1 = a := by
  rw [Nat.and_one_is_mod]; omega

theorem padd_eq (p k : Nat) (h : p + k < WORD) : padd p k = p + k := by
  unfold padd; exact Nat.mod_eq_of_lt h

theorem psub_eq (p k : Nat) (h1 : k ≤ p) (h2 : p < WORD) : psub p k = p - k := by
  unfold psub
  have hk : k % WORD = k := Nat.mod_eq_of_lt (by omega)
  rw [hk]
  have : p + (WORD - k) = (p - k) + WORD := by omega
  rw [this, Nat.add_mod_right]
  exact Nat.mod_eq_of_lt (by omega)

theorem ALIGN_eq (x : Nat) (h : x + 7 < WORD) : ALIGN x = x + 7 - (x + 7) % 8 := by
  unfold ALIGN ALIGNMENT
  rw [padd_eq _ _ h, and_mask _ h]

/-! ## The result monad -/

@[simp] theorem ok_bind {α β : Type} (a : α) (f : α → Res β) :
    (Except.ok a >>= f) = f a := rfl

@[simp] theorem error_bind {α β : Type} (e : Fault) (f : α → Res β) :
    ((Except.error e : Res α) >>= f) = Except.error e := rfl

@[simp] theorem pure_eq_ok {α : Type} (a : α) : (pure a : Res α) = Except.ok a := rfl

theorem bind_eq_ok {α β : Type} (x : Res α) (f : α → Res β) (b : β) :
    (x >>= f) = Except.ok b ↔ ∃ a, x = Except.ok a ∧ f a = Except.ok b := by
  cases x with
  | error e => simp
  | ok a => simp

@[simp] theorem map_ok {α β : Type} (a : α) (f : α → β) :
    (f <$> (Except.ok a : Res α)) = Except.ok (f a) := rfl

/-! ## Word accesses -/

@[simp] theorem upd_same (m : Nat → Nat) (p v : Nat) : upd m p v p = v := by simp [upd]

theorem upd_other (m : Nat → Nat) (p v a : Nat) (h : a ≠ p) : upd m p v a = m a := by
  simp [upd, h]

@[simp] theorem setMem_mem (h : Heap) (m : Nat → Nat) : (setMem h m).mem = m := rfl

@[simp] theorem setMem_start (h : Heap) (m : Nat → Nat) :
    (setMem h m).mem_start_brk = h.mem_start_brk := rfl

@[simp] theorem setMem_brk (h : Heap) (m : Nat → Nat) : (setMem h m).mem_brk = h.mem_brk := rfl

@[simp] theorem setMem_max (h : Heap) (m : Nat → Nat) :
    (setMem h m).mem_max_addr = h.mem_max_addr := rfl

@[simp] theorem setMem_lists (h : Heap) (m : Nat → Nat) :
    (setMem h m).segregated_free_lists = h.segregated_free_lists := rfl

@[simp] theorem setMem_setMem (h : Heap) (m m' : Nat → Nat) :
    setMem (setMem h m) m' = setMem h m' := rfl

@[simp] theorem setList_mem (h : Heap) (i p : Nat) : (setList h i p).mem = h.mem := rfl

@[simp] theorem setList_start (h : Heap) (i p : Nat) :
    (setList h i p).mem_start_brk = h.mem_start_brk := rfl

@[simp] theorem setList_brk (h : Heap) (i p : Nat) : (setList h i p).mem_brk = h.mem_brk := rfl

@[simp] theorem setList_max (h : Heap) (i p : Nat) :
    (setList h i p).mem_max_addr = h.mem_max_addr := rfl

theorem setList_lists (h : Heap) (i p j : Nat) :
    (setList h i p).segregated_free_lists j = if j = i then p else h.segregated_free_lists j := rfl

theorem inArena_setMem (h : Heap) (m : Nat → Nat) (p : Nat) :
    inArena (setMem h m) p ↔ inArena h p := Iff.rfl

theorem GET_ok (h : Heap) (p : Nat) (hin : inArena h p) : GET h p = Except.ok (h.mem p) := by
  simp [GET, hin]

theorem PUT_ok (h : Heap) (p v : Nat) (hin : inArena h p) (hv : v < WORD) :
    PUT h p v = Except.ok (setMem h (upd h.mem p v)) := by
  unfold PUT; rw [if_pos hin, Nat.mod_eq_of_lt hv]; rfl

theorem GET_SIZE_ok (h : Heap) (p : Nat) (hin : inArena h p) :
    GET_SIZE h p = Except.ok (h.mem p &&& 0xFFFFFFF8) := by
  unfold GET_SIZE; rw [GET_ok h p hin]; rfl

theorem GET_ALLOC_ok (h : Heap) (p : Nat) (hin : inArena h p) :
    GET_ALLOC h p = Except.ok (h.mem p &&& 1) := by
  unfold GET_ALLOC; rw [GET_ok h p hin]; rfl

/-! ## Blocks tiling a range of memory -/

theorem Tiled_append (m : Nat → Nat) (xs ys : List Blk) (p q : Nat) :
    Tiled m p (xs ++ ys) q ↔ ∃ r, Tiled m p xs r ∧ Tiled m r ys q := by
  induction xs generalizing p with
  | nil => simp [Tiled]
  | cons b xs ih =>
    constructor
    · rintro ⟨h1, h2, h3, h4, h5, h6, h7⟩
      obtain ⟨r, h8, h9⟩ := (ih _).1 h7
      exact ⟨r, ⟨h1, h2, h3, h4, h5, h6, h8⟩, h9⟩
    · rintro ⟨r, ⟨h1, h2, h3, h4, h5, h6, h7⟩, h8⟩
      exact ⟨h1, h2, h3, h4, h5, h6, (ih _).2 ⟨r, h7, h8⟩⟩

theorem Tiled_le {m : Nat → Nat} {bs : List Blk} {p q : Nat} (h : Tiled m p bs q) : p ≤ q := by
  induction bs generalizing p with
  | nil => simp [Tiled] at h; omega
  | cons b bs ih =>
    obtain ⟨_, h2, _, _, _, _, h7⟩ := h
    have := ih h7
    omega

theorem Tiled_length {m : Nat → Nat} {bs : List Blk} {p q : Nat} (h : Tiled m p bs q) :
    p + 8 * bs.length ≤ q := by
  induction bs generalizing p with
  | nil => simp [Tiled] at h; simp; omega
  | cons b bs ih =>
    obtain ⟨_, h2, _, _, _, _, h7⟩ := h
    have := ih h7
    simp only [List.length_cons]
    omega

theorem Tiled_mem {m : Nat → Nat} {bs : List Blk} {p q : Nat} (h : Tiled m p bs q)
    {b : Blk} (hb : b ∈ bs) : BlkOk m p q b := by
  induction bs generalizing p with
  | nil => simp at hb
  | cons c bs ih =>
    obtain ⟨h1, h2, h3, h4, h5, h6, h7⟩ := h
    have hle := Tiled_le h7
    rcases List.mem_cons.1 hb with rfl | hb
    · subst h1
      exact ⟨le_refl _, hle, h2, h3, h4, h5, h6⟩
    · have := ih h7 hb
      exact ⟨by have := this.lo; omega, this.hi, this.size_ge, this.size_mod, this.alloc_le,
        this.hdr, this.ftr⟩

theorem Tiled_addr_mod {m : Nat → Nat} {bs : List Blk} {p q : Nat} (h : Tiled m p bs q)
    (hp : p % 8 = 0) : q % 8 = 0 ∧ ∀ b ∈ bs, b.addr % 8 = 0 := by
  induction bs generalizing p with
  | nil => simp [Tiled] at h; subst h; simp [hp]
  | cons c bs ih =>
    obtain ⟨h1, h2, h3, h4, h5, h6, h7⟩ := h
    have := ih h7 (by omega)
    refine ⟨this.1, ?_⟩
    intro b hb
    rcases List.mem_cons.1 hb with rfl | hb
    · omega
    · exact this.2 b hb

theorem Tiled_congr {m m' : Nat → Nat} {bs : List Blk} {p q : Nat}
    (hm : ∀ a, p ≤ a + 4 → a + 4 < q → m' a = m a) (h : Tiled m p bs q) : Tiled m' p bs q := by
  induction bs generalizing p with
  | nil => exact h
  | cons c bs ih =>
    obtain ⟨h1, h2, h3, h4, h5, h6, h7⟩ := h
    have hle := Tiled_le h7
    refine ⟨h1, h2, h3, h4, ?_, ?_, ?_⟩
    · rw [hm _ (by omega) (by omega)]; exact h5
    · rw [hm _ (by omega) (by omega)]; exact h6
    · exact ih (fun a ha hb => hm a (by omega) hb) h7

theorem Tiled_pairwise {m : Nat → Nat} {bs : List Blk} {p q : Nat} (h : Tiled m p bs q) :
    bs.Pairwise (fun b c => b.addr + b.size ≤ c.addr) := by
  induction bs generalizing p with
  | nil => exact List.Pairwise.nil
  | cons c bs ih =>
    obtain ⟨h1, h2, h3, h4, h5, h6, h7⟩ := h
    refine List.Pairwise.cons ?_ (ih h7)
    intro b hb
    have := (Tiled_mem h7 hb).lo
    omega

/-- Two blocks of a tiling are the same block or lie apart. -/
theorem Tiled_apart {m : Nat → Nat} {bs : List Blk} {p q : Nat} (h : Tiled m p bs q)
    {b c : Blk} (hb : b ∈ bs) (hc : c ∈ bs) :
    b = c ∨ b.addr + b.size ≤ c.addr ∨ c.addr + c.size ≤ b.addr := by
  by_cases hbc : b = c
  · exact Or.inl hbc
  · right
    have hp : bs.Pairwise (fun b c : Blk =>
        b.addr + b.size ≤ c.addr ∨ c.addr + c.size ≤ b.addr) :=
      List.Pairwise.imp (fun h => Or.inl h) (Tiled_pairwise h)
    exact hp.forall (fun x y hxy => hxy.symm) hb hc hbc

theorem Tiled_unique {m : Nat → Nat} {bs : List Blk} {p q : Nat} (h : Tiled m p bs q)
    {b c : Blk} (hb : b ∈ bs) (hc : c ∈ bs) (hbc : b.addr = c.addr) : b = c := by
  rcases Tiled_apart h hb hc with h1 | h1 | h1
  · exact h1
  · have := (Tiled_mem h hb).size_ge; omega
  · have := (Tiled_mem h hc).size_ge; omega

/-! ## Doubly linked free lists -/

@[simp] theorem lastD_nil (d : Nat) : lastD [] d = d := rfl

@[simp] theorem lastD_cons (x : Nat) (l : List Nat) (d : Nat) : lastD (x :: l) d = lastD l x :=
  rfl

@[simp] theorem lastD_snoc (l : List Nat) (x d : Nat) : lastD (l ++ [x]) d = x := by
  induction l generalizing d with
  | nil => rfl
  | cons y l ih => exact ih y

theorem LSeg_append (m : Nat → Nat) (l1 l2 : List Nat) (prev cur nxt : Nat) :
    LSeg m prev cur (l1 ++ l2) nxt ↔
      ∃ mid, LSeg m prev cur l1 mid ∧ LSeg m (lastD l1 prev) mid l2 nxt := by
  induction l1 generalizing prev cur with
  | nil => simp [LSeg]
  | cons x l1 ih =>
    constructor
    · rintro ⟨h1, h2, h3, h4⟩
      obtain ⟨mid, h5, h6⟩ := (ih _ _).1 h4
      exact ⟨mid, ⟨h1, h2, h3, h5⟩, h6⟩
    · rintro ⟨mid, ⟨h1, h2, h3, h4⟩, h5⟩
      exact ⟨h1, h2, h3, (ih _ _).2 ⟨mid, h4, h5⟩⟩

theorem LSeg_congr {m m' : Nat → Nat} {l : List Nat} {prev cur nxt : Nat}
    (hm : ∀ z ∈ l, m' z = m z ∧ m' (z + 4) = m (z + 4)) (h : LSeg m prev cur l nxt) :
    LSeg m' prev cur l nxt := by
  induction l generalizing prev cur with
  | nil => exact h
  | cons x l ih =>
    obtain ⟨h1, h2, h3, h4⟩ := h
    have hx := hm x (List.mem_cons_self _ _)
    refine ⟨h1, h2, by rw [hx.1]; exact h3, ?_⟩
    rw [hx.2]
    exact ih (fun z hz => hm z (List.mem_cons_of_mem _ hz)) h4

theorem LSeg_snoc (m : Nat → Nat) (l : List Nat) (w prev cur nxt : Nat) :
    LSeg m prev cur (l ++ [w]) nxt ↔
      LSeg m prev cur l w ∧ w ≠ 0 ∧ m w = lastD l prev ∧ m (w + 4) = nxt := by
  rw [LSeg_append]
  simp only [LSeg]
  constructor
  · rintro ⟨mid, h1, h2, h3, h4, h5⟩
    subst h2
    exact ⟨h1, h3, h4, h5⟩
  · rintro ⟨h1, h3, h4, h5⟩
    exact ⟨w, h1, rfl, h3, h4, h5⟩

theorem LSeg_nonzero {m : Nat → Nat} {l : List Nat} {prev cur nxt : Nat}
    (h : LSeg m prev cur l nxt) : ∀ z ∈ l, z ≠ 0 := by
  induction l generalizing prev cur with
  | nil => simp
  | cons x l ih =>
    obtain ⟨h1, h2, h3, h4⟩ := h
    intro z hz
    rcases List.mem_cons.1 hz with rfl | hz
    · exact h2
    · exact ih h4 z hz

theorem LSeg_head {m : Nat → Nat} {l : List Nat} {prev cur nxt : Nat}
    (h : LSeg m prev cur l nxt) : cur = l.headD nxt := by
  cases l with
  | nil => exact h
  | cons x l => exact h.1

/-! ## The representation invariant -/

theorem bucket_loop_eq (size : Nat) :
    bucket_loop (LISTSIZE - 1) 0 size = (bucket size, shifted size) := rfl

theorem bucket_loop_le (k ln s : Nat) (h : ln ≤ LISTSIZE - 1) :
    (bucket_loop k ln s).1 ≤ LISTSIZE - 1 := by
  induction k generalizing ln s with
  | zero => exact h
  | succ k ih =>
    unfold bucket_loop
    split
    · rename_i hc
      exact ih _ _ (by have := hc.1; omega)
    · exact h

theorem bucket_lt (s : Nat) : bucket s < LISTSIZE :=
  Nat.lt_of_le_of_lt (bucket_loop_le _ 0 s (Nat.zero_le _)) (by decide)

theorem Core.tiled_bs {h : Heap} {bs : List Blk} {FL : Nat → List Nat} (hc : Core h bs FL) :
    Tiled h.mem (h.mem_start_brk + 16) bs h.mem_brk := by
  have := hc.tiled
  simp only [Tiled, pro] at this
  exact this.2.2.2.2.2.2

theorem Core.brk_ge {h : Heap} {bs : List Blk} {FL : Nat → List Nat} (hc : Core h bs FL) :
    h.mem_start_brk + 16 ≤ h.mem_brk := Tiled_le hc.tiled_bs

theorem Core.brk_mod {h : Heap} {bs : List Blk} {FL : Nat → List Nat} (hc : Core h bs FL) :
    h.mem_brk % 8 = 0 :=
  (Tiled_addr_mod hc.tiled_bs (by have := hc.base_mod; omega)).1

theorem Core.inHeap {h : Heap} {bs : List Blk} {FL : Nat → List Nat} (hc : Core h bs FL)
    {b : Blk} (hb : b ∈ bs) : InHeap h b := by
  have ht := hc.tiled_bs
  have hm := Tiled_mem ht hb
  have ha := (Tiled_addr_mod ht (by have := hc.base_mod; omega)).2 b hb
  exact ⟨hm.lo, hm.hi, Nat.lt_of_le_of_lt hc.brk_le hc.max_lt, ha, hc.base_mod,
    hc.size_ge b hb, hm.size_mod, hm.alloc_le, hm.hdr, hm.ftr⟩

theorem Core.unique {h : Heap} {bs : List Blk} {FL : Nat → List Nat} (hc : Core h bs FL)
    {b c : Blk} (hb : b ∈ bs) (hc' : c ∈ bs) (e : b.addr = c.addr) : b = c :=
  Tiled_unique hc.tiled_bs hb hc' e

theorem Core.apart {h : Heap} {bs : List Blk} {FL : Nat → List Nat} (hc : Core h bs FL)
    {b c : Blk} (hb : b ∈ bs) (hc' : c ∈ bs) :
    b = c ∨ b.addr + b.size ≤ c.addr ∨ c.addr + c.size ≤ b.addr :=
  Tiled_apart hc.tiled_bs hb hc'

/-- A node of bucket `i` is the address of exactly one block, free and of that bucket. -/
theorem Core.node_blk {h : Heap} {bs : List Blk} {FL : Nat → List Nat} (hc : Core h bs FL)
    {b : Blk} (hb : b ∈ bs) {i : Nat} (hx : b.addr ∈ FL i) : b.alloc = 0 ∧ bucket b.size = i := by
  obtain ⟨c, hc1, hc2, hc3, hc4⟩ := hc.node i _ hx
  have := hc.unique hc1 hb hc2
  subst this
  exact ⟨hc3, hc4⟩

theorem Core.length_le {h : Heap} {bs : List Blk} {FL : Nat → List Nat} (hc : Core h bs FL)
    (i : Nat) : (FL i).length < fuel h + 1 := by
  have h1 : FL i ⊆ bs.map Blk.addr := by
    intro x hx
    obtain ⟨c, hc1, hc2, _⟩ := hc.node i x hx
    exact List.mem_map.2 ⟨c, hc1, hc2⟩
  have h2 := ((hc.nodup i).subperm h1).length_le
  have h3 := Tiled_length hc.tiled_bs
  simp only [List.length_map] at h2
  unfold fuel
  omega

/-! ## Reading the tags of a block -/

section access

variable {h : Heap} {b : Blk}

theorem InHeap.in_hdr (hb : InHeap h b) : inArena h (b.addr - 4) := by
  have := hb.lo; have := hb.hi; have := hb.addr_mod; have := hb.size_ge; have := hb.base_mod
  unfold inArena WSIZE; omega

theorem InHeap.in_ftr (hb : InHeap h b) : inArena h (b.addr + b.size - 8) := by
  have := hb.lo; have := hb.hi; have := hb.addr_mod; have := hb.size_ge; have := hb.size_mod
  unfold inArena WSIZE; omega

theorem InHeap.in_pred (hb : InHeap h b) : inArena h b.addr := by
  have := hb.lo; have := hb.hi; have := hb.addr_mod; have := hb.size_ge
  unfold inArena WSIZE; omega

theorem InHeap.in_succ (hb : InHeap h b) : inArena h (b.addr + 4) := by
  have := hb.lo; have := hb.hi; have := hb.addr_mod; have := hb.size_ge
  unfold inArena WSIZE; omega

theorem InHeap.hdrp_eq (hb : InHeap h b) : HDRP b.addr = b.addr - 4 := by
  have := hb.lo; have := hb.hi; have := hb.brk_lt
  unfold HDRP WSIZE; exact psub_eq _ _ (by omega) (by omega)

theorem InHeap.succ_ptr_eq (hb : InHeap h b) : SUCC_PTR b.addr = b.addr + 4 := by
  have := hb.lo; have := hb.hi; have := hb.brk_lt; have := hb.size_ge
  unfold SUCC_PTR WSIZE; exact padd_eq _ _ (by omega)

theorem InHeap.tag_lt (hb : InHeap h b) : b.size + b.alloc < WORD := by
  have := hb.lo; have := hb.hi; have := hb.brk_lt; have := hb.alloc_le
  omega

theorem InHeap.get_size (hb : InHeap h b) : GET_SIZE h (HDRP b.addr) = Except.ok b.size := by
  rw [hb.hdrp_eq, GET_SIZE_ok _ _ hb.in_hdr, hb.hdr, tag_size _ _ hb.size_mod hb.alloc_le hb.tag_lt]

theorem InHeap.get_alloc (hb : InHeap h b) : GET_ALLOC h (HDRP b.addr) = Except.ok b.alloc := by
  rw [hb.hdrp_eq, GET_ALLOC_ok _ _ hb.in_hdr, hb.hdr, tag_alloc _ _ hb.size_mod hb.alloc_le]

theorem InHeap.next_eq (hb : InHeap h b) :
    NEXT_BLK_PTR h b.addr = Except.ok (b.addr + b.size) := by
  have h1 := hb.get_size
  unfold HDRP at h1
  unfold NEXT_BLK_PTR
  rw [h1]
  have := hb.hi; have := hb.brk_lt
  simp only [ok_bind, pure_eq_ok]
  rw [padd_eq _ _ (by omega)]

theorem InHeap.ftrp_eq (hb : InHeap h b) :
    FTRP h b.addr = Except.ok (b.addr + b.size - 8) := by
  unfold FTRP
  rw [hb.get_size]
  have := hb.hi; have := hb.brk_lt; have := hb.size_ge
  simp only [ok_bind, pure_eq_ok]
  rw [padd_eq _ _ (by omega)]
  unfold DSIZE
  rw [psub_eq _ _ (by omega) (by omega)]

theorem InHeap.succ_eq (hb : InHeap h b) : SUCC h b.addr = Except.ok (h.mem (b.addr + 4)) := by
  unfold SUCC
  rw [hb.succ_ptr_eq, GET_ok _ _ hb.in_succ]

theorem InHeap.pred_eq (hb : InHeap h b) : PRED h b.addr = Except.ok (h.mem b.addr) := by
  unfold PRED
  rw [GET_ok _ _ hb.in_pred]

end access

theorem Tiled_congr_tags {m m' : Nat → Nat} {bs : List Blk} {p q : Nat}
    (hm : ∀ b ∈ bs, m' (b.addr - 4) = m (b.addr - 4) ∧
      m' (b.addr + b.size - 8) = m (b.addr + b.size - 8))
    (h : Tiled m p bs q) : Tiled m' p bs q := by
  induction bs generalizing p with
  | nil => exact h
  | cons c bs ih =>
    obtain ⟨h1, h2, h3, h4, h5, h6, h7⟩ := h
    have hc := hm c (List.mem_cons_self _ _)
    subst h1
    refine ⟨rfl, h2, h3, h4, ?_, ?_, ?_⟩
    · rw [hc.1]; exact h5
    · rw [hc.2]; exact h6
    · exact ih (fun b hb => hm b (List.mem_cons_of_mem _ hb)) h7

theorem GET_setMem (h : Heap) (m : Nat → Nat) (p : Nat) (hin : inArena h p) :
    GET (setMem h m) p = Except.ok (m p) :=
  GET_ok (setMem h m) p hin

theorem PUT_setMem (h : Heap) (m : Nat → Nat) (p v : Nat) (hin : inArena h p) (hv : v < WORD) :
    PUT (setMem h m) p v = Except.ok (setMem h (upd m p v)) :=
  PUT_ok (setMem h m) p v hin hv

theorem setMem_self (h : Heap) : setMem h h.mem = h := rfl

/-- A node of the index with its block. -/
theorem Core.node_inHeap {h : Heap} {bs : List Blk} {FL : Nat → List Nat} (hc : Core h bs FL)
    {i z : Nat} (hz : z ∈ FL i) :
    ∃ c, c ∈ bs ∧ c.addr = z ∧ c.alloc = 0 ∧ bucket c.size = i ∧ InHeap h c := by
  obtain ⟨c, h1, h2, h3, h4⟩ := hc.node i z hz
  exact ⟨c, h1, h2, h3, h4, hc.inHeap h1⟩

/-- Nodes of different buckets are different blocks. -/
theorem Core.node_ne {h : Heap} {bs : List Blk} {FL : Nat → List Nat} (hc : Core h bs FL)
    {i j z y : Nat} (hz : z ∈ FL i) (hy : y ∈ FL j) (hij : i ≠ j) : z ≠ y := by
  intro e
  obtain ⟨c, h1, h2, _, h4⟩ := hc.node i z hz
  obtain ⟨d, g1, g2, _, g4⟩ := hc.node j y hy
  have := hc.unique h1 g1 (by rw [h2, g2, e])
  subst this
  exact hij (h4.symm.trans g4)

/-- The state after the memory and the bucket heads changed, the memory only in link words
of free blocks, holds the same blocks; the shape of the index is supplied. -/
theorem Core.relink {h : Heap} {bs : List Blk} {FL : Nat → List Nat} (hc : Core h bs FL)
    (h' : Heap) (FL' : Nat → List Nat)
    (hs : h'.mem_start_brk = h.mem_start_brk) (hk : h'.mem_brk = h.mem_brk)
    (hx : h'.mem_max_addr = h.mem_max_addr)
    (hm : ∀ a, (∀ c ∈ bs, c.alloc = 0 → a ≠ c.addr ∧ a ≠ c.addr + 4) → h'.mem a = h.mem a)
    (hl : ∀ i, i < LISTSIZE → LSeg h'.mem 0 (h'.segregated_free_lists i) (FL' i) 0)
    (hn : ∀ i, ∀ x ∈ FL' i, ∃ b ∈ bs, b.addr = x ∧ b.alloc = 0 ∧ bucket b.size = i)
    (hd : ∀ i, (FL' i).Nodup) : Core h' bs FL' := by
  have hge := hc.brk_ge
  have hbm := hc.base_mod
  have htag : ∀ t, (∀ c ∈ bs, t < c.addr ∨ c.addr + 4 < t) → h'.mem t = h.mem t := by
    intro t ht
    apply hm
    intro c hcb _
    rcases ht c hcb with h1 | h1 <;> omega
  refine ⟨by rw [hs]; exact hc.base_pos, by rw [hs]; exact hc.base_mod,
    by rw [hk, hx]; exact hc.brk_le, by rw [hx]; exact hc.max_lt, ?_, ?_, hc.size_ge, hl, hn, hd⟩
  · rw [hs, hk]
    refine Tiled_congr_tags ?_ hc.tiled
    intro b hb
    rcases List.mem_cons.1 hb with rfl | hb
    · simp only [pro]
      constructor <;>
      · apply htag
        intro c hcb
        have := (hc.inHeap hcb).lo
        omega
    · have hI := hc.inHeap hb
      have h1 := hI.size_ge
      have h2 := hI.lo
      constructor <;>
      · apply htag
        intro c hcb
        have h3 := (hc.inHeap hcb).size_ge
        rcases hc.apart hb hcb with e | e | e
        · subst e; omega
        · omega
        · omega
  · rw [hk]
    refine Eq.trans ?_ hc.epi
    apply htag
    intro c hcb
    have := (hc.inHeap hcb).hi
    have := (hc.inHeap hcb).size_ge
    omega

theorem erase_middle (l1 l2 : List Nat) (x : Nat) (hx : x ∉ l1) :
    (l1 ++ x :: l2).erase x = l1 ++ l2 := by
  induction l1 with
  | nil => simp
  | cons y l1 ih =>
    have hy : y ≠ x := fun e => hx (by simp [e])
    have hx' : x ∉ l1 := fun e => hx (List.mem_cons_of_mem _ e)
    simp only [List.cons_append]
    rw [List.erase_cons_tail (by simpa using hy), ih hx']

/-- Relinking inside one bucket: the memory changed only at the addresses `W`, all of them
link words of free blocks of bucket `i`, and bucket `i` now holds the nodes `L`. -/
theorem Core.relink_bucket {h : Heap} {bs : List Blk} {FL : Nat → List Nat} (hc : Core h bs FL)
    (h' : Heap) (i : Nat) (L W : List Nat)
    (hs : h'.mem_start_brk = h.mem_start_brk) (hk : h'.mem_brk = h.mem_brk)
    (hx : h'.mem_max_addr = h.mem_max_addr)
    (hW : ∀ a, a ∉ W → h'.mem a = h.mem a)
    (hWl : ∀ a ∈ W, ∃ c ∈ bs, c.alloc = 0 ∧ bucket c.size = i ∧ (a = c.addr ∨ a = c.addr + 4))
    (hl2 : ∀ j, j ≠ i → h'.segregated_free_lists j = h.segregated_free_lists j)
    (hL : i < LISTSIZE → LSeg h'.mem 0 (h'.segregated_free_lists i) L 0)
    (hn : ∀ x ∈ L, ∃ b ∈ bs, b.addr = x ∧ b.alloc = 0 ∧ bucket b.size = i)
    (hd : L.Nodup) :
    Core h' bs (fun j => if j = i then L else FL j) ∧
    (∀ a, (∀ c ∈ bs, c.alloc = 0 → a ≠ c.addr ∧ a ≠ c.addr + 4) → h'.mem a = h.mem a) := by
  have hm : ∀ a, (∀ c ∈ bs, c.alloc = 0 → a ≠ c.addr ∧ a ≠ c.addr + 4) →
      h'.mem a = h.mem a := by
    intro a ha
    apply hW
    intro haW
    obtain ⟨c, hc1, hc2, _, hc4⟩ := hWl a haW
    have := ha c hc1 hc2
    omega
  refine ⟨hc.relink h' _ hs hk hx hm ?_ ?_ ?_, hm⟩
  · intro j hj
    by_cases hji : j = i
    · subst hji
      simp only [if_true]
      exact hL hj
    · simp only [if_neg hji]
      rw [hl2 j hji]
      refine LSeg_congr ?_ (hc.linked j hj)
      intro z hz
      obtain ⟨cz, hz1, hz2, hz3, hz4, hzI⟩ := hc.node_inHeap hz
      have key : ∀ a, (a = z ∨ a = z + 4) → a ∉ W := by
        intro a ha haW
        obtain ⟨c, hc1, hc2, hc3, hc4⟩ := hWl a haW
        have hcI := hc.inHeap hc1
        have h1 := hzI.addr_mod
        have h2 := hcI.addr_mod
        have hne : cz.addr ≠ c.addr := by
          intro e
          have := hc.unique hz1 hc1 e
          subst this
          exact hji (hz4.symm.trans hc3)
        omega
      exact ⟨hW _ (key _ (Or.inl rfl)), hW _ (key _ (Or.inr rfl))⟩
  · intro j x hx
    by_cases hji : j = i
    · subst hji
      simp only [if_true] at hx
      exact hn x hx
    · simp only [if_neg hji] at hx
      exact hc.node j x hx
  · intro j
    by_cases hji : j = i
    · subst hji
      simp only [if_true]
      exact hd
    · simp only [if_neg hji]
      exact hc.nodup j

theorem erase_fun_eq {h : Heap} {bs : List Blk} {FL : Nat → List Nat} (hc : Core h bs FL)
    {b : Blk} (hb : b ∈ bs) :
    (fun j => if j = bucket b.size then (FL (bucket b.size)).erase b.addr else FL j) =
      fun j => (FL j).erase b.addr := by
  funext j
  by_cases hj : j = bucket b.size
  · subst hj; simp
  · simp only [if_neg hj]
    rw [List.erase_of_not_mem]
    intro hx
    exact hj (hc.node_blk hb hx).2.symm

theorem not_mem_two {a x y : Nat} (h : a ∉ [x, y]) : a ≠ x ∧ a ≠ y := by
  simp only [List.mem_cons, List.mem_singleton, List.not_mem_nil, or_false, not_or] at h
  exact h

theorem nil_or_snoc (l : List Nat) : l = [] ∨ ∃ l' w, l = l' ++ [w] := by
  rcases List.eq_nil_or_concat l with h | ⟨l', w, h⟩
  · exact Or.inl h
  · exact Or.inr ⟨l', w, by rw [h, List.concat_eq_append]⟩

theorem not_mem_one {a x : Nat} (h : a ∉ [x]) : a ≠ x := by
  simpa using h

/-- Function `delete_node` unlinks a node of the index and touches nothing else. -/
theorem delete_node_spec {h : Heap} {bs : List Blk} {FL : Nat → List Nat} (hc : Core h bs FL)
    {b : Blk} (hb : b ∈ bs) (hx : b.addr ∈ FL (bucket b.size)) :
    ∃ h', delete_node h b.addr = Except.ok h' ∧
      Core h' bs (fun j => (FL j).erase b.addr) ∧
      h'.mem_start_brk = h.mem_start_brk ∧ h'.mem_brk = h.mem_brk ∧
      h'.mem_max_addr = h.mem_max_addr ∧
      (∀ a, (∀ c ∈ bs, c.alloc = 0 → a ≠ c.addr ∧ a ≠ c.addr + 4) → h'.mem a = h.mem a) := by
  have hI := hc.inHeap hb
  obtain ⟨l1, l2, hsplit⟩ := List.append_of_mem hx
  have hnd := hc.nodup (bucket b.size)
  rw [hsplit] at hnd
  have hl := hc.linked _ (bucket_lt b.size)
  rw [hsplit, LSeg_append] at hl
  obtain ⟨mid, hl1, hl2⟩ := hl
  obtain ⟨hmid, hx0, hpred, hl3⟩ := hl2
  subst hmid
  have hmem : ∀ z, z ∈ l1 ∨ z ∈ l2 → z ∈ FL (bucket b.size) := by
    intro z hz
    rw [hsplit]
    rcases hz with hz | hz
    · exact List.mem_append_left _ hz
    · exact List.mem_append_right _ (List.mem_cons_of_mem _ hz)
  have hx1 : b.addr ∉ l1 := fun e => by
    have := List.disjoint_of_nodup_append hnd e (List.mem_cons_self _ _)
    exact this
  have hnd2 : (l1 ++ l2).Nodup := by
    have := hnd.sublist (List.Sublist.append (List.Sublist.refl l1) (List.sublist_cons_self _ l2))
    exact this
  have herase : (FL (bucket b.size)).erase b.addr = l1 ++ l2 := by
    rw [hsplit]; exact erase_middle _ _ _ hx1
  have hnode : ∀ x ∈ l1 ++ l2, ∃ c ∈ bs, c.addr = x ∧ c.alloc = 0 ∧
      bucket c.size = bucket b.size := by
    intro x hx
    exact hc.node _ x (hmem x (List.mem_append.1 hx))
  rw [← erase_fun_eq hc hb, herase]
  have hstart : delete_node h b.addr =
      (GET h (b.addr + 4) >>= fun s =>
        if s ≠ 0 then
          GET h b.addr >>= fun p =>
            if p ≠ 0 then
              GET h b.addr >>= fun p1 => GET h (b.addr + 4) >>= fun s1 =>
              PUT h (SUCC_PTR p1) s1 >>= fun h =>
              GET h (b.addr + 4) >>= fun s2 => GET h b.addr >>= fun p2 =>
              PUT h s2 p2
            else
              GET h (b.addr + 4) >>= fun s1 => PUT h s1 0 >>= fun h =>
              GET h (b.addr + 4) >>= fun s2 =>
              Except.ok (setList h (bucket b.size) s2)
        else
          GET h b.addr >>= fun p =>
            if p ≠ 0 then GET h b.addr >>= fun p1 => PUT h (SUCC_PTR p1) 0
            else Except.ok (setList h (bucket b.size) 0)) := by
    unfold delete_node
    rw [hI.get_size]
    simp only [ok_bind, bucket_loop_eq, SUCC, PRED, PRED_PTR, hI.succ_ptr_eq, pure_eq_ok]
  rw [hstart, GET_ok _ _ hI.in_succ, GET_ok _ _ hI.in_pred]
  simp only [ok_bind]
  have hfacts : ∀ z, z ∈ l1 ∨ z ∈ l2 → z % 8 = 0 ∧ inArena h z ∧ inArena h (z + 4) ∧
      z + 4 < WORD ∧ SUCC_PTR z = z + 4 ∧
      ∃ c ∈ bs, c.alloc = 0 ∧ bucket c.size = bucket b.size ∧ z = c.addr := by
    intro z hz
    obtain ⟨c, h1, h2, h3, h4, h5⟩ := hc.node_inHeap (hmem z hz)
    subst h2
    have := h5.hi; have := h5.brk_lt; have := h5.size_ge
    exact ⟨h5.addr_mod, h5.in_pred, h5.in_succ, by omega, h5.succ_ptr_eq, c, h1, h3, h4, rfl⟩
  have hxm := hI.addr_mod
  have hnd' := List.nodup_append.1 hnd
  have hd1 : ∀ z ∈ l1, z ≠ b.addr := fun z hz e => hx1 (e ▸ hz)
  have hd2 : ∀ z ∈ l2, z ≠ b.addr := fun z hz e =>
    (List.nodup_cons.1 hnd'.2.1).1 (e ▸ hz)
  have hd12 : ∀ z ∈ l1, ∀ z' ∈ l2, z ≠ z' := fun z hz z' hz' e =>
    hnd'.2.2 hz (List.mem_cons_of_mem _ (e ▸ hz'))
  rcases l2 with _ | ⟨y, l2'⟩
  · have hs0 : h.mem (b.addr + 4) = 0 := hl3
    rw [hs0]
    simp only [ne_eq, not_true_eq_false, if_false]
    rcases nil_or_snoc l1 with rfl | ⟨l1', w, rfl⟩
    · have hp0 : h.mem b.addr = 0 := hpred
      rw [hp0]
      simp only [ok_bind, ne_eq, not_true_eq_false, if_false]
      refine ⟨_, rfl, ?_⟩
      have := hc.relink_bucket (setList h (bucket b.size) 0) (bucket b.size) ([] ++ []) []
        rfl rfl rfl (fun _ _ => rfl) (by simp)
        (fun j hj => by simp [setList_lists, hj])
        (fun _ => by simp [setList_lists, LSeg]) hnode hnd2
      exact ⟨this.1, rfl, rfl, rfl, this.2⟩
    · rw [lastD_snoc] at hpred
      obtain ⟨hw8, hwin, hwin4, hwlt, hwsp, bw, hbw1, hbw2, hbw3, hbw4⟩ :=
        hfacts w (Or.inl (by simp))
      have hw0 : w ≠ 0 := LSeg_nonzero hl1 w (by simp)
      rw [hpred]
      simp only [ok_bind, ne_eq, hw0, not_false_eq_true, if_true]
      rw [hwsp, PUT_ok _ _ _ hwin4 (by unfold WORD; omega)]
      refine ⟨_, rfl, ?_⟩
      have hsn := (LSeg_snoc _ _ _ _ _ _).1 hl1
      have hl1nd : ∀ z ∈ l1', z ≠ w := by
        intro z hz e
        have := List.nodup_append.1 hnd'.1
        exact this.2.2 hz (List.mem_singleton.2 e)
      have := hc.relink_bucket (setMem h (upd h.mem (w + 4) 0)) (bucket b.size)
        ((l1' ++ [w]) ++ []) [w + 4] rfl rfl rfl
        (fun a ha => upd_other _ _ _ _ (not_mem_one ha))
        (by
          intro a ha
          rw [List.mem_singleton] at ha
          exact ⟨bw, hbw1, hbw2, hbw3, Or.inr (by rw [ha, hbw4])⟩)
        (fun j _ => rfl)
        (by
          intro _
          rw [List.append_nil, LSeg_snoc]
          refine ⟨?_, hw0, ?_, ?_⟩
          · refine LSeg_congr ?_ hsn.1
            intro z hz
            have hz8 := (hfacts z (Or.inl (by simp [hz]))).1
            have := hl1nd z hz
            simp only [setMem_mem]
            exact ⟨upd_other _ _ _ _ (by omega), upd_other _ _ _ _ (by omega)⟩
          · simp only [setMem_mem]
            rw [upd_other _ _ _ _ (by omega)]
            exact hsn.2.2.1
          · simp only [setMem_mem, upd_same])
        hnode hnd2
      exact ⟨this.1, rfl, rfl, rfl, this.2⟩
  · obtain ⟨hy, hy0, hyp, hl4⟩ := hl3
    obtain ⟨hy8, hyin, hyin4, hylt, hysp, cy, hby1, hby2, hby3, hby4⟩ :=
      hfacts y (Or.inr (by simp))
    have hyx : y ≠ b.addr := hd2 y (by simp)
    have hl2nd : ∀ z ∈ l2', z ≠ y := by
      intro z hz e
      have := (List.nodup_cons.1 (List.nodup_cons.1 hnd'.2.1).2).1
      exact this (e ▸ hz)
    rw [hy]
    simp only [ok_bind, ne_eq, hy0, not_false_eq_true, if_true]
    rcases nil_or_snoc l1 with rfl | ⟨l1', w, rfl⟩
    · have hp0 : h.mem b.addr = 0 := hpred
      rw [hp0]
      simp only [ok_bind, ne_eq, not_true_eq_false, if_false]
      rw [PUT_ok _ _ _ hyin (by unfold WORD; omega)]
      simp only [ok_bind]
      rw [GET_setMem _ _ _ hI.in_succ, upd_other _ _ _ _ (by omega), hy]
      simp only [ok_bind]
      refine ⟨_, rfl, ?_⟩
      have := hc.relink_bucket (setList (setMem h (upd h.mem y 0)) (bucket b.size) y)
        (bucket b.size) ([] ++ (y :: l2')) [y] rfl rfl rfl
        (fun a ha => upd_other _ _ _ _ (not_mem_one ha))
        (by
          intro a ha
          rw [List.mem_singleton] at ha
          exact ⟨cy, hby1, hby2, hby3, Or.inl (by rw [ha, hby4])⟩)
        (fun j hj => by simp [setList_lists, hj])
        (by
          intro _
          simp only [List.nil_append, setList_lists, if_true, setList_mem, setMem_mem]
          refine ⟨rfl, hy0, upd_same _ _ _, ?_⟩
          rw [upd_other _ _ _ _ (by omega)]
          refine LSeg_congr ?_ hl4
          intro z hz
          have hz8 := (hfacts z (Or.inr (by simp [hz]))).1
          have := hl2nd z hz
          exact ⟨upd_other _ _ _ _ (by omega), upd_other _ _ _ _ (by omega)⟩)
        hnode hnd2
      exact ⟨this.1, rfl, rfl, rfl, this.2⟩
    · rw [lastD_snoc] at hpred
      obtain ⟨hw8, hwin, hwin4, hwlt, hwsp, bw, hbw1, hbw2, hbw3, hbw4⟩ :=
        hfacts w (Or.inl (by simp))
      have hw0 : w ≠ 0 := LSeg_nonzero hl1 w (by simp)
      have hwx : w ≠ b.addr := hd1 w (by simp)
      have hwy : w ≠ y := hd12 w (by simp) y (by simp)
      rw [hpred]
      simp only [ok_bind, ne_eq, hw0, not_false_eq_true, if_true]
      rw [hwsp, PUT_ok _ _ _ hwin4 (by omega)]
      simp only [ok_bind]
      rw [GET_setMem _ _ _ hI.in_succ, upd_other _ _ _ _ (by omega), hy]
      simp only [ok_bind]
      rw [GET_setMem _ _ _ hI.in_pred, upd_other _ _ _ _ (by omega), hpred]
      simp only [ok_bind]
      rw [PUT_setMem _ _ _ _ hyin (by omega)]
      refine ⟨_, rfl, ?_⟩
      have hsn := (LSeg_snoc _ _ _ _ _ _).1 hl1
      have hl1nd : ∀ z ∈ l1', z ≠ w := by
        intro z hz e
        have := List.nodup_append.1 hnd'.1
        exact this.2.2 hz (List.mem_singleton.2 e)
      have := hc.relink_bucket (setMem h (upd (upd h.mem (w + 4) y) y w)) (bucket b.size)
        ((l1' ++ [w]) ++ (y :: l2')) [w + 4, y] rfl rfl rfl
        (fun a ha => by
          have := not_mem_two ha
          simp only [setMem_mem]
          rw [upd_other _ _ _ _ this.2, upd_other _ _ _ _ this.1])
        (by
          intro a ha
          simp only [List.mem_cons, List.mem_singleton, List.not_mem_nil, or_false] at ha
          rcases ha with ha | ha
          · exact ⟨bw, hbw1, hbw2, hbw3, Or.inr (by rw [ha, hbw4])⟩
          · exact ⟨cy, hby1, hby2, hby3, Or.inl (by rw [ha, hby4])⟩)
        (fun j _ => rfl)
        (by
          intro _
          rw [LSeg_append]
          refine ⟨y, ?_, ?_⟩
          · rw [LSeg_snoc]
            refine ⟨?_, hw0, ?_, ?_⟩
            · refine LSeg_congr ?_ hsn.1
              intro z hz
              have hz8 := (hfacts z (Or.inl (by simp [hz]))).1
              have := hl1nd z hz
              have := hd12 z (by simp [hz]) y (by simp)
              simp only [setMem_mem]
              exact ⟨by rw [upd_other _ _ _ _ (by omega), upd_other _ _ _ _ (by omega)],
                by rw [upd_other _ _ _ _ (by omega), upd_other _ _ _ _ (by omega)]⟩
            · simp only [setMem_mem]
              rw [upd_other _ _ _ _ (by omega), upd_other _ _ _ _ (by omega)]
              exact hsn.2.2.1
            · simp only [setMem_mem]
              rw [upd_other _ _ _ _ (by omega), upd_same]
          · rw [lastD_snoc]
            simp only [setMem_mem]
            refine ⟨rfl, hy0, upd_same _ _ _, ?_⟩
            rw [upd_other _ _ _ _ (by omega), upd_other _ _ _ _ (by omega)]
            refine LSeg_congr ?_ hl4
            intro z hz
            have hz8 := (hfacts z (Or.inr (by simp [hz]))).1
            have := hl2nd z hz
            have := hd12 w (by simp) z (by simp [hz])
            exact ⟨by rw [upd_other _ _ _ _ (by omega), upd_other _ _ _ _ (by omega)],
              by rw [upd_other _ _ _ _ (by omega), upd_other _ _ _ _ (by omega)]⟩)
        hnode hnd2
      exact ⟨this.1, rfl, rfl, rfl, this.2⟩

/-- The position loop of `insert_node` stops at a split of the list it walks. -/
theorem insert_walk_spec (h : Heap) (size : Nat) (L : List Nat) (k pred cur : Nat)
    (hl : LSeg h.mem pred cur L 0) (hk : L.length < k)
    (hnodes : ∀ z ∈ L, ∃ c, InHeap h c ∧ c.addr = z) :
    ∃ l1 l2, L = l1 ++ l2 ∧
      insert_walk h size k pred cur = Except.ok (lastD l1 pred, l2.headD 0) := by
  induction L generalizing k pred cur with
  | nil =>
    have hcur : cur = 0 := hl
    subst hcur
    obtain ⟨k', rfl⟩ : ∃ k', k = k' + 1 := ⟨k - 1, by simp at hk; omega⟩
    exact ⟨[], [], rfl, by simp [insert_walk]⟩
  | cons x L ih =>
    obtain ⟨hcur, hx0, hp, hl'⟩ := hl
    subst hcur
    obtain ⟨k', rfl⟩ : ∃ k', k = k' + 1 := ⟨k - 1, by simp at hk; omega⟩
    obtain ⟨c, hcI, hcx⟩ := hnodes cur (List.mem_cons_self _ _)
    subst hcx
    unfold insert_walk
    rw [if_neg hx0, hcI.get_size]
    simp only [ok_bind]
    by_cases hlt : c.size < size
    · rw [if_pos hlt, hcI.succ_eq]
      simp only [ok_bind]
      obtain ⟨l1, l2, h1, h2⟩ := ih k' c.addr (h.mem (c.addr + 4)) hl'
        (by simp at hk; omega) (fun z hz => hnodes z (List.mem_cons_of_mem _ hz))
      exact ⟨c.addr :: l1, l2, by rw [h1]; rfl, by rw [h2]; rfl⟩
    · rw [if_neg hlt]
      exact ⟨[], c.addr :: L, rfl, rfl⟩

theorem not_mem_three {a x y z : Nat} (h : a ∉ [x, y, z]) : a ≠ x ∧ a ≠ y ∧ a ≠ z := by
  simp only [List.mem_cons, List.mem_singleton, List.not_mem_nil, or_false, not_or] at h
  exact h

theorem not_mem_four {a x y z w : Nat} (h : a ∉ [x, y, z, w]) :
    a ≠ x ∧ a ≠ y ∧ a ≠ z ∧ a ≠ w := by
  simp only [List.mem_cons, List.mem_singleton, List.not_mem_nil, or_false, not_or] at h
  exact h

/-- Function `insert_node` links a free block that is not in the index into its bucket and touches
nothing else. -/
theorem insert_node_spec {h : Heap} {bs : List Blk} {FL : Nat → List Nat} (hc : Core h bs FL)
    {b : Blk} (hb : b ∈ bs) (hfree : b.alloc = 0) (hnot : ∀ i, b.addr ∉ FL i) :
    ∃ h' l1 l2, insert_node h b.addr = Except.ok h' ∧
      FL (bucket b.size) = l1 ++ l2 ∧
      Core h' bs (fun j => if j = bucket b.size then l1 ++ b.addr :: l2 else FL j) ∧
      h'.mem_start_brk = h.mem_start_brk ∧ h'.mem_brk = h.mem_brk ∧
      h'.mem_max_addr = h.mem_max_addr ∧
      (∀ a, (∀ c ∈ bs, c.alloc = 0 → a ≠ c.addr ∧ a ≠ c.addr + 4) → h'.mem a = h.mem a) := by
  have hI := hc.inHeap hb
  have hnodesI : ∀ z ∈ FL (bucket b.size), ∃ c, InHeap h c ∧ c.addr = z := by
    intro z hz
    obtain ⟨c, _, h2, _, _, h5⟩ := hc.node_inHeap hz
    exact ⟨c, h5, h2⟩
  obtain ⟨l1, l2, hsplit, hwalk⟩ := insert_walk_spec h (shifted b.size) _ _ 0 _
    (hc.linked _ (bucket_lt b.size)) (hc.length_le _) hnodesI
  suffices hsuff : ∃ h', insert_node h b.addr = Except.ok h' ∧
      Core h' bs (fun j => if j = bucket b.size then l1 ++ b.addr :: l2 else FL j) ∧
      h'.mem_start_brk = h.mem_start_brk ∧ h'.mem_brk = h.mem_brk ∧
      h'.mem_max_addr = h.mem_max_addr ∧
      (∀ a, (∀ c ∈ bs, c.alloc = 0 → a ≠ c.addr ∧ a ≠ c.addr + 4) → h'.mem a = h.mem a) by
    obtain ⟨h', h1, h2⟩ := hsuff
    exact ⟨h', l1, l2, h1, hsplit, h2⟩
  have hl := hc.linked _ (bucket_lt b.size)
  rw [hsplit, LSeg_append] at hl
  obtain ⟨mid, hl1, hl2⟩ := hl
  have hnd := hc.nodup (bucket b.size)
  rw [hsplit] at hnd
  have hmem : ∀ z, z ∈ l1 ∨ z ∈ l2 → z ∈ FL (bucket b.size) := by
    intro z hz
    rw [hsplit]
    exact List.mem_append.2 hz
  have hfacts : ∀ z, z ∈ l1 ∨ z ∈ l2 → z % 8 = 0 ∧ inArena h z ∧ inArena h (z + 4) ∧
      z + 4 < WORD ∧ SUCC_PTR z = z + 4 ∧ z ≠ b.addr ∧
      ∃ c ∈ bs, c.alloc = 0 ∧ bucket c.size = bucket b.size ∧ z = c.addr := by
    intro z hz
    obtain ⟨c, h1, h2, h3, h4, h5⟩ := hc.node_inHeap (hmem z hz)
    subst h2
    have := h5.hi; have := h5.brk_lt; have := h5.size_ge
    exact ⟨h5.addr_mod, h5.in_pred, h5.in_succ, by omega, h5.succ_ptr_eq,
      fun e => hnot _ (e ▸ hmem _ hz), c, h1, h3, h4, rfl⟩
  have hxm := hI.addr_mod
  have hxlt : b.addr + 4 < WORD := by
    have := hI.hi; have := hI.brk_lt; have := hI.size_ge; omega
  have hx0 : b.addr ≠ 0 := by have := hI.lo; omega
  have hnd' := List.nodup_append.1 hnd
  have hd12 : ∀ z ∈ l1, ∀ z' ∈ l2, z ≠ z' := fun z hz z' hz' e =>
    hnd'.2.2 hz (e ▸ hz')
  have hnd2 : (l1 ++ b.addr :: l2).Nodup := by
    rw [List.nodup_middle, List.nodup_cons]
    exact ⟨fun e => hnot _ (hmem _ (List.mem_append.1 e)), hnd⟩
  have hnode : ∀ x ∈ l1 ++ b.addr :: l2, ∃ c ∈ bs, c.addr = x ∧ c.alloc = 0 ∧
      bucket c.size = bucket b.size := by
    intro x hx
    rcases List.mem_append.1 hx with hx | hx
    · exact hc.node _ x (hmem x (Or.inl hx))
    · rcases List.mem_cons.1 hx with rfl | hx
      · exact ⟨b, hb, rfl, hfree, rfl⟩
      · exact hc.node _ x (hmem x (Or.inr hx))
  have hWb : ∀ a, a = b.addr ∨ a = b.addr + 4 →
      ∃ c ∈ bs, c.alloc = 0 ∧ bucket c.size = bucket b.size ∧ (a = c.addr ∨ a = c.addr + 4) :=
    fun a ha => ⟨b, hb, hfree, rfl, ha⟩
  have hstart : insert_node h b.addr =
      (if l2.headD 0 ≠ 0 then
        if lastD l1 0 ≠ 0 then
          PUT h b.addr (lastD l1 0) >>= fun h => PUT h (b.addr + 4) (l2.headD 0) >>= fun h =>
          PUT h (l2.headD 0) b.addr >>= fun h => PUT h (SUCC_PTR (lastD l1 0)) b.addr
        else
          PUT h b.addr 0 >>= fun h => PUT h (b.addr + 4) (l2.headD 0) >>= fun h =>
          PUT h (l2.headD 0) b.addr >>= fun h => Except.ok (setList h (bucket b.size) b.addr)
      else
        if lastD l1 0 ≠ 0 then
          PUT h b.addr (lastD l1 0) >>= fun h => PUT h (b.addr + 4) 0 >>= fun h =>
          PUT h (SUCC_PTR (lastD l1 0)) b.addr
        else
          PUT h (b.addr + 4) 0 >>= fun h => PUT h b.addr 0 >>= fun h =>
          Except.ok (setList h (bucket b.size) b.addr)) := by
    unfold insert_node
    rw [hI.get_size]
    simp only [ok_bind, bucket_loop_eq]
    rw [hwalk]
    simp only [ok_bind, PRED_PTR, hI.succ_ptr_eq, pure_eq_ok]
  rw [hstart]
  have hW0 : (0 : Nat) < WORD := by unfold WORD; omega
  rcases l2 with _ | ⟨y, l2'⟩
  · have hmid : mid = 0 := hl2
    subst hmid
    simp only [List.headD_nil, ne_eq, not_true_eq_false, if_false]
    rcases nil_or_snoc l1 with rfl | ⟨l1', w, rfl⟩
    · simp only [lastD_nil, ne_eq, not_true_eq_false, if_false]
      rw [PUT_ok _ _ _ hI.in_succ hW0]
      simp only [ok_bind]
      rw [PUT_setMem _ _ _ _ hI.in_pred hW0]
      simp only [ok_bind]
      refine ⟨_, rfl, ?_⟩
      have := hc.relink_bucket
        (setList (setMem h (upd (upd h.mem (b.addr + 4) 0) b.addr 0)) (bucket b.size) b.addr)
        (bucket b.size) ([] ++ b.addr :: []) [b.addr + 4, b.addr] rfl rfl rfl
        (fun a ha => by
          have := not_mem_two ha
          simp only [setList_mem, setMem_mem]
          rw [upd_other _ _ _ _ this.2, upd_other _ _ _ _ this.1])
        (by
          intro a ha
          simp only [List.mem_cons, List.mem_singleton, List.not_mem_nil, or_false] at ha
          exact hWb a (by omega))
        (fun j hj => by simp [setList_lists, hj])
        (by
          intro _
          simp only [List.nil_append, setList_lists, if_true, setList_mem, setMem_mem]
          refine ⟨rfl, hx0, upd_same _ _ _, ?_⟩
          show _ = 0
          rw [upd_other _ _ _ _ (by omega), upd_same])
        hnode hnd2
      exact ⟨this.1, rfl, rfl, rfl, this.2⟩
    · rw [lastD_snoc]
      obtain ⟨hw8, hwin, hwin4, hwlt, hwsp, hwb, bw, hbw1, hbw2, hbw3, hbw4⟩ :=
        hfacts w (Or.inl (by simp))
      have hsn := (LSeg_snoc _ _ _ _ _ _).1 hl1
      have hw0 : w ≠ 0 := hsn.2.1
      have hl1nd : ∀ z ∈ l1', z ≠ w := by
        intro z hz e
        have := List.nodup_append.1 hnd'.1
        exact this.2.2 hz (List.mem_singleton.2 e)
      simp only [ne_eq, hw0, not_false_eq_true, if_true]
      rw [PUT_ok _ _ _ hI.in_pred (by omega)]
      simp only [ok_bind]
      rw [PUT_setMem _ _ _ _ hI.in_succ hW0]
      simp only [ok_bind]
      rw [hwsp, PUT_setMem _ _ _ _ hwin4 (by omega)]
      refine ⟨_, rfl, ?_⟩
      have := hc.relink_bucket
        (setMem h (upd (upd (upd h.mem b.addr w) (b.addr + 4) 0) (w + 4) b.addr))
        (bucket b.size) ((l1' ++ [w]) ++ b.addr :: []) [b.addr, b.addr + 4, w + 4] rfl rfl rfl
        (fun a ha => by
          have := not_mem_three ha
          simp only [setMem_mem]
          rw [upd_other _ _ _ _ this.2.2, upd_other _ _ _ _ this.2.1,
            upd_other _ _ _ _ this.1])
        (by
          intro a ha
          simp only [List.mem_cons, List.mem_singleton, List.not_mem_nil, or_false] at ha
          rcases ha with ha | ha | ha
          · exact hWb a (Or.inl ha)
          · exact hWb a (Or.inr ha)
          · exact ⟨bw, hbw1, hbw2, hbw3, Or.inr (by rw [ha, hbw4])⟩)
        (fun j _ => rfl)
        (by
          intro _
          rw [LSeg_append]
          refine ⟨b.addr, ?_, ?_⟩
          · rw [LSeg_snoc]
            refine ⟨?_, hw0, ?_, ?_⟩
            · refine LSeg_congr ?_ hsn.1
              intro z hz
              obtain ⟨hz8, _, _, _, _, hzb, _⟩ := hfacts z (Or.inl (by simp [hz]))
              have := hl1nd z hz
              simp only [setMem_mem]
              exact ⟨by rw [upd_other _ _ _ _ (by omega), upd_other _ _ _ _ (by omega),
                  upd_other _ _ _ _ (by omega)],
                by rw [upd_other _ _ _ _ (by omega), upd_other _ _ _ _ (by omega),
                  upd_other _ _ _ _ (by omega)]⟩
            · simp only [setMem_mem]
              rw [upd_other _ _ _ _ (by omega), upd_other _ _ _ _ (by omega),
                upd_other _ _ _ _ (by omega)]
              exact hsn.2.2.1
            · simp only [setMem_mem, upd_same]
          · rw [lastD_snoc]
            simp only [setMem_mem]
            refine ⟨rfl, hx0, ?_, ?_⟩
            · rw [upd_other _ _ _ _ (by omega), upd_other _ _ _ _ (by omega), upd_same]
            · show _ = 0
              rw [upd_other _ _ _ _ (by omega), upd_same])
        hnode hnd2
      exact ⟨this.1, rfl, rfl, rfl, this.2⟩
  · obtain ⟨hmid, hy0, hyp, hl4⟩ := hl2
    subst hmid
    obtain ⟨hy8, hyin, hyin4, hylt, hysp, hyb, cy, hby1, hby2, hby3, hby4⟩ :=
      hfacts mid (Or.inr (by simp))
    have hl2nd : ∀ z ∈ l2', z ≠ mid := by
      intro z hz e
      exact (List.nodup_cons.1 hnd'.2.1).1 (e ▸ hz)
    simp only [List.headD_cons, ne_eq, hy0, not_false_eq_true, if_true]
    rcases nil_or_snoc l1 with rfl | ⟨l1', w, rfl⟩
    · simp only [lastD_nil, ne_eq, not_true_eq_false, if_false]
      rw [PUT_ok _ _ _ hI.in_pred hW0]
      simp only [ok_bind]
      rw [PUT_setMem _ _ _ _ hI.in_succ (by omega)]
      simp only [ok_bind]
      rw [PUT_setMem _ _ _ _ hyin (by omega)]
      simp only [ok_bind]
      refine ⟨_, rfl, ?_⟩
      have := hc.relink_bucket
        (setList (setMem h (upd (upd (upd h.mem b.addr 0) (b.addr + 4) mid) mid b.addr))
          (bucket b.size) b.addr)
        (bucket b.size) ([] ++ b.addr :: mid :: l2') [b.addr, b.addr + 4, mid] rfl rfl rfl
        (fun a ha => by
          have := not_mem_three ha
          simp only [setList_mem, setMem_mem]
          rw [upd_other _ _ _ _ this.2.2, upd_other _ _ _ _ this.2.1,
            upd_other _ _ _ _ this.1])
        (by
          intro a ha
          simp only [List.mem_cons, List.mem_singleton, List.not_mem_nil, or_false] at ha
          rcases ha with ha | ha | ha
          · exact hWb a (Or.inl ha)
          · exact hWb a (Or.inr ha)
          · exact ⟨cy, hby1, hby2, hby3, Or.inl (by rw [ha, hby4])⟩)
        (fun j hj => by simp [setList_lists, hj])
        (by
          intro _
          simp only [List.nil_append, setList_lists, if_true, setList_mem, setMem_mem]
          refine ⟨rfl, hx0, ?_, ?_, hy0, upd_same _ _ _, ?_⟩
          · rw [upd_other _ _ _ _ (by omega), upd_other _ _ _ _ (by omega), upd_same]
          · rw [upd_other _ _ _ _ (by omega), upd_same]
          · rw [upd_other _ _ _ _ (by omega), upd_other _ _ _ _ (by omega),
              upd_other _ _ _ _ (by omega)]
            refine LSeg_congr ?_ hl4
            intro z hz
            obtain ⟨hz8, _, _, _, _, hzb, _⟩ := hfacts z (Or.inr (by simp [hz]))
            have := hl2nd z hz
            exact ⟨by rw [upd_other _ _ _ _ (by omega), upd_other _ _ _ _ (by omega),
                upd_other _ _ _ _ (by omega)],
              by rw [upd_other _ _ _ _ (by omega), upd_other _ _ _ _ (by omega),
                upd_other _ _ _ _ (by omega)]⟩)
        hnode hnd2
      exact ⟨this.1, rfl, rfl, rfl, this.2⟩
    · rw [lastD_snoc]
      obtain ⟨hw8, hwin, hwin4, hwlt, hwsp, hwb, bw, hbw1, hbw2, hbw3, hbw4⟩ :=
        hfacts w (Or.inl (by simp))
      have hsn := (LSeg_snoc _ _ _ _ _ _).1 hl1
      have hw0 : w ≠ 0 := hsn.2.1
      have hwy : w ≠ mid := hd12 w (by simp) mid (by simp)
      have hl1nd : ∀ z ∈ l1', z ≠ w := by
        intro z hz e
        have := List.nodup_append.1 hnd'.1
        exact this.2.2 hz (List.mem_singleton.2 e)
      simp only [ne_eq, hw0, not_false_eq_true, if_true]
      rw [PUT_ok _ _ _ hI.in_pred (by omega)]
      simp only [ok_bind]
      rw [PUT_setMem _ _ _ _ hI.in_succ (by omega)]
      simp only [ok_bind]
      rw [PUT_setMem _ _ _ _ hyin (by omega)]
      simp only [ok_bind]
      rw [hwsp, PUT_setMem _ _ _ _ hwin4 (by omega)]
      refine ⟨_, rfl, ?_⟩
      have := hc.relink_bucket
        (setMem h (upd (upd (upd (upd h.mem b.addr w) (b.addr + 4) mid) mid b.addr)
          (w + 4) b.addr))
        (bucket b.size) ((l1' ++ [w]) ++ b.addr :: mid :: l2')
        [b.addr, b.addr + 4, mid, w + 4] rfl rfl rfl
        (fun a ha => by
          have := not_mem_four ha
          simp only [setMem_mem]
          rw [upd_other _ _ _ _ this.2.2.2, upd_other _ _ _ _ this.2.2.1,
            upd_other _ _ _ _ this.2.1, upd_other _ _ _ _ this.1])
        (by
          intro a ha
          simp only [List.mem_cons, List.mem_singleton, List.not_mem_nil, or_false] at ha
          rcases ha with ha | ha | ha | ha
          · exact hWb a (Or.inl ha)
          · exact hWb a (Or.inr ha)
          · exact ⟨cy, hby1, hby2, hby3, Or.inl (by rw [ha, hby4])⟩
          · exact ⟨bw, hbw1, hbw2, hbw3, Or.inr (by rw [ha, hbw4])⟩)
        (fun j _ => rfl)
        (by
          intro _
          rw [LSeg_append]
          refine ⟨b.addr, ?_, ?_⟩
          · rw [LSeg_snoc]
            refine ⟨?_, hw0, ?_, ?_⟩
            · refine LSeg_congr ?_ hsn.1
              intro z hz
              obtain ⟨hz8, _, _, _, _, hzb, _⟩ := hfacts z (Or.inl (by simp [hz]))
              have := hl1nd z hz
              have := hd12 z (by simp [hz]) mid (by simp)
              simp only [setMem_mem]
              exact ⟨by rw [upd_other _ _ _ _ (by omega), upd_other _ _ _ _ (by omega),
                  upd_other _ _ _ _ (by omega), upd_other _ _ _ _ (by omega)],
                by rw [upd_other _ _ _ _ (by omega), upd_other _ _ _ _ (by omega),
                  upd_other _ _ _ _ (by omega), upd_other _ _ _ _ (by omega)]⟩
            · simp only [setMem_mem]
              rw [upd_other _ _ _ _ (by omega), upd_other _ _ _ _ (by omega),
                upd_other _ _ _ _ (by omega), upd_other _ _ _ _ (by omega)]
              exact hsn.2.2.1
            · simp only [setMem_mem, upd_same]
          · rw [lastD_snoc]
            simp only [setMem_mem]
            refine ⟨rfl, hx0, ?_, ?_, hy0, ?_, ?_⟩
            · rw [upd_other _ _ _ _ (by omega), upd_other _ _ _ _ (by omega),
                upd_other _ _ _ _ (by omega), upd_same]
            · rw [upd_other _ _ _ _ (by omega), upd_other _ _ _ _ (by omega), upd_same]
            · rw [upd_other _ _ _ _ (by omega), upd_same]
            · rw [upd_other _ _ _ _ (by omega), upd_other _ _ _ _ (by omega),
                upd_other _ _ _ _ (by omega), upd_other _ _ _ _ (by omega)]
              refine LSeg_congr ?_ hl4
              intro z hz
              obtain ⟨hz8, _, _, _, _, hzb, _⟩ := hfacts z (Or.inr (by simp [hz]))
              have := hl2nd z hz
              have := hd12 w (by simp) z (by simp [hz])
              exact ⟨by rw [upd_other _ _ _ _ (by omega), upd_other _ _ _ _ (by omega),
                  upd_other _ _ _ _ (by omega), upd_other _ _ _ _ (by omega)],
                by rw [upd_other _ _ _ _ (by omega), upd_other _ _ _ _ (by omega),
                  upd_other _ _ _ _ (by omega), upd_other _ _ _ _ (by omega)]⟩)
        hnode hnd2
      exact ⟨this.1, rfl, rfl, rfl, this.2⟩

/-- The three stretches of a tiling around a group of blocks. -/
theorem Core.split3 {h : Heap} {pre mid post : List Blk} {FL : Nat → List Nat}
    (hc : Core h (pre ++ mid ++ post) FL) :
    ∃ s e, Tiled h.mem (h.mem_start_brk + 8) (pro h.mem_start_brk :: pre) s ∧
      Tiled h.mem s mid e ∧ Tiled h.mem e post h.mem_brk := by
  have ht := hc.tiled
  rw [← List.cons_append, ← List.cons_append, Tiled_append] at ht
  obtain ⟨e, h1, h2⟩ := ht
  rw [Tiled_append] at h1
  obtain ⟨s, h3, h4⟩ := h1
  exact ⟨s, e, h3, h4, h2⟩

/-- Rewriting the tags inside the range of the blocks `mid`, none of them in the index, so
that the range holds the blocks `mid'` instead. -/
theorem Core.retile {h : Heap} {pre mid post : List Blk} {FL : Nat → List Nat}
    (hc : Core h (pre ++ mid ++ post) FL) (h' : Heap) (mid' : List Blk) (s e : Nat)
    (hst : h'.mem_start_brk = h.mem_start_brk) (hk : h'.mem_brk = h.mem_brk)
    (hx : h'.mem_max_addr = h.mem_max_addr)
    (hls : h'.segregated_free_lists = h.segregated_free_lists)
    (hpre : Tiled h.mem (h.mem_start_brk + 8) (pro h.mem_start_brk :: pre) s)
    (hpost : Tiled h.mem e post h.mem_brk)
    (hmem : ∀ a, a + 4 < s ∨ e ≤ a + 4 → h'.mem a = h.mem a)
    (hmid : Tiled h'.mem s mid' e)
    (hsz : ∀ c ∈ mid', 16 ≤ c.size)
    (hfl : ∀ i, ∀ x ∈ FL i, ∀ c ∈ mid, c.addr ≠ x) :
    Core h' (pre ++ mid' ++ post) FL := by
  have hse := Tiled_le hmid
  have hs8 := Tiled_le hpre
  have heb := Tiled_le hpost
  have hold : ∀ i, ∀ x ∈ FL i, ∃ c, (c ∈ pre ∨ c ∈ post) ∧ c.addr = x ∧ c.alloc = 0 ∧
      bucket c.size = i := by
    intro i x hxi
    obtain ⟨c, h1, h2, h3, h4⟩ := hc.node i x hxi
    rcases List.mem_append.1 h1 with h5 | h5
    · rcases List.mem_append.1 h5 with h6 | h6
      · exact ⟨c, Or.inl h6, h2, h3, h4⟩
      · exact absurd h2 (hfl i x hxi c h6)
    · exact ⟨c, Or.inr h5, h2, h3, h4⟩
  refine ⟨by rw [hst]; exact hc.base_pos, by rw [hst]; exact hc.base_mod,
    by rw [hk, hx]; exact hc.brk_le, by rw [hx]; exact hc.max_lt, ?_, ?_, ?_, ?_, ?_, hc.nodup⟩
  · rw [hst, hk, ← List.cons_append, ← List.cons_append, Tiled_append]
    refine ⟨e, ?_, Tiled_congr (fun a ha _ => hmem a (Or.inr ha)) hpost⟩
    rw [Tiled_append]
    exact ⟨s, Tiled_congr (fun a _ ha => hmem a (Or.inl ha)) hpre, hmid⟩
  · rw [hk, hmem _ (Or.inr (by omega))]
    exact hc.epi
  · intro c hcm
    rcases List.mem_append.1 hcm with h5 | h5
    · rcases List.mem_append.1 h5 with h6 | h6
      · exact hc.size_ge c (by simp [h6])
      · exact hsz c h6
    · exact hc.size_ge c (by simp [h5])
  · intro i hi
    rw [hls]
    refine LSeg_congr ?_ (hc.linked i hi)
    intro z hz
    obtain ⟨c, h1, h2, _, _⟩ := hold i z hz
    subst h2
    rcases h1 with h1 | h1
    · have hb := Tiled_mem hpre (List.mem_cons_of_mem _ h1)
      have := hc.size_ge c (by simp [h1])
      have := hb.hi
      exact ⟨hmem _ (Or.inl (by omega)), hmem _ (Or.inl (by omega))⟩
    · have hb := Tiled_mem hpost h1
      have := hb.lo
      exact ⟨hmem _ (Or.inr (by omega)), hmem _ (Or.inr (by omega))⟩
  · intro i x hxi
    obtain ⟨c, h1, h2, h3, h4⟩ := hold i x hxi
    refine ⟨c, ?_, h2, h3, h4⟩
    rcases h1 with h1 | h1
    · simp [h1]
    · simp [h1]

/-- Growing the arena by one block at its end. -/
theorem Core.extend {h : Heap} {bs : List Blk} {FL : Nat → List Nat}
    (hc : Core h bs FL) (h' : Heap) (nb : Blk)
    (hst : h'.mem_start_brk = h.mem_start_brk)
    (hx : h'.mem_max_addr = h.mem_max_addr)
    (hls : h'.segregated_free_lists = h.segregated_free_lists)
    (hk : h'.mem_brk ≤ h'.mem_max_addr)
    (hmem : ∀ a, a + 4 < h.mem_brk → h'.mem a = h.mem a)
    (hnb : Tiled h'.mem h.mem_brk [nb] h'.mem_brk)
    (hsz : 16 ≤ nb.size)
    (hepi : h'.mem (h'.mem_brk - 4) = 1) :
    Core h' (bs ++ [nb]) FL := by
  refine ⟨by rw [hst]; exact hc.base_pos, by rw [hst]; exact hc.base_mod,
    hk, by rw [hx]; exact hc.max_lt, ?_, hepi, ?_, ?_, ?_, hc.nodup⟩
  · rw [hst, ← List.cons_append, Tiled_append]
    exact ⟨h.mem_brk, Tiled_congr (fun a _ ha => hmem a ha) hc.tiled, hnb⟩
  · intro c hcm
    rcases List.mem_append.1 hcm with h5 | h5
    · exact hc.size_ge c h5
    · rw [List.mem_singleton] at h5
      rw [h5]; exact hsz
  · intro i hi
    rw [hls]
    refine LSeg_congr ?_ (hc.linked i hi)
    intro z hz
    obtain ⟨c, h1, h2, _, _, hI⟩ := hc.node_inHeap hz
    subst h2
    have := hI.hi
    have := hI.size_ge
    exact ⟨hmem _ (by omega), hmem _ (by omega)⟩
  · intro i x hxi
    obtain ⟨c, h1, h2, h3, h4⟩ := hc.node i x hxi
    exact ⟨c, List.mem_append_left _ h1, h2, h3, h4⟩

/-! ## Reading a tag word in any state -/

section hdr

variable {h : Heap} {p s a : Nat}

theorem HdrAt.hdrp_at (hh : HdrAt h p s a) : HDRP p = p - 4 := by
  have := hh.p_ge; have := hh.lt
  unfold HDRP WSIZE; exact psub_eq _ _ (by omega) (by omega)

theorem HdrAt.size_at (hh : HdrAt h p s a) : GET_SIZE h (HDRP p) = Except.ok s := by
  have := hh.lt; have := hh.a_le; have := hh.p_ge
  rw [hh.hdrp_at, GET_SIZE_ok _ _ hh.in_hdr, hh.hdr, tag_size _ _ hh.mod hh.a_le (by omega)]

theorem HdrAt.alloc_at (hh : HdrAt h p s a) : GET_ALLOC h (HDRP p) = Except.ok a := by
  rw [hh.hdrp_at, GET_ALLOC_ok _ _ hh.in_hdr, hh.hdr, tag_alloc _ _ hh.mod hh.a_le]

theorem HdrAt.next_at (hh : HdrAt h p s a) : NEXT_BLK_PTR h p = Except.ok (p + s) := by
  have h1 := hh.size_at
  unfold HDRP at h1
  unfold NEXT_BLK_PTR
  rw [h1]
  simp only [ok_bind, pure_eq_ok]
  rw [padd_eq _ _ hh.lt]

theorem HdrAt.ftrp_at (hh : HdrAt h p s a) : FTRP h p = Except.ok (p + s - 8) := by
  unfold FTRP
  rw [hh.size_at]
  have := hh.lt; have := hh.p_ge
  simp only [ok_bind, pure_eq_ok]
  rw [padd_eq _ _ hh.lt]
  unfold DSIZE
  rw [psub_eq _ _ (by omega) (by omega)]

end hdr

theorem InHeap.hdrAt {h : Heap} {b : Blk} (hb : InHeap h b) : HdrAt h b.addr b.size b.alloc := by
  have := hb.lo; have := hb.hi; have := hb.brk_lt
  exact ⟨hb.in_hdr, by omega, by omega, hb.size_mod, hb.alloc_le, hb.hdr⟩

/-- The word two words before payload address `p` is the footer of a block of size `s`. -/
theorem PREV_eq (h : Heap) (p s a : Nat) (hin : inArena h (p - 8)) (hp : 8 ≤ p)
    (hlt : p < WORD) (hs : s % 8 = 0) (ha : a ≤ 1) (hsp : s ≤ p)
    (hm : h.mem (p - 8) = s + a) : PREV_BLK_PTR h p = Except.ok (p - s) := by
  have hW : WORD = 4294967296 := rfl
  unfold PREV_BLK_PTR DSIZE
  rw [psub_eq _ _ hp hlt, GET_SIZE_ok _ _ hin, hm, tag_size _ _ hs ha (by omega)]
  simp only [ok_bind, pure_eq_ok]
  rw [psub_eq _ _ hsp hlt]

/-! ## Well-formed heaps -/

/-- A payload word of an allocated block lies outside every free block. -/
theorem Core.payload_out {h : Heap} {bs : List Blk} {FL : Nat → List Nat} (hc : Core h bs FL)
    {a : Nat} (ha : Payload bs a) {c : Blk} (hcm : c ∈ bs) (hfree : c.alloc = 0) :
    a + 8 < c.addr ∨ c.addr + c.size ≤ a := by
  obtain ⟨d, hd, hd1, hd2, hd3⟩ := ha
  rcases hc.apart hd hcm with e | e | e
  · rw [e] at hd1; omega
  · omega
  · omega

/-- A payload word of an allocated block is no link word of a free block. -/
theorem Core.payload_link {h : Heap} {bs : List Blk} {FL : Nat → List Nat} (hc : Core h bs FL)
    {a : Nat} (ha : Payload bs a) : ∀ c ∈ bs, c.alloc = 0 → a ≠ c.addr ∧ a ≠ c.addr + 4 := by
  intro c hcm hfree
  have := hc.payload_out ha hcm hfree
  have := hc.size_ge c hcm
  omega

/-- Function `delete_node` in terms of membership in the index. -/
theorem delete_node_mem {h : Heap} {bs : List Blk} {FL : Nat → List Nat} (hc : Core h bs FL)
    {b : Blk} (hb : b ∈ bs) (hx : b.addr ∈ FL (bucket b.size)) :
    ∃ h' FL', delete_node h b.addr = Except.ok h' ∧ Core h' bs FL' ∧
      h'.mem_start_brk = h.mem_start_brk ∧ h'.mem_brk = h.mem_brk ∧
      h'.mem_max_addr = h.mem_max_addr ∧
      (∀ j y, y ∈ FL' j ↔ y ∈ FL j ∧ y ≠ b.addr) ∧
      (∀ a, Payload bs a → h'.mem a = h.mem a) := by
  obtain ⟨h', h1, h2, h3, h4, h5, h6⟩ := delete_node_spec hc hb hx
  refine ⟨h', _, h1, h2, h3, h4, h5, ?_, fun a ha => h6 a (hc.payload_link ha)⟩
  intro j y
  rw [(hc.nodup j).mem_erase_iff]
  exact And.comm

/-- Function `insert_node` in terms of membership in the index. -/
theorem insert_node_mem {h : Heap} {bs : List Blk} {FL : Nat → List Nat} (hc : Core h bs FL)
    {b : Blk} (hb : b ∈ bs) (hfree : b.alloc = 0) (hnot : ∀ i, b.addr ∉ FL i) :
    ∃ h' FL', insert_node h b.addr = Except.ok h' ∧ Core h' bs FL' ∧
      h'.mem_start_brk = h.mem_start_brk ∧ h'.mem_brk = h.mem_brk ∧
      h'.mem_max_addr = h.mem_max_addr ∧
      (∀ j y, y ∈ FL' j ↔ y ∈ FL j ∨ (j = bucket b.size ∧ y = b.addr)) ∧
      (∀ a, Payload bs a → h'.mem a = h.mem a) := by
  obtain ⟨h', l1, l2, h1, hs, h2, h3, h4, h5, h6⟩ := insert_node_spec hc hb hfree hnot
  refine ⟨h', _, h1, h2, h3, h4, h5, ?_, fun a ha => h6 a (hc.payload_link ha)⟩
  intro j y
  by_cases hj : j = bucket b.size
  · subst hj
    simp only [if_true, hs, List.mem_append, List.mem_cons, true_and]
    tauto
  · simp [hj]

/-- The last block of a tiling ends where the tiling ends. -/
theorem Tiled_last {m : Nat → Nat} {bs : List Blk} {c : Blk} {p q : Nat}
    (h : Tiled m p (bs ++ [c]) q) : c.addr + c.size = q ∧ BlkOk m p q c := by
  have hm := Tiled_mem h (b := c) (by simp)
  rw [Tiled_append] at h
  obtain ⟨r, _, h2⟩ := h
  obtain ⟨h3, _, _, _, _, _, h4⟩ := h2
  have h5 : r + c.size = q := h4
  exact ⟨by omega, hm⟩

theorem PACK_zero (s : Nat) : PACK s 0 = s := by
  unfold PACK; simp

theorem mid_eq (pre post : List Blk) (b : Blk) : pre ++ b :: post = pre ++ [b] ++ post := by
  simp

/-- Position of the blocks around one block of the heap. -/
theorem Core.around {h : Heap} {pre post : List Blk} {b : Blk} {FL : Nat → List Nat}
    (hc : Core h (pre ++ [b] ++ post) FL) :
    Tiled h.mem (h.mem_start_brk + 8) (pro h.mem_start_brk :: pre) b.addr ∧
    Tiled h.mem (b.addr + b.size) post h.mem_brk ∧
    (∀ c ∈ pre, c.addr + c.size ≤ b.addr) ∧ (∀ c ∈ post, b.addr + b.size ≤ c.addr) := by
  obtain ⟨s, e, h1, h2, h3⟩ := hc.split3
  obtain ⟨h4, _, _, _, _, _, h5⟩ := h2
  have h6 : s + b.size = e := h5
  subst h4
  subst h6
  refine ⟨h1, h3, ?_, ?_⟩
  · intro c hcm
    exact (Tiled_mem h1 (List.mem_cons_of_mem _ hcm)).hi
  · intro c hcm
    exact (Tiled_mem h3 hcm).lo

/-- Function `place` on a free block of the index that is large enough: the blocks that
take the place of the block, the index, and the words that keep their value, which are all
words outside the block that are no link word of a free block. -/
theorem place_exact {h : Heap} {pre post : List Blk} {b : Blk} {FL : Nat → List Nat}
    (hg : Good h (pre ++ [b] ++ post) FL) (hfree : b.alloc = 0) (size : Nat)
    (h1 : size ≤ b.size) (h2 : size % 8 = 0) (h3 : 16 ≤ size) :
    ∃ h' FL' mid, place h b.addr size = Except.ok (b.addr, h') ∧
      Good h' (pre ++ mid ++ post) FL' ∧
      mid = (if b.size - size < DSIZE * 2 then [⟨b.addr, b.size, 1⟩]
        else [⟨b.addr, size, 1⟩, ⟨b.addr + size, b.size - size, 0⟩]) ∧
      h'.mem_start_brk = h.mem_start_brk ∧ h'.mem_brk = h.mem_brk ∧
      h'.mem_max_addr = h.mem_max_addr ∧
      (∀ j y, y ∈ FL' j ↔ (y ∈ FL j ∧ y ≠ b.addr) ∨
        (16 ≤ b.size - size ∧ j = bucket (b.size - size) ∧ y = b.addr + size)) ∧
      (∀ a, (a + 4 < b.addr ∨ b.addr + b.size ≤ a + 4) →
        (∀ c ∈ pre ++ [b] ++ post, c.alloc = 0 → a ≠ c.addr ∧ a ≠ c.addr + 4) →
        h'.mem a = h.mem a) := by
  have hb : b ∈ pre ++ [b] ++ post := by simp
  have hlisted := hg.listed
  have hnoadj := hg.noadj
  have hI := hg.core.inHeap hb
  obtain ⟨h1', FL1, hdel, hc1, hs1, hk1, hx1, hfl1, -⟩ :=
    delete_node_mem hg.core hb (hg.listed b hb hfree)
  have hfr1 : ∀ a, (∀ c ∈ pre ++ [b] ++ post, c.alloc = 0 → a ≠ c.addr ∧ a ≠ c.addr + 4) →
      h1'.mem a = h.mem a := by
    obtain ⟨h9, hdel9, -, -, -, -, hfr9⟩ :=
      delete_node_spec hg.core hb (hg.listed b hb hfree)
    rw [hdel] at hdel9
    cases Except.ok.inj hdel9
    exact hfr9
  have hI1 := hc1.inHeap hb
  obtain ⟨hpre, hpost, hbefore, hafter⟩ := hc1.around
  have hW : WORD = 4294967296 := rfl
  have hlo := hI1.lo; have hhi := hI1.hi; have hblt := hI1.brk_lt; have ham := hI1.addr_mod
  have hsg := hI1.size_ge; have hsm := hI1.size_mod; have hbm := hI1.base_mod
  have hHD : HDRP b.addr = b.addr - 4 := hI1.hdrp_eq
  have hfl : ∀ i, ∀ x ∈ FL1 i, ∀ c ∈ [b], c.addr ≠ x := by
    intro i x hx c hcm e
    rw [List.mem_singleton] at hcm
    subst hcm
    exact ((hfl1 i x).1 hx).2 e.symm
  have hkeep : ∀ c, c ∈ pre ∨ c ∈ post → c.alloc = 0 → c.addr ∈ FL1 (bucket c.size) := by
    intro c hcm hc0
    rw [hfl1]
    refine ⟨hlisted c ?_ hc0, ?_⟩
    · rcases hcm with hcm | hcm <;> simp [hcm]
    · rcases hcm with hcm | hcm
      · have := hbefore c hcm
        have := hc1.size_ge c (by simp [hcm])
        omega
      · have := hafter c hcm
        omega
  unfold place
  rw [hI.get_size]
  simp only [ok_bind]
  rw [hdel]
  simp only [ok_bind]
  have hrem : psub b.size size = b.size - size := psub_eq _ _ h1 (by omega)
  rw [hrem]
  by_cases hsmall : b.size - size < DSIZE * 2
  · rw [if_pos hsmall]
    rw [hHD, PACK_eq b.size 1 hsm (by omega),
      PUT_ok _ _ _ hI1.in_hdr (by omega)]
    simp only [ok_bind]
    have hH2 : HdrAt (setMem h1' (upd h1'.mem (b.addr - 4) (b.size + 1))) b.addr b.size 1 :=
      ⟨hI1.in_hdr, by omega, by omega, hsm, by omega, by simp⟩
    rw [hH2.ftrp_at]
    simp only [ok_bind]
    rw [PUT_setMem _ _ _ _ hI1.in_ftr (by omega)]
    simp only [ok_bind, pure_eq_ok]
    have hc3 := hc1.retile
      (setMem h1' (upd (upd h1'.mem (b.addr - 4) (b.size + 1)) (b.addr + b.size - 8)
        (b.size + 1)))
      [⟨b.addr, b.size, 1⟩] b.addr (b.addr + b.size) rfl rfl rfl rfl hpre hpost
      (by
        intro a ha
        simp only [setMem_mem]
        rw [upd_other _ _ _ _ (by omega), upd_other _ _ _ _ (by omega)])
      (by
        simp only [Tiled, setMem_mem]
        refine ⟨trivial, by omega, hsm, by omega, ?_, by simp, trivial⟩
        rw [upd_other _ _ _ _ (by omega), upd_same])
      (by
        intro c hcm
        rw [List.mem_singleton] at hcm
        subst hcm
        exact hsg)
      hfl
    refine ⟨_, FL1, _, rfl, ⟨hc3, ?_, ?_⟩, (if_pos hsmall).symm, hs1, hk1, hx1, ?_, ?_⟩
    · intro c hcm hc0
      simp only [List.mem_append, List.mem_singleton] at hcm
      rcases hcm with (hcm | hcm) | hcm
      · exact hkeep c (Or.inl hcm) hc0
      · subst hcm; simp at hc0
      · exact hkeep c (Or.inr hcm) hc0
    · intro x hx y hy hxy
      simp only [List.mem_append, List.mem_singleton] at hx hy
      have hin : ∀ c, c ∈ pre ∨ c ∈ post → c ∈ pre ++ [b] ++ post := by
        intro c hcm
        rcases hcm with hcm | hcm <;> simp [hcm]
      rcases hx with (hx | hx) | hx
      · rcases hy with (hy | hy) | hy
        · exact hnoadj x (hin x (Or.inl hx)) y (hin y (Or.inl hy)) hxy
        · subst hy; right; simp
        · exact hnoadj x (hin x (Or.inl hx)) y (hin y (Or.inr hy)) hxy
      · subst hx; left; simp
      · rcases hy with (hy | hy) | hy
        · exact hnoadj x (hin x (Or.inr hx)) y (hin y (Or.inl hy)) hxy
        · subst hy; right; simp
        · exact hnoadj x (hin x (Or.inr hx)) y (hin y (Or.inr hy)) hxy
    · intro j y
      rw [hfl1]
      constructor
      · exact Or.inl
      · rintro (hy | ⟨hy, -⟩)
        · exact hy
        · have hD : DSIZE * 2 = 16 := rfl
          omega
    · intro a ha hlink
      have := hsg
      simp only [setMem_mem]
      rw [upd_other _ _ _ _ (by omega), upd_other _ _ _ _ (by omega)]
      exact hfr1 a hlink
  · have hD : DSIZE * 2 = 16 := rfl
    have hR : 16 ≤ b.size - size := by omega
    have hHD2 : HDRP (b.addr + size) = b.addr + size - 4 := by
      unfold HDRP WSIZE; exact psub_eq _ _ (by omega) (by omega)
    have hin : ∀ a, h1'.mem_start_brk ≤ a → a + 4 ≤ h1'.mem_brk → a % 4 = 0 →
        inArena h1' a := fun a p q r => ⟨p, q, r⟩
    rw [if_neg hsmall, hHD, PACK_eq size 1 h2 (by omega), PUT_ok _ _ _ hI1.in_hdr (by omega)]
    simp only [ok_bind]
    have hH2 : HdrAt (setMem h1' (upd h1'.mem (b.addr - 4) (size + 1))) b.addr size 1 :=
      ⟨hI1.in_hdr, by omega, by omega, h2, by omega, by simp⟩
    rw [hH2.ftrp_at]
    simp only [ok_bind]
    rw [PUT_setMem _ _ _ _ (hin _ (by omega) (by omega) (by omega)) (by omega)]
    simp only [ok_bind]
    have hH3 : HdrAt (setMem h1' (upd (upd h1'.mem (b.addr - 4) (size + 1))
        (b.addr + size - 8) (size + 1))) b.addr size 1 :=
      ⟨hI1.in_hdr, by omega, by omega, h2, by omega, by
        simp only [setMem_mem]; rw [upd_other _ _ _ _ (by omega), upd_same]⟩
    rw [hH3.next_at]
    simp only [ok_bind]
    rw [hHD2, PACK_zero,
      PUT_setMem _ _ _ _ (hin _ (by omega) (by omega) (by omega)) (by omega)]
    simp only [ok_bind]
    have hH4 : HdrAt (setMem h1' (upd (upd (upd h1'.mem (b.addr - 4) (size + 1))
        (b.addr + size - 8) (size + 1)) (b.addr + size - 4) (b.size - size))) b.addr size 1 :=
      ⟨hI1.in_hdr, by omega, by omega, h2, by omega, by
        simp only [setMem_mem]
        rw [upd_other _ _ _ _ (by omega), upd_other _ _ _ _ (by omega), upd_same]⟩
    have hN4 : HdrAt (setMem h1' (upd (upd (upd h1'.mem (b.addr - 4) (size + 1))
        (b.addr + size - 8) (size + 1)) (b.addr + size - 4) (b.size - size)))
        (b.addr + size) (b.size - size) 0 :=
      ⟨hin _ (by omega) (by omega) (by omega), by omega, by omega, by omega, by omega, by
        simp only [setMem_mem]; rw [upd_same]; rfl⟩
    rw [hH4.next_at]
    simp only [ok_bind]
    rw [hN4.ftrp_at]
    simp only [ok_bind]
    rw [PUT_setMem _ _ _ _ (hin _ (by omega) (by omega) (by omega)) (by omega)]
    simp only [ok_bind]
    have hH5 : HdrAt (setMem h1' (upd (upd (upd (upd h1'.mem (b.addr - 4) (size + 1))
        (b.addr + size - 8) (size + 1)) (b.addr + size - 4) (b.size - size))
        (b.addr + size + (b.size - size) - 8) (b.size - size))) b.addr size 1 :=
      ⟨hI1.in_hdr, by omega, by omega, h2, by omega, by
        simp only [setMem_mem]
        rw [upd_other _ _ _ _ (by omega), upd_other _ _ _ _ (by omega),
          upd_other _ _ _ _ (by omega), upd_same]⟩
    rw [hH5.next_at]
    simp only [ok_bind]
    have hc5 := hc1.retile
      (setMem h1' (upd (upd (upd (upd h1'.mem (b.addr - 4) (size + 1))
        (b.addr + size - 8) (size + 1)) (b.addr + size - 4) (b.size - size))
        (b.addr + size + (b.size - size) - 8) (b.size - size)))
      [⟨b.addr, size, 1⟩, ⟨b.addr + size, b.size - size, 0⟩] b.addr (b.addr + b.size)
      rfl rfl rfl rfl hpre hpost
      (by
        intro a ha
        simp only [setMem_mem]
        rw [upd_other _ _ _ _ (by omega), upd_other _ _ _ _ (by omega),
          upd_other _ _ _ _ (by omega), upd_other _ _ _ _ (by omega)])
      (by
        simp only [Tiled, setMem_mem]
        refine ⟨trivial, by omega, h2, by omega, ?_, ?_, trivial, by omega, by omega,
          by omega, ?_, ?_, by omega⟩
        · rw [upd_other _ _ _ _ (by omega), upd_other _ _ _ _ (by omega),
            upd_other _ _ _ _ (by omega), upd_same]
        · rw [upd_other _ _ _ _ (by omega), upd_other _ _ _ _ (by omega), upd_same]
        · rw [upd_other _ _ _ _ (by omega), upd_same]; rfl
        · rw [upd_same]; rfl)
      (by
        intro c hcm
        simp only [List.mem_cons, List.mem_singleton, List.not_mem_nil, or_false] at hcm
        rcases hcm with rfl | rfl
        · exact h3
        · exact hR)
      hfl
    have hnot : ∀ i, (⟨b.addr + size, b.size - size, 0⟩ : Blk).addr ∉ FL1 i := by
      intro i hx
      obtain ⟨c, hc1', hc2, _⟩ := hc1.node i _ hx
      have hcs := hc1.size_ge c hc1'
      simp only [List.mem_append, List.mem_singleton] at hc1'
      simp only at hc2
      rcases hc1' with (hcm | hcm) | hcm
      · have := hbefore c hcm; omega
      · subst hcm; omega
      · have := hafter c hcm; omega
    obtain ⟨h6, FL2, hins, hc6, hs6, hk6, hx6, hfl6, hfr6⟩ :=
      insert_node_mem hc5 (b := ⟨b.addr + size, b.size - size, 0⟩) (by simp) rfl hnot
    simp only at hins
    rw [hins]
    simp only [ok_bind, pure_eq_ok]
    refine ⟨_, FL2, _, rfl, ⟨hc6, ?_, ?_⟩, (if_neg hsmall).symm, by rw [hs6]; exact hs1,
      by rw [hk6]; exact hk1, by rw [hx6]; exact hx1, ?_, ?_⟩
    · intro c hcm hc0
      rw [hfl6]
      simp only [List.mem_append, List.mem_cons, List.mem_singleton, List.not_mem_nil,
        or_false] at hcm
      rcases hcm with (hcm | hcm | hcm) | hcm
      · exact Or.inl (hkeep c (Or.inl hcm) hc0)
      · subst hcm; simp at hc0
      · subst hcm; exact Or.inr ⟨rfl, rfl⟩
      · exact Or.inl (hkeep c (Or.inr hcm) hc0)
    · intro x hx y hy hxy
      simp only [List.mem_append, List.mem_cons, List.mem_singleton, List.not_mem_nil,
        or_false] at hx hy
      have hin' : ∀ c, c ∈ pre ∨ c ∈ post → c ∈ pre ++ [b] ++ post := by
        intro c hcm
        rcases hcm with hcm | hcm <;> simp [hcm]
      have hold : ∀ x y, x ∈ pre ∨ x ∈ post → y ∈ pre ∨ y ∈ post →
          x.addr + x.size = y.addr → x.alloc ≠ 0 ∨ y.alloc ≠ 0 :=
        fun x y hx hy hxy => hnoadj x (hin' x hx) y (hin' y hy) hxy
      have hppre : ∀ c, c ∈ pre → c.addr + c.size ≤ b.addr ∧ 16 ≤ c.size :=
        fun c hcm => ⟨hbefore c hcm, hc1.size_ge c (hin' c (Or.inl hcm))⟩
      have hppost : ∀ c, c ∈ post → b.addr + b.size ≤ c.addr ∧ 16 ≤ c.size :=
        fun c hcm => ⟨hafter c hcm, hc1.size_ge c (hin' c (Or.inr hcm))⟩
      have hx' : x ∈ pre ∨ x ∈ post ∨ x = ⟨b.addr, size, 1⟩ ∨
          x = ⟨b.addr + size, b.size - size, 0⟩ := by
        rcases hx with (hx | hx | hx) | hx
        · exact Or.inl hx
        · exact Or.inr (Or.inr (Or.inl hx))
        · exact Or.inr (Or.inr (Or.inr hx))
        · exact Or.inr (Or.inl hx)
      have hy' : y ∈ pre ∨ y ∈ post ∨ y = ⟨b.addr, size, 1⟩ ∨
          y = ⟨b.addr + size, b.size - size, 0⟩ := by
        rcases hy with (hy | hy | hy) | hy
        · exact Or.inl hy
        · exact Or.inr (Or.inr (Or.inl hy))
        · exact Or.inr (Or.inr (Or.inr hy))
        · exact Or.inr (Or.inl hy)
      rcases hx' with hx | hx | hx | hx
      · rcases hy' with hy | hy | hy | hy
        · exact hold x y (Or.inl hx) (Or.inl hy) hxy
        · exact hold x y (Or.inl hx) (Or.inr hy) hxy
        · subst hy; right; simp
        · subst hy
          have := hppre x hx
          simp only at hxy
          omega
      · rcases hy' with hy | hy | hy | hy
        · exact hold x y (Or.inr hx) (Or.inl hy) hxy
        · exact hold x y (Or.inr hx) (Or.inr hy) hxy
        · subst hy; right; simp
        · subst hy
          have := hppost x hx
          simp only at hxy
          omega
      · subst hx; left; simp
      · subst hx
        simp only at hxy
        rcases hy' with hy | hy | hy | hy
        · have := hppre y hy; omega
        · have hb' : b ∈ pre ++ [b] ++ post := by simp
          have := hnoadj b hb' y (hin' y (Or.inr hy)) (by omega)
          rcases this with h9 | h9
          · exact absurd hfree h9
          · exact Or.inr h9
        · subst hy; right; simp
        · subst hy; simp only at hxy; omega
    · intro j y
      rw [hfl6, hfl1]
      constructor
      · rintro (hy | ⟨hy1, hy2⟩)
        · exact Or.inl hy
        · exact Or.inr ⟨hR, hy1, hy2⟩
      · rintro (hy | ⟨-, hy1, hy2⟩)
        · exact Or.inl hy
        · exact Or.inr ⟨hy1, hy2⟩
    · intro a ha hlink
      have hfr9 : h6.mem a = (setMem h1' (upd (upd (upd (upd h1'.mem (b.addr - 4) (size + 1))
          (b.addr + size - 8) (size + 1)) (b.addr + size - 4) (b.size - size))
          (b.addr + size + (b.size - size) - 8) (b.size - size))).mem a := by
        obtain ⟨h9, l1, l2, hins9, -, -, -, -, -, hfr9⟩ :=
          insert_node_spec hc5 (b := ⟨b.addr + size, b.size - size, 0⟩) (by simp) rfl hnot
        simp only at hins9
        rw [hins] at hins9
        cases Except.ok.inj hins9
        refine hfr9 a ?_
        intro c hcm hc0
        simp only [List.mem_append, List.mem_cons, List.mem_singleton, List.not_mem_nil,
          or_false] at hcm
        rcases hcm with (hcm | hcm | hcm) | hcm
        · exact hlink c (by simp [hcm]) hc0
        · subst hcm; simp at hc0
        · subst hcm
          simp only
          omega
        · exact hlink c (by simp [hcm]) hc0
      rw [hfr9]
      simp only [setMem_mem]
      rw [upd_other _ _ _ _ (by omega), upd_other _ _ _ _ (by omega),
        upd_other _ _ _ _ (by omega), upd_other _ _ _ _ (by omega)]
      exact hfr1 a hlink

/-- Function `place` on a free block of the index that is large enough. -/
theorem place_spec {h : Heap} {bs : List Blk} {FL : Nat → List Nat} (hg : Good h bs FL)
    {b : Blk} (hb : b ∈ bs) (hfree : b.alloc = 0) (size : Nat)
    (h1 : size ≤ b.size) (h2 : size % 8 = 0) (h3 : 16 ≤ size) :
    ∃ h' bs' FL' sz, place h b.addr size = Except.ok (b.addr, h') ∧ Good h' bs' FL' ∧
      h'.mem_start_brk = h.mem_start_brk ∧ h'.mem_brk = h.mem_brk ∧
      h'.mem_max_addr = h.mem_max_addr ∧ size ≤ sz ∧ (⟨b.addr, sz, 1⟩ : Blk) ∈ bs' ∧
      (∀ c : Blk, c.alloc = 1 → (c ∈ bs' ↔ c ∈ bs ∨ c = ⟨b.addr, sz, 1⟩)) ∧
      (∀ a, Payload bs a → h'.mem a = h.mem a) ∧
      sz = (if b.size - size < DSIZE * 2 then b.size else size) := by
  obtain ⟨pre, post, rfl⟩ := List.append_of_mem hb
  rw [mid_eq] at hg hb ⊢
  obtain ⟨h', FL', mid, hrun, hg', hmid, hs, hk, hx, -, hfr⟩ :=
    place_exact hg hfree size h1 h2 h3
  have hI := hg.core.inHeap hb
  have hsg := hI.size_ge
  have hfrP : ∀ a, Payload (pre ++ [b] ++ post) a → h'.mem a = h.mem a := by
    intro a ha
    have := hg.core.payload_out ha hb hfree
    exact hfr a (by omega) (hg.core.payload_link ha)
  by_cases hsmall : b.size - size < DSIZE * 2
  · rw [if_pos hsmall] at hmid
    subst hmid
    refine ⟨h', _, FL', b.size, hrun, hg', hs, hk, hx, h1, by simp, ?_, hfrP,
      (if_pos hsmall).symm⟩
    intro c hc1'
    simp only [List.mem_append, List.mem_singleton]
    constructor
    · rintro ((hcm | hcm) | hcm)
      · exact Or.inl (Or.inl (Or.inl hcm))
      · exact Or.inr hcm
      · exact Or.inl (Or.inr hcm)
    · rintro (((hcm | hcm) | hcm) | hcm)
      · exact Or.inl (Or.inl hcm)
      · subst hcm; rw [hfree] at hc1'; simp at hc1'
      · exact Or.inr hcm
      · exact Or.inl (Or.inr hcm)
  · rw [if_neg hsmall] at hmid
    subst hmid
    refine ⟨h', _, FL', size, hrun, hg', hs, hk, hx, le_refl _, by simp, ?_, hfrP,
      (if_neg hsmall).symm⟩
    intro c hc1'
    simp only [List.mem_append, List.mem_cons, List.mem_singleton, List.not_mem_nil,
      or_false]
    constructor
    · rintro ((hcm | hcm | hcm) | hcm)
      · exact Or.inl (Or.inl (Or.inl hcm))
      · exact Or.inr hcm
      · subst hcm; simp at hc1'
      · exact Or.inl (Or.inr hcm)
    · rintro (((hcm | hcm) | hcm) | hcm)
      · exact Or.inl (Or.inl hcm)
      · subst hcm; rw [hfree] at hc1'; simp at hc1'
      · exact Or.inr hcm
      · exact Or.inl (Or.inr (Or.inl hcm))

theorem nil_or_snoc_blk (l : List Blk) : l = [] ∨ ∃ l' w, l = l' ++ [w] := by
  rcases List.eq_nil_or_concat l with h | ⟨l', w, h⟩
  · exact Or.inl h
  · exact Or.inr ⟨l', w, by rw [h, List.concat_eq_append]⟩

/-- What `coalesce` reads about the block before `b`. -/
theorem prev_info {h : Heap} {pre post : List Blk} {b : Blk} {FL : Nat → List Nat}
    (hc : Core h (pre ++ [b] ++ post) FL) :
    ∃ pv pa, PREV_BLK_PTR h b.addr = Except.ok pv ∧ GET_ALLOC h (HDRP pv) = Except.ok pa ∧
      ((pa ≠ 0 ∧ ∀ x ∈ pre ++ [b] ++ post, x.addr + x.size = b.addr → x.alloc ≠ 0) ∨
       (pa = 0 ∧ ∃ pre' c, pre = pre' ++ [c] ∧ c.alloc = 0 ∧ pv = c.addr)) := by
  have hW : WORD = 4294967296 := rfl
  obtain ⟨hpre, hpost, hbefore, hafter⟩ := hc.around
  have hI := hc.inHeap (b := b) (by simp)
  have hlo := hI.lo; have hhi := hI.hi; have hblt := hI.brk_lt; have ham := hI.addr_mod
  have hsg := hI.size_ge; have hbm := hI.base_mod
  rcases nil_or_snoc_blk pre with rfl | ⟨pre', c, rfl⟩
  · obtain ⟨_, _, _, _, h5, h6, h7⟩ := hpre
    have h8 : h.mem_start_brk + 8 + (pro h.mem_start_brk).size = b.addr := h7
    simp only [pro] at h5 h6 h8
    have hpv : PREV_BLK_PTR h b.addr = Except.ok (h.mem_start_brk + 8) := by
      rw [PREV_eq h b.addr 8 1 ⟨by omega, by unfold WSIZE; omega, by unfold WSIZE; omega⟩
        (by omega) (by omega) (by omega) (by omega) (by omega)
        (by rw [← h8]; simpa using h6)]
      congr 1; omega
    have hH : HdrAt h (h.mem_start_brk + 8) 8 1 :=
      ⟨⟨by omega, by unfold WSIZE; omega, by unfold WSIZE; omega⟩, by omega, by omega,
        by omega, by omega, by simpa using h5⟩
    refine ⟨_, 1, hpv, hH.alloc_at, Or.inl ⟨by omega, ?_⟩⟩
    intro x hx hxe
    have hxI := hc.inHeap hx
    have := hxI.lo; have := hxI.size_ge
    omega
  · have hcm : c ∈ pre' ++ [c] ++ [b] ++ post := by simp
    have hcI := hc.inHeap hcm
    have hlast := @Tiled_last _ (pro h.mem_start_brk :: pre') c _ _ hpre
    have hce := hlast.1
    have hcf := hcI.ftr
    have := hcI.lo; have := hcI.size_ge; have := hcI.size_mod; have := hcI.alloc_le
    have hpv : PREV_BLK_PTR h b.addr = Except.ok c.addr := by
      rw [PREV_eq h b.addr c.size c.alloc
        ⟨by omega, by unfold WSIZE; omega, by unfold WSIZE; omega⟩
        (by omega) (by omega) (by omega) (by omega) (by omega)
        (by rw [← hcf]; congr 1; omega)]
      congr 1; omega
    refine ⟨_, c.alloc, hpv, hcI.get_alloc, ?_⟩
    by_cases hca : c.alloc = 0
    · exact Or.inr ⟨hca, pre', c, rfl, hca, rfl⟩
    · refine Or.inl ⟨hca, ?_⟩
      intro x hx hxe
      rcases hc.apart hx hcm with e | e | e
      · rw [e]; exact hca
      · have := (hc.inHeap hx).size_ge; omega
      · have := (hc.inHeap hx).size_ge; omega

/-- What `coalesce` reads about the block after `b`. -/
theorem next_info {h : Heap} {pre post : List Blk} {b : Blk} {FL : Nat → List Nat}
    (hc : Core h (pre ++ [b] ++ post) FL) :
    ∃ na, GET_ALLOC h (HDRP (b.addr + b.size)) = Except.ok na ∧
      ((na ≠ 0 ∧ ∀ y ∈ pre ++ [b] ++ post, y.addr = b.addr + b.size → y.alloc ≠ 0) ∨
       (na = 0 ∧ ∃ d post', post = d :: post' ∧ d.alloc = 0 ∧ d.addr = b.addr + b.size)) := by
  have hW : WORD = 4294967296 := rfl
  obtain ⟨hpre, hpost, hbefore, hafter⟩ := hc.around
  have hI := hc.inHeap (b := b) (by simp)
  have hlo := hI.lo; have hhi := hI.hi; have hblt := hI.brk_lt; have ham := hI.addr_mod
  have hsg := hI.size_ge; have hbm := hI.base_mod; have hsm := hI.size_mod
  rcases post with _ | ⟨d, post'⟩
  · have he : b.addr + b.size = h.mem_brk := hpost
    have hH : HdrAt h (b.addr + b.size) 0 1 :=
      ⟨⟨by omega, by unfold WSIZE; omega, by unfold WSIZE; omega⟩, by omega, by omega,
        by omega, by omega, by rw [he, hc.epi]⟩
    refine ⟨1, hH.alloc_at, Or.inl ⟨by omega, ?_⟩⟩
    intro y hy hye
    have hyI := hc.inHeap hy
    have := hyI.hi; have := hyI.size_ge
    omega
  · have hdm : d ∈ pre ++ [b] ++ d :: post' := by simp
    have hdI := hc.inHeap hdm
    have hda : d.addr = b.addr + b.size := hpost.1
    refine ⟨d.alloc, by rw [← hda]; exact hdI.get_alloc, ?_⟩
    by_cases hdz : d.alloc = 0
    · exact Or.inr ⟨hdz, d, post', rfl, hdz, hda⟩
    · refine Or.inl ⟨hdz, ?_⟩
      intro y hy hye
      have := hc.unique hy hdm (by omega)
      rw [this]; exact hdz

/-- The words that `delete_node` leaves as they are: all but link words of free blocks. -/
theorem delete_node_frame {h h' : Heap} {bs : List Blk} {FL : Nat → List Nat}
    (hc : Core h bs FL) {b : Blk} (hb : b ∈ bs) (hx : b.addr ∈ FL (bucket b.size))
    (hrun : delete_node h b.addr = Except.ok h') (a : Nat)
    (ha : ∀ c ∈ bs, c.alloc = 0 → a ≠ c.addr ∧ a ≠ c.addr + 4) : h'.mem a = h.mem a := by
  obtain ⟨h9, hdel9, -, -, -, -, hfr9⟩ := delete_node_spec hc hb hx
  rw [hrun] at hdel9
  cases Except.ok.inj hdel9
  exact hfr9 a ha

/-- The words that `insert_node` leaves as they are: all but link words of free blocks. -/
theorem insert_node_frame {h h' : Heap} {bs : List Blk} {FL : Nat → List Nat}
    (hc : Core h bs FL) {b : Blk} (hb : b ∈ bs) (hfree : b.alloc = 0)
    (hnot : ∀ i, b.addr ∉ FL i) (hrun : insert_node h b.addr = Except.ok h') (a : Nat)
    (ha : ∀ c ∈ bs, c.alloc = 0 → a ≠ c.addr ∧ a ≠ c.addr + 4) : h'.mem a = h.mem a := by
  obtain ⟨h9, l1, l2, hins9, -, -, -, -, -, hfr9⟩ := insert_node_spec hc hb hfree hnot
  rw [hrun] at hins9
  cases Except.ok.inj hins9
  exact hfr9 a ha

/-- Last step of a merge: the tags of the merged block are written, none of the merged blocks
is in the index any more, and `insert_node` enters the merged block. -/
theorem merge_finish {hk : Heap} {pre mid post : List Blk} {FLk : Nat → List Nat}
    (hck : Core hk (pre ++ mid ++ post) FLk) (s e : Nat)
    (hpre : Tiled hk.mem (hk.mem_start_brk + 8) (pro hk.mem_start_brk :: pre) s)
    (hmid : Tiled hk.mem s mid e)
    (hpost : Tiled hk.mem e post hk.mem_brk)
    (hse : s + 16 ≤ e)
    (hmf : ∀ c ∈ mid, c.alloc = 0)
    (hdel : ∀ i, ∀ x ∈ FLk i, ∀ c ∈ mid, c.addr ≠ x)
    (hkeep : ∀ c, c ∈ pre ∨ c ∈ post → c.alloc = 0 → c.addr ∈ FLk (bucket c.size))
    (hna : ∀ x y, x ∈ pre ∨ x ∈ post → y ∈ pre ∨ y ∈ post → x.addr + x.size = y.addr →
      x.alloc ≠ 0 ∨ y.alloc ≠ 0)
    (hnp : ∀ x ∈ pre, x.addr + x.size = s → x.alloc ≠ 0)
    (hnn : ∀ y ∈ post, y.addr = e → y.alloc ≠ 0)
    (m' : Nat → Nat) (hm1 : m' (s - 4) = e - s) (hm2 : m' (e - 8) = e - s)
    (hm3 : ∀ a, a + 4 < s ∨ e ≤ a + 4 → m' a = hk.mem a) :
    ∃ h'' FL', insert_node (setMem hk m') s = Except.ok h'' ∧
      Good h'' (pre ++ [⟨s, e - s, 0⟩] ++ post) FL' ∧
      h''.mem_start_brk = hk.mem_start_brk ∧ h''.mem_brk = hk.mem_brk ∧
      h''.mem_max_addr = hk.mem_max_addr ∧
      (∀ c : Blk, c.alloc = 1 → (c ∈ pre ++ [⟨s, e - s, 0⟩] ++ post ↔ c ∈ pre ++ mid ++ post)) ∧
      (∀ a, Payload (pre ++ mid ++ post) a → h''.mem a = hk.mem a) ∧
      (∀ a, a ≠ s → a ≠ s + 4 →
        (∀ c, c ∈ pre ∨ c ∈ post → c.alloc = 0 → a ≠ c.addr ∧ a ≠ c.addr + 4) →
        h''.mem a = m' a) := by
  have hs8 := (Tiled_addr_mod hpre (by have := hck.base_mod; omega)).1
  have he8 := (Tiled_addr_mod hmid hs8).1
  have hs16 : hk.mem_start_brk + 16 ≤ s := by
    have := Tiled_le hpre
    obtain ⟨_, _, _, _, _, _, h7⟩ := hpre
    have := Tiled_le h7
    simp only [pro] at this
    omega
  have hbefore : ∀ c ∈ pre, c.addr + c.size ≤ s ∧ 16 ≤ c.size := fun c hcm =>
    ⟨(Tiled_mem hpre (List.mem_cons_of_mem _ hcm)).hi, hck.size_ge c (by simp [hcm])⟩
  have hafter : ∀ c ∈ post, e ≤ c.addr ∧ 16 ≤ c.size := fun c hcm =>
    ⟨(Tiled_mem hpost hcm).lo, hck.size_ge c (by simp [hcm])⟩
  have hc1 := hck.retile (setMem hk m') [⟨s, e - s, 0⟩] s e rfl rfl rfl rfl hpre hpost hm3
    (by
      simp only [Tiled, setMem_mem]
      refine ⟨trivial, by omega, by omega, by omega, by rw [hm1]; rfl, ?_, by omega⟩
      have : s + (e - s) - 8 = e - 8 := by omega
      rw [this, hm2]; rfl)
    (by
      intro c hcm
      rw [List.mem_singleton] at hcm
      subst hcm
      simp only
      omega)
    hdel
  have hnot : ∀ i, (⟨s, e - s, 0⟩ : Blk).addr ∉ FLk i := by
    intro i hx
    obtain ⟨c, hc1', hc2, _⟩ := hck.node i _ hx
    simp only [List.mem_append] at hc1'
    simp only at hc2
    rcases hc1' with (hcm | hcm) | hcm
    · have := hbefore c hcm; omega
    · exact hdel i _ hx c hcm hc2
    · have := hafter c hcm; omega
  obtain ⟨h6, FL2, hins, hc6, hs6, hk6, hx6, hfl6, hfr6⟩ :=
    insert_node_mem hc1 (b := ⟨s, e - s, 0⟩) (by simp) rfl hnot
  refine ⟨h6, FL2, hins, ⟨hc6, ?_, ?_⟩, hs6, hk6, hx6, ?_, ?_, ?_⟩
  · intro c hcm hc0
    rw [hfl6]
    simp only [List.mem_append, List.mem_singleton] at hcm
    rcases hcm with (hcm | hcm) | hcm
    · exact Or.inl (hkeep c (Or.inl hcm) hc0)
    · subst hcm; exact Or.inr ⟨rfl, rfl⟩
    · exact Or.inl (hkeep c (Or.inr hcm) hc0)
  · intro x hx y hy hxy
    simp only [List.mem_append, List.mem_singleton] at hx hy
    rcases hx with (hx | hx) | hx
    · rcases hy with (hy | hy) | hy
      · exact hna x y (Or.inl hx) (Or.inl hy) hxy
      · subst hy; exact Or.inl (hnp x hx hxy)
      · exact hna x y (Or.inl hx) (Or.inr hy) hxy
    · subst hx
      simp only at hxy
      rcases hy with (hy | hy) | hy
      · have := hbefore y hy; omega
      · subst hy; simp only at hxy; omega
      · exact Or.inr (hnn y hy (by omega))
    · rcases hy with (hy | hy) | hy
      · exact hna x y (Or.inr hx) (Or.inl hy) hxy
      · subst hy
        have := hafter x hx
        simp only at hxy
        omega
      · exact hna x y (Or.inr hx) (Or.inr hy) hxy
  · intro c hc1'
    simp only [List.mem_append, List.mem_singleton]
    constructor
    · rintro ((hcm | hcm) | hcm)
      · exact Or.inl (Or.inl hcm)
      · subst hcm; simp at hc1'
      · exact Or.inr hcm
    · rintro ((hcm | hcm) | hcm)
      · exact Or.inl (Or.inl hcm)
      · have := hmf c hcm; omega
      · exact Or.inr hcm
  · intro a ha
    obtain ⟨c, hcm, hc1', hc2, hc3⟩ := ha
    simp only [List.mem_append] at hcm
    have hpos : (c ∈ pre ∨ c ∈ post) ∧ (a + 8 < s ∨ e ≤ a) := by
      rcases hcm with (hcm | hcm) | hcm
      · have := hbefore c hcm
        exact ⟨Or.inl hcm, by omega⟩
      · have := hmf c hcm; omega
      · have := hafter c hcm
        exact ⟨Or.inr hcm, by omega⟩
    have ha6 : Payload (pre ++ [⟨s, e - s, 0⟩] ++ post) a := by
      refine ⟨c, ?_, hc1', hc2, hc3⟩
      rcases hpos.1 with hcm' | hcm' <;> simp [hcm']
    rw [hfr6 a ha6]
    simp only [setMem_mem]
    exact hm3 a (by omega)
  · intro a ha1 ha2 hlink
    refine insert_node_frame hc1 (b := ⟨s, e - s, 0⟩) (by simp) rfl hnot hins a ?_
    intro c hcm hc0
    simp only [List.mem_append, List.mem_singleton] at hcm
    rcases hcm with (hcm | hcm) | hcm
    · exact hlink c (Or.inl hcm) hc0
    · subst hcm; exact ⟨ha1, ha2⟩
    · exact hlink c (Or.inr hcm) hc0

theorem PREV_eq2 (h : Heap) (p q s a : Nat) (hin : inArena h (p - 8)) (hq : q + s = p)
    (hq8 : 8 ≤ q) (hlt : p < WORD) (hs : s % 8 = 0) (ha : a ≤ 1)
    (hm : h.mem (p - 8) = s + a) : PREV_BLK_PTR h p = Except.ok q := by
  rw [PREV_eq h p s a hin (by omega) hlt hs ha (by omega) hm]
  congr 1; omega

theorem list3 (pre' post : List Blk) (c b : Blk) :
    pre' ++ [c] ++ [b] ++ post = pre' ++ [c, b] ++ post := by simp

theorem list3' (pre post' : List Blk) (b d : Blk) :
    pre ++ [b] ++ d :: post' = pre ++ [b, d] ++ post' := by simp

theorem list4 (pre' post' : List Blk) (c b d : Blk) :
    pre' ++ [c] ++ [b] ++ d :: post' = pre' ++ [c, b, d] ++ post' := by simp

/-- The block before `b` as `PREV_BLK_PTR` finds it. -/
theorem prev_read {h : Heap} {pre' post : List Blk} {c b : Blk} {FL : Nat → List Nat}
    (hc : Core h (pre' ++ [c] ++ [b] ++ post) FL) :
    PREV_BLK_PTR h b.addr = Except.ok c.addr ∧ c.addr + c.size = b.addr := by
  have hW : WORD = 4294967296 := rfl
  obtain ⟨hpre, -, -, -⟩ := hc.around
  have hI := hc.inHeap (b := b) (by simp)
  have hcI := hc.inHeap (b := c) (by simp)
  have hlast := @Tiled_last _ (pro h.mem_start_brk :: pre') c _ _ hpre
  have hce := hlast.1
  have hcf := hcI.ftr
  have := hcI.lo; have := hcI.size_ge; have := hcI.size_mod; have := hcI.alloc_le
  have := hI.hi; have := hI.brk_lt; have := hI.addr_mod; have := hI.base_mod
  refine ⟨PREV_eq2 h b.addr c.addr c.size c.alloc
    ⟨by omega, by unfold WSIZE; omega, by unfold WSIZE; omega⟩ hce (by omega) (by omega)
    (by omega) (by omega) (by rw [← hcf]; congr 1; omega), hce⟩

/-- Second case of `coalesce`: the block after `b` is free, the block before it is not. -/
theorem coalesce_next_spec {h : Heap} {pre post' : List Blk} {b d : Blk}
    {FL : Nat → List Nat}
    (hc : Core h (pre ++ [b] ++ d :: post') FL)
    (hl : ∀ z ∈ pre ++ [b] ++ d :: post', z.alloc = 0 → z.addr ∈ FL (bucket z.size))
    (hfree : b.alloc = 0)
    (hn : ∀ x ∈ pre ++ [b] ++ d :: post', ∀ y ∈ pre ++ [b] ++ d :: post',
      x.addr + x.size = y.addr → x.alloc ≠ 0 ∨ y.alloc ≠ 0 ∨ x = b ∨ y = b)
    (hpall : ∀ x ∈ pre ++ [b] ++ d :: post', x.addr + x.size = b.addr → x.alloc ≠ 0)
    (hdfree : d.alloc = 0) (hda : d.addr = b.addr + b.size) :
    ∃ h' bs' FL' r, coalesce_next h b.addr b.size = Except.ok (r.addr, h') ∧ Good h' bs' FL' ∧
      h'.mem_start_brk = h.mem_start_brk ∧ h'.mem_brk = h.mem_brk ∧
      h'.mem_max_addr = h.mem_max_addr ∧ r ∈ bs' ∧ r.alloc = 0 ∧ r.addr ≤ b.addr ∧
      b.addr + b.size ≤ r.addr + r.size ∧
      (∀ z : Blk, z.alloc = 1 → (z ∈ bs' ↔ z ∈ pre ++ [b] ++ d :: post')) ∧
      (∀ a, Payload (pre ++ [b] ++ d :: post') a → h'.mem a = h.mem a) ∧
      (∀ a, (∀ z ∈ pre ++ [b] ++ d :: post', z.alloc = 0 → a ≠ z.addr - 4 ∧ a ≠ z.addr ∧
        a ≠ z.addr + 4 ∧ a ≠ z.addr + z.size - 8) → h'.mem a = h.mem a) := by
  have hW : WORD = 4294967296 := rfl
  have hb : b ∈ pre ++ [b] ++ d :: post' := by simp
  have hI := hc.inHeap hb
  obtain ⟨hpre, hpost, hbefore, hafter⟩ := hc.around
  have hlo := hI.lo; have hhi := hI.hi; have hblt := hI.brk_lt; have ham := hI.addr_mod
  have hsg := hI.size_ge; have hsm := hI.size_mod; have hbm := hI.base_mod
  have hdm : d ∈ pre ++ [b] ++ d :: post' := by simp
  have hdI := hc.inHeap hdm
  have hds := hdI.size_ge; have hdmod := hdI.size_mod; have hdhi := hdI.hi
  obtain ⟨h1, FL1, hdel1, hc1, hs1, hk1, hx1, hfl1, hfr1⟩ :=
    delete_node_mem hc hb (hl b hb hfree)
  have hd1 : d.addr ∈ FL1 (bucket d.size) := (hfl1 _ _).2 ⟨hl d hdm hdfree, by omega⟩
  obtain ⟨h2, FL2, hdel2, hc2, hs2, hk2, hx2, hfl2, hfr2⟩ := delete_node_mem hc1 hdm hd1
  have hI1 := hc1.inHeap hb
  have hI2 := hc2.inHeap hb
  have hdI2 := hc2.inHeap hdm
  have hhi2 := hdI2.hi; have hlo2 := hI2.lo; have hblt2 := hI2.brk_lt
  unfold coalesce_next
  rw [hdel1]
  simp only [ok_bind]
  rw [hI1.next_eq]
  simp only [ok_bind]
  rw [← hda, hdel2]
  simp only [ok_bind]
  rw [hI2.next_eq]
  simp only [ok_bind]
  rw [← hda, hdI2.get_size]
  simp only [ok_bind]
  rw [padd_eq _ _ (by omega), hI2.hdrp_eq, PACK_zero, PUT_ok _ _ _ hI2.in_hdr (by omega)]
  simp only [ok_bind]
  have hH3 : HdrAt (setMem h2 (upd h2.mem (b.addr - 4) (b.size + d.size))) b.addr
      (b.size + d.size) 0 :=
    ⟨hI2.in_hdr, by omega, by omega, by omega, by omega, by simp⟩
  rw [hH3.ftrp_at]
  simp only [ok_bind]
  rw [PUT_setMem _ _ _ _ ⟨by omega, by unfold WSIZE; omega, by unfold WSIZE; omega⟩
    (by omega)]
  simp only [ok_bind]
  rw [list3'] at hc2
  obtain ⟨s, e, hpre2, hmid2, hpost2⟩ := hc2.split3
  have hmid2' := hmid2
  obtain ⟨e1, -, -, -, -, -, e2, -, -, -, -, -, e3⟩ := hmid2'
  have e3' : s + b.size + d.size = e := e3
  subst e1
  subst e3'
  have hin' : ∀ c, c ∈ pre ∨ c ∈ post' → c ∈ pre ++ [b] ++ d :: post' := by
    intro c hcm
    rcases hcm with hcm | hcm <;> simp [hcm]
  have hpos : ∀ c, c ∈ pre ∨ c ∈ post' →
      (c.addr + c.size ≤ b.addr ∨ d.addr + d.size ≤ c.addr) ∧ 16 ≤ c.size := by
    intro c hcm
    refine ⟨?_, hc.size_ge c (hin' c hcm)⟩
    rcases hcm with hcm | hcm
    · exact Or.inl (hbefore c hcm)
    · right
      have := (Tiled_mem hpost2 hcm).lo
      omega
  obtain ⟨h6, FL', hins, hg, hs6, hk6, hx6, hiff, hfr6, hfrS6⟩ := merge_finish hc2 b.addr
    (b.addr + b.size + d.size) hpre2 hmid2 hpost2 (by omega)
    (by
      intro c hcm
      simp only [List.mem_cons, List.mem_singleton, List.not_mem_nil, or_false] at hcm
      rcases hcm with rfl | rfl
      · exact hfree
      · exact hdfree)
    (by
      intro i x hx c hcm
      have h5 := (hfl2 i x).1 hx
      have h6 := (hfl1 i x).1 h5.1
      simp only [List.mem_cons, List.mem_singleton, List.not_mem_nil, or_false] at hcm
      rcases hcm with rfl | rfl
      · exact fun e => h6.2 e.symm
      · exact fun e => h5.2 e.symm)
    (by
      intro c hcm hc0
      have := hpos c hcm
      rw [hfl2, hfl1]
      exact ⟨⟨hl c (hin' c hcm) hc0, by omega⟩, by omega⟩)
    (by
      intro x y hx hy hxy
      have := hpos x hx
      have := hpos y hy
      rcases hn x (hin' x hx) y (hin' y hy) hxy with h9 | h9 | h9 | h9
      · exact Or.inl h9
      · exact Or.inr h9
      · subst h9; omega
      · subst h9; omega)
    (fun x hx hxe => hpall x (hin' x (Or.inl hx)) hxe)
    (by
      intro y hy hye
      have := hpos y (Or.inr hy)
      rcases hn d hdm y (hin' y (Or.inr hy)) (by omega) with h9 | h9 | h9 | h9
      · exact absurd hdfree h9
      · exact h9
      · rw [h9] at hda; omega
      · subst h9; omega)
    (upd (upd h2.mem (b.addr - 4) (b.size + d.size)) (b.addr + (b.size + d.size) - 8)
      (b.size + d.size))
    (by rw [upd_other _ _ _ _ (by omega), upd_same]; omega)
    (by
      have : b.addr + b.size + d.size - 8 = b.addr + (b.size + d.size) - 8 := by omega
      rw [this, upd_same]; omega)
    (by
      intro a ha
      rw [upd_other _ _ _ _ (by omega), upd_other _ _ _ _ (by omega)])
  rw [hins]
  simp only [ok_bind, pure_eq_ok]
  refine ⟨h6, _, FL', ⟨b.addr, b.addr + b.size + d.size - b.addr, 0⟩, rfl, hg,
    by rw [hs6, hs2, hs1], by rw [hk6, hk2, hk1], by rw [hx6, hx2, hx1], by simp, rfl,
    le_refl _, by simp only; omega, ?_, ?_, ?_⟩
  · intro c hc1'
    rw [hiff c hc1', list3']
  · intro a ha
    rw [hfr6 a (by rw [← list3']; exact ha), hfr2 a ha, hfr1 a ha]
  · intro a ha
    have hlink : ∀ x ∈ pre ++ [b] ++ d :: post', x.alloc = 0 →
        a ≠ x.addr ∧ a ≠ x.addr + 4 :=
      fun x hx hx0 => ⟨(ha x hx hx0).2.1, (ha x hx hx0).2.2.1⟩
    have hab := ha b hb hfree
    have had := ha d hdm hdfree
    rw [hfrS6 a hab.2.1 hab.2.2.1 (fun x hx hx0 => hlink x (hin' x hx) hx0),
      upd_other _ _ _ _ (by omega), upd_other _ _ _ _ (by omega),
      delete_node_frame hc1 hdm hd1 hdel2 a hlink,
      delete_node_frame hc hb (hl b hb hfree) hdel1 a hlink]

/-- Third case of `coalesce`: the block before `b` is free, the block after it is not. -/
theorem coalesce_prev_spec {h : Heap} {pre' post : List Blk} {c b : Blk}
    {FL : Nat → List Nat}
    (hc : Core h (pre' ++ [c] ++ [b] ++ post) FL)
    (hl : ∀ z ∈ pre' ++ [c] ++ [b] ++ post, z.alloc = 0 → z.addr ∈ FL (bucket z.size))
    (hfree : b.alloc = 0)
    (hn : ∀ x ∈ pre' ++ [c] ++ [b] ++ post, ∀ y ∈ pre' ++ [c] ++ [b] ++ post,
      x.addr + x.size = y.addr → x.alloc ≠ 0 ∨ y.alloc ≠ 0 ∨ x = b ∨ y = b)
    (hcfree : c.alloc = 0)
    (hnall : ∀ y ∈ pre' ++ [c] ++ [b] ++ post, y.addr = b.addr + b.size → y.alloc ≠ 0) :
    ∃ h' bs' FL' r, coalesce_prev h b.addr b.size = Except.ok (r.addr, h') ∧ Good h' bs' FL' ∧
      h'.mem_start_brk = h.mem_start_brk ∧ h'.mem_brk = h.mem_brk ∧
      h'.mem_max_addr = h.mem_max_addr ∧ r ∈ bs' ∧ r.alloc = 0 ∧ r.addr ≤ b.addr ∧
      b.addr + b.size ≤ r.addr + r.size ∧
      (∀ z : Blk, z.alloc = 1 → (z ∈ bs' ↔ z ∈ pre' ++ [c] ++ [b] ++ post)) ∧
      (∀ a, Payload (pre' ++ [c] ++ [b] ++ post) a → h'.mem a = h.mem a) ∧
      (∀ a, (∀ z ∈ pre' ++ [c] ++ [b] ++ post, z.alloc = 0 → a ≠ z.addr - 4 ∧ a ≠ z.addr ∧
        a ≠ z.addr + 4 ∧ a ≠ z.addr + z.size - 8) → h'.mem a = h.mem a) := by
  have hW : WORD = 4294967296 := rfl
  have hb : b ∈ pre' ++ [c] ++ [b] ++ post := by simp
  have hI := hc.inHeap hb
  obtain ⟨hpre, hpost, hbefore, hafter⟩ := hc.around
  have hlo := hI.lo; have hhi := hI.hi; have hblt := hI.brk_lt; have ham := hI.addr_mod
  have hsg := hI.size_ge; have hsm := hI.size_mod; have hbm := hI.base_mod
  have hpv := (prev_read hc).1
  have hcm : c ∈ pre' ++ [c] ++ [b] ++ post := by simp
  have hcI := hc.inHeap hcm
  have hcs := hcI.size_ge; have hcmod := hcI.size_mod; have hclo := hcI.lo
  have hce := (prev_read hc).2
  obtain ⟨h1, FL1, hdel1, hc1, hs1, hk1, hx1, hfl1, hfr1⟩ :=
    delete_node_mem hc hcm (hl c hcm hcfree)
  have hb1 : b.addr ∈ FL1 (bucket b.size) := (hfl1 _ _).2 ⟨hl b hb hfree, by omega⟩
  obtain ⟨h2, FL2, hdel2, hc2, hs2, hk2, hx2, hfl2, hfr2⟩ := delete_node_mem hc1 hb hb1
  have hI2 := hc2.inHeap hb
  have hcI2 := hc2.inHeap hcm
  have hhi2 := hI2.hi; have hlo2 := hcI2.lo; have hblt2 := hI2.brk_lt
  have hbm2 := hI2.base_mod
  have hin2 : ∀ m a, h2.mem_start_brk ≤ a → a + 4 ≤ h2.mem_brk → a % 4 = 0 →
      inArena (setMem h2 m) a := fun m a p q r => ⟨p, q, r⟩
  unfold coalesce_prev
  rw [hpv]
  simp only [ok_bind]
  rw [hdel1]
  simp only [ok_bind]
  rw [hdel2]
  simp only [ok_bind]
  rw [(prev_read hc2).1]
  simp only [ok_bind]
  rw [hcI2.get_size]
  simp only [ok_bind]
  rw [hI2.ftrp_eq]
  simp only [ok_bind]
  rw [padd_eq _ _ (by omega), PACK_zero, PUT_ok _ _ _ hI2.in_ftr (by omega)]
  simp only [ok_bind]
  have hftr : h2.mem (b.addr - 8) = c.size + 0 := by
    have := hcI2.ftr
    rw [hcfree] at this
    rw [← this]; congr 1; omega
  rw [PREV_eq2 _ b.addr c.addr c.size 0 (hin2 _ _ (by omega) (by omega) (by omega)) hce
    (by omega) (by omega) (by omega) (by omega)
    (by simp only [setMem_mem]; rw [upd_other _ _ _ _ (by omega)]; exact hftr)]
  simp only [ok_bind]
  rw [hcI2.hdrp_eq, PUT_setMem _ _ _ _ hcI2.in_hdr (by omega)]
  simp only [ok_bind]
  rw [PREV_eq2 _ b.addr c.addr c.size 0 (hin2 _ _ (by omega) (by omega) (by omega)) hce
    (by omega) (by omega) (by omega) (by omega)
    (by
      simp only [setMem_mem]
      rw [upd_other _ _ _ _ (by omega), upd_other _ _ _ _ (by omega)]; exact hftr)]
  simp only [ok_bind]
  rw [list3] at hc2
  obtain ⟨s, e, hpre2, hmid2, hpost2⟩ := hc2.split3
  have hmid2' := hmid2
  obtain ⟨e1, -, -, -, -, -, e2, -, -, -, -, -, e3⟩ := hmid2'
  have e3' : s + c.size + b.size = e := e3
  subst e1
  subst e3'
  have hin' : ∀ x, x ∈ pre' ∨ x ∈ post → x ∈ pre' ++ [c] ++ [b] ++ post := by
    intro x hcm
    rcases hcm with hcm | hcm <;> simp [hcm]
  have hpos : ∀ x, x ∈ pre' ∨ x ∈ post →
      (x.addr + x.size ≤ c.addr ∨ b.addr + b.size ≤ x.addr) ∧ 16 ≤ x.size := by
    intro x hcm
    refine ⟨?_, hc.size_ge x (hin' x hcm)⟩
    rcases hcm with hcm | hcm
    · left
      exact (Tiled_mem hpre2 (List.mem_cons_of_mem _ hcm)).hi
    · exact Or.inr (hafter x hcm)
  obtain ⟨h6, FL', hins, hg, hs6, hk6, hx6, hiff, hfr6, hfrS6⟩ := merge_finish hc2 c.addr
    (c.addr + c.size + b.size) hpre2 hmid2 hpost2 (by omega)
    (by
      intro x hcm
      simp only [List.mem_cons, List.mem_singleton, List.not_mem_nil, or_false] at hcm
      rcases hcm with rfl | rfl
      · exact hcfree
      · exact hfree)
    (by
      intro i x hx y hcm
      have h5 := (hfl2 i x).1 hx
      have h6 := (hfl1 i x).1 h5.1
      simp only [List.mem_cons, List.mem_singleton, List.not_mem_nil, or_false] at hcm
      rcases hcm with rfl | rfl
      · exact fun e => h6.2 e.symm
      · exact fun e => h5.2 e.symm)
    (by
      intro x hcm hc0
      have := hpos x hcm
      rw [hfl2, hfl1]
      exact ⟨⟨hl x (hin' x hcm) hc0, by omega⟩, by omega⟩)
    (by
      intro x y hx hy hxy
      have := hpos x hx
      have := hpos y hy
      rcases hn x (hin' x hx) y (hin' y hy) hxy with h9 | h9 | h9 | h9
      · exact Or.inl h9
      · exact Or.inr h9
      · subst h9; omega
      · subst h9; omega)
    (by
      intro x hx hxe
      have := hpos x (Or.inl hx)
      rcases hn x (hin' x (Or.inl hx)) c hcm hxe with h9 | h9 | h9 | h9
      · exact h9
      · exact absurd hcfree h9
      · subst h9; omega
      · rw [h9] at hce; omega)
    (fun y hy hye => hnall y (hin' y (Or.inr hy)) (by omega))
    (upd (upd h2.mem (b.addr + b.size - 8) (b.size + c.size)) (c.addr - 4)
      (b.size + c.size))
    (by rw [upd_same]; omega)
    (by
      have : c.addr + c.size + b.size - 8 = b.addr + b.size - 8 := by omega
      rw [this, upd_other _ _ _ _ (by omega), upd_same]; omega)
    (by
      intro a ha
      rw [upd_other _ _ _ _ (by omega), upd_other _ _ _ _ (by omega)])
  rw [hins]
  simp only [ok_bind, pure_eq_ok]
  refine ⟨h6, _, FL', ⟨c.addr, c.addr + c.size + b.size - c.addr, 0⟩, rfl, hg,
    by rw [hs6, hs2, hs1], by rw [hk6, hk2, hk1], by rw [hx6, hx2, hx1], by simp, rfl,
    by simp only; omega, by simp only; omega, ?_, ?_, ?_⟩
  · intro x hx1'
    rw [hiff x hx1', list3]
  · intro a ha
    rw [hfr6 a (by rw [← list3]; exact ha), hfr2 a ha, hfr1 a ha]
  · intro a ha
    have hlink : ∀ x ∈ pre' ++ [c] ++ [b] ++ post, x.alloc = 0 →
        a ≠ x.addr ∧ a ≠ x.addr + 4 :=
      fun x hx hx0 => ⟨(ha x hx hx0).2.1, (ha x hx hx0).2.2.1⟩
    have hab := ha b hb hfree
    have hac := ha c hcm hcfree
    rw [hfrS6 a hac.2.1 hac.2.2.1 (fun x hx hx0 => hlink x (hin' x hx) hx0),
      upd_other _ _ _ _ (by omega), upd_other _ _ _ _ (by omega),
      delete_node_frame hc1 hb hb1 hdel2 a hlink,
      delete_node_frame hc hcm (hl c hcm hcfree) hdel1 a hlink]

/-- Fourth case of `coalesce`: the blocks before and after `b` are both free. -/
theorem coalesce_both_spec {h : Heap} {pre' post' : List Blk} {c b d : Blk}
    {FL : Nat → List Nat}
    (hc : Core h (pre' ++ [c] ++ [b] ++ d :: post') FL)
    (hl : ∀ z ∈ pre' ++ [c] ++ [b] ++ d :: post', z.alloc = 0 → z.addr ∈ FL (bucket z.size))
    (hfree : b.alloc = 0)
    (hn : ∀ x ∈ pre' ++ [c] ++ [b] ++ d :: post', ∀ y ∈ pre' ++ [c] ++ [b] ++ d :: post',
      x.addr + x.size = y.addr → x.alloc ≠ 0 ∨ y.alloc ≠ 0 ∨ x = b ∨ y = b)
    (hcfree : c.alloc = 0) (hdfree : d.alloc = 0) (hda : d.addr = b.addr + b.size) :
    ∃ h' bs' FL' r, coalesce_both h b.addr b.size = Except.ok (r.addr, h') ∧ Good h' bs' FL' ∧
      h'.mem_start_brk = h.mem_start_brk ∧ h'.mem_brk = h.mem_brk ∧
      h'.mem_max_addr = h.mem_max_addr ∧ r ∈ bs' ∧ r.alloc = 0 ∧ r.addr ≤ b.addr ∧
      b.addr + b.size ≤ r.addr + r.size ∧
      (∀ z : Blk, z.alloc = 1 → (z ∈ bs' ↔ z ∈ pre' ++ [c] ++ [b] ++ d :: post')) ∧
      (∀ a, Payload (pre' ++ [c] ++ [b] ++ d :: post') a → h'.mem a = h.mem a) ∧
      (∀ a, (∀ z ∈ pre' ++ [c] ++ [b] ++ d :: post', z.alloc = 0 → a ≠ z.addr - 4 ∧ a ≠ z.addr ∧
        a ≠ z.addr + 4 ∧ a ≠ z.addr + z.size - 8) → h'.mem a = h.mem a) := by
  have hW : WORD = 4294967296 := rfl
  have hb : b ∈ pre' ++ [c] ++ [b] ++ d :: post' := by simp
  have hI := hc.inHeap hb
  obtain ⟨hpre, hpost, hbefore, hafter⟩ := hc.around
  have hlo := hI.lo; have hhi := hI.hi; have hblt := hI.brk_lt; have ham := hI.addr_mod
  have hsg := hI.size_ge; have hsm := hI.size_mod; have hbm := hI.base_mod
  have hpv := (prev_read hc).1
  have hcm : c ∈ pre' ++ [c] ++ [b] ++ d :: post' := by simp
  have hdm : d ∈ pre' ++ [c] ++ [b] ++ d :: post' := by simp
  have hcI := hc.inHeap hcm
  have hdI := hc.inHeap hdm
  have hcs := hcI.size_ge; have hcmod := hcI.size_mod; have hclo := hcI.lo
  have hds := hdI.size_ge; have hdmod := hdI.size_mod; have hdhi := hdI.hi
  have hce := (prev_read hc).2
  obtain ⟨h1, FL1, hdel1, hc1, hs1, hk1, hx1, hfl1, hfr1⟩ :=
    delete_node_mem hc hcm (hl c hcm hcfree)
  have hb1 : b.addr ∈ FL1 (bucket b.size) := (hfl1 _ _).2 ⟨hl b hb hfree, by omega⟩
  obtain ⟨h2, FL2, hdel2, hc2, hs2, hk2, hx2, hfl2, hfr2⟩ := delete_node_mem hc1 hb hb1
  have hd2 : d.addr ∈ FL2 (bucket d.size) :=
    (hfl2 _ _).2 ⟨(hfl1 _ _).2 ⟨hl d hdm hdfree, by omega⟩, by omega⟩
  obtain ⟨h3, FL3, hdel3, hc3, hs3, hk3, hx3, hfl3, hfr3⟩ := delete_node_mem hc2 hdm hd2
  have hI2 := hc2.inHeap hb
  have hI3 := hc3.inHeap hb
  have hcI3 := hc3.inHeap hcm
  have hdI3 := hc3.inHeap hdm
  have hhi3 := hdI3.hi; have hlo3 := hcI3.lo; have hblt3 := hI3.brk_lt
  have hbm3 := hI3.base_mod
  have hin3 : ∀ m a, h3.mem_start_brk ≤ a → a + 4 ≤ h3.mem_brk → a % 4 = 0 →
      inArena (setMem h3 m) a := fun m a p q r => ⟨p, q, r⟩
  unfold coalesce_both
  rw [hpv]
  simp only [ok_bind]
  rw [hdel1]
  simp only [ok_bind]
  rw [hdel2]
  simp only [ok_bind]
  rw [hI2.next_eq]
  simp only [ok_bind]
  rw [← hda, hdel3]
  simp only [ok_bind]
  rw [(prev_read hc3).1]
  simp only [ok_bind]
  rw [hcI3.get_size]
  simp only [ok_bind]
  rw [hI3.next_eq]
  simp only [ok_bind]
  rw [← hda, hdI3.get_size]
  simp only [ok_bind]
  rw [padd_eq c.size d.size (by omega), padd_eq _ _ (by omega), PACK_zero, hcI3.hdrp_eq,
    PUT_ok _ _ _ hcI3.in_hdr (by omega)]
  simp only [ok_bind]
  have hH4 : HdrAt (setMem h3 (upd h3.mem (c.addr - 4) (b.size + (c.size + d.size))))
      b.addr b.size 0 :=
    ⟨hI3.in_hdr, by omega, by omega, hsm, by omega, by
      simp only [setMem_mem]
      rw [upd_other _ _ _ _ (by omega)]
      have := hI3.hdr
      rw [hfree] at this
      exact this⟩
  have hN4 : HdrAt (setMem h3 (upd h3.mem (c.addr - 4) (b.size + (c.size + d.size))))
      (b.addr + b.size) d.size 0 :=
    ⟨hin3 _ _ (by omega) (by omega) (by omega), by omega, by omega, hdmod, by omega, by
      simp only [setMem_mem]
      rw [upd_other _ _ _ _ (by omega)]
      have := hdI3.hdr
      rw [hdfree, hda] at this
      exact this⟩
  rw [hH4.next_at]
  simp only [ok_bind]
  rw [hN4.ftrp_at]
  simp only [ok_bind]
  rw [PUT_setMem _ _ (b.addr + b.size + d.size - 8) (b.size + (c.size + d.size))
    ⟨by omega, by unfold WSIZE; omega, by unfold WSIZE; omega⟩ (by omega)]
  simp only [ok_bind]
  have hftr : h3.mem (b.addr - 8) = c.size + 0 := by
    have := hcI3.ftr
    rw [hcfree] at this
    rw [← this]; congr 1; omega
  rw [PREV_eq2 _ b.addr c.addr c.size 0 (hin3 _ _ (by omega) (by omega) (by omega)) hce
    (by omega) (by omega) (by omega) (by omega)
    (by
      simp only [setMem_mem]
      rw [upd_other _ _ _ _ (by omega), upd_other _ _ _ _ (by omega)]; exact hftr)]
  simp only [ok_bind]
  rw [list4] at hc3
  obtain ⟨s, e, hpre3, hmid3, hpost3⟩ := hc3.split3
  have hmid3' := hmid3
  obtain ⟨e1, -, -, -, -, -, e2, -, -, -, -, -, e3, -, -, -, -, -, e4⟩ := hmid3'
  have e4' : s + c.size + b.size + d.size = e := e4
  subst e1
  subst e4'
  have hin' : ∀ x, x ∈ pre' ∨ x ∈ post' → x ∈ pre' ++ [c] ++ [b] ++ d :: post' := by
    intro x hcm
    rcases hcm with hcm | hcm <;> simp [hcm]
  have hpos : ∀ x, x ∈ pre' ∨ x ∈ post' →
      (x.addr + x.size ≤ c.addr ∨ d.addr + d.size ≤ x.addr) ∧ 16 ≤ x.size := by
    intro x hcm
    refine ⟨?_, hc.size_ge x (hin' x hcm)⟩
    rcases hcm with hcm | hcm
    · left
      exact (Tiled_mem hpre3 (List.mem_cons_of_mem _ hcm)).hi
    · right
      have := (Tiled_mem hpost3 hcm).lo
      omega
  obtain ⟨h6, FL', hins, hg, hs6, hk6, hx6, hiff, hfr6, hfrS6⟩ := merge_finish hc3 c.addr
    (c.addr + c.size + b.size + d.size) hpre3 hmid3 hpost3 (by omega)
    (by
      intro x hcm
      simp only [List.mem_cons, List.mem_singleton, List.not_mem_nil, or_false] at hcm
      rcases hcm with rfl | rfl | rfl
      · exact hcfree
      · exact hfree
      · exact hdfree)
    (by
      intro i x hx y hcm
      have h4 := (hfl3 i x).1 hx
      have h5 := (hfl2 i x).1 h4.1
      have h6 := (hfl1 i x).1 h5.1
      simp only [List.mem_cons, List.mem_singleton, List.not_mem_nil, or_false] at hcm
      rcases hcm with rfl | rfl | rfl
      · exact fun e => h6.2 e.symm
      · exact fun e => h5.2 e.symm
      · exact fun e => h4.2 e.symm)
    (by
      intro x hcm hc0
      have := hpos x hcm
      rw [hfl3, hfl2, hfl1]
      exact ⟨⟨⟨hl x (hin' x hcm) hc0, by omega⟩, by omega⟩, by omega⟩)
    (by
      intro x y hx hy hxy
      have := hpos x hx
      have := hpos y hy
      rcases hn x (hin' x hx) y (hin' y hy) hxy with h9 | h9 | h9 | h9
      · exact Or.inl h9
      · exact Or.inr h9
      · subst h9; omega
      · subst h9; omega)
    (by
      intro x hx hxe
      have := hpos x (Or.inl hx)
      rcases hn x (hin' x (Or.inl hx)) c hcm hxe with h9 | h9 | h9 | h9
      · exact h9
      · exact absurd hcfree h9
      · subst h9; omega
      · rw [h9] at hce; omega)
    (by
      intro y hy hye
      have := hpos y (Or.inr hy)
      rcases hn d hdm y (hin' y (Or.inr hy)) (by omega) with h9 | h9 | h9 | h9
      · exact absurd hdfree h9
      · exact h9
      · rw [h9] at hda; omega
      · subst h9; omega)
    (upd (upd h3.mem (c.addr - 4) (b.size + (c.size + d.size)))
      (b.addr + b.size + d.size - 8) (b.size + (c.size + d.size)))
    (by rw [upd_other _ _ _ _ (by omega), upd_same]; omega)
    (by
      have : c.addr + c.size + b.size + d.size - 8 = b.addr + b.size + d.size - 8 := by
        omega
      rw [this, upd_same]; omega)
    (by
      intro a ha
      rw [upd_other _ _ _ _ (by omega), upd_other _ _ _ _ (by omega)])
  rw [hins]
  simp only [ok_bind, pure_eq_ok]
  refine ⟨h6, _, FL', ⟨c.addr, c.addr + c.size + b.size + d.size - c.addr, 0⟩, rfl, hg,
    by rw [hs6, hs3, hs2, hs1], by rw [hk6, hk3, hk2, hk1], by rw [hx6, hx3, hx2, hx1],
    by simp, rfl, by simp only; omega, by simp only; omega, ?_, ?_, ?_⟩
  · intro x hx1'
    rw [hiff x hx1', list4]
  · intro a ha
    rw [hfr6 a (by rw [← list4]; exact ha), hfr3 a ha, hfr2 a ha, hfr1 a ha]
  · intro a ha
    have hlink : ∀ x ∈ pre' ++ [c] ++ [b] ++ d :: post', x.alloc = 0 →
        a ≠ x.addr ∧ a ≠ x.addr + 4 :=
      fun x hx hx0 => ⟨(ha x hx hx0).2.1, (ha x hx hx0).2.2.1⟩
    have hac := ha c hcm hcfree
    have had := ha d hdm hdfree
    rw [hfrS6 a hac.2.1 hac.2.2.1 (fun x hx hx0 => hlink x (hin' x hx) hx0),
      upd_other _ _ _ _ (by omega), upd_other _ _ _ _ (by omega),
      delete_node_frame hc2 hdm hd2 hdel3 a hlink,
      delete_node_frame hc1 hb hb1 hdel2 a hlink,
      delete_node_frame hc hcm (hl c hcm hcfree) hdel1 a hlink]

/-- Function `coalesce` on a free block of the index whose neighbours may be free. -/
theorem coalesce_spec {h : Heap} {bs : List Blk} {FL : Nat → List Nat} (hc : Core h bs FL)
    (hl : ∀ c ∈ bs, c.alloc = 0 → c.addr ∈ FL (bucket c.size))
    {b : Blk} (hb : b ∈ bs) (hfree : b.alloc = 0)
    (hn : ∀ x ∈ bs, ∀ y ∈ bs, x.addr + x.size = y.addr →
      x.alloc ≠ 0 ∨ y.alloc ≠ 0 ∨ x = b ∨ y = b) :
    ∃ h' bs' FL' r, coalesce h b.addr = Except.ok (r.addr, h') ∧ Good h' bs' FL' ∧
      h'.mem_start_brk = h.mem_start_brk ∧ h'.mem_brk = h.mem_brk ∧
      h'.mem_max_addr = h.mem_max_addr ∧ r ∈ bs' ∧ r.alloc = 0 ∧ r.addr ≤ b.addr ∧
      b.addr + b.size ≤ r.addr + r.size ∧
      (∀ c : Blk, c.alloc = 1 → (c ∈ bs' ↔ c ∈ bs)) ∧
      (∀ a, Payload bs a → h'.mem a = h.mem a) ∧
      (∀ a, (∀ c ∈ bs, c.alloc = 0 → a ≠ c.addr - 4 ∧ a ≠ c.addr ∧ a ≠ c.addr + 4 ∧
        a ≠ c.addr + c.size - 8) → h'.mem a = h.mem a) := by
  obtain ⟨pre, post, rfl⟩ := List.append_of_mem hb
  rw [mid_eq] at hc hl hb hn ⊢
  have hW : WORD = 4294967296 := rfl
  obtain ⟨pv, pa, hpv, hpa, hprev⟩ := prev_info hc
  obtain ⟨na, hna, hnext⟩ := next_info hc
  have hI := hc.inHeap hb
  obtain ⟨hpre, hpost, hbefore, hafter⟩ := hc.around
  have hlo := hI.lo; have hhi := hI.hi; have hblt := hI.brk_lt; have ham := hI.addr_mod
  have hsg := hI.size_ge; have hsm := hI.size_mod; have hbm := hI.base_mod
  unfold coalesce
  rw [hpv]
  simp only [ok_bind]
  rw [hpa]
  simp only [ok_bind]
  rw [hI.next_eq]
  simp only [ok_bind]
  rw [hna]
  simp only [ok_bind]
  rw [hI.get_size]
  simp only [ok_bind]
  rcases hprev with ⟨hpa0, hpall⟩ | ⟨hpa0, pre', c, rfl, hcfree, rfl⟩
  · rcases hnext with ⟨hna0, hnall⟩ | ⟨hna0, d, post', rfl, hdfree, hda⟩
    · rw [if_pos ⟨hpa0, hna0⟩]
      refine ⟨h, _, FL, b, rfl, ⟨hc, hl, ?_⟩, rfl, rfl, rfl, hb, hfree, le_refl _, le_refl _,
        fun _ _ => Iff.rfl, fun _ _ => rfl, fun _ _ => rfl⟩
      intro x hx y hy hxy
      rcases hn x hx y hy hxy with h1 | h1 | h1 | h1
      · exact Or.inl h1
      · exact Or.inr h1
      · subst h1; exact Or.inr (hnall y hy hxy.symm)
      · subst h1; exact Or.inl (hpall x hx hxy)
    · rw [if_neg (fun hh => hh.2 hna0), if_pos ⟨hpa0, hna0⟩]
      exact coalesce_next_spec hc hl hfree hn hpall hdfree hda
  · rcases hnext with ⟨hna0, hnall⟩ | ⟨hna0, d, post', rfl, hdfree, hda⟩
    · subst hpa0
      rw [if_neg (fun hh => hh.1 rfl), if_neg (fun hh => hh.1 rfl), if_pos ⟨rfl, hna0⟩]
      exact coalesce_prev_spec hc hl hfree hn hcfree hnall
    · subst hpa0
      subst hna0
      rw [if_neg (fun hh => hh.1 rfl), if_neg (fun hh => hh.1 rfl),
        if_neg (fun hh => hh.2 rfl)]
      exact coalesce_both_spec hc hl hfree hn hcfree hdfree hda

@[simp] theorem setBrk_mem (h : Heap) (k : Nat) : (setBrk h k).mem = h.mem := rfl

@[simp] theorem setBrk_start (h : Heap) (k : Nat) :
    (setBrk h k).mem_start_brk = h.mem_start_brk := rfl

@[simp] theorem setBrk_brk (h : Heap) (k : Nat) : (setBrk h k).mem_brk = k := rfl

@[simp] theorem setBrk_max (h : Heap) (k : Nat) :
    (setBrk h k).mem_max_addr = h.mem_max_addr := rfl

@[simp] theorem setBrk_lists (h : Heap) (k : Nat) :
    (setBrk h k).segregated_free_lists = h.segregated_free_lists := rfl

theorem mem_sbrk_ok (h : Heap) (incr : Nat) (hfit : h.mem_brk + incr ≤ h.mem_max_addr) :
    mem_sbrk h incr = some (h.mem_brk, setBrk h (h.mem_brk + incr)) := by
  unfold mem_sbrk; rw [if_pos hfit]; rfl

theorem mem_sbrk_fail (h : Heap) (incr : Nat) (hfit : ¬ h.mem_brk + incr ≤ h.mem_max_addr) :
    mem_sbrk h incr = none := by
  unfold mem_sbrk; rw [if_neg hfit]

theorem ALIGN_of_mod (x : Nat) (h8 : x % 8 = 0) (hlt : x + 7 < WORD) : ALIGN x = x := by
  rw [ALIGN_eq x hlt]; omega

theorem PACK_epi : PACK 0 1 = 1 := rfl

/-- Function `extend_heap` when the arena cannot grow. -/
theorem extend_heap_fail (h : Heap) (size : Nat)
    (hfit : ¬ h.mem_brk + ALIGN size ≤ h.mem_max_addr) :
    extend_heap h size = Except.ok (0, h) := by
  unfold extend_heap
  simp only [mem_sbrk_fail h _ hfit]

/-- Function `extend_heap` when the arena can grow: the new space becomes a free block of the index,
merged with a free block before it. -/
theorem extend_heap_spec {h : Heap} {bs : List Blk} {FL : Nat → List Nat} (hg : Good h bs FL)
    (size : Nat) (h8 : size % 8 = 0) (h16 : 16 ≤ size)
    (hfit : h.mem_brk + size ≤ h.mem_max_addr) :
    ∃ h' bs' FL' r, extend_heap h size = Except.ok (r.addr, h') ∧ Good h' bs' FL' ∧
      h'.mem_start_brk = h.mem_start_brk ∧ h'.mem_brk = h.mem_brk + size ∧
      h'.mem_max_addr = h.mem_max_addr ∧ r ∈ bs' ∧ r.alloc = 0 ∧ size ≤ r.size ∧
      (∀ c : Blk, c.alloc = 1 → (c ∈ bs' ↔ c ∈ bs)) ∧
      (∀ a, Payload bs a → h'.mem a = h.mem a) ∧
      r.addr ≤ h.mem_brk ∧ h.mem_brk + size ≤ r.addr + r.size := by
  have hW : WORD = 4294967296 := rfl
  have hc := hg.core
  have hge := hc.brk_ge
  have hbm := hc.brk_mod
  have hsm := hc.base_mod
  have hmax := hc.max_lt
  have hal : ALIGN size = size := ALIGN_of_mod size h8 (by omega)
  have hin : ∀ m a, h.mem_start_brk ≤ a → a + 4 ≤ h.mem_brk + size → a % 4 = 0 →
      inArena (setMem (setBrk h (h.mem_brk + size)) m) a := fun m a p q r => ⟨p, q, r⟩
  have hHD : HDRP h.mem_brk = h.mem_brk - 4 := by
    unfold HDRP WSIZE; exact psub_eq _ _ (by omega) (by omega)
  have hHD2 : HDRP (h.mem_brk + size) = h.mem_brk + size - 4 := by
    unfold HDRP WSIZE; exact psub_eq _ _ (by omega) (by omega)
  unfold extend_heap
  simp only [hal, mem_sbrk_ok h size hfit]
  rw [hHD, PACK_zero,
    PUT_ok (setBrk h (h.mem_brk + size)) (h.mem_brk - 4) size
      ⟨by simp only [setBrk_start]; omega, by simp only [setBrk_brk]; unfold WSIZE; omega,
        by unfold WSIZE; omega⟩ (by omega)]
  simp only [ok_bind, setBrk_mem]
  have hH2 : HdrAt (setMem (setBrk h (h.mem_brk + size)) (upd h.mem (h.mem_brk - 4) size))
      h.mem_brk size 0 :=
    ⟨hin _ _ (by omega) (by omega) (by omega), by omega, by omega, h8, by omega, by simp⟩
  rw [hH2.ftrp_at]
  simp only [ok_bind]
  rw [PUT_setMem _ _ (h.mem_brk + size - 8) size
    ⟨by simp only [setBrk_start]; omega, by simp only [setBrk_brk]; unfold WSIZE; omega,
      by unfold WSIZE; omega⟩ (by omega)]
  simp only [ok_bind]
  have hH3 : HdrAt (setMem (setBrk h (h.mem_brk + size))
      (upd (upd h.mem (h.mem_brk - 4) size) (h.mem_brk + size - 8) size)) h.mem_brk size 0 :=
    ⟨hin _ _ (by omega) (by omega) (by omega), by omega, by omega, h8, by omega, by
      simp only [setMem_mem]; rw [upd_other _ _ _ _ (by omega), upd_same]; rfl⟩
  rw [hH3.next_at]
  simp only [ok_bind]
  rw [hHD2, PACK_epi, PUT_setMem _ _ (h.mem_brk + size - 4) 1
    ⟨by simp only [setBrk_start]; omega, by simp only [setBrk_brk]; unfold WSIZE; omega,
      by unfold WSIZE; omega⟩ (by omega)]
  simp only [ok_bind]
  have hc4 := hc.extend
    (setMem (setBrk h (h.mem_brk + size))
      (upd (upd (upd h.mem (h.mem_brk - 4) size) (h.mem_brk + size - 8) size)
        (h.mem_brk + size - 4) 1))
    ⟨h.mem_brk, size, 0⟩ rfl rfl rfl hfit
    (by
      intro a ha
      simp only [setMem_mem]
      rw [upd_other _ _ _ _ (by omega), upd_other _ _ _ _ (by omega),
        upd_other _ _ _ _ (by omega)])
    (by
      simp only [Tiled, setMem_mem, setMem_brk, setBrk_brk]
      refine ⟨trivial, by omega, h8, by omega, ?_, ?_, trivial⟩
      · rw [upd_other _ _ _ _ (by omega), upd_other _ _ _ _ (by omega), upd_same]; rfl
      · rw [upd_other _ _ _ _ (by omega), upd_same]; rfl)
    h16
    (by simp only [setMem_mem, setMem_brk, setBrk_brk, upd_same])
  have hnb : (⟨h.mem_brk, size, 0⟩ : Blk) ∈ bs ++ [⟨h.mem_brk, size, 0⟩] := by simp
  have hnot : ∀ i, (⟨h.mem_brk, size, 0⟩ : Blk).addr ∉ FL i := by
    intro i hx
    obtain ⟨c, hc1, hc2, _, _, hcI⟩ := hc.node_inHeap hx
    have := hcI.hi; have := hcI.size_ge
    simp only at hc2
    omega
  obtain ⟨h5, FL5, hins, hc5, hs5, hk5, hx5, hfl5, hfr5⟩ := insert_node_mem hc4 hnb rfl hnot
  simp only at hins
  rw [hins]
  simp only [ok_bind]
  obtain ⟨h6, bs6, FL6, r, hco, hg6, hs6, hk6, hx6, hr1, hr2, hr3, hr4, hiff, hfr6, -⟩ :=
    coalesce_spec hc5
      (by
        intro c hcm hc0
        rw [hfl5]
        rcases List.mem_append.1 hcm with hcm | hcm
        · exact Or.inl (hg.listed c hcm hc0)
        · rw [List.mem_singleton] at hcm
          subst hcm
          exact Or.inr ⟨rfl, rfl⟩)
      hnb rfl
      (by
        intro x hx y hy hxy
        rcases List.mem_append.1 hx with hx | hx
        · rcases List.mem_append.1 hy with hy | hy
          · rcases hg.noadj x hx y hy hxy with h9 | h9
            · exact Or.inl h9
            · exact Or.inr (Or.inl h9)
          · exact Or.inr (Or.inr (Or.inr (List.mem_singleton.1 hy)))
        · exact Or.inr (Or.inr (Or.inl (List.mem_singleton.1 hx))))
  simp only at hco
  refine ⟨h6, bs6, FL6, r, hco, hg6, by rw [hs6, hs5]; rfl, by rw [hk6, hk5]; rfl,
    by rw [hx6, hx5]; rfl, hr1, hr2, by simp only at hr3 hr4; omega, ?_, ?_,
    by simp only at hr3; exact hr3, by simp only at hr4; exact hr4⟩
  · intro c hc1
    rw [hiff c hc1]
    simp only [List.mem_append, List.mem_singleton]
    constructor
    · rintro (hcm | hcm)
      · exact hcm
      · subst hcm; simp at hc1
    · exact fun hcm => Or.inl hcm
  · intro a ha
    have ha' : Payload (bs ++ [⟨h.mem_brk, size, 0⟩]) a := by
      obtain ⟨c, hcm, hc1, hc2, hc3⟩ := ha
      exact ⟨c, List.mem_append_left _ hcm, hc1, hc2, hc3⟩
    have hlt : a + 8 < h.mem_brk := by
      obtain ⟨c, hcm, hc1, hc2, hc3⟩ := ha
      have := (hc.inHeap hcm).hi
      omega
    rw [hfr6 a ha', hfr5 a ha']
    simp only [setMem_mem]
    rw [upd_other _ _ _ _ (by omega), upd_other _ _ _ _ (by omega),
      upd_other _ _ _ _ (by omega)]

/-- The inner search loop of `mm_malloc` ends at `NULL` or at a node that is large enough. -/
theorem find_walk_spec (h : Heap) (size : Nat) (P : Blk → Prop) (L : List Nat)
    (k prev cur : Nat) (hl : LSeg h.mem prev cur L 0) (hk : L.length < k)
    (hnodes : ∀ z ∈ L, ∃ c, P c ∧ InHeap h c ∧ c.addr = z) :
    ∃ r, find_walk h size k cur = Except.ok r ∧
      (r = 0 ∨ ∃ c, P c ∧ c.addr = r ∧ size ≤ c.size) := by
  induction L generalizing k prev cur with
  | nil =>
    have hcur : cur = 0 := hl
    subst hcur
    obtain ⟨k', rfl⟩ : ∃ k', k = k' + 1 := ⟨k - 1, by simp at hk; omega⟩
    exact ⟨0, by simp [find_walk], Or.inl rfl⟩
  | cons x L ih =>
    obtain ⟨hcur, hx0, hp, hl'⟩ := hl
    subst hcur
    obtain ⟨k', rfl⟩ : ∃ k', k = k' + 1 := ⟨k - 1, by simp at hk; omega⟩
    obtain ⟨c, hcP, hcI, hcx⟩ := hnodes cur (List.mem_cons_self _ _)
    subst hcx
    unfold find_walk
    rw [if_neg hx0, hcI.get_size]
    simp only [ok_bind]
    by_cases hlt : c.size < size
    · rw [if_pos hlt, hcI.succ_eq]
      simp only [ok_bind]
      exact ih k' c.addr (h.mem (c.addr + 4)) hl' (by simp at hk; omega)
        (fun z hz => hnodes z (List.mem_cons_of_mem _ hz))
    · rw [if_neg hlt]
      exact ⟨c.addr, rfl, Or.inr ⟨c, hcP, rfl, by omega⟩⟩

/-- The bucket loop of `mm_malloc` ends at `NULL` or at a free block that is large enough. -/
theorem find_loop_spec {h : Heap} {bs : List Blk} {FL : Nat → List Nat} (hc : Core h bs FL)
    (size cnt i ss : Nat) (hi : i + cnt ≤ LISTSIZE) :
    ∃ r, find_loop h size cnt i ss = Except.ok r ∧
      (r = 0 ∨ ∃ c, (c ∈ bs ∧ c.alloc = 0) ∧ c.addr = r ∧ size ≤ c.size) := by
  induction cnt generalizing i ss with
  | zero => exact ⟨0, rfl, Or.inl rfl⟩
  | succ cnt ih =>
    unfold find_loop
    by_cases hcond : ss ≤ 1 ∧ h.segregated_free_lists i ≠ 0
    · rw [if_pos hcond]
      obtain ⟨r, hr, hres⟩ := find_walk_spec h size (fun c => c ∈ bs ∧ c.alloc = 0) (FL i)
        (fuel h + 1) 0 (h.segregated_free_lists i) (hc.linked i (by omega)) (hc.length_le i)
        (by
          intro z hz
          obtain ⟨c, h1, h2, h3, _, h5⟩ := hc.node_inHeap hz
          exact ⟨c, ⟨h1, h3⟩, h5, h2⟩)
      rw [hr]
      simp only [ok_bind]
      by_cases hr0 : r = 0
      · rw [if_neg (fun hh => hh hr0)]
        exact ih (i + 1) (ss >>> 1) (by omega)
      · rw [if_pos hr0]
        rcases hres with hres | hres
        · exact absurd hres hr0
        · exact ⟨r, rfl, Or.inr hres⟩
    · rw [if_neg hcond]
      exact ih (i + 1) (ss >>> 1) (by omega)

/-- The adjusted block size of a request that does not wrap around. -/
theorem adjust_spec (n : Nat) (h0 : 0 < n) (hn : n + 15 < WORD) :
    adjust n % 8 = 0 ∧ 16 ≤ adjust n ∧ n + 8 ≤ adjust n ∧ adjust n < n + 16 := by
  have hW : WORD = 4294967296 := rfl
  unfold adjust DSIZE
  by_cases h8 : n ≤ 8
  · rw [if_pos h8]; omega
  · rw [if_neg h8, padd_eq _ _ (by omega), ALIGN_eq _ (by omega)]
    omega

theorem MAX_spec (x y : Nat) : MAX x y = max x y := by
  unfold MAX
  by_cases h : x > y
  · rw [if_pos h]; omega
  · rw [if_neg h]; omega

/-- Function `mm_malloc` on a well-formed heap, for a request that does not wrap around: it returns
`NULL` and changes nothing, or it returns the address of a block it has just allocated. -/
theorem mm_malloc_spec {h : Heap} {bs : List Blk} {FL : Nat → List Nat} (hg : Good h bs FL)
    (n : Nat) (h0 : 0 < n) (hn : n + 15 < WORD) :
    ∃ p h', mm_malloc h n = Except.ok (p, h') ∧
      ((p = 0 ∧ h' = h) ∨
       (p ≠ 0 ∧ ∃ bs' FL' sz, Good h' bs' FL' ∧ h'.mem_start_brk = h.mem_start_brk ∧
          h'.mem_max_addr = h.mem_max_addr ∧ h.mem_brk ≤ h'.mem_brk ∧ adjust n ≤ sz ∧
          (⟨p, sz, 1⟩ : Blk) ∈ bs' ∧
          (∀ c : Blk, c.alloc = 1 → (c ∈ bs' ↔ c ∈ bs ∨ c = ⟨p, sz, 1⟩)) ∧
          (∀ a, Payload bs a → h'.mem a = h.mem a))) := by
  have hW : WORD = 4294967296 := rfl
  obtain ⟨ha8, ha16, han, hau⟩ := adjust_spec n h0 hn
  obtain ⟨r, hr, hres⟩ := find_loop_spec hg.core (adjust n) LISTSIZE 0 (adjust n) (by simp)
  unfold mm_malloc
  rw [if_neg (by omega)]
  simp only []
  rw [hr]
  simp only [ok_bind]
  by_cases hr0 : r = 0
  · rw [if_pos hr0]
    have hmax := MAX_spec (adjust n) CHUNKSIZE
    have hCH : CHUNKSIZE = 4096 := rfl
    have hal : ALIGN (MAX (adjust n) CHUNKSIZE) = MAX (adjust n) CHUNKSIZE :=
      ALIGN_of_mod _ (by omega) (by omega)
    by_cases hfit : h.mem_brk + ALIGN (MAX (adjust n) CHUNKSIZE) ≤ h.mem_max_addr
    · rw [hal] at hfit
      obtain ⟨h1, bs1, FL1, r1, hext, hg1, hs1, hk1, hx1, hr1, hr1f, hr1s, hiff1, hfr1, -, -⟩ :=
        extend_heap_spec hg (MAX (adjust n) CHUNKSIZE) (by omega) (by omega) hfit
      have hr1I := hg1.core.inHeap hr1
      have hr1a : r1.addr ≠ 0 := by have := hr1I.lo; omega
      rw [hext]
      simp only [ok_bind]
      rw [if_neg hr1a]
      obtain ⟨h2, bs2, FL2, sz, hpl, hg2, hs2, hk2, hx2, hsz, hmem, hiff2, hfr2, -⟩ :=
        place_spec hg1 hr1 hr1f (adjust n) (by omega) ha8 ha16
      refine ⟨r1.addr, h2, hpl, Or.inr ⟨hr1a, bs2, FL2, sz, hg2, by rw [hs2, hs1],
        by rw [hx2, hx1], by rw [hk2, hk1]; omega, hsz, hmem, ?_, ?_⟩⟩
      · intro c hc1
        rw [hiff2 c hc1, hiff1 c hc1]
      · intro a ha
        have ha1 : Payload bs1 a := by
          obtain ⟨c, hcm, hc1, hc2, hc3⟩ := ha
          exact ⟨c, (hiff1 c hc1).2 hcm, hc1, hc2, hc3⟩
        rw [hfr2 a ha1, hfr1 a ha]
    · rw [extend_heap_fail h _ hfit]
      simp only [ok_bind]
      exact ⟨0, h, rfl, Or.inl ⟨rfl, rfl⟩⟩
  · rw [if_neg hr0]
    rcases hres with hres | ⟨c, ⟨hcb, hcf⟩, hca, hcs⟩
    · exact absurd hres hr0
    · subst hca
      obtain ⟨h2, bs2, FL2, sz, hpl, hg2, hs2, hk2, hx2, hsz, hmem, hiff2, hfr2, -⟩ :=
        place_spec hg hcb hcf (adjust n) hcs ha8 ha16
      exact ⟨c.addr, h2, hpl, Or.inr ⟨hr0, bs2, FL2, sz, hg2, hs2, hx2, by rw [hk2], hsz,
        hmem, hiff2, hfr2⟩⟩

/-- Function `mm_free` on an allocated block of a well-formed heap. -/
theorem mm_free_spec {h : Heap} {bs : List Blk} {FL : Nat → List Nat} (hg : Good h bs FL)
    {b : Blk} (hb : b ∈ bs) (hal : b.alloc = 1) :
    ∃ h' bs' FL', mm_free h b.addr = Except.ok h' ∧ Good h' bs' FL' ∧
      h'.mem_start_brk = h.mem_start_brk ∧ h'.mem_brk = h.mem_brk ∧
      h'.mem_max_addr = h.mem_max_addr ∧
      (∀ c : Blk, c.alloc = 1 → (c ∈ bs' ↔ c ∈ bs ∧ c ≠ b)) ∧
      (∀ a, Payload bs' a → h'.mem a = h.mem a) ∧
      (∀ a, (∀ c ∈ bs, c.alloc = 0 ∨ c = b → a ≠ c.addr - 4 ∧ a ≠ c.addr ∧ a ≠ c.addr + 4 ∧
        a ≠ c.addr + c.size - 8) → h'.mem a = h.mem a) := by
  have hW : WORD = 4294967296 := rfl
  obtain ⟨pre, post, rfl⟩ := List.append_of_mem hb
  have hc := hg.core
  have hlisted := hg.listed
  have hnoadj := hg.noadj
  rw [mid_eq] at hc hlisted hnoadj hb ⊢
  have hI := hc.inHeap hb
  obtain ⟨hpre, hpost, hbefore, hafter⟩ := hc.around
  have hlo := hI.lo; have hhi := hI.hi; have hblt := hI.brk_lt; have ham := hI.addr_mod
  have hsg := hI.size_ge; have hsm := hI.size_mod; have hbm := hI.base_mod
  unfold mm_free
  rw [hI.get_size]
  simp only [ok_bind]
  rw [hI.hdrp_eq, PACK_zero, PUT_ok _ _ _ hI.in_hdr (by omega)]
  simp only [ok_bind]
  have hH2 : HdrAt (setMem h (upd h.mem (b.addr - 4) b.size)) b.addr b.size 0 :=
    ⟨hI.in_hdr, by omega, by omega, hsm, by omega, by simp⟩
  rw [hH2.ftrp_at]
  simp only [ok_bind]
  rw [PUT_setMem _ _ _ _ hI.in_ftr (by omega)]
  simp only [ok_bind]
  have hc2 := hc.retile
    (setMem h (upd (upd h.mem (b.addr - 4) b.size) (b.addr + b.size - 8) b.size))
    [⟨b.addr, b.size, 0⟩] b.addr (b.addr + b.size) rfl rfl rfl rfl hpre hpost
    (by
      intro a ha
      simp only [setMem_mem]
      rw [upd_other _ _ _ _ (by omega), upd_other _ _ _ _ (by omega)])
    (by
      simp only [Tiled, setMem_mem]
      refine ⟨trivial, by omega, hsm, by omega, ?_, by simp, trivial⟩
      rw [upd_other _ _ _ _ (by omega), upd_same]; rfl)
    (by
      intro c hcm
      rw [List.mem_singleton] at hcm
      subst hcm
      exact hsg)
    (by
      intro i x hx c hcm e
      rw [List.mem_singleton] at hcm
      subst hcm
      have := (hc.node_blk hb (e ▸ hx)).1
      omega)
  have hnb : (⟨b.addr, b.size, 0⟩ : Blk) ∈ pre ++ [⟨b.addr, b.size, 0⟩] ++ post := by simp
  have hin' : ∀ c, c ∈ pre ∨ c ∈ post → c ∈ pre ++ [b] ++ post := by
    intro c hcm
    rcases hcm with hcm | hcm <;> simp [hcm]
  have hnot : ∀ i, (⟨b.addr, b.size, 0⟩ : Blk).addr ∉ FL i := by
    intro i hx
    have := (hc.node_blk hb hx).1
    omega
  obtain ⟨h3, FL3, hins, hc3, hs3, hk3, hx3, hfl3, hfr3⟩ := insert_node_mem hc2 hnb rfl hnot
  simp only at hins
  rw [hins]
  simp only [ok_bind]
  obtain ⟨h6, bs6, FL6, r, hco, hg6, hs6, hk6, hx6, hr1, hr2, hr3, hr4, hiff, hfr6, hfrS6⟩ :=
    coalesce_spec hc3
      (by
        intro c hcm hc0
        rw [hfl3]
        simp only [List.mem_append, List.mem_singleton] at hcm
        rcases hcm with (hcm | hcm) | hcm
        · exact Or.inl (hlisted c (hin' c (Or.inl hcm)) hc0)
        · subst hcm; exact Or.inr ⟨rfl, rfl⟩
        · exact Or.inl (hlisted c (hin' c (Or.inr hcm)) hc0))
      hnb rfl
      (by
        intro x hx y hy hxy
        simp only [List.mem_append, List.mem_singleton] at hx hy
        rcases hx with (hx | hx) | hx
        · rcases hy with (hy | hy) | hy
          · rcases hnoadj x (hin' x (Or.inl hx)) y (hin' y (Or.inl hy)) hxy with h9 | h9
            · exact Or.inl h9
            · exact Or.inr (Or.inl h9)
          · exact Or.inr (Or.inr (Or.inr hy))
          · rcases hnoadj x (hin' x (Or.inl hx)) y (hin' y (Or.inr hy)) hxy with h9 | h9
            · exact Or.inl h9
            · exact Or.inr (Or.inl h9)
        · exact Or.inr (Or.inr (Or.inl hx))
        · rcases hy with (hy | hy) | hy
          · rcases hnoadj x (hin' x (Or.inr hx)) y (hin' y (Or.inl hy)) hxy with h9 | h9
            · exact Or.inl h9
            · exact Or.inr (Or.inl h9)
          · exact Or.inr (Or.inr (Or.inr hy))
          · rcases hnoadj x (hin' x (Or.inr hx)) y (hin' y (Or.inr hy)) hxy with h9 | h9
            · exact Or.inl h9
            · exact Or.inr (Or.inl h9))
  simp only at hco
  rw [hco]
  simp only [ok_bind, pure_eq_ok]
  refine ⟨h6, bs6, FL6, rfl, hg6, by rw [hs6, hs3]; rfl, by rw [hk6, hk3]; rfl,
    by rw [hx6, hx3]; rfl, ?_, ?_, ?_⟩
  · intro c hc1
    rw [hiff c hc1]
    simp only [List.mem_append, List.mem_singleton]
    constructor
    · rintro ((hcm | hcm) | hcm)
      · refine ⟨Or.inl (Or.inl hcm), ?_⟩
        intro e
        have := hbefore c hcm
        have := hc.size_ge c (hin' c (Or.inl hcm))
        rw [e] at this
        rw [e] at *
        omega
      · subst hcm; simp at hc1
      · refine ⟨Or.inr hcm, ?_⟩
        intro e
        have := hafter c hcm
        rw [e] at this
        omega
    · rintro ⟨(hcm | hcm) | hcm, hne⟩
      · exact Or.inl (Or.inl hcm)
      · exact absurd hcm hne
      · exact Or.inr hcm
  · intro a ha
    obtain ⟨c, hcm, hc1, hc2, hc3'⟩ := ha
    have hcm3 := (hiff c hc1).1 hcm
    have ha3 : Payload (pre ++ [⟨b.addr, b.size, 0⟩] ++ post) a := ⟨c, hcm3, hc1, hc2, hc3'⟩
    have hout : a + 8 < b.addr ∨ b.addr + b.size ≤ a := by
      simp only [List.mem_append, List.mem_singleton] at hcm3
      rcases hcm3 with (hcm3 | hcm3) | hcm3
      · have := hbefore c hcm3; omega
      · subst hcm3; simp at hc1
      · have := hafter c hcm3; omega
    rw [hfr6 a ha3, hfr3 a ha3]
    simp only [setMem_mem]
    rw [upd_other _ _ _ _ (by omega), upd_other _ _ _ _ (by omega)]
  · intro a ha
    have hab := ha b hb (Or.inr rfl)
    have hfree' : ∀ c ∈ pre ++ [⟨b.addr, b.size, 0⟩] ++ post, c.alloc = 0 →
        a ≠ c.addr - 4 ∧ a ≠ c.addr ∧ a ≠ c.addr + 4 ∧ a ≠ c.addr + c.size - 8 := by
      intro c hcm hc0
      simp only [List.mem_append, List.mem_singleton] at hcm
      rcases hcm with (hcm | hcm) | hcm
      · exact ha c (hin' c (Or.inl hcm)) (Or.inl hc0)
      · subst hcm; exact hab
      · exact ha c (hin' c (Or.inr hcm)) (Or.inl hc0)
    rw [hfrS6 a hfree', insert_node_frame hc2 hnb rfl hnot hins a
      (fun c hcm hc0 => ⟨(hfree' c hcm hc0).2.1, (hfree' c hcm hc0).2.2.1⟩)]
    simp only [setMem_mem]
    rw [upd_other _ _ _ _ (by omega), upd_other _ _ _ _ (by omega)]

theorem PACK_pro : PACK DSIZE 1 = 9 := rfl

/-- Function `mm_init` on a fresh arena: on success the heap is well formed and holds free blocks
only. -/
theorem mm_init_spec (base cap : Nat) (m0 l0 : Nat → Nat) (hb8 : base % 8 = 0)
    (hb0 : 0 < base) (hcap : base + cap < WORD) :
    ∃ r h, mm_init (mem_init base cap m0 l0) = Except.ok (r, h) ∧
      (r = 0 → ∃ bs FL, Good h bs FL ∧ (∀ c ∈ bs, c.alloc = 0) ∧ h.mem_start_brk = base ∧
        h.mem_max_addr = base + cap ∧ h.mem_brk = base + 80) ∧
      (80 ≤ cap → r = 0) := by
  have hW : WORD = 4294967296 := rfl
  by_cases hfit : base + 4 * WSIZE ≤ base + cap
  · have hfit' : base + 16 ≤ base + cap := hfit
    have hrun : mm_init (mem_init base cap m0 l0) =
        (PUT ⟨m0, base, base + 16, base + cap, fun i => if i < LISTSIZE then 0 else l0 i⟩
            base 0 >>= fun h =>
          PUT h (padd base (1 * WSIZE)) (PACK DSIZE 1) >>= fun h =>
          PUT h (padd base (2 * WSIZE)) (PACK DSIZE 1) >>= fun h =>
          PUT h (padd base (3 * WSIZE)) (PACK 0 1) >>= fun h =>
          extend_heap h INITCHUNKSIZE >>= fun x =>
          if x.1 = 0 then Except.ok (-1, x.2) else Except.ok (0, x.2)) := by
      unfold mm_init mem_sbrk mem_init
      simp only [if_pos hfit]
      rfl
    rw [hrun]
    have hin : ∀ m a, base ≤ a → a + 4 ≤ base + 16 → a % 4 = 0 →
        inArena (setMem ⟨m0, base, base + 16, base + cap,
          fun i => if i < LISTSIZE then 0 else l0 i⟩ m) a := fun m a p q r => ⟨p, q, r⟩
    have e1 : padd base (1 * WSIZE) = base + 4 := padd_eq _ _ (by unfold WSIZE; omega)
    have e2 : padd base (2 * WSIZE) = base + 8 := padd_eq _ _ (by unfold WSIZE; omega)
    have e3 : padd base (3 * WSIZE) = base + 12 := padd_eq _ _ (by unfold WSIZE; omega)
    have hin0 : ∀ a, base ≤ a → a + 4 ≤ base + 16 → a % 4 = 0 →
        inArena (⟨m0, base, base + 16, base + cap,
          fun i => if i < LISTSIZE then 0 else l0 i⟩ : Heap) a := fun a p q r => ⟨p, q, r⟩
    rw [e1, e2, e3, PACK_pro, PACK_epi,
      PUT_ok _ base 0 (hin0 base (by omega) (by omega) (by omega)) (by omega)]
    simp only [ok_bind]
    rw [PUT_setMem _ _ (base + 4) 9 (hin0 _ (by omega) (by omega) (by omega)) (by omega)]
    simp only [ok_bind]
    rw [PUT_setMem _ _ (base + 8) 9 (hin0 _ (by omega) (by omega) (by omega)) (by omega)]
    simp only [ok_bind]
    rw [PUT_setMem _ _ (base + 12) 1 (hin0 _ (by omega) (by omega) (by omega)) (by omega)]
    simp only [ok_bind]
    have hg0 : Good (setMem ⟨m0, base, base + 16, base + cap,
        fun i => if i < LISTSIZE then 0 else l0 i⟩
        (upd (upd (upd (upd m0 base 0) (base + 4) 9) (base + 8) 9) (base + 12) 1))
        [] (fun _ => []) := by
      refine ⟨⟨hb0, hb8, hfit', hcap, ?_, ?_, by simp, ?_, by simp, by simp⟩, by simp, ?_⟩
      · show Tiled _ (base + 8) [pro base] (base + 16)
        refine ⟨rfl, le_refl _, by simp [pro], le_refl _, ?_, ?_, ?_⟩
        · show upd _ _ _ (base + 8 - 4) = 9
          rw [show base + 8 - 4 = base + 4 by omega, upd_other _ _ _ _ (by omega),
            upd_other _ _ _ _ (by omega), upd_same]
        · show upd _ _ _ (base + 8 + 8 - 8) = 9
          rw [show base + 8 + 8 - 8 = base + 8 by omega, upd_other _ _ _ _ (by omega),
            upd_same]
        · show base + 8 + 8 = base + 16
          omega
      · simp only [setMem_mem, setMem_brk]
        rw [show base + 16 - 4 = base + 12 by omega, upd_same]
      · intro i hi
        simp only [setMem_lists, if_pos hi]
        rfl
      · intro x hx
        simp at hx
    by_cases hfit2 : (base + 16) + ALIGN INITCHUNKSIZE ≤ base + cap
    · have hal : ALIGN INITCHUNKSIZE = 64 := by decide
      rw [hal] at hfit2
      obtain ⟨h1, bs1, FL1, r1, hext, hg1, hs1, hk1, hx1, hr1, hr1f, hr1s, hiff1, -, -, -⟩ :=
        extend_heap_spec hg0 INITCHUNKSIZE (by decide) (by decide) hfit2
      have hr1I := hg1.core.inHeap hr1
      have hr1a : r1.addr ≠ 0 := by have := hr1I.lo; omega
      rw [hext]
      simp only [ok_bind, if_neg hr1a]
      refine ⟨0, h1, rfl, fun _ => ⟨bs1, FL1, hg1, ?_, hs1, hx1, by rw [hk1]; rfl⟩, fun _ => rfl⟩
      intro c hcm
      by_contra hne
      have hc1 : c.alloc = 1 := by
        have := (hg1.core.inHeap hcm).alloc_le
        omega
      have := (hiff1 c hc1).1 hcm
      simp at this
    · rw [extend_heap_fail _ _ hfit2]
      simp only [ok_bind, if_true]
      exact ⟨-1, _, rfl, fun e => by omega,
        fun hc => absurd (by rw [show ALIGN INITCHUNKSIZE = 64 by decide]; omega) hfit2⟩
  · have hrun : mm_init (mem_init base cap m0 l0) =
        Except.ok (-1, ⟨m0, base, base, base + cap,
          fun i => if i < LISTSIZE then 0 else l0 i⟩) := by
      unfold mm_init mem_sbrk mem_init
      simp only [if_neg hfit]
    rw [hrun]
    exact ⟨-1, _, rfl, fun e => by omega, fun hc => absurd (by unfold WSIZE; omega) hfit⟩

theorem mm_malloc_zero (h : Heap) : mm_malloc h 0 = Except.ok (0, h) := rfl

theorem reach_inv {h : Heap} {live : List Nat} (hr : Reach h live) : Inv h live := by
  induction hr with
  | init base cap m0 l0 h hb8 hb0 hcap hinit =>
    obtain ⟨r, h', hrun, hgood⟩ := mm_init_spec base cap m0 l0 hb8 hb0 hcap
    rw [hinit] at hrun
    injection hrun with hrun
    injection hrun with e1 e2
    subst e1
    subst e2
    obtain ⟨bs, FL, hg, hfree, _⟩ := hgood.1 rfl
    refine ⟨bs, FL, hg, ?_⟩
    intro p
    simp only [List.not_mem_nil, false_iff, not_exists, not_and]
    intro c hcm _ hc1
    have := hfree c hcm
    omega
  | malloc h h' live n p _ hn hrun ih =>
    obtain ⟨bs, FL, hg, hlive⟩ := ih
    by_cases h0 : n = 0
    · subst h0
      rw [mm_malloc_zero] at hrun
      injection hrun with hrun
      injection hrun with e1 e2
      subst e1
      subst e2
      simp only [if_true]
      exact ⟨bs, FL, hg, hlive⟩
    · obtain ⟨p', h'', hrun', hres⟩ := mm_malloc_spec hg n (by omega) hn
      rw [hrun] at hrun'
      injection hrun' with hrun'
      injection hrun' with e1 e2
      subst e1
      subst e2
      rcases hres with ⟨hp0, hh⟩ | ⟨hp0, bs', FL', sz, hg', _, _, _, _, hmem, hiff, -⟩
      · subst hh
        simp only [hp0, if_true]
        exact ⟨bs, FL, hg, hlive⟩
      · simp only [if_neg hp0]
        refine ⟨bs', FL', hg', ?_⟩
        intro q
        simp only [List.mem_cons]
        constructor
        · rintro (rfl | hq)
          · exact ⟨_, hmem, rfl, rfl⟩
          · obtain ⟨c, hc1, hc2, hc3⟩ := (hlive q).1 hq
            exact ⟨c, (hiff c hc3).2 (Or.inl hc1), hc2, hc3⟩
        · rintro ⟨c, hc1, hc2, hc3⟩
          rcases (hiff c hc3).1 hc1 with hc4 | hc4
          · exact Or.inr ((hlive q).2 ⟨c, hc4, hc2, hc3⟩)
          · subst hc4
            exact Or.inl hc2.symm
  | free h h' live p _ hp hrun ih =>
    obtain ⟨bs, FL, hg, hlive⟩ := ih
    obtain ⟨b, hb1, hb2, hb3⟩ := (hlive p).1 hp
    subst hb2
    obtain ⟨h'', bs', FL', hrun', hg', _, _, _, hiff, -⟩ := mm_free_spec hg hb1 hb3
    rw [hrun] at hrun'
    injection hrun' with e1
    subst e1
    refine ⟨bs', FL', hg', ?_⟩
    intro q
    simp only [List.mem_filter, decide_eq_true_eq]
    constructor
    · rintro ⟨hq, hne⟩
      obtain ⟨c, hc1, hc2, hc3⟩ := (hlive q).1 hq
      refine ⟨c, (hiff c hc3).2 ⟨hc1, ?_⟩, hc2, hc3⟩
      intro e
      exact hne (by rw [← hc2, e])
    · rintro ⟨c, hc1, hc2, hc3⟩
      obtain ⟨hc4, hc5⟩ := (hiff c hc3).1 hc1
      refine ⟨(hlive q).2 ⟨c, hc4, hc2, hc3⟩, ?_⟩
      intro e
      exact hc5 (hg.core.unique hc4 hb1 (by rw [hc2, e]))

/-! ## Facts that hold in every state -/

theorem PUT_fields {h h' : Heap} {p v : Nat} (hrun : PUT h p v = Except.ok h') :
    h'.mem_brk = h.mem_brk ∧ h'.mem_start_brk = h.mem_start_brk ∧
      h'.mem_max_addr = h.mem_max_addr := by
  unfold PUT at hrun
  split at hrun
  · injection hrun with e
    subst e
    exact ⟨rfl, rfl, rfl⟩
  · cases hrun

theorem delete_node_brk {h h' : Heap} {b : Nat} (hrun : delete_node h b = Except.ok h') :
    h'.mem_brk = h.mem_brk := by
  unfold delete_node at hrun
  simp only [bind_eq_ok, bucket_loop_eq, pure_eq_ok] at hrun
  obtain ⟨s0, -, s, -, hrun⟩ := hrun
  split at hrun
  · simp only [bind_eq_ok] at hrun
    obtain ⟨p, -, hrun⟩ := hrun
    split at hrun
    · simp only [bind_eq_ok] at hrun
      obtain ⟨p1, -, s1, -, h1, e1, s2, -, p2, -, e2⟩ := hrun
      rw [(PUT_fields e2).1, (PUT_fields e1).1]
    · simp only [bind_eq_ok] at hrun
      obtain ⟨s1, -, h1, e1, s2, -, e2⟩ := hrun
      injection e2 with e2
      subst e2
      exact (PUT_fields e1).1
  · simp only [bind_eq_ok] at hrun
    obtain ⟨p, -, hrun⟩ := hrun
    split at hrun
    · simp only [bind_eq_ok] at hrun
      obtain ⟨p1, -, e1⟩ := hrun
      exact (PUT_fields e1).1
    · injection hrun with e2
      subst e2
      rfl

theorem insert_node_brk {h h' : Heap} {b : Nat} (hrun : insert_node h b = Except.ok h') :
    h'.mem_brk = h.mem_brk := by
  unfold insert_node at hrun
  simp only [bind_eq_ok, bucket_loop_eq, pure_eq_ok] at hrun
  obtain ⟨s0, -, ⟨pred, succ⟩, -, hrun⟩ := hrun
  simp only [] at hrun
  split at hrun
  · split at hrun
    · simp only [bind_eq_ok] at hrun
      obtain ⟨h1, e1, h2, e2, h3, e3, e4⟩ := hrun
      rw [(PUT_fields e4).1, (PUT_fields e3).1, (PUT_fields e2).1, (PUT_fields e1).1]
    · simp only [bind_eq_ok] at hrun
      obtain ⟨h1, e1, h2, e2, h3, e3, e4⟩ := hrun
      injection e4 with e4
      subst e4
      show h3.mem_brk = _
      rw [(PUT_fields e3).1, (PUT_fields e2).1, (PUT_fields e1).1]
  · split at hrun
    · simp only [bind_eq_ok] at hrun
      obtain ⟨h1, e1, h2, e2, e3⟩ := hrun
      rw [(PUT_fields e3).1, (PUT_fields e2).1, (PUT_fields e1).1]
    · simp only [bind_eq_ok] at hrun
      obtain ⟨h1, e1, h2, e2, e3⟩ := hrun
      injection e3 with e3
      subst e3
      show h2.mem_brk = _
      rw [(PUT_fields e2).1, (PUT_fields e1).1]

/-- A block pointer whose header can be read below the top of the address space is not
`NULL`. -/
theorem ne_zero_of_get_size {h : Heap} {p s : Nat} (hb : h.mem_brk < WORD)
    (hrun : GET_SIZE h (HDRP p) = Except.ok s) : p ≠ 0 := by
  intro e
  subst e
  unfold GET_SIZE GET at hrun
  split at hrun
  · rename_i hin
    have h2 := hin.2.1
    have : HDRP 0 = WORD - 4 := by decide
    rw [this] at h2
    have hW : WORD = 4294967296 := rfl
    unfold WSIZE at h2
    omega
  · cases hrun

theorem insert_node_ne_zero {h h' : Heap} {p : Nat} (hb : h.mem_brk < WORD)
    (hrun : insert_node h p = Except.ok h') : p ≠ 0 := by
  unfold insert_node at hrun
  simp only [bind_eq_ok] at hrun
  obtain ⟨s0, e0, -⟩ := hrun
  exact ne_zero_of_get_size hb e0

/-- The function `place` returns the block pointer it was given. -/
theorem place_fst {h h' : Heap} {b size p : Nat} (hrun : place h b size = Except.ok (p, h')) :
    p = b := by
  unfold place at hrun
  simp only [bind_eq_ok, pure_eq_ok] at hrun
  obtain ⟨fs, -, h1, -, hrun⟩ := hrun
  split at hrun
  · simp only [bind_eq_ok] at hrun
    obtain ⟨h2, -, ft, -, h3, -, e⟩ := hrun
    injection e with e
    injection e with e1 e2
    exact e1.symm
  · simp only [bind_eq_ok] at hrun
    obtain ⟨h2, -, ft, -, h3, -, nx, -, h4, -, nx2, -, ft2, -, h5, -, nx3, -, h6, -, e⟩ := hrun
    injection e with e
    injection e with e1 e2
    exact e1.symm

theorem coalesce_ne_zero {h h' : Heap} {bp r : Nat} (hb : h.mem_brk < WORD)
    (hrun : coalesce h bp = Except.ok (r, h')) : r ≠ 0 := by
  unfold coalesce at hrun
  simp only [bind_eq_ok] at hrun
  obtain ⟨pv, -, pa, -, nx, -, na, -, size, esz, hrun⟩ := hrun
  have hbp := ne_zero_of_get_size hb esz
  split at hrun
  · injection hrun with e
    injection e with e1 e2
    rw [← e1]; exact hbp
  · split at hrun
    · unfold coalesce_next at hrun
      simp only [bind_eq_ok, pure_eq_ok] at hrun
      obtain ⟨h1, -, nx1, -, h2, -, nx2, -, nsz, -, h3, -, ft, -, h4, -, h5, -, e⟩ := hrun
      injection e with e
      injection e with e1 e2
      rw [← e1]; exact hbp
    · split at hrun
      · unfold coalesce_prev at hrun
        simp only [bind_eq_ok, pure_eq_ok] at hrun
        obtain ⟨pv1, -, h1, d1, h2, d2, pv2, -, psz, -, ft, -, h3, p3, pv3, -, h4, p4, pv4, -,
          h5, i5, e⟩ := hrun
        injection e with e
        injection e with e1 e2
        rw [← e1]
        refine insert_node_ne_zero ?_ i5
        rw [(PUT_fields p4).1, (PUT_fields p3).1, delete_node_brk d2, delete_node_brk d1]
        exact hb
      · unfold coalesce_both at hrun
        simp only [bind_eq_ok, pure_eq_ok] at hrun
        obtain ⟨pv1, -, h1, d1, h2, d2, nx1, -, h3, d3, pv2, -, psz, -, nx2, -, nsz, -, pv3, -,
          h4, p4, nx3, -, ft, -, h5, p5, pv4, -, h6, i6, e⟩ := hrun
        injection e with e
        injection e with e1 e2
        rw [← e1]
        refine insert_node_ne_zero ?_ i6
        rw [(PUT_fields p5).1, (PUT_fields p4).1, delete_node_brk d3, delete_node_brk d2,
          delete_node_brk d1]
        exact hb

/-- The function `extend_heap` returns `NULL` exactly when the arena cannot grow, and then it
changes nothing. -/
theorem extend_heap_null {h h' : Heap} {size r : Nat} (hmax : h.mem_max_addr < WORD)
    (hrun : extend_heap h size = Except.ok (r, h')) :
    (r = 0 ↔ mem_sbrk h (ALIGN size) = none) ∧ (r = 0 → h' = h) := by
  unfold extend_heap at hrun
  simp only [] at hrun
  split at hrun
  · rename_i hs
    injection hrun with e
    injection e with e1 e2
    exact ⟨⟨fun _ => hs, fun _ => e1.symm⟩, fun _ => e2.symm⟩
  · rename_i ptr h1 hs
    simp only [bind_eq_ok] at hrun
    obtain ⟨h2, p2, ft, -, h3, p3, nx, -, h4, p4, h5, i5, hco⟩ := hrun
    have hk1 : h1.mem_brk ≤ h.mem_max_addr := by
      unfold mem_sbrk at hs
      split at hs
      · rename_i hfit
        injection hs with e
        injection e with e1 e2
        rw [← e2]
        exact hfit
      · cases hs
    have hr : r ≠ 0 := by
      refine coalesce_ne_zero ?_ hco
      rw [insert_node_brk i5, (PUT_fields p4).1, (PUT_fields p3).1, (PUT_fields p2).1]
      omega
    refine ⟨⟨fun e => absurd e hr, fun e => ?_⟩, fun e => absurd e hr⟩
    rw [hs] at e
    cases e

/-! ## Observing a heap: the block sequence and the bucket chains -/

theorem walk_tiled {h : Heap} (hlt : h.mem_brk < WORD) (hepi : h.mem (h.mem_brk - 4) = 1)
    (bs : List Blk) (p : Nat) (ht : Tiled h.mem p bs h.mem_brk) (hp : h.mem_start_brk + 8 ≤ p)
    (hp8 : p % 8 = 0) (k : Nat) (hk : bs.length < k) : walk h k p = Except.ok bs := by
  have hW : WORD = 4294967296 := rfl
  induction bs generalizing p k with
  | nil =>
    have e : p = h.mem_brk := ht
    subst e
    obtain ⟨k, rfl⟩ : ∃ j, k = j + 1 := ⟨k - 1, by simp at hk; omega⟩
    have hh : HdrAt h h.mem_brk 0 1 :=
      ⟨by unfold inArena WSIZE; omega, by omega, by omega, rfl, le_refl _, by rw [hepi]⟩
    unfold walk
    rw [hh.size_at, hh.alloc_at]
    rfl
  | cons b bs ih =>
    obtain ⟨h1, h2, h3, h4, h5, h6, h7⟩ := ht
    obtain ⟨k, rfl⟩ : ∃ j, k = j + 1 := ⟨k - 1, by simp at hk; omega⟩
    have hle := Tiled_le h7
    have hh : HdrAt h p b.size b.alloc :=
      ⟨by unfold inArena WSIZE; omega, by omega, by omega, h3, h4, h5⟩
    unfold walk
    rw [hh.size_at, hh.alloc_at]
    simp only [ok_bind]
    rw [if_neg (by omega), hh.next_at]
    simp only [ok_bind]
    rw [ih (p + b.size) h7 (by omega) (by omega) k (by simp at hk; omega)]
    simp only [ok_bind, pure_eq_ok]
    rw [← h1]

theorem chain_lseg {h : Heap} (l : List Nat) (prev p : Nat) (hl : LSeg h.mem prev p l 0)
    (hin : ∀ x ∈ l, inArena h (x + 4) ∧ x + 4 < WORD) (k : Nat) (hk : l.length < k) :
    chain h k p = Except.ok l := by
  induction l generalizing prev p k with
  | nil =>
    have e : p = 0 := hl
    subst e
    obtain ⟨k, rfl⟩ : ∃ j, k = j + 1 := ⟨k - 1, by simp at hk; omega⟩
    rfl
  | cons x l ih =>
    obtain ⟨h1, h2, h3, h4⟩ := hl
    subst h1
    obtain ⟨k, rfl⟩ : ∃ j, k = j + 1 := ⟨k - 1, by simp at hk; omega⟩
    obtain ⟨hx1, hx2⟩ := hin p (List.mem_cons_self _ _)
    unfold chain
    rw [if_neg h2]
    unfold SUCC SUCC_PTR WSIZE
    rw [padd_eq _ _ hx2, GET_ok _ _ hx1]
    simp only [ok_bind]
    rw [ih p _ h4 (fun y hy => hin y (List.mem_cons_of_mem _ hy)) k (by simp at hk; omega)]
    rfl

theorem Core.blocks_eq {h : Heap} {bs : List Blk} {FL : Nat → List Nat} (hc : Core h bs FL) :
    blocks h = Except.ok bs := by
  have := Tiled_length hc.tiled_bs
  have := hc.brk_le; have := hc.max_lt; have := hc.base_mod
  unfold blocks first_block WSIZE
  exact walk_tiled (by omega) hc.epi bs _ hc.tiled_bs (by omega) (by omega) _
    (by unfold fuel; omega)

theorem Core.walk_prologue {h : Heap} {bs : List Blk} {FL : Nat → List Nat} (hc : Core h bs FL) :
    walk h (fuel h + 1) (prologue h) = Except.ok (pro h.mem_start_brk :: bs) := by
  have hlen := Tiled_length hc.tiled
  have := hc.brk_le; have := hc.max_lt; have := hc.base_mod
  unfold prologue WSIZE
  refine walk_tiled (by omega) hc.epi _ _ hc.tiled (by omega) (by omega) _ ?_
  simp only [List.length_cons] at hlen ⊢
  unfold fuel; omega

theorem Core.bucket_nodes_eq {h : Heap} {bs : List Blk} {FL : Nat → List Nat} (hc : Core h bs FL)
    (i : Nat) (hi : i < LISTSIZE) : bucket_nodes h i = Except.ok (FL i) := by
  unfold bucket_nodes
  refine chain_lseg _ _ _ (hc.linked i hi) ?_ _ (hc.length_le i)
  intro x hx
  obtain ⟨b, hb, rfl, -, -⟩ := hc.node i x hx
  have hI := hc.inHeap hb
  have := hI.hi; have := hI.brk_lt; have := hI.size_ge
  exact ⟨hI.in_succ, by omega⟩

/-- Neighbours in the block sequence are never both free. -/
theorem NoAdj.chain {m : Nat → Nat} (bs : List Blk) (p q : Nat) (ht : Tiled m p bs q)
    (hn : NoAdj bs) : bs.Chain' (fun x y => x.alloc ≠ 0 ∨ y.alloc ≠ 0) := by
  induction bs generalizing p with
  | nil => exact List.chain'_nil
  | cons x bs ih =>
    obtain ⟨h1, -, -, -, -, -, h7⟩ := ht
    have hrest : NoAdj bs := fun a ha b hb e =>
      hn a (List.mem_cons_of_mem _ ha) b (List.mem_cons_of_mem _ hb) e
    cases bs with
    | nil => exact List.chain'_singleton _
    | cons y bs =>
      refine List.chain'_cons.2 ⟨?_, ih _ h7 hrest⟩
      have e : y.addr = p + x.size := h7.1
      exact hn x (List.mem_cons_self _ _) y (List.mem_cons_of_mem _ (List.mem_cons_self _ _))
        (by omega)

/-! ## Runs on concrete arenas -/

set_option maxRecDepth 100000 in
theorem run_huge_request_eq : run_huge_request = Except.ok (0, 24, 8) := by decide!

set_option maxRecDepth 100000 in
theorem run_huge_request_blocks_eq :
    run_huge_request_blocks = Except.ok [⟨24, 8, 1⟩, ⟨32, 56, 0⟩] := by decide!

set_option maxRecDepth 100000 in
theorem run_adjacent_free_eq :
    run_adjacent_free = Except.ok (24, [⟨24, 32, 0⟩, ⟨56, 32, 0⟩]) := by decide!

set_option maxRecDepth 100000 in
theorem run_index_mismatch_eq :
    run_index_mismatch =
      Except.ok ((24, 40, 24), [⟨24, 16, 0⟩, ⟨40, 16, 1⟩, ⟨56, 32, 0⟩], [40], [56]) := by
  decide!

set_option maxRecDepth 100000 in
theorem run_prologue_tags_eq : run_prologue_tags = Except.ok (9, 1) := by decide!

set_option maxRecDepth 100000 in
theorem run_bucket_order_eq :
    run_bucket_order = Except.ok ((24, 48), [24, 72], [24, 16]) := by decide!

set_option maxRecDepth 100000 in
theorem run_scenario_eq :
    run_scenario fresh_arena =
      Except.ok ⟨0, (24, 136, 24, 136), 4184, 4184, [⟨24, 112, 1⟩, ⟨136, 4048, 0⟩], 4184⟩ := by
  decide!

set_option maxRecDepth 100000 in
theorem run_loop_eq : run_loop 70000 1 = Except.ok 70088 ∧ run_loop 70000 2 = Except.ok 140096 := by
  decide!

/-! ## States of concrete runs -/

theorem ok_of_fst {α : Type} {x : Res (α × Heap)} {a : α}
    (e : x.map Prod.fst = Except.ok a) : x = Except.ok (a, heap_of (x.map Prod.snd)) := by
  cases x with
  | error f => cases e
  | ok v =>
    obtain ⟨b, h⟩ := v
    have e1 : b = a := Except.ok.inj e
    subst e1
    rfl

theorem ok_of_toBool {x : Res Heap} (e : x.toBool = true) : x = Except.ok (heap_of x) := by
  cases x with
  | error f => cases e
  | ok v => rfl

set_option maxRecDepth 100000 in
theorem fresh_heap_fst : (mm_init fresh_arena).map Prod.fst = Except.ok 0 := by decide!

theorem fresh_heap_eq : mm_init fresh_arena = Except.ok (0, fresh_heap) := ok_of_fst fresh_heap_fst

theorem reach_fresh : Reach fresh_heap [] :=
  Reach.init 8 1048576 _ _ fresh_heap (by decide) (by decide) (by decide) fresh_heap_eq

set_option maxRecDepth 100000 in
theorem one_block_fst : (mm_malloc fresh_heap 8).map Prod.fst = Except.ok 24 := by decide!

theorem one_block_eq : mm_malloc fresh_heap 8 = Except.ok (24, one_block_heap) :=
  ok_of_fst one_block_fst

theorem reach_one_block : Reach one_block_heap [24] :=
  Reach.malloc fresh_heap one_block_heap [] 8 24 reach_fresh (by decide) one_block_eq

/-! ## The allocation contract -/

set_option maxRecDepth 100000 in
theorem small_heap_fst : (mm_init small_arena).map Prod.fst = Except.ok 0 := by decide!

theorem small_heap_eq : mm_init small_arena = Except.ok (0, small_heap) := ok_of_fst small_heap_fst

theorem reach_small : Reach small_heap [] :=
  Reach.init 8 80 _ _ small_heap (by decide) (by decide) (by decide) small_heap_eq

/-- Claim C1, counterexample: on a fresh arena `mm_malloc(4294967295)` returns the non-null
pointer 24, and the header of the block at 24 holds the size 8, which leaves no usable byte
at all. -/
theorem malloc_payload_counterexample :
    run_huge_request = Except.ok (0, 24, 8) ∧ (24 : Nat) ≠ 0 ∧ ¬ (4294967295 ≤ 8 - 8) :=
  ⟨run_huge_request_eq, by decide, by decide⟩

/-- Claim C1, amended: in every state reached from a successful `mm_init` by calls of
`mm_malloc` with `n + 15 < 2 ^ 32` and calls of `mm_free` on live pointers, a call
`mm_malloc(n)` with `0 < n` and `n + 15 < 2 ^ 32` returns, and a non-null result `p` is a
multiple of 8, lies a multiple of 8 behind the arena start, and the header of its block holds
a size of at least `n + 8`. -/
theorem malloc_payload (h : Heap) (live : List Nat) (n : Nat) (hr : Reach h live)
    (h0 : 0 < n) (hn : n + 15 < WORD) :
    ∃ p h', mm_malloc h n = Except.ok (p, h') ∧
      (p ≠ 0 → p % 8 = 0 ∧ (p - h'.mem_start_brk) % 8 = 0 ∧
        ∃ sz, GET_SIZE h' (HDRP p) = Except.ok sz ∧ n ≤ sz - 8 ∧ 8 ≤ sz) := by
  obtain ⟨bs, FL, hg, -⟩ := reach_inv hr
  obtain ⟨p, h', hrun, hres⟩ := mm_malloc_spec hg n h0 hn
  refine ⟨p, h', hrun, fun hp => ?_⟩
  rcases hres with ⟨hp0, -⟩ | ⟨-, bs', FL', sz, hg', -, -, -, hsz, hmem, -, -⟩
  · exact absurd hp0 hp
  · have hI := hg'.core.inHeap hmem
    have ha := adjust_spec n h0 hn
    have h1 := hI.addr_mod
    have h2 := hI.base_mod
    have h3 := hI.lo
    have h4 : p % 8 = 0 := h1
    have h5 : h'.mem_start_brk + 16 ≤ p := h3
    refine ⟨h4, by omega, sz, hI.get_size, ?_, ?_⟩
    · have : adjust n ≤ sz := hsz
      omega
    · have : adjust n ≤ sz := hsz
      omega

/-- Claim C1, amended, at the state after `mm_init` on the fresh arena and `n = 1`. -/
theorem malloc_payload_witness :
    Reach fresh_heap [] ∧ 0 < 1 ∧ 1 + 15 < WORD ∧
      ∃ p h', mm_malloc fresh_heap 1 = Except.ok (p, h') ∧
        (p ≠ 0 → p % 8 = 0 ∧ (p - h'.mem_start_brk) % 8 = 0 ∧
          ∃ sz, GET_SIZE h' (HDRP p) = Except.ok sz ∧ 1 ≤ sz - 8 ∧ 8 ≤ sz) :=
  ⟨reach_fresh, by decide, by decide,
    malloc_payload fresh_heap [] 1 reach_fresh (by decide) (by decide)⟩

/-- Claim C2: `mm_malloc(0)` returns `NULL` and the state (memory, arena bounds, bucket heads)
is the one before the call. -/
theorem malloc_zero_noop (h : Heap) : mm_malloc h 0 = Except.ok (0, h) := rfl

/-- Claim C3: for `n > 0`, a call `mm_malloc(n)` that returns gives `NULL` exactly when the
search of the buckets found no block and the arena extension (`mem_sbrk`) then failed, and
with `NULL` the state is the one before the call; and in every reachable state the call does
return (for `n + 15 < 2 ^ 32`). -/
theorem malloc_null_iff (h : Heap) (n : Nat) (hmax : h.mem_max_addr < WORD) (h0 : 0 < n) :
    (∀ p h', mm_malloc h n = Except.ok (p, h') →
      (p = 0 ↔ find_loop h (adjust n) LISTSIZE 0 (adjust n) = Except.ok 0 ∧
        mem_sbrk h (ALIGN (MAX (adjust n) CHUNKSIZE)) = none) ∧ (p = 0 → h' = h)) ∧
    (∀ live, Reach h live → n + 15 < WORD → ∃ p h', mm_malloc h n = Except.ok (p, h')) := by
  constructor
  · intro p h' hrun
    unfold mm_malloc at hrun
    rw [if_neg (by omega)] at hrun
    simp only [bind_eq_ok] at hrun
    obtain ⟨ptr, hfind, hrun⟩ := hrun
    rw [hfind]
    split at hrun
    · rename_i hptr
      subst hptr
      simp only [bind_eq_ok] at hrun
      obtain ⟨⟨r, h1⟩, hext, hrun⟩ := hrun
      obtain ⟨hiff, hsame⟩ := extend_heap_null hmax hext
      simp only [] at hrun
      split at hrun
      · rename_i hr0
        injection hrun with e
        injection e with e1 e2
        subst e1
        subst e2
        exact ⟨⟨fun _ => ⟨rfl, hiff.1 hr0⟩, fun _ => rfl⟩, fun _ => hsame hr0⟩
      · rename_i hr0
        have hp := place_fst hrun
        subst hp
        exact ⟨⟨fun e => absurd e hr0, fun e => absurd (hiff.2 e.2) hr0⟩, fun e => absurd e hr0⟩
    · rename_i hptr
      have hp := place_fst hrun
      subst hp
      refine ⟨⟨fun e => absurd e hptr, fun e => ?_⟩, fun e => absurd e hptr⟩
      exact absurd (Except.ok.inj e.1) hptr
  · intro live hr hn
    obtain ⟨bs, FL, hg, -⟩ := reach_inv hr
    obtain ⟨p, h', hrun, -⟩ := mm_malloc_spec hg n h0 hn
    exact ⟨p, h', hrun⟩

/-- Claim C3 at the state after `mm_init` on the small arena and `n = 100`. -/
theorem malloc_null_iff_witness :
    small_heap.mem_max_addr < WORD ∧ 0 < 100 ∧
    ((∀ p h', mm_malloc small_heap 100 = Except.ok (p, h') →
      (p = 0 ↔ find_loop small_heap (adjust 100) LISTSIZE 0 (adjust 100) = Except.ok 0 ∧
        mem_sbrk small_heap (ALIGN (MAX (adjust 100) CHUNKSIZE)) = none) ∧
        (p = 0 → h' = small_heap)) ∧
    (∀ live, Reach small_heap live → 100 + 15 < WORD →
      ∃ p h', mm_malloc small_heap 100 = Except.ok (p, h'))) :=
  ⟨by decide, by decide, malloc_null_iff small_heap 100 (by decide) (by decide)⟩

/-! ## The heap invariants -/

/-- Claim C4, counterexample: after `a = mm_malloc(8)`, `b = mm_malloc(8)`, `mm_free(a)`,
`c = mm_malloc(4294967288)`, `mm_free(c)` on a fresh arena the walk from the first block meets
the free block at 24 and right after it the free block at 56. -/
theorem no_adjacent_free_counterexample :
    run_adjacent_free = Except.ok (24, [⟨24, 32, 0⟩, ⟨56, 32, 0⟩]) ∧
      ¬ [(⟨24, 32, 0⟩ : Blk), ⟨56, 32, 0⟩].Chain' (fun x y => ¬ (x.alloc = 0 ∧ y.alloc = 0)) :=
  ⟨run_adjacent_free_eq, fun hc => List.chain'_pair.1 hc ⟨rfl, rfl⟩⟩

/-- Claim C4, amended: after a successful `mm_init` and any sequence of calls of `mm_malloc`
with `n + 15 < 2 ^ 32` and of `mm_free` on live pointers, the walk from the first block by
header sizes reaches the epilogue and no two consecutive blocks of it are both free. -/
theorem no_adjacent_free (h : Heap) (live : List Nat) (hr : Reach h live) :
    ∃ bs, blocks h = Except.ok bs ∧ bs.Chain' (fun x y => ¬ (x.alloc = 0 ∧ y.alloc = 0)) := by
  obtain ⟨bs, FL, hg, -⟩ := reach_inv hr
  refine ⟨bs, hg.core.blocks_eq, ?_⟩
  refine List.Chain'.imp ?_ (NoAdj.chain bs _ _ hg.core.tiled_bs hg.noadj)
  intro x y hxy hboth
  rcases hxy with hx | hy
  · exact hx hboth.1
  · exact hy hboth.2

/-- Claim C4, amended, at the state after `mm_init` and `mm_malloc(8)` on the fresh arena. -/
theorem no_adjacent_free_witness :
    Reach one_block_heap [24] ∧
      ∃ bs, blocks one_block_heap = Except.ok bs ∧
        bs.Chain' (fun x y => ¬ (x.alloc = 0 ∧ y.alloc = 0)) :=
  ⟨reach_one_block, no_adjacent_free one_block_heap [24] reach_one_block⟩

/-- Claim C5, counterexample: after `a = mm_malloc(8)`, `b = mm_malloc(8)`, `mm_free(a)`,
`c = mm_malloc(4294967288)` on a fresh arena, bucket 4 holds the block at 40, whose header
says allocated, and the block at 24, whose header says free, is in no bucket (the free
blocks have sizes 16 and 32, which belong to buckets 4 and 5). -/
theorem index_counterexample :
    run_index_mismatch =
      Except.ok ((24, 40, 24), [⟨24, 16, 0⟩, ⟨40, 16, 1⟩, ⟨56, 32, 0⟩], [40], [56]) ∧
      (⟨40, 16, 1⟩ : Blk).alloc = 1 ∧ 40 ∈ [40] ∧ 24 ∉ [40] ∧ 24 ∉ [56] :=
  ⟨run_index_mismatch_eq, by decide, by decide, by decide, by decide⟩

/-- Claim C5, amended: after a successful `mm_init` and any sequence of calls of `mm_malloc`
with `n + 15 < 2 ^ 32` and of `mm_free` on live pointers, following the successor links from
each of the 16 bucket heads ends, no node is met twice in a bucket or in two buckets, every
node is a block of the arena whose header says free, every such block is a node, and no
block whose header says allocated is a node. -/
theorem index_is_free_blocks (h : Heap) (live : List Nat) (hr : Reach h live) :
    ∃ (bs : List Blk) (FL : Nat → List Nat), blocks h = Except.ok bs ∧
      (∀ i, i < LISTSIZE → bucket_nodes h i = Except.ok (FL i)) ∧
      (∀ i, i < LISTSIZE → (FL i).Nodup) ∧
      (∀ i j x, i < LISTSIZE → j < LISTSIZE → x ∈ FL i → x ∈ FL j → i = j) ∧
      (∀ i x, i < LISTSIZE → x ∈ FL i → ∃ b ∈ bs, b.addr = x ∧ b.alloc = 0) ∧
      (∀ b ∈ bs, b.alloc = 0 → ∃ i, i < LISTSIZE ∧ b.addr ∈ FL i) ∧
      (∀ b ∈ bs, b.alloc = 1 → ∀ i, i < LISTSIZE → b.addr ∉ FL i) := by
  obtain ⟨bs, FL, hg, -⟩ := reach_inv hr
  have hc := hg.core
  refine ⟨bs, FL, hc.blocks_eq, fun i hi => hc.bucket_nodes_eq i hi, fun i _ => hc.nodup i,
    ?_, ?_, ?_, ?_⟩
  · intro i j x _ _ hxi hxj
    obtain ⟨b, hb, hbx, -, hbi⟩ := hc.node i x hxi
    subst hbx
    rw [← hbi, (hc.node_blk hb hxj).2]
  · intro i x _ hxi
    obtain ⟨b, hb, hbx, hfree, -⟩ := hc.node i x hxi
    exact ⟨b, hb, hbx, hfree⟩
  · intro b hb hfree
    exact ⟨bucket b.size, bucket_lt _, hg.listed b hb hfree⟩
  · intro b hb hal i _ hxi
    have := (hc.node_blk hb hxi).1
    omega

/-- Claim C5, amended, at the state after `mm_init` and `mm_malloc(8)` on the fresh arena. -/
theorem index_is_free_blocks_witness :
    Reach one_block_heap [24] ∧
    ∃ (bs : List Blk) (FL : Nat → List Nat), blocks one_block_heap = Except.ok bs ∧
      (∀ i, i < LISTSIZE → bucket_nodes one_block_heap i = Except.ok (FL i)) ∧
      (∀ i, i < LISTSIZE → (FL i).Nodup) ∧
      (∀ i j x, i < LISTSIZE → j < LISTSIZE → x ∈ FL i → x ∈ FL j → i = j) ∧
      (∀ i x, i < LISTSIZE → x ∈ FL i → ∃ b ∈ bs, b.addr = x ∧ b.alloc = 0) ∧
      (∀ b ∈ bs, b.alloc = 0 → ∃ i, i < LISTSIZE ∧ b.addr ∈ FL i) ∧
      (∀ b ∈ bs, b.alloc = 1 → ∀ i, i < LISTSIZE → b.addr ∉ FL i) :=
  ⟨reach_one_block, index_is_free_blocks one_block_heap [24] reach_one_block⟩

/-- Claim C6, counterexample: after `a = mm_malloc(8)`, `b = mm_malloc(8)`, `mm_free(a)`,
`c = mm_malloc(4294967288)` on a fresh arena the header word of the prologue block is 9 and
its footer word is 1. -/
theorem tags_agree_counterexample :
    run_prologue_tags = Except.ok (9, 1) ∧ (9 : Nat) ≠ 1 :=
  ⟨run_prologue_tags_eq, by decide⟩

/-- Claim C6, amended: after a successful `mm_init` and any sequence of calls of `mm_malloc`
with `n + 15 < 2 ^ 32` and of `mm_free` on live pointers, the walk from the prologue block by
header sizes reaches the epilogue, starts with the prologue block, and for every block of it
the header word and the footer word are both the packed size and flag of the block. -/
theorem tags_agree (h : Heap) (live : List Nat) (hr : Reach h live) :
    ∃ bs, walk h (fuel h + 1) (prologue h) = Except.ok (⟨prologue h, DSIZE, 1⟩ :: bs) ∧
      ∀ b ∈ (⟨prologue h, DSIZE, 1⟩ : Blk) :: bs, ∃ ft, FTRP h b.addr = Except.ok ft ∧
        GET h (HDRP b.addr) = Except.ok (PACK b.size b.alloc) ∧
        GET h ft = Except.ok (PACK b.size b.alloc) := by
  have hW : WORD = 4294967296 := rfl
  obtain ⟨bs, FL, hg, -⟩ := reach_inv hr
  have hc := hg.core
  refine ⟨bs, hc.walk_prologue, ?_⟩
  intro b hb
  have hb' : b ∈ pro h.mem_start_brk :: bs := hb
  have hk := Tiled_mem hc.tiled hb'
  have hmod := (Tiled_addr_mod hc.tiled (by have := hc.base_mod; omega)).2 b hb'
  have hlo := hk.lo; have hhi := hk.hi; have hge := hk.size_ge; have hsm := hk.size_mod
  have hle := hc.brk_le; have hmx := hc.max_lt; have hbm := hc.base_mod
  have hin1 : inArena h (b.addr - 4) := by unfold inArena WSIZE; omega
  have hin2 : inArena h (b.addr + b.size - 8) := by unfold inArena WSIZE; omega
  have hh : HdrAt h b.addr b.size b.alloc :=
    ⟨hin1, by omega, by omega, hsm, hk.alloc_le, hk.hdr⟩
  refine ⟨b.addr + b.size - 8, hh.ftrp_at, ?_, ?_⟩
  · rw [hh.hdrp_at, GET_ok _ _ hin1, hk.hdr, PACK_eq _ _ hsm hk.alloc_le]
  · rw [GET_ok _ _ hin2, hk.ftr, PACK_eq _ _ hsm hk.alloc_le]

/-- Claim C6, amended, at the state after `mm_init` and `mm_malloc(8)` on the fresh arena. -/
theorem tags_agree_witness :
    Reach one_block_heap [24] ∧
    ∃ bs, walk one_block_heap (fuel one_block_heap + 1) (prologue one_block_heap) =
        Except.ok (⟨prologue one_block_heap, DSIZE, 1⟩ :: bs) ∧
      ∀ b ∈ (⟨prologue one_block_heap, DSIZE, 1⟩ : Blk) :: bs,
        ∃ ft, FTRP one_block_heap b.addr = Except.ok ft ∧
          GET one_block_heap (HDRP b.addr) = Except.ok (PACK b.size b.alloc) ∧
          GET one_block_heap ft = Except.ok (PACK b.size b.alloc) :=
  ⟨reach_one_block, tags_agree one_block_heap [24] reach_one_block⟩

/-- Claim C7, counterexample: after `mm_malloc(4294967295)` on a fresh arena the first block
after the prologue has size 8. -/
theorem block_sizes_counterexample :
    run_huge_request_blocks = Except.ok [⟨24, 8, 1⟩, ⟨32, 56, 0⟩] ∧
      ¬ (16 ≤ (⟨24, 8, 1⟩ : Blk).size) :=
  ⟨run_huge_request_blocks_eq, by decide⟩

/-- Claim C7, amended: after a successful `mm_init` and any sequence of calls of `mm_malloc`
with `n + 15 < 2 ^ 32` and of `mm_free` on live pointers, the walk from the first block by
header sizes reaches the epilogue and every block of it has a size that is a multiple of 8
and at least 16. -/
theorem block_sizes (h : Heap) (live : List Nat) (hr : Reach h live) :
    ∃ bs, blocks h = Except.ok bs ∧ ∀ b ∈ bs, b.size % 8 = 0 ∧ 2 * DSIZE ≤ b.size := by
  obtain ⟨bs, FL, hg, -⟩ := reach_inv hr
  refine ⟨bs, hg.core.blocks_eq, fun b hb => ?_⟩
  have hI := hg.core.inHeap hb
  exact ⟨hI.size_mod, hI.size_ge⟩

/-- Claim C7, amended, at the state after `mm_init` and `mm_malloc(8)` on the fresh arena. -/
theorem block_sizes_witness :
    Reach one_block_heap [24] ∧
    ∃ bs, blocks one_block_heap = Except.ok bs ∧ ∀ b ∈ bs, b.size % 8 = 0 ∧ 2 * DSIZE ≤ b.size :=
  ⟨reach_one_block, block_sizes one_block_heap [24] reach_one_block⟩

/-- Claim C8, failing run: after `a = mm_malloc(16)`, `b = mm_malloc(16)`, `mm_free(a)` on a
fresh arena bucket 4 holds the block at 24 of size 24 and after it the block at 72 of size
16: the bucket is not in ascending order of size. -/
theorem bucket_order_fails :
    run_bucket_order = Except.ok ((24, 48), [24, 72], [24, 16]) ∧
      ¬ [24, 16].Chain' (fun x y => x ≤ y) :=
  ⟨run_bucket_order_eq, fun hc => absurd (List.chain'_pair.1 hc) (by decide)⟩

/-- Claim C9: on the fresh arena at address 8 with room for one megabyte, `A = mm_malloc(100)`
gives 24 and `B = mm_malloc(200)` gives 136, which is `A + 112`; after `mm_free(A)`,
`mm_malloc(90)` gives `A` again and the arena still ends at 4184; after `mm_free(B)` the
arena holds the allocated block at `A` and one free block from `B` to the arena end; and
`mm_malloc(290)` then gives `B` with the arena still ending at 4184. -/
theorem scenario_reuse :
    run_scenario fresh_arena =
      Except.ok ⟨0, (24, 136, 24, 136), 4184, 4184, [⟨24, 112, 1⟩, ⟨136, 4048, 0⟩], 4184⟩ :=
  run_scenario_eq

/-- Claim C10, failing run: with `n = 70000` the arena has 70088 bytes after one round of
`p = mm_malloc(n); mm_free(p);` on a fresh arena and 140096 bytes after two rounds. -/
theorem loop_grows :
    run_loop 70000 1 = Except.ok 70088 ∧ run_loop 70000 2 = Except.ok 140096 ∧
      (70088 : Nat) ≠ 140096 :=
  ⟨run_loop_eq.1, run_loop_eq.2, by decide⟩

/-! ## Reallocation: the simple paths -/

theorem HDRP_zero : HDRP 0 = WORD - 4 := by decide

theorem GET_SIZE_null (h : Heap) (hb : h.mem_brk < WORD) :
    GET_SIZE h (HDRP 0) = Except.error Fault.access := by
  have hW : WORD = 4294967296 := rfl
  have hn : ¬ inArena h (WORD - 4) := by
    unfold inArena WSIZE
    omega
  rw [HDRP_zero]
  unfold GET_SIZE GET
  rw [if_neg hn]
  rfl

theorem adjust_mod (n : Nat) : adjust n % 8 = 0 ∧ adjust n < WORD := by
  have hW : WORD = 4294967296 := rfl
  unfold adjust DSIZE
  split
  · omega
  · unfold ALIGN
    have h1 : padd (padd n 8) (ALIGNMENT - 1) < WORD := Nat.mod_lt _ (by omega)
    rw [and_mask _ h1]
    omega

set_option maxRecDepth 100000 in
theorem run_realloc_zero_eq : run_realloc_zero = Except.ok (24, 0, 1, 0) := by decide!

set_option maxRecDepth 100000 in
theorem run_fallback_null_eq :
    run_fallback_null = Except.ok (24, 40, 0, Except.error Fault.access) := by decide!

set_option maxRecDepth 100000 in
theorem small_full_fst : (mm_malloc small_heap 56).map Prod.fst = Except.ok 24 := by decide!

theorem small_full_eq : mm_malloc small_heap 56 = Except.ok (24, small_full_heap) :=
  ok_of_fst small_full_fst

theorem reach_small_full : Reach small_full_heap [24] :=
  Reach.malloc small_heap small_full_heap [] 56 24 reach_small (by decide) small_full_eq

set_option maxRecDepth 100000 in
theorem one_block_size : GET_SIZE one_block_heap (HDRP 24) = Except.ok 16 := by decide!

set_option maxRecDepth 100000 in
theorem small_full_size : GET_SIZE small_full_heap (HDRP 24) = Except.ok 64 := by decide!

set_option maxRecDepth 100000 in
theorem small_full_next : NEXT_BLK_PTR small_full_heap 24 = Except.ok 88 := by decide!

set_option maxRecDepth 100000 in
theorem small_full_epilogue : GET_SIZE small_full_heap (HDRP 88) = Except.ok 0 := by decide!

set_option maxRecDepth 100000 in
theorem small_full_sbrk :
    mem_sbrk small_full_heap (ALIGN (MAX (psub (adjust 100) 64) CHUNKSIZE)) = none := by
  have hfit : ¬ (small_full_heap.mem_brk + ALIGN (MAX (psub (adjust 100) 64) CHUNKSIZE) ≤
      small_full_heap.mem_max_addr) := by decide!
  unfold mem_sbrk
  rw [if_neg hfit]

/-- Claim C11, counterexample: after `a = mm_malloc(8)` on a fresh arena, `mm_realloc(a, 0)`
returns `NULL` and the header of the block at `a` still says allocated, whereas after
`mm_free(a)` it says free. -/
theorem realloc_zero_counterexample :
    run_realloc_zero = Except.ok (24, 0, 1, 0) ∧ (1 : Nat) ≠ 0 :=
  ⟨run_realloc_zero_eq, by decide⟩

/-- Claim C11, amended: `mm_realloc(p, 0)` returns `NULL` and the state is the one before the
call; the block at `p` is not freed. -/
theorem realloc_zero_noop (h : Heap) (p : Nat) : mm_realloc h p 0 = Except.ok (0, h) := rfl

/-- Claim C12, counterexample: in the state after `mm_init` on the fresh arena,
`mm_realloc(NULL, 8)` faults on a word access outside the arena, whereas `mm_malloc(8)`
returns the pointer 24. -/
theorem realloc_null_counterexample :
    (mm_realloc fresh_heap 0 8).map Prod.fst = Except.error Fault.access ∧
      (mm_malloc fresh_heap 8).map Prod.fst = Except.ok 24 :=
  ⟨by decide!, one_block_fst⟩

/-- Claim C12, amended: `mm_realloc(NULL, 0)` returns the pointer and the state that
`mm_malloc(0)` returns (`NULL`, state unchanged); for `n > 0`, `mm_realloc(NULL, n)` reads the
header word at address `NULL - 4`, which lies outside every arena, and returns nothing. -/
theorem realloc_null (h : Heap) (n : Nat) (hb : h.mem_brk < WORD) :
    mm_realloc h 0 n = if n = 0 then mm_malloc h 0 else Except.error Fault.access := by
  by_cases h0 : n = 0
  · subst h0
    rfl
  · rw [if_neg h0]
    unfold mm_realloc
    rw [if_neg h0]
    simp only []
    rw [GET_SIZE_null h hb]
    rfl

/-- Claim C12, amended, at the state after `mm_init` on the fresh arena and `n = 8`. -/
theorem realloc_null_witness :
    fresh_heap.mem_brk < WORD ∧
      mm_realloc fresh_heap 0 8 = if 8 = 0 then mm_malloc fresh_heap 0
        else Except.error Fault.access :=
  ⟨by decide!, realloc_null fresh_heap 8 (by decide!)⟩

/-- Claim C13, counterexample: in the state after `mm_init` on the fresh arena, `mm_free(NULL)`
faults on a word access outside the arena. -/
theorem free_null_counterexample :
    (mm_free fresh_heap 0).map (fun _ => ()) = Except.error Fault.access := by decide!

/-- Claim C13, amended: `mm_free(NULL)` is not a no-op: its first step reads the header word
at address `NULL - 4`, which lies outside every arena, and the call returns nothing. -/
theorem free_null (h : Heap) (hb : h.mem_brk < WORD) :
    mm_free h 0 = Except.error Fault.access := by
  unfold mm_free
  rw [GET_SIZE_null h hb]
  rfl

/-- Claim C13, amended, at the state after `mm_init` on the fresh arena. -/
theorem free_null_witness :
    fresh_heap.mem_brk < WORD ∧ mm_free fresh_heap 0 = Except.error Fault.access :=
  ⟨by decide!, free_null fresh_heap (by decide!)⟩

/-- Claim C14: when the header of the block at `p` holds the size `c` and the adjusted size of
a request `n > 0` (16 for `n <= 8`, else `n + 8` rounded up to a multiple of 8) is at most
`c`, then `mm_realloc(p, n)` returns `p` and the state (memory, arena bounds, bucket heads) is
the one before the call. -/
theorem realloc_in_place (h : Heap) (p n c : Nat) (h0 : 0 < n)
    (hc : GET_SIZE h (HDRP p) = Except.ok c) (hle : adjust n ≤ c) :
    mm_realloc h p n = Except.ok (p, h) := by
  unfold mm_realloc
  rw [if_neg (by omega)]
  simp only []
  rw [hc]
  simp only [ok_bind]
  rw [if_pos hle]

/-- Claim C14 at the state after `mm_init` and `p = mm_malloc(8)` on the fresh arena, with
`n = 3`. -/
theorem realloc_in_place_witness :
    0 < 3 ∧ GET_SIZE one_block_heap (HDRP 24) = Except.ok 16 ∧ adjust 3 ≤ 16 ∧
      mm_realloc one_block_heap 24 3 = Except.ok (24, one_block_heap) :=
  ⟨by decide, one_block_size, by decide,
    realloc_in_place one_block_heap 24 3 16 (by decide) one_block_size (by decide)⟩

/-- Claim C16: when the header of the block at `p` holds the size `c`, the next block is the
epilogue, the adjusted size of the request `n > 0` exceeds `c`, and the arena cannot grow by
`MAX(size - c, CHUNKSIZE)` bytes, then `mm_realloc(p, n)` returns `NULL` and the state
(memory, arena bounds, bucket heads) is the one before the call. -/
theorem realloc_extend_fails (h : Heap) (p n c nx : Nat) (h0 : 0 < n)
    (hc : GET_SIZE h (HDRP p) = Except.ok c) (hgt : c < adjust n)
    (hnx : NEXT_BLK_PTR h p = Except.ok nx) (hepi : GET_SIZE h (HDRP nx) = Except.ok 0)
    (hfail : mem_sbrk h (ALIGN (MAX (psub (adjust n) c) CHUNKSIZE)) = none) :
    mm_realloc h p n = Except.ok (0, h) := by
  unfold mm_realloc
  rw [if_neg (by omega)]
  simp only []
  rw [hc]
  simp only [ok_bind]
  rw [if_neg (by omega), hnx]
  simp only [ok_bind]
  rw [hepi]
  simp only [ok_bind, if_true]
  unfold realloc_extend
  rw [hc]
  simp only [ok_bind]
  unfold extend_heap
  simp only []
  rw [hfail]
  rfl

/-- Claim C16 at the state after `mm_init` and `p = mm_malloc(56)` on the small arena, with
`n = 100`. -/
theorem realloc_extend_fails_witness :
    0 < 100 ∧ GET_SIZE small_full_heap (HDRP 24) = Except.ok 64 ∧ 64 < adjust 100 ∧
      NEXT_BLK_PTR small_full_heap 24 = Except.ok 88 ∧
      GET_SIZE small_full_heap (HDRP 88) = Except.ok 0 ∧
      mem_sbrk small_full_heap (ALIGN (MAX (psub (adjust 100) 64) CHUNKSIZE)) = none ∧
      mm_realloc small_full_heap 24 100 = Except.ok (0, small_full_heap) :=
  ⟨by decide, small_full_size, by decide, small_full_next, small_full_epilogue, small_full_sbrk,
    realloc_extend_fails small_full_heap 24 100 64 88 (by decide) small_full_size (by decide)
      small_full_next small_full_epilogue small_full_sbrk⟩

/-- Claim C17, failing run: on the small arena, after `a = mm_malloc(8)` and
`b = mm_malloc(8)`, the call `mm_malloc(112)` returns `NULL`, and `mm_realloc(a, 100)`, which
takes the fallback path with this very request, does not return `NULL`: it faults on a word
access outside the arena, in `memcpy` to the address `NULL`. -/
theorem realloc_fallback_null_fails :
    run_fallback_null = Except.ok (24, 40, 0, Except.error Fault.access) :=
  run_fallback_null_eq

/-! ## Reallocation: growing in place -/

/-- The block after `b`, when some block starts where `b` ends. -/
theorem next_block {h : Heap} {pre post : List Blk} {b x : Blk} {FL : Nat → List Nat}
    (hc : Core h (pre ++ [b] ++ post) FL) (hx : x ∈ pre ++ [b] ++ post)
    (hadj : x.addr = b.addr + b.size) : ∃ post', post = x :: post' := by
  obtain ⟨-, hpost, -, -⟩ := hc.around
  rcases post with _ | ⟨d, post'⟩
  · have he : b.addr + b.size = h.mem_brk := hpost
    have hxI := hc.inHeap hx
    have := hxI.hi; have := hxI.size_ge
    omega
  · have hdm : d ∈ pre ++ [b] ++ d :: post' := by simp
    have hda : d.addr = b.addr + b.size := hpost.1
    have := hc.unique hdm hx (by omega)
    subst this
    exact ⟨post', rfl⟩

/-- The common end of cases 2.1 and 2.2 of `mm_realloc` on a well-formed heap: the free block
`x` after the allocated block `b` leaves the index and the tags of `b` are rewritten so that
`b` covers `x` as well; no other block and no payload word of an allocated block changes. -/
theorem absorb_next {h : Heap} {pre post : List Blk} {b x : Blk} {FL : Nat → List Nat}
    (hg : Good h (pre ++ [b, x] ++ post) FL) (hba : b.alloc = 1) (hxa : x.alloc = 0)
    (N : Nat) (hN : N = b.size + x.size) :
    ∃ h1 h' FL', delete_node h x.addr = Except.ok h1 ∧
      GET_SIZE h1 (HDRP b.addr) = Except.ok b.size ∧
      (do
        let h3 ← PUT h1 (HDRP b.addr) (PACK N 1)
        let ft ← FTRP h3 b.addr
        let h4 ← PUT h3 ft (PACK N 1)
        pure (b.addr, h4)) = Except.ok (b.addr, h') ∧
      Good h' (pre ++ [⟨b.addr, b.size + x.size, 1⟩] ++ post) FL' ∧
      h'.mem_start_brk = h.mem_start_brk ∧ h'.mem_brk = h.mem_brk ∧
      h'.mem_max_addr = h.mem_max_addr ∧
      (∀ j y, y ∈ FL' j ↔ y ∈ FL j ∧ y ≠ x.addr) ∧
      (∀ a, Payload (pre ++ [b, x] ++ post) a → h'.mem a = h.mem a) := by
  have hW : WORD = 4294967296 := rfl
  subst hN
  have hc := hg.core
  have hb : b ∈ pre ++ [b, x] ++ post := by simp
  have hx : x ∈ pre ++ [b, x] ++ post := by simp
  have hI := hc.inHeap hb
  have hxI := hc.inHeap hx
  obtain ⟨s, e, hpre, hmid, hpost⟩ := hc.split3
  have hmid' := hmid
  obtain ⟨e1, -, -, -, -, -, e2, -, -, -, -, -, e3⟩ := hmid'
  have e3' : s + b.size + x.size = e := e3
  have e2' : x.addr = s + b.size := e2
  subst e1
  subst e3'
  have hlo := hI.lo; have hhi := hxI.hi; have hblt := hI.brk_lt; have ham := hI.addr_mod
  have hsg := hI.size_ge; have hsm := hI.size_mod; have hbm := hI.base_mod
  have hxg := hxI.size_ge; have hxm := hxI.size_mod
  obtain ⟨h1, FL1, hdel, hc1, hs1, hk1, hx1, hfl1, hfr1⟩ :=
    delete_node_mem hc hx (hg.listed x hx hxa)
  have hI1 := hc1.inHeap hb
  have hin1 : ∀ m a, h1.mem_start_brk ≤ a → a + 4 ≤ h1.mem_brk → a % 4 = 0 →
      inArena (setMem h1 m) a := fun m a p q r => ⟨p, q, r⟩
  have hH2 : HdrAt (setMem h1 (upd h1.mem (b.addr - 4) (b.size + x.size + 1))) b.addr
      (b.size + x.size) 1 :=
    ⟨hI1.in_hdr, by omega, by omega, by omega, by omega, by simp⟩
  have hrun : (do
        let h3 ← PUT h1 (HDRP b.addr) (PACK (b.size + x.size) 1)
        let ft ← FTRP h3 b.addr
        let h4 ← PUT h3 ft (PACK (b.size + x.size) 1)
        pure (b.addr, h4)) =
      Except.ok (b.addr, setMem h1 (upd (upd h1.mem (b.addr - 4) (b.size + x.size + 1))
        (b.addr + (b.size + x.size) - 8) (b.size + x.size + 1))) := by
    rw [hI1.hdrp_eq, PACK_eq (b.size + x.size) 1 (by omega) (by omega),
      PUT_ok _ _ _ hI1.in_hdr (by omega)]
    simp only [ok_bind]
    rw [hH2.ftrp_at]
    simp only [ok_bind]
    rw [PUT_setMem _ _ _ _ ⟨by omega, by unfold WSIZE; omega, by unfold WSIZE; omega⟩
      (by omega)]
    simp only [ok_bind, pure_eq_ok]
  obtain ⟨s1, e1, hpre1, hmid1, hpost1⟩ := hc1.split3
  have hmid1' := hmid1
  obtain ⟨f1, -, -, -, -, -, -, -, -, -, -, -, f3⟩ := hmid1'
  have f3' : s1 + b.size + x.size = e1 := f3
  subst f1
  subst f3'
  have hin' : ∀ c, c ∈ pre ∨ c ∈ post → c ∈ pre ++ [b, x] ++ post := by
    intro c hcm
    rcases hcm with hcm | hcm <;> simp [hcm]
  have hpos : ∀ c, c ∈ pre ∨ c ∈ post →
      (c.addr + c.size ≤ b.addr ∨ b.addr + b.size + x.size ≤ c.addr) ∧ 16 ≤ c.size := by
    intro c hcm
    refine ⟨?_, hc.size_ge c (hin' c hcm)⟩
    rcases hcm with hcm | hcm
    · exact Or.inl (Tiled_mem hpre (List.mem_cons_of_mem _ hcm)).hi
    · exact Or.inr (Tiled_mem hpost hcm).lo
  have hc3 := hc1.retile
    (setMem h1 (upd (upd h1.mem (b.addr - 4) (b.size + x.size + 1))
      (b.addr + (b.size + x.size) - 8) (b.size + x.size + 1)))
    [⟨b.addr, b.size + x.size, 1⟩] b.addr (b.addr + b.size + x.size) rfl rfl rfl rfl
    hpre1 hpost1
    (by
      intro a ha
      simp only [setMem_mem]
      rw [upd_other _ _ _ _ (by omega), upd_other _ _ _ _ (by omega)])
    (by
      simp only [Tiled, setMem_mem]
      refine ⟨trivial, by omega, by omega, by omega, ?_, ?_, by omega⟩
      · rw [upd_other _ _ _ _ (by omega), upd_same]
      · rw [upd_same])
    (by
      intro c hcm
      rw [List.mem_singleton] at hcm
      subst hcm
      simp only
      omega)
    (by
      intro i y hy c hcm
      simp only [List.mem_cons, List.mem_singleton, List.not_mem_nil, or_false] at hcm
      rcases hcm with rfl | rfl
      · intro e
        have := (hc1.node_blk hb (e ▸ hy)).1
        omega
      · exact fun e => ((hfl1 i y).1 hy).2 e.symm)
  refine ⟨h1, _, FL1, hdel, hI1.get_size, hrun, ⟨hc3, ?_, ?_⟩, hs1, hk1, hx1, hfl1, ?_⟩
  · intro c hcm hc0
    simp only [List.mem_append, List.mem_singleton] at hcm
    have hcm' : c ∈ pre ∨ c ∈ post := by
      rcases hcm with (hcm | hcm) | hcm
      · exact Or.inl hcm
      · subst hcm; simp at hc0
      · exact Or.inr hcm
    have := hpos c hcm'
    rw [hfl1]
    exact ⟨hg.listed c (hin' c hcm') hc0, by omega⟩
  · intro u hu v hv huv
    simp only [List.mem_append, List.mem_singleton] at hu hv
    have hu' : u ∈ pre ∨ u ∈ post ∨ u = ⟨b.addr, b.size + x.size, 1⟩ := by
      rcases hu with (hu | hu) | hu
      · exact Or.inl hu
      · exact Or.inr (Or.inr hu)
      · exact Or.inr (Or.inl hu)
    have hv' : v ∈ pre ∨ v ∈ post ∨ v = ⟨b.addr, b.size + x.size, 1⟩ := by
      rcases hv with (hv | hv) | hv
      · exact Or.inl hv
      · exact Or.inr (Or.inr hv)
      · exact Or.inr (Or.inl hv)
    rcases hu' with hu | hu | hu
    · rcases hv' with hv | hv | hv
      · exact hg.noadj u (hin' u (Or.inl hu)) v (hin' v (Or.inl hv)) huv
      · exact hg.noadj u (hin' u (Or.inl hu)) v (hin' v (Or.inr hv)) huv
      · subst hv; right; simp
    · rcases hv' with hv | hv | hv
      · exact hg.noadj u (hin' u (Or.inr hu)) v (hin' v (Or.inl hv)) huv
      · exact hg.noadj u (hin' u (Or.inr hu)) v (hin' v (Or.inr hv)) huv
      · subst hv; right; simp
    · subst hu; left; simp
  · intro a ha
    have hout : (a + 8 < b.addr + b.size ∨ b.addr + b.size + x.size ≤ a) ∧
        (b.addr ≤ a ∨ a + 8 < b.addr) := by
      obtain ⟨c, hcm, hc1', hc2, hc3'⟩ := ha
      simp only [List.mem_append, List.mem_cons, List.mem_singleton, List.not_mem_nil,
        or_false] at hcm
      rcases hcm with (hcm | hcm | hcm) | hcm
      · have := hpos c (Or.inl hcm); omega
      · subst hcm; omega
      · subst hcm; omega
      · have := hpos c (Or.inr hcm); omega
    simp only [setMem_mem]
    rw [upd_other _ _ _ _ (by omega), upd_other _ _ _ _ (by omega)]
    exact hfr1 a ha

/-- Case 2.2 of `mm_realloc` on a well-formed heap: the free block `x` after the allocated
block `b` is large enough, leaves the index and becomes part of `b`. -/
theorem realloc_merge_spec {h : Heap} {pre post : List Blk} {b x : Blk} {FL : Nat → List Nat}
    (hg : Good h (pre ++ [b, x] ++ post) FL) (hba : b.alloc = 1) (hxa : x.alloc = 0)
    (n : Nat) (h0 : 0 < n) (hgt : b.size < adjust n) (hle : adjust n ≤ b.size + x.size) :
    ∃ h' FL', mm_realloc h b.addr n = Except.ok (b.addr, h') ∧
      Good h' (pre ++ [⟨b.addr, b.size + x.size, 1⟩] ++ post) FL' ∧
      h'.mem_start_brk = h.mem_start_brk ∧ h'.mem_brk = h.mem_brk ∧
      h'.mem_max_addr = h.mem_max_addr ∧
      (∀ j y, y ∈ FL' j ↔ y ∈ FL j ∧ y ≠ x.addr) ∧
      (∀ a, Payload (pre ++ [b, x] ++ post) a → h'.mem a = h.mem a) := by
  have hW : WORD = 4294967296 := rfl
  have hc := hg.core
  have hb : b ∈ pre ++ [b, x] ++ post := by simp
  have hx : x ∈ pre ++ [b, x] ++ post := by simp
  have hI := hc.inHeap hb
  have hxI := hc.inHeap hx
  obtain ⟨s, e, -, hmid, -⟩ := hc.split3
  obtain ⟨e1, -, -, -, -, -, e2, -, -, -, -, -, -⟩ := hmid
  have e2' : x.addr = s + b.size := e2
  subst e1
  have hhi := hxI.hi; have hblt := hI.brk_lt; have hxg := hxI.size_ge
  obtain ⟨h1, h', FL', hdel, -, hrun, hg', hs, hk, hm, hfl, hfr⟩ :=
    absorb_next hg hba hxa (padd x.size b.size) (by rw [padd_eq _ _ (by omega)]; omega)
  refine ⟨h', FL', ?_, hg', hs, hk, hm, hfl, hfr⟩
  unfold mm_realloc
  rw [if_neg (by omega)]
  simp only []
  rw [hI.get_size]
  simp only [ok_bind]
  rw [if_neg (by omega), hI.next_eq]
  simp only [ok_bind]
  rw [← e2', hxI.get_size]
  simp only [ok_bind]
  rw [if_neg (by omega), hxI.get_alloc]
  simp only [ok_bind]
  rw [if_pos hxa, if_pos (by rw [padd_eq _ _ (by omega)]; omega)]
  unfold realloc_merge
  rw [hI.next_eq]
  simp only [ok_bind]
  rw [← e2', hdel]
  simp only [ok_bind]
  exact hrun

/-- A tiling of a range is determined by its allocated blocks when free blocks never touch. -/
theorem Tiled_canon {m m' : Nat → Nat} (bs : List Blk) : ∀ (bs' : List Blk) (p q : Nat),
    Tiled m p bs q → Tiled m' p bs' q → NoAdj bs → NoAdj bs' →
    (∀ c ∈ bs, c.alloc = 1 → c ∈ bs') → (∀ c ∈ bs', c.alloc = 1 → c ∈ bs) → bs = bs' := by
  induction bs with
  | nil =>
    intro bs' p q ht ht' _ _ _ _
    have e : p = q := ht
    cases bs' with
    | nil => rfl
    | cons y ys =>
      obtain ⟨-, h2, -, -, -, -, h7⟩ := ht'
      have := Tiled_le h7
      omega
  | cons x xs ih =>
    intro bs' p q ht ht' hn hn' hsub hsub'
    cases bs' with
    | nil =>
      have e : p = q := ht'
      obtain ⟨-, h2, -, -, -, -, h7⟩ := ht
      have := Tiled_le h7
      omega
    | cons y ys =>
      have htm := ht
      have htm' := ht'
      obtain ⟨x1, x2, x3, x4, x5, x6, x7⟩ := ht
      obtain ⟨y1, y2, y3, y4, y5, y6, y7⟩ := ht'
      have hxm : x ∈ x :: xs := List.mem_cons_self _ _
      have hym : y ∈ y :: ys := List.mem_cons_self _ _
      have hlong : ∀ {k k' : Nat → Nat} (u v : Blk) (us vs : List Blk),
          Tiled k p (u :: us) q → Tiled k' p (v :: vs) q → NoAdj (u :: us) →
          (∀ c ∈ u :: us, c.alloc = 1 → c ∈ v :: vs) → u.alloc = 0 → v.alloc = 0 →
          ¬ u.size < v.size := by
        intro k k' u v us vs hu hv hnu hs hu0 hv0 hlt
        obtain ⟨u1, u2, u3, u4, u5, u6, u7⟩ := hu
        have hvm := hv
        obtain ⟨v1, v2, v3, v4, v5, v6, v7⟩ := hv
        have hle := Tiled_le v7
        cases us with
        | nil =>
          have e : p + u.size = q := u7
          omega
        | cons w ws =>
          have hw1 : w.addr = p + u.size := u7.1
          have hwm : w ∈ u :: w :: ws := List.mem_cons_of_mem _ (List.mem_cons_self _ _)
          have hw4 : w.alloc ≤ 1 := u7.2.2.2.1
          have hwa : w.alloc = 1 := by
            rcases hnu u (List.mem_cons_self _ _) w hwm (by omega) with h9 | h9
            · exact absurd hu0 h9
            · omega
          have hwv := hs w hwm hwa
          rcases List.mem_cons.1 hwv with e | hwvs
          · rw [e] at hw1; omega
          · have := (Tiled_mem v7 hwvs).lo
            omega
      have hxy : x = y := by
        by_cases hx1 : x.alloc = 1
        · exact Tiled_unique htm' (hsub x hxm hx1) hym (by omega)
        · by_cases hy1 : y.alloc = 1
          · exact (Tiled_unique htm (hsub' y hym hy1) hxm (by omega)).symm
          · have hx0 : x.alloc = 0 := by omega
            have hy0 : y.alloc = 0 := by omega
            have h1 := hlong x y xs ys htm htm' hn hsub hx0 hy0
            have h2 := hlong y x ys xs htm' htm hn' hsub' hy0 hx0
            cases x
            cases y
            simp only [Blk.mk.injEq] at *
            omega
      subst hxy
      congr 1
      refine ih ys (p + x.size) q x7 y7
        (fun a ha b hb e => hn a (List.mem_cons_of_mem _ ha) b (List.mem_cons_of_mem _ hb) e)
        (fun a ha b hb e => hn' a (List.mem_cons_of_mem _ ha) b (List.mem_cons_of_mem _ hb) e)
        ?_ ?_
      · intro c hcm hc1
        rcases List.mem_cons.1 (hsub c (List.mem_cons_of_mem _ hcm) hc1) with e | e
        · have := (Tiled_mem x7 hcm).lo
          rw [e] at this
          omega
        · exact e
      · intro c hcm hc1
        rcases List.mem_cons.1 (hsub' c (List.mem_cons_of_mem _ hcm) hc1) with e | e
        · have := (Tiled_mem y7 hcm).lo
          rw [e] at this
          omega
        · exact e

/-- The nodes of a bucket of a well-formed heap are the free blocks of its size class. -/
theorem Good.mem_index {h : Heap} {bs : List Blk} {FL : Nat → List Nat} (hg : Good h bs FL)
    (j y : Nat) : y ∈ FL j ↔ ∃ c ∈ bs, c.addr = y ∧ c.alloc = 0 ∧ bucket c.size = j := by
  constructor
  · exact hg.core.node j y
  · rintro ⟨c, hcm, rfl, hc0, rfl⟩
    exact hg.listed c hcm hc0

/-- Case 2.1 of `mm_realloc` on a well-formed heap whose last block `b` is allocated, when the
arena can grow: the arena grows by `MAX(size - cur, CHUNKSIZE)` bytes, which all become part
of `b`; the index holds the blocks it held before and no payload word of an allocated block
changes. -/
theorem realloc_extend_spec {h : Heap} {pre : List Blk} {b : Blk} {FL : Nat → List Nat}
    (hg : Good h (pre ++ [b]) FL) (hba : b.alloc = 1) (n : Nat) (h0 : 0 < n)
    (hgt : b.size < adjust n)
    (hfit : h.mem_brk + MAX (adjust n - b.size) CHUNKSIZE ≤ h.mem_max_addr) :
    ∃ h' FL', mm_realloc h b.addr n = Except.ok (b.addr, h') ∧
      Good h' (pre ++ [⟨b.addr, b.size + MAX (adjust n - b.size) CHUNKSIZE, 1⟩]) FL' ∧
      h'.mem_start_brk = h.mem_start_brk ∧
      h'.mem_brk = h.mem_brk + MAX (adjust n - b.size) CHUNKSIZE ∧
      h'.mem_max_addr = h.mem_max_addr ∧
      (∀ j y, y ∈ FL' j ↔ y ∈ FL j) ∧
      (∀ a, Payload (pre ++ [b]) a → h'.mem a = h.mem a) := by
  have hW : WORD = 4294967296 := rfl
  have hCH : CHUNKSIZE = 4096 := rfl
  have hmaxs := MAX_spec (adjust n - b.size) CHUNKSIZE
  obtain ⟨ha8, halt⟩ := adjust_mod n
  have hc := hg.core
  have hb : b ∈ pre ++ [b] := by simp
  have hI := hc.inHeap hb
  have hsm := hI.size_mod; have hsg := hI.size_ge; have hlo := hI.lo
  have hend : b.addr + b.size = h.mem_brk :=
    (@Tiled_last _ (pro h.mem_start_brk :: pre) b _ _ hc.tiled).1
  generalize hE : MAX (adjust n - b.size) CHUNKSIZE = E at hfit hmaxs ⊢
  have hE8 : E % 8 = 0 := by omega
  have hE16 : 4096 ≤ E := by omega
  have hmx := hc.max_lt
  obtain ⟨h1, bs1, FL1, r, hext, hg1, hs1, hk1, hx1, hr1, hrf, -, hiff1, hfr1, hra, hrb⟩ :=
    extend_heap_spec hg E hE8 (by omega) hfit
  have hc1 := hg1.core
  have hb1 : b ∈ bs1 := (hiff1 b hba).2 hb
  have hI1 := hc1.inHeap hb1
  have hrI := hc1.inHeap hr1
  have hrhi := hrI.hi
  have hraddr : r.addr = b.addr + b.size := by
    rcases hc1.apart hb1 hr1 with e | e | e
    · rw [e] at hba; omega
    · omega
    · omega
  have hrsize : r.size = E := by omega
  obtain ⟨pre1, post1, hsplit⟩ := List.append_of_mem hb1
  subst hsplit
  have hg1' : Good h1 (pre1 ++ [b] ++ post1) FL1 := by rw [← mid_eq]; exact hg1
  obtain ⟨post2, hpost2⟩ := next_block hg1'.core (by rw [← mid_eq]; exact hr1) hraddr
  subst hpost2
  obtain ⟨-, hpost, hbefore1, -⟩ := hg1'.core.around
  have hnil : post2 = [] := by
    obtain ⟨-, -, -, -, -, -, h7⟩ := hpost
    have := Tiled_length h7
    exact List.length_eq_zero.1 (by omega)
  subst hnil
  have hpreT : Tiled h.mem (h.mem_start_brk + 16) pre b.addr := by
    have ht := hc.tiled_bs
    rw [Tiled_append] at ht
    obtain ⟨q, h1', h2'⟩ := ht
    have : b.addr = q := h2'.1
    rw [this]; exact h1'
  have hpreT1 : Tiled h1.mem (h.mem_start_brk + 16) pre1 b.addr := by
    have ht := hg1'.core.tiled_bs
    rw [List.append_assoc, Tiled_append, hs1] at ht
    obtain ⟨q, h1', h2'⟩ := ht
    have : b.addr = q := h2'.1
    rw [this]; exact h1'
  have hpre_eq : pre1 = pre := by
    refine (Tiled_canon pre pre1 _ _ hpreT hpreT1 ?_ ?_ ?_ ?_).symm
    · exact fun u hu v hv e =>
        hg.noadj u (List.mem_append_left _ hu) v (List.mem_append_left _ hv) e
    · exact fun u hu v hv e => hg1'.noadj u (by simp [hu]) v (by simp [hv]) e
    · intro c hcm hc1'
      have h5 := (hiff1 c hc1').2 (List.mem_append_left _ hcm)
      have k1 := (Tiled_mem hpreT hcm).hi
      have k2 := (Tiled_mem hpreT hcm).size_ge
      simp only [List.mem_append, List.mem_cons, List.mem_singleton, List.not_mem_nil,
        or_false] at h5
      rcases h5 with h5 | h5 | h5
      · exact h5
      · rw [h5] at k1 k2; omega
      · rw [h5] at hc1'; omega
    · intro c hcm hc1'
      have h5 := (hiff1 c hc1').1 (by simp [hcm])
      have k1 := (Tiled_mem hpreT1 hcm).hi
      have k2 := (Tiled_mem hpreT1 hcm).size_ge
      simp only [List.mem_append, List.mem_singleton] at h5
      rcases h5 with h5 | h5
      · exact h5
      · rw [h5] at k1 k2; omega
  subst hpre_eq
  have hg2 : Good h1 (pre1 ++ [b, r] ++ []) FL1 := by
    have : pre1 ++ [b, r] ++ [] = pre1 ++ [b] ++ [r] := by simp
    rw [this]; exact hg1'
  obtain ⟨h2, h', FL', hdel, hsz2, hrun, hg', hs, hk, hm, hfl, hfr⟩ :=
    absorb_next hg2 hba hrf (padd b.size E) (by rw [padd_eq _ _ (by omega)]; omega)
  have hH : HdrAt h (b.addr + b.size) 0 1 :=
    ⟨⟨by omega, by rw [hend]; unfold WSIZE; omega,
      by have := hI.addr_mod; unfold WSIZE; omega⟩, by omega, by omega, by omega, by omega,
      by rw [hend, hc.epi]⟩
  have hra0 : r.addr ≠ 0 := by omega
  refine ⟨h', FL', ?_, ?_, by rw [hs, hs1], by rw [hk, hk1], by rw [hm, hx1], ?_, ?_⟩
  · unfold mm_realloc
    rw [if_neg (by omega)]
    simp only []
    rw [hI.get_size]
    simp only [ok_bind]
    rw [if_neg (by omega), hI.next_eq]
    simp only [ok_bind]
    rw [hH.size_at]
    simp only [ok_bind, if_true]
    unfold realloc_extend
    rw [hI.get_size]
    simp only [ok_bind]
    rw [psub_eq _ _ (by omega) halt, hE, hext]
    simp only [ok_bind]
    rw [if_neg hra0, hI1.next_eq]
    simp only [ok_bind]
    rw [← hraddr, hdel]
    simp only [ok_bind]
    rw [hsz2]
    simp only [ok_bind]
    exact hrun
  · have : pre1 ++ [⟨b.addr, b.size + r.size, 1⟩] ++ [] =
        pre1 ++ [⟨b.addr, b.size + E, 1⟩] := by simp [hrsize]
    rw [← this]; exact hg'
  · intro j y
    rw [hfl, hg1.mem_index, hg.mem_index]
    constructor
    · rintro ⟨⟨c, hcm, hc2, hc3, hc4⟩, hne⟩
      refine ⟨c, ?_, hc2, hc3, hc4⟩
      simp only [List.mem_append, List.mem_cons, List.mem_singleton, List.not_mem_nil,
        or_false] at hcm ⊢
      rcases hcm with hcm | hcm | hcm
      · exact Or.inl hcm
      · exact Or.inr hcm
      · rw [hcm] at hc2; exact absurd hc2.symm hne
    · rintro ⟨c, hcm, hc2, hc3, hc4⟩
      have hcI := hc.inHeap hcm
      have := hcI.hi; have := hcI.size_ge
      refine ⟨⟨c, ?_, hc2, hc3, hc4⟩, by omega⟩
      simp only [List.mem_append, List.mem_cons, List.mem_singleton, List.not_mem_nil,
        or_false] at hcm ⊢
      rcases hcm with hcm | hcm
      · exact Or.inl hcm
      · exact Or.inr (Or.inl hcm)
  · intro a ha
    have ha2 : Payload (pre1 ++ [b, r] ++ []) a := by
      obtain ⟨c, hcm, hc1', hc2, hc3⟩ := ha
      refine ⟨c, ?_, hc1', hc2, hc3⟩
      simp only [List.mem_append, List.mem_singleton] at hcm
      rcases hcm with hcm | hcm <;> simp [hcm]
    rw [hfr a ha2, hfr1 a ha]

/-- The two tag words of a block of a well-formed heap. -/
theorem InHeap.tags {h : Heap} {b : Blk} (hb : InHeap h b) :
    GET h (HDRP b.addr) = Except.ok (PACK b.size b.alloc) ∧
      FTRP h b.addr = Except.ok (b.addr + b.size - 8) ∧
      GET h (b.addr + b.size - 8) = Except.ok (PACK b.size b.alloc) := by
  refine ⟨?_, hb.ftrp_eq, ?_⟩
  · rw [hb.hdrp_eq, GET_ok _ _ hb.in_hdr, hb.hdr, PACK_eq _ _ hb.size_mod hb.alloc_le]
  · rw [GET_ok _ _ hb.in_ftr, hb.ftr, PACK_eq _ _ hb.size_mod hb.alloc_le]

/-- What the header after the block `b` holds. -/
theorem after_block {h : Heap} {pre post : List Blk} {b : Blk} {FL : Nat → List Nat}
    (hc : Core h (pre ++ [b] ++ post) FL) :
    (post = [] ∧ GET_SIZE h (HDRP (b.addr + b.size)) = Except.ok 0) ∨
    (∃ d post', post = d :: post' ∧ d.addr = b.addr + b.size ∧
      GET_SIZE h (HDRP (b.addr + b.size)) = Except.ok d.size ∧
      GET_ALLOC h (HDRP (b.addr + b.size)) = Except.ok d.alloc ∧ 16 ≤ d.size) := by
  have hW : WORD = 4294967296 := rfl
  obtain ⟨-, hpost, -, -⟩ := hc.around
  have hI := hc.inHeap (by simp : b ∈ pre ++ [b] ++ post)
  have := hI.lo; have := hI.brk_lt; have := hI.addr_mod; have := hI.size_mod
  rcases post with _ | ⟨d, post'⟩
  · left
    have he : b.addr + b.size = h.mem_brk := hpost
    have hH : HdrAt h (b.addr + b.size) 0 1 :=
      ⟨⟨by omega, by unfold WSIZE; omega, by unfold WSIZE; omega⟩, by omega, by omega,
        by omega, by omega, by rw [he, hc.epi]⟩
    exact ⟨rfl, hH.size_at⟩
  · right
    have hdI := hc.inHeap (by simp : d ∈ pre ++ [b] ++ d :: post')
    have hda : d.addr = b.addr + b.size := hpost.1
    exact ⟨d, post', rfl, hda, by rw [← hda]; exact hdI.get_size,
      by rw [← hda]; exact hdI.get_alloc, hdI.size_ge⟩

set_option maxRecDepth 100000 in
theorem full_block_fst : (mm_malloc fresh_heap 56).map Prod.fst = Except.ok 24 := by decide!

theorem full_block_eq : mm_malloc fresh_heap 56 = Except.ok (24, full_block_heap) :=
  ok_of_fst full_block_fst

theorem reach_full_block : Reach full_block_heap [24] :=
  Reach.malloc fresh_heap full_block_heap [] 56 24 reach_fresh (by decide) full_block_eq

set_option maxRecDepth 100000 in
theorem full_block_size : GET_SIZE full_block_heap (HDRP 24) = Except.ok 64 := by decide!

set_option maxRecDepth 100000 in
theorem full_block_epilogue : GET_SIZE full_block_heap (HDRP (24 + 64)) = Except.ok 0 := by
  decide!

set_option maxRecDepth 100000 in
theorem full_block_fit :
    full_block_heap.mem_brk + MAX (adjust 100 - 64) CHUNKSIZE ≤ full_block_heap.mem_max_addr := by
  decide!

set_option maxRecDepth 100000 in
theorem one_block_next_size : GET_SIZE one_block_heap (HDRP (24 + 16)) = Except.ok 48 := by
  decide!

set_option maxRecDepth 100000 in
theorem one_block_next_alloc : GET_ALLOC one_block_heap (HDRP (24 + 16)) = Except.ok 0 := by
  decide!

/-! ## Reallocation: the copying path -/

/-- A well-formed heap stays well formed when payload words of allocated blocks change. -/
theorem Good.payload_change {h : Heap} {bs : List Blk} {FL : Nat → List Nat} (hg : Good h bs FL)
    (m' : Nat → Nat) (hm : ∀ a, ¬ Payload bs a → m' a = h.mem a) :
    Good (setMem h m') bs FL := by
  have hc := hg.core
  have hbm := hc.base_mod
  have hge := hc.brk_ge
  refine ⟨⟨hc.base_pos, hc.base_mod, hc.brk_le, hc.max_lt, ?_, ?_, hc.size_ge, ?_, hc.node,
    hc.nodup⟩, hg.listed, hg.noadj⟩
  · show Tiled m' (h.mem_start_brk + 8) (pro h.mem_start_brk :: bs) h.mem_brk
    refine Tiled_congr_tags ?_ hc.tiled
    intro b hb
    have hpos : h.mem_start_brk + 8 ≤ b.addr ∧ 8 ≤ b.size ∧
        ∀ c ∈ bs, b = c ∨ b.addr + b.size ≤ c.addr ∨ c.addr + c.size ≤ b.addr := by
      rcases List.mem_cons.1 hb with e | hb'
      · subst e
        refine ⟨by simp [pro], by simp [pro], fun c hcm => Or.inr (Or.inl ?_)⟩
        have := (hc.inHeap hcm).lo
        simp only [pro]
        omega
      · have hI := hc.inHeap hb'
        have := hI.lo; have := hI.size_ge
        exact ⟨by omega, by omega, fun c hcm => hc.apart hb' hcm⟩
    obtain ⟨h1, h2, h3⟩ := hpos
    constructor
    · apply hm
      rintro ⟨c, hcm, -, hc2, hc3⟩
      have := (hc.inHeap hcm).size_ge
      rcases h3 c hcm with e | e | e
      · rw [e] at hc2 h1; omega
      · omega
      · omega
    · apply hm
      rintro ⟨c, hcm, -, hc2, hc3⟩
      have := (hc.inHeap hcm).size_ge
      rcases h3 c hcm with e | e | e
      · rw [e] at hc3; omega
      · omega
      · omega
  · show m' (h.mem_brk - 4) = 1
    rw [hm, hc.epi]
    rintro ⟨c, hcm, -, hc2, hc3⟩
    have := (hc.inHeap hcm).hi
    omega
  · intro i hi
    refine LSeg_congr ?_ (hc.linked i hi)
    intro z hz
    obtain ⟨c, hcm, hcz, hc0, -⟩ := hc.node i z hz
    subst hcz
    constructor
    · apply hm
      intro hp
      exact (hc.payload_link hp c hcm hc0).1 rfl
    · apply hm
      intro hp
      exact (hc.payload_link hp c hcm hc0).2 rfl

/-- The loop of `memcpy` on ranges of the arena that do not overlap: the words of the source
arrive in the destination and nothing else changes. -/
theorem memcpy_words_spec (k : Nat) : ∀ (h : Heap) (dst src : Nat),
    (∀ j, j < k → inArena h (src + 4 * j) ∧ inArena h (dst + 4 * j)) →
    (src + 4 * k ≤ dst ∨ dst + 4 * k ≤ src) → src + 4 * k < WORD → dst + 4 * k < WORD →
    ∃ m', memcpy_words h dst src k = Except.ok (setMem h m') ∧
      (∀ j, j < k → m' (dst + 4 * j) = h.mem (src + 4 * j)) ∧
      (∀ a, a < dst ∨ dst + 4 * k ≤ a → m' a = h.mem a) := by
  have hW : WORD = 4294967296 := rfl
  induction k with
  | zero =>
    intro h dst src _ _ _ _
    exact ⟨h.mem, rfl, fun j hj => absurd hj (Nat.not_lt_zero _), fun _ _ => rfl⟩
  | succ k ih =>
    intro h dst src hin hdis hs hd
    have h0 := hin 0 (Nat.succ_pos _)
    simp only [Nat.mul_zero, Nat.add_zero] at h0
    obtain ⟨m', hrun, hcopy, hrest⟩ := ih (setMem h (upd h.mem dst (h.mem src))) (dst + 4)
      (src + 4)
      (by
        intro j hj
        have := hin (j + 1) (by omega)
        have e1 : src + 4 + 4 * j = src + 4 * (j + 1) := by omega
        have e2 : dst + 4 + 4 * j = dst + 4 * (j + 1) := by omega
        rw [e1, e2]
        exact this)
      (by omega) (by omega) (by omega)
    refine ⟨m', ?_, ?_, ?_⟩
    · unfold memcpy_words
      rw [if_pos h0]
      unfold WSIZE
      rw [padd_eq _ _ (by omega), padd_eq _ _ (by omega)]
      exact hrun
    · intro j hj
      rcases Nat.eq_zero_or_pos j with e | e
      · subst e
        simp only [Nat.mul_zero, Nat.add_zero]
        rw [hrest dst (Or.inl (by omega))]
        simp only [setMem_mem, upd_same]
      · have := hcopy (j - 1) (by omega)
        have e1 : dst + 4 + 4 * (j - 1) = dst + 4 * j := by omega
        have e2 : src + 4 + 4 * (j - 1) = src + 4 * j := by omega
        rw [e1, e2] at this
        rw [this]
        simp only [setMem_mem]
        exact upd_other _ _ _ _ (by omega)
    · intro a ha
      rw [hrest a (by omega)]
      simp only [setMem_mem]
      exact upd_other _ _ _ _ (by omega)

/-- The function `memcpy` on ranges of the arena that do not overlap. -/
theorem memcpy_spec (h : Heap) (dst src n : Nat) (hn : n % 4 = 0)
    (hsrc : h.mem_start_brk ≤ src ∧ src + n ≤ h.mem_brk ∧ src % 4 = 0)
    (hdst : h.mem_start_brk ≤ dst ∧ dst + n ≤ h.mem_brk ∧ dst % 4 = 0)
    (hdis : src + n ≤ dst ∨ dst + n ≤ src) (hlt : h.mem_brk < WORD) :
    ∃ m', memcpy h dst src n = Except.ok (setMem h m') ∧
      (∀ k, k % 4 = 0 → k < n → m' (dst + k) = h.mem (src + k)) ∧
      (∀ a, a < dst ∨ dst + n ≤ a → m' a = h.mem a) := by
  have hk : 4 * (n / 4) = n := by omega
  obtain ⟨m', hrun, hcopy, hrest⟩ := memcpy_words_spec (n / 4) h dst src
    (by
      intro j hj
      exact ⟨⟨by omega, by unfold WSIZE; omega, by unfold WSIZE; omega⟩,
        ⟨by omega, by unfold WSIZE; omega, by unfold WSIZE; omega⟩⟩)
    (by omega) (by omega) (by omega)
  refine ⟨m', ?_, ?_, ?_⟩
  · unfold memcpy
    rw [if_neg (by omega)]
    exact hrun
  · intro k hk4 hkn
    have := hcopy (k / 4) (by omega)
    have e : 4 * (k / 4) = k := by omega
    rw [e] at this
    exact this
  · intro a ha
    exact hrest a (by omega)

/-- Copying to the address `NULL` is a fault. -/
theorem memcpy_null (h : Heap) (src n : Nat) (hn : 4 ≤ n) (hb : 0 < h.mem_start_brk) :
    ∃ f, memcpy h 0 src n = Except.error f := by
  unfold memcpy
  split
  · exact ⟨_, rfl⟩
  · obtain ⟨k, hk⟩ : ∃ k, n / WSIZE = k + 1 := ⟨n / WSIZE - 1, by unfold WSIZE; omega⟩
    rw [hk]
    unfold memcpy_words
    rw [if_neg (fun hh => by have := hh.2.1; omega)]
    exact ⟨_, rfl⟩

/-- Case 2.3 of `mm_realloc` with the allocated blocks of the resulting heap: those of the
old heap without `b`, and the new block. -/
theorem realloc_copy_live {h : Heap} {bs : List Blk} {FL : Nat → List Nat} (hg : Good h bs FL)
    {b : Blk} (hb : b ∈ bs) (hba : b.alloc = 1) (t : Nat) (ht8 : t % 8 = 0)
    (htb : b.size < t) (htw : t + 15 < WORD) :
    ∃ q h1, mm_malloc h t = Except.ok (q, h1) ∧
      GET_SIZE h1 (HDRP b.addr) = Except.ok b.size ∧
      ((q = 0 ∧ h1 = h ∧ ∃ f, realloc_copy h b.addr t = Except.error f) ∨
       (q ≠ 0 ∧ ∃ h2 h3 bs3 FL3, memcpy h1 q b.addr b.size = Except.ok h2 ∧
          mm_free h2 b.addr = Except.ok h3 ∧
          realloc_copy h b.addr t = Except.ok (q, h3) ∧ Good h3 bs3 FL3 ∧
          (∀ k, k % 4 = 0 → k + 8 < b.size → h3.mem (q + k) = h.mem (b.addr + k)) ∧
          ∃ sz, ∀ c : Blk, c.alloc = 1 → (c ∈ bs3 ↔ (c ∈ bs ∧ c ≠ b) ∨ c = ⟨q, sz, 1⟩))) := by
  have hW : WORD = 4294967296 := rfl
  have hI := hg.core.inHeap hb
  have hsg := hI.size_ge; have hsm := hI.size_mod
  obtain ⟨-, -, hat, -⟩ := adjust_spec t (by omega) htw
  obtain ⟨q, h1, hrun1, hres⟩ := mm_malloc_spec hg t (by omega) htw
  rcases hres with ⟨hq0, hh⟩ | ⟨hq0, bs1, FL1, sz, hg1, hs1, hx1, hk1, hsz, hQ, hiff1, hfr1⟩
  · subst hh
    subst hq0
    refine ⟨0, h1, hrun1, hI.get_size, Or.inl ⟨rfl, rfl, ?_⟩⟩
    obtain ⟨f, hf⟩ := memcpy_null h1 b.addr b.size (by omega) hg.core.base_pos
    refine ⟨f, ?_⟩
    unfold realloc_copy
    rw [hrun1]
    simp only [ok_bind]
    rw [hI.get_size]
    simp only [ok_bind]
    rw [hf]
    rfl
  · have hb1 : b ∈ bs1 := (hiff1 b hba).2 (Or.inl hb)
    have hI1 := hg1.core.inHeap hb1
    have hQI := hg1.core.inHeap hQ
    have hlo := hI1.lo; have hhi := hI1.hi; have hblt := hI1.brk_lt; have ham := hI1.addr_mod
    have hqlo := hQI.lo; have hqhi := hQI.hi; have hqm := hQI.addr_mod
    simp only at hqlo hqhi hqm
    have hdis : b.addr + b.size ≤ q ∨ q + sz ≤ b.addr := by
      rcases hg1.core.apart hb1 hQ with e | e | e
      · rw [e] at htb; simp only at htb; omega
      · exact Or.inl e
      · exact Or.inr e
    obtain ⟨m', hrun2, hcopy, hrest⟩ := memcpy_spec h1 q b.addr b.size (by omega)
      ⟨by omega, by omega, by omega⟩ ⟨by omega, by omega, by omega⟩ (by omega) hblt
    have hg2 : Good (setMem h1 m') bs1 FL1 := by
      refine hg1.payload_change m' (fun a hna => hrest a ?_)
      by_contra hcon
      exact hna ⟨_, hQ, rfl, by simp only; omega, by simp only; omega⟩
    obtain ⟨h3, bs3, FL3, hrun3, hg3, -, -, -, hiff3, hfr3, -⟩ := mm_free_spec hg2 hb1 hba
    refine ⟨q, h1, hrun1, hI1.get_size,
      Or.inr ⟨hq0, _, h3, bs3, FL3, hrun2, hrun3, ?_, hg3, ?_, sz, ?_⟩⟩
    · unfold realloc_copy
      rw [hrun1]
      simp only [ok_bind]
      rw [hI1.get_size]
      simp only [ok_bind]
      rw [hrun2]
      simp only [ok_bind]
      rw [hrun3]
      rfl
    · intro k hk4 hk8
      have hQ3 : (⟨q, sz, 1⟩ : Blk) ∈ bs3 :=
        (hiff3 _ rfl).2 ⟨hQ, fun e => by rw [← e] at htb; simp only at htb; omega⟩
      rw [hfr3 (q + k) ⟨_, hQ3, rfl, by simp only; omega, by simp only; omega⟩]
      simp only [setMem_mem]
      rw [hcopy k hk4 (by omega)]
      exact hfr1 (b.addr + k) ⟨b, hb, hba, by omega, by omega⟩
    · intro c hc1
      rw [hiff3 c hc1, hiff1 c hc1]
      constructor
      · rintro ⟨h5 | h5, h6⟩
        · exact Or.inl ⟨h5, h6⟩
        · exact Or.inr h5
      · rintro (⟨h5, h6⟩ | h5)
        · exact ⟨Or.inl h5, h6⟩
        · refine ⟨Or.inr h5, ?_⟩
          intro e
          rw [h5] at e
          rw [← e] at htb
          simp only at htb
          omega

/-- Which path `mm_realloc` takes for a block of size `c` followed by a block of size `x`. -/
theorem realloc_path_copy (h : Heap) (p n c x al : Nat) (h0 : 0 < n)
    (hc : GET_SIZE h (HDRP p) = Except.ok c) (hgt : c < adjust n)
    (hnx : NEXT_BLK_PTR h p = Except.ok (p + c))
    (hx : GET_SIZE h (HDRP (p + c)) = Except.ok x) (hx0 : x ≠ 0)
    (hal : GET_ALLOC h (HDRP (p + c)) = Except.ok al)
    (hno : al ≠ 0 ∨ padd x c < adjust n) :
    mm_realloc h p n = realloc_copy h p (adjust n) := by
  unfold mm_realloc
  rw [if_neg (by omega)]
  simp only []
  rw [hc]
  simp only [ok_bind]
  rw [if_neg (by omega), hnx]
  simp only [ok_bind]
  rw [hx]
  simp only [ok_bind]
  rw [if_neg hx0, hal]
  simp only [ok_bind]
  by_cases ha0 : al = 0
  · rw [if_pos ha0]
    rcases hno with hno | hno
    · exact absurd ha0 hno
    · rw [if_neg (by omega)]
  · rw [if_neg ha0]

set_option maxRecDepth 100000 in
theorem two_block_fst : (mm_malloc one_block_heap 8).map Prod.fst = Except.ok 40 := by decide!

theorem two_block_eq : mm_malloc one_block_heap 8 = Except.ok (40, two_block_heap) :=
  ok_of_fst two_block_fst

set_option maxRecDepth 100000 in
theorem two_block_size : GET_SIZE two_block_heap (HDRP 24) = Except.ok 16 := by decide!

set_option maxRecDepth 100000 in
theorem two_block_next_size : GET_SIZE two_block_heap (HDRP (24 + 16)) = Except.ok 16 := by
  decide!

set_option maxRecDepth 100000 in
theorem two_block_next_alloc : GET_ALLOC two_block_heap (HDRP (24 + 16)) = Except.ok 1 := by
  decide!

/-- The inner search loop of `mm_malloc` ends at the first node that is large enough, and at
`NULL` when no node is. -/
theorem find_walk_first (h : Heap) (size : Nat) (P : Blk → Prop) (L : List Nat)
    (k prev cur : Nat) (hl : LSeg h.mem prev cur L 0) (hk : L.length < k)
    (hnodes : ∀ z ∈ L, ∃ c, P c ∧ InHeap h c ∧ c.addr = z) :
    ∃ r, find_walk h size k cur = Except.ok r ∧
      (r = 0 → ∀ z ∈ L, ∀ c, InHeap h c → c.addr = z → c.size < size) ∧
      (r ≠ 0 → ∃ c, P c ∧ c.addr = r ∧ size ≤ c.size ∧ r ∈ L) := by
  induction L generalizing k prev cur with
  | nil =>
    have hcur : cur = 0 := hl
    subst hcur
    obtain ⟨k', rfl⟩ : ∃ k', k = k' + 1 := ⟨k - 1, by simp at hk; omega⟩
    exact ⟨0, by simp [find_walk], fun _ z hz => absurd hz (List.not_mem_nil _),
      fun e => absurd rfl e⟩
  | cons x L ih =>
    obtain ⟨hcur, hx0, hp, hl'⟩ := hl
    subst hcur
    obtain ⟨k', rfl⟩ : ∃ k', k = k' + 1 := ⟨k - 1, by simp at hk; omega⟩
    obtain ⟨c, hcP, hcI, hcx⟩ := hnodes cur (List.mem_cons_self _ _)
    subst hcx
    unfold find_walk
    rw [if_neg hx0, hcI.get_size]
    simp only [ok_bind]
    by_cases hlt : c.size < size
    · rw [if_pos hlt, hcI.succ_eq]
      simp only [ok_bind]
      obtain ⟨r, hr, h0, hn⟩ := ih k' c.addr (h.mem (c.addr + 4)) hl' (by simp at hk; omega)
        (fun z hz => hnodes z (List.mem_cons_of_mem _ hz))
      refine ⟨r, hr, ?_, ?_⟩
      · intro hr0 z hz d hdI hdz
        rcases List.mem_cons.1 hz with e | e
        · have h1 := hdI.hdr; have h2 := hcI.hdr
          have := hdI.size_mod; have := hcI.size_mod
          have := hdI.alloc_le; have := hcI.alloc_le
          rw [hdz, e] at h1
          omega
        · exact h0 hr0 z e d hdI hdz
      · intro hr0
        obtain ⟨d, hd1, hd2, hd3, hd4⟩ := hn hr0
        exact ⟨d, hd1, hd2, hd3, List.mem_cons_of_mem _ hd4⟩
    · rw [if_neg hlt]
      exact ⟨c.addr, rfl, fun e => absurd e hx0,
        fun _ => ⟨c, hcP, rfl, by omega, List.mem_cons_self _ _⟩⟩

/-- The bucket loop of `mm_malloc` on a well-formed heap: it ends at a free block that is
large enough, taken from the lowest bucket it looks into that has one, and at `NULL` when no
bucket it looks into has one.  It looks into bucket `j` when `size >> j <= 1`. -/
theorem find_loop_min {h : Heap} {bs : List Blk} {FL : Nat → List Nat} (hg : Good h bs FL)
    (size cnt : Nat) : ∀ i, i + cnt ≤ LISTSIZE →
    ∃ r, find_loop h size cnt i (size >>> i) = Except.ok r ∧
      (r = 0 → ∀ c ∈ bs, c.alloc = 0 → size ≤ c.size → i ≤ bucket c.size →
        bucket c.size < i + cnt → ¬ size >>> bucket c.size ≤ 1) ∧
      (r ≠ 0 → ∃ c ∈ bs, c.alloc = 0 ∧ c.addr = r ∧ size ≤ c.size ∧ i ≤ bucket c.size ∧
        bucket c.size < i + cnt ∧
        ∀ d ∈ bs, d.alloc = 0 → size ≤ d.size → i ≤ bucket d.size →
          size >>> bucket d.size ≤ 1 → bucket c.size ≤ bucket d.size) := by
  have hc := hg.core
  induction cnt with
  | zero =>
    intro i _
    exact ⟨0, rfl, fun _ c _ _ _ h1 h2 => by omega, fun e => absurd rfl e⟩
  | succ cnt ih =>
    intro i hi
    have hshift : (size >>> i) >>> 1 = size >>> (i + 1) := (Nat.shiftRight_add size i 1).symm
    have hrest : (∀ c ∈ bs, c.alloc = 0 → size ≤ c.size → bucket c.size = i →
          size >>> i ≤ 1 → False) →
        ∃ r, find_loop h size cnt (i + 1) ((size >>> i) >>> 1) = Except.ok r ∧
          (r = 0 → ∀ c ∈ bs, c.alloc = 0 → size ≤ c.size → i ≤ bucket c.size →
            bucket c.size < i + (cnt + 1) → ¬ size >>> bucket c.size ≤ 1) ∧
          (r ≠ 0 → ∃ c ∈ bs, c.alloc = 0 ∧ c.addr = r ∧ size ≤ c.size ∧ i ≤ bucket c.size ∧
            bucket c.size < i + (cnt + 1) ∧
            ∀ d ∈ bs, d.alloc = 0 → size ≤ d.size → i ≤ bucket d.size →
              size >>> bucket d.size ≤ 1 → bucket c.size ≤ bucket d.size) := by
      intro hnone
      obtain ⟨r, hr, h0, hn⟩ := ih (i + 1) (by omega)
      rw [hshift]
      refine ⟨r, hr, ?_, ?_⟩
      · intro hr0 c hcm hc0 hfit hlo hhi hs
        by_cases hbi : bucket c.size = i
        · rw [hbi] at hs
          exact hnone c hcm hc0 hfit hbi hs
        · exact h0 hr0 c hcm hc0 hfit (by omega) (by omega) hs
      · intro hr0
        obtain ⟨c, hcm, hc0, hca, hfit, hlo, hhi, hmin⟩ := hn hr0
        refine ⟨c, hcm, hc0, hca, hfit, by omega, by omega, ?_⟩
        intro d hdm hd0 hdfit hdlo hds
        by_cases hbi : bucket d.size = i
        · rw [hbi] at hds
          exact absurd (hnone d hdm hd0 hdfit hbi hds) id
        · exact hmin d hdm hd0 hdfit (by omega) hds
    unfold find_loop
    by_cases hcond : size >>> i ≤ 1 ∧ h.segregated_free_lists i ≠ 0
    · rw [if_pos hcond]
      obtain ⟨r, hr, h0, hn⟩ := find_walk_first h size (fun c => c ∈ bs ∧ c.alloc = 0) (FL i)
        (fuel h + 1) 0 (h.segregated_free_lists i) (hc.linked i (by omega)) (hc.length_le i)
        (by
          intro z hz
          obtain ⟨c, h1, h2, h3, _, h5⟩ := hc.node_inHeap hz
          exact ⟨c, ⟨h1, h3⟩, h5, h2⟩)
      rw [hr]
      simp only [ok_bind]
      by_cases hr0 : r = 0
      · rw [if_neg (fun hh => hh hr0)]
        apply hrest
        intro c hcm hc0 hfit hbi _
        have hx := hg.listed c hcm hc0
        rw [hbi] at hx
        have := h0 hr0 c.addr hx c (hc.inHeap hcm) rfl
        omega
      · rw [if_pos hr0]
        obtain ⟨c, ⟨hcm, hc0⟩, hca, hfit, hmem⟩ := hn hr0
        rw [← hca] at hmem
        have hbi := (hc.node_blk hcm hmem).2
        refine ⟨r, rfl, fun e => absurd e hr0, fun _ => ⟨c, hcm, hc0, hca, hfit, by omega,
          by omega, fun d _ _ _ hdlo _ => by omega⟩⟩
    · rw [if_neg hcond]
      apply hrest
      intro c hcm hc0 hfit hbi hs
      have hhead : h.segregated_free_lists i = 0 := by
        by_contra hne
        exact hcond ⟨hs, hne⟩
      have hx := hg.listed c hcm hc0
      rw [hbi] at hx
      have hl := hc.linked i (by omega)
      rw [hhead] at hl
      cases hfl : FL i with
      | nil => rw [hfl] at hx; exact absurd hx (List.not_mem_nil _)
      | cons y ys =>
        rw [hfl] at hl
        exact hl.2.1 hl.1.symm

/-- Some memory holds the tags of blocks that lie back to back. -/
theorem Laid.tiled (bs : List Blk) : ∀ (p q : Nat), Laid p bs q → ∃ m, Tiled m p bs q := by
  induction bs with
  | nil => exact fun p q hl => ⟨fun _ => 0, hl⟩
  | cons b bs ih =>
    intro p q hl
    obtain ⟨h1, h2, h3, h4, h5⟩ := hl
    obtain ⟨m1, hm1⟩ := ih _ _ h5
    refine ⟨upd (upd m1 (p - 4) (b.size + b.alloc)) (p + b.size - 8) (b.size + b.alloc),
      h1, h2, h3, h4, ?_, upd_same _ _ _, ?_⟩
    · by_cases e : p - 4 = p + b.size - 8
      · rw [e, upd_same]
      · rw [upd_other _ _ _ _ e, upd_same]
    · refine Tiled_congr ?_ hm1
      intro a ha _
      rw [upd_other _ _ _ _ (by omega), upd_other _ _ _ _ (by omega)]

/-- The block sequence of a well-formed heap is the one sequence between the arena bounds
that has the same allocated blocks and no two free blocks touching. -/
theorem Good.blocks_unique {h : Heap} {bs : List Blk} {FL : Nat → List Nat} (hg : Good h bs FL)
    (bs' : List Blk) (hl : Laid (h.mem_start_brk + 16) bs' h.mem_brk) (hn : NoAdj bs')
    (h1 : ∀ c ∈ bs, c.alloc = 1 → c ∈ bs') (h2 : ∀ c ∈ bs', c.alloc = 1 → c ∈ bs) :
    bs = bs' := by
  obtain ⟨m, hm⟩ := Laid.tiled bs' _ _ hl
  exact Tiled_canon bs bs' _ _ hg.core.tiled_bs hm hg.noadj hn h1 h2

/-- Function `mm_malloc` on a well-formed heap when a bucket that the search looks into
holds a block that is large enough: the block comes from the lowest such bucket and the arena
does not grow. -/
theorem mm_malloc_found {h : Heap} {bs : List Blk} {FL : Nat → List Nat} (hg : Good h bs FL)
    (n : Nat) (h0 : 0 < n) (hn : n + 15 < WORD) {d : Blk} (hd : d ∈ bs) (hd0 : d.alloc = 0)
    (hdfit : adjust n ≤ d.size) (hds : adjust n >>> bucket d.size ≤ 1) :
    ∃ c h' bs' FL', c ∈ bs ∧ c.alloc = 0 ∧ adjust n ≤ c.size ∧
      (∀ e ∈ bs, e.alloc = 0 → adjust n ≤ e.size → adjust n >>> bucket e.size ≤ 1 →
        bucket c.size ≤ bucket e.size) ∧
      mm_malloc h n = Except.ok (c.addr, h') ∧ Good h' bs' FL' ∧
      h'.mem_start_brk = h.mem_start_brk ∧ h'.mem_brk = h.mem_brk ∧
      h'.mem_max_addr = h.mem_max_addr ∧
      (∀ x : Blk, x.alloc = 1 → (x ∈ bs' ↔ x ∈ bs ∨
        x = ⟨c.addr, if c.size - adjust n < DSIZE * 2 then c.size else adjust n, 1⟩)) := by
  obtain ⟨ha8, ha16, -, -⟩ := adjust_spec n h0 hn
  obtain ⟨r, hr, hz, hnz⟩ := find_loop_min hg (adjust n) LISTSIZE 0 (by omega)
  have hr0 : r ≠ 0 := by
    intro e
    exact hz e d hd hd0 hdfit (Nat.zero_le _) (by have := bucket_lt d.size; omega) hds
  obtain ⟨c, hcm, hc0, hca, hfit, -, -, hmin⟩ := hnz hr0
  obtain ⟨h2, bs2, FL2, sz, hpl, hg2, hs2, hk2, hx2, -, -, hiff2, -, hsz⟩ :=
    place_spec hg hcm hc0 (adjust n) hfit ha8 ha16
  refine ⟨c, h2, bs2, FL2, hcm, hc0, hfit,
    fun e he he0 hef hes => hmin e he he0 hef (Nat.zero_le _) hes, ?_, hg2, hs2, hk2, hx2, ?_⟩
  · unfold mm_malloc
    rw [if_neg (by omega)]
    simp only []
    have hr' : find_loop h (adjust n) LISTSIZE 0 (adjust n) = Except.ok r := hr
    rw [hr']
    simp only [ok_bind]
    rw [if_neg hr0, ← hca]
    exact hpl
  · rw [← hsz]
    exact hiff2

/-- Function `mm_malloc` on a well-formed heap when no free block is large enough and the
arena can grow: the arena grows by `MAX(size, CHUNKSIZE)` bytes and the block is cut from the
free block at the end of the arena. -/
theorem mm_malloc_grow {h : Heap} {bs : List Blk} {FL : Nat → List Nat} (hg : Good h bs FL)
    (n : Nat) (h0 : 0 < n) (hn : n + 15 < WORD)
    (hnofit : ∀ c ∈ bs, c.alloc = 0 → c.size < adjust n)
    (hroom : h.mem_brk + MAX (adjust n) CHUNKSIZE ≤ h.mem_max_addr) :
    ∃ h1 bs1 FL1 c h' bs' FL', Good h1 bs1 FL1 ∧
      h1.mem_start_brk = h.mem_start_brk ∧
      h1.mem_brk = h.mem_brk + MAX (adjust n) CHUNKSIZE ∧
      (∀ x : Blk, x.alloc = 1 → (x ∈ bs1 ↔ x ∈ bs)) ∧
      c ∈ bs1 ∧ c.alloc = 0 ∧ c.addr ≤ h.mem_brk ∧
      h.mem_brk + MAX (adjust n) CHUNKSIZE ≤ c.addr + c.size ∧
      mm_malloc h n = Except.ok (c.addr, h') ∧ Good h' bs' FL' ∧
      h'.mem_start_brk = h.mem_start_brk ∧
      h'.mem_brk = h.mem_brk + MAX (adjust n) CHUNKSIZE ∧
      h'.mem_max_addr = h.mem_max_addr ∧
      (∀ x : Blk, x.alloc = 1 → (x ∈ bs' ↔ x ∈ bs ∨
        x = ⟨c.addr, if c.size - adjust n < DSIZE * 2 then c.size else adjust n, 1⟩)) := by
  have hW : WORD = 4294967296 := rfl
  have hCH : CHUNKSIZE = 4096 := rfl
  obtain ⟨ha8, ha16, -, -⟩ := adjust_spec n h0 hn
  have hmax := MAX_spec (adjust n) CHUNKSIZE
  obtain ⟨r, hr, hres⟩ := find_loop_spec hg.core (adjust n) LISTSIZE 0 (adjust n) (by simp)
  have hr0 : r = 0 := by
    rcases hres with e | ⟨c, ⟨hcm, hc0⟩, -, hfit⟩
    · exact e
    · have := hnofit c hcm hc0
      omega
  subst hr0
  have hmx := hg.core.max_lt
  have hal : ALIGN (MAX (adjust n) CHUNKSIZE) = MAX (adjust n) CHUNKSIZE :=
    ALIGN_of_mod _ (by omega) (by omega)
  obtain ⟨h1, bs1, FL1, r1, hext, hg1, hs1, hk1, hx1, hr1, hr1f, hr1s, hiff1, -, hra, hrb⟩ :=
    extend_heap_spec hg (MAX (adjust n) CHUNKSIZE) (by omega) (by omega) hroom
  have hr1a : r1.addr ≠ 0 := by have := (hg1.core.inHeap hr1).lo; omega
  obtain ⟨h2, bs2, FL2, sz, hpl, hg2, hs2, hk2, hx2, -, -, hiff2, -, hsz⟩ :=
    place_spec hg1 hr1 hr1f (adjust n) (by omega) ha8 ha16
  refine ⟨h1, bs1, FL1, r1, h2, bs2, FL2, hg1, hs1, hk1, hiff1, hr1, hr1f, hra, hrb, ?_, hg2,
    by rw [hs2, hs1], by rw [hk2, hk1], by rw [hx2, hx1], ?_⟩
  · unfold mm_malloc
    rw [if_neg (by omega)]
    simp only []
    rw [hr]
    simp only [ok_bind, if_true]
    rw [hext]
    simp only [ok_bind]
    rw [if_neg hr1a]
    exact hpl
  · intro x hx1'
    rw [← hsz, hiff2 x hx1', hiff1 x hx1']

/-! ## The size adjustment and the bucket index -/

theorem PUT_lists {h h' : Heap} {p v : Nat} (hrun : PUT h p v = Except.ok h') :
    h'.segregated_free_lists = h.segregated_free_lists := by
  unfold PUT at hrun
  split at hrun
  · injection hrun with e
    subst e
    rfl
  · cases hrun

/-- Function `insert_node` writes no bucket head but the one of the block's bucket. -/
theorem insert_node_heads {h h' : Heap} {b sz : Nat}
    (hsz : GET_SIZE h (HDRP b) = Except.ok sz) (hrun : insert_node h b = Except.ok h')
    (j : Nat) (hj : j ≠ bucket sz) :
    h'.segregated_free_lists j = h.segregated_free_lists j := by
  unfold insert_node at hrun
  rw [hsz] at hrun
  simp only [ok_bind, bucket_loop_eq, bind_eq_ok, pure_eq_ok] at hrun
  obtain ⟨⟨pred, succ⟩, -, hrun⟩ := hrun
  simp only [] at hrun
  split at hrun
  · split at hrun
    · simp only [bind_eq_ok] at hrun
      obtain ⟨h1, e1, h2, e2, h3, e3, e4⟩ := hrun
      rw [PUT_lists e4, PUT_lists e3, PUT_lists e2, PUT_lists e1]
    · simp only [bind_eq_ok] at hrun
      obtain ⟨h1, e1, h2, e2, h3, e3, e4⟩ := hrun
      injection e4 with e4
      subst e4
      show (if j = bucket sz then b else h3.segregated_free_lists j) = _
      rw [if_neg hj, PUT_lists e3, PUT_lists e2, PUT_lists e1]
  · split at hrun
    · simp only [bind_eq_ok] at hrun
      obtain ⟨h1, e1, h2, e2, e3⟩ := hrun
      rw [PUT_lists e3, PUT_lists e2, PUT_lists e1]
    · simp only [bind_eq_ok] at hrun
      obtain ⟨h1, e1, h2, e2, e3⟩ := hrun
      injection e3 with e3
      subst e3
      show (if j = bucket sz then b else h2.segregated_free_lists j) = _
      rw [if_neg hj, PUT_lists e2, PUT_lists e1]

/-- Function `delete_node` writes no bucket head but the one of the block's bucket. -/
theorem delete_node_heads {h h' : Heap} {b sz : Nat}
    (hsz : GET_SIZE h (HDRP b) = Except.ok sz) (hrun : delete_node h b = Except.ok h')
    (j : Nat) (hj : j ≠ bucket sz) :
    h'.segregated_free_lists j = h.segregated_free_lists j := by
  unfold delete_node at hrun
  rw [hsz] at hrun
  simp only [ok_bind, bucket_loop_eq, bind_eq_ok, pure_eq_ok] at hrun
  obtain ⟨s, -, hrun⟩ := hrun
  split at hrun
  · simp only [bind_eq_ok] at hrun
    obtain ⟨p, -, hrun⟩ := hrun
    split at hrun
    · simp only [bind_eq_ok] at hrun
      obtain ⟨p1, -, s1, -, h1, e1, s2, -, p2, -, e2⟩ := hrun
      rw [PUT_lists e2, PUT_lists e1]
    · simp only [bind_eq_ok] at hrun
      obtain ⟨s1, -, h1, e1, s2, -, e2⟩ := hrun
      injection e2 with e2
      subst e2
      show (if j = bucket sz then s2 else h1.segregated_free_lists j) = _
      rw [if_neg hj, PUT_lists e1]
  · simp only [bind_eq_ok] at hrun
    obtain ⟨p, -, hrun⟩ := hrun
    split at hrun
    · simp only [bind_eq_ok] at hrun
      obtain ⟨p1, -, e1⟩ := hrun
      rw [PUT_lists e1]
    · injection hrun with e2
      subst e2
      show (if j = bucket sz then 0 else h.segregated_free_lists j) = _
      rw [if_neg hj]

/-- The bucket loop from list number `l` with `k` iterations allowed stops at list number
`l + min k (min (15 - l) (log2 s))`. -/
theorem bucket_loop_fst (k : Nat) : ∀ (l s : Nat), 1 ≤ s → l ≤ 15 →
    (bucket_loop k l s).1 = l + min k (min (15 - l) (Nat.log 2 s)) := by
  induction k with
  | zero => intro l s _ _; simp [bucket_loop]
  | succ k ih =>
    intro l s hs hl
    unfold bucket_loop
    have hL : LISTSIZE - 1 = 15 := rfl
    rw [hL]
    by_cases hc : l < 15 ∧ s > 1
    · rw [if_pos hc, Nat.shiftRight_eq_div_pow, pow_one,
        ih _ _ (by have := hc.2; omega) (by omega), Nat.log_div_base]
      have : 1 ≤ Nat.log 2 s := Nat.log_pos (by omega) (by omega)
      omega
    · rw [if_neg hc]
      by_cases h15 : l < 15
      · have hs1 : s = 1 := by omega
        subst hs1
        simp
      · have : 15 - l = 0 := by omega
        simp [this]

/-- One more iteration allowed does not change the result of the bucket loop once
`LISTSIZE - 1` minus the list number are allowed. -/
theorem bucket_loop_succ (k : Nat) : ∀ (l s : Nat), 15 - l ≤ k →
    bucket_loop (k + 1) l s = bucket_loop k l s := by
  induction k with
  | zero =>
    intro l s hk
    have hL : LISTSIZE - 1 = 15 := rfl
    unfold bucket_loop
    rw [hL, if_neg (by omega)]
  | succ k ih =>
    intro l s hk
    have hL : LISTSIZE - 1 = 15 := rfl
    have e1 : ∀ k, bucket_loop (k + 1) l s =
        if l < LISTSIZE - 1 ∧ s > 1 then bucket_loop k (l + 1) (s >>> 1) else (l, s) :=
      fun _ => rfl
    rw [e1 (k + 1), e1 k]
    by_cases hc : l < LISTSIZE - 1 ∧ s > 1
    · rw [if_pos hc, if_pos hc]
      exact ih _ _ (by have := hc.1; omega)
    · rw [if_neg hc, if_neg hc]

/-- The bucket loop ends with its condition false. -/
theorem bucket_loop_exit (k : Nat) : ∀ (l s : Nat), 15 - l ≤ k →
    ¬ ((bucket_loop k l s).1 < LISTSIZE - 1 ∧ (bucket_loop k l s).2 > 1) := by
  induction k with
  | zero =>
    intro l s hk
    have hL : LISTSIZE - 1 = 15 := rfl
    simp only [bucket_loop, hL]
    omega
  | succ k ih =>
    intro l s hk
    unfold bucket_loop
    by_cases hc : l < LISTSIZE - 1 ∧ s > 1
    · rw [if_pos hc]
      exact ih _ _ (by omega)
    · rw [if_neg hc]
      exact hc

theorem bucket_eq_log (s : Nat) (hs : 1 ≤ s) : bucket s = min 15 (Nat.log 2 s) := by
  unfold bucket
  have hL : LISTSIZE - 1 = 15 := rfl
  rw [hL, bucket_loop_fst 15 0 s hs (by omega)]
  omega

theorem bucket_mono {s1 s2 : Nat} (h1 : 1 ≤ s1) (h : s1 ≤ s2) : bucket s1 ≤ bucket s2 := by
  rw [bucket_eq_log s1 h1, bucket_eq_log s2 (by omega)]
  have := Nat.log_mono_right (b := 2) h
  omega

/-- Claim C26, counterexample: the request `n = 4294967284`, which is above 8, gets the
adjusted size 0, and 0 is below `n + 8` whether that sum is taken exactly or in 32 bits. -/
theorem adjust_counterexample :
    adjust 4294967284 = 0 ∧ 8 < 4294967284 ∧ ¬ (4294967284 + 8 ≤ adjust 4294967284) ∧
      ¬ ((4294967284 + 8) % WORD ≤ adjust 4294967284) := by
  decide

/-- Claim C26 (amended): for a request `n > 0` such that `n + 15` does not overflow the
32-bit size type, the adjusted size that `mm_malloc` and `mm_realloc` compute is 16 when
`n ≤ 8` and otherwise the smallest multiple of 8 that is at least `n + 8`; it is a multiple of
8, at least 16, at least `n + 8` and below `n + 16`. -/
theorem adjust_size (n : Nat) (h0 : 0 < n) (hn : n + 15 < WORD) :
    (n ≤ 8 → adjust n = 16) ∧
      (8 < n → adjust n % 8 = 0 ∧ n + 8 ≤ adjust n ∧
        ∀ m, m % 8 = 0 → n + 8 ≤ m → adjust n ≤ m) ∧
      adjust n % 8 = 0 ∧ 16 ≤ adjust n ∧ n + 8 ≤ adjust n ∧ adjust n < n + 16 := by
  obtain ⟨h1, h2, h3, h4⟩ := adjust_spec n h0 hn
  refine ⟨?_, ?_, h1, h2, h3, h4⟩
  · intro h8
    unfold adjust DSIZE
    rw [if_pos h8]
  · intro _
    refine ⟨h1, h3, ?_⟩
    intro m hm hle
    omega

theorem adjust_size_witness :
    (0 < 100 ∧ 100 + 15 < WORD) ∧ adjust 100 = 112 ∧ adjust 100 % 8 = 0 :=
  ⟨by decide, by decide, (adjust_size 100 (by decide) (by decide)).2.2.1⟩

/-- Claim C27: for a block size `s ≥ 1` the halving loop of `insert_node` and `delete_node`
yields `min(15, floor(log2 s))`: the index is `i < 15` exactly when `2^i ≤ s < 2^(i+1)` and
15 exactly when `s ≥ 2^15`; the loop ends with its condition false after at most
`LISTSIZE - 1` iterations, whatever number of further iterations is allowed; the index does
not fall when the size rises; and both functions write no bucket head outside the bucket of
that index. -/
theorem bucket_index (s : Nat) (hs : 1 ≤ s) :
    bucket s = min 15 (Nat.log 2 s) ∧
      (∀ i, i < 15 → (bucket s = i ↔ 2 ^ i ≤ s ∧ s < 2 ^ (i + 1))) ∧
      (bucket s = 15 ↔ 2 ^ 15 ≤ s) ∧
      (∀ k, LISTSIZE - 1 ≤ k → bucket_loop k 0 s = (bucket s, shifted s)) ∧
      ¬ (bucket s < LISTSIZE - 1 ∧ shifted s > 1) ∧
      (∀ s2, s ≤ s2 → bucket s ≤ bucket s2) ∧
      (∀ (h h' : Heap) (b j : Nat), GET_SIZE h (HDRP b) = Except.ok s → j ≠ bucket s →
        (insert_node h b = Except.ok h' ∨ delete_node h b = Except.ok h') →
        h'.segregated_free_lists j = h.segregated_free_lists j) := by
  have hlog := bucket_eq_log s hs
  have hs0 : s ≠ 0 := by omega
  refine ⟨hlog, ?_, ?_, ?_, ?_, fun s2 h => bucket_mono hs h, ?_⟩
  · intro i hi
    rw [hlog]
    constructor
    · intro e
      have e2 : Nat.log 2 s = i := by omega
      exact ⟨e2 ▸ Nat.pow_log_le_self 2 hs0, e2 ▸ Nat.lt_pow_succ_log_self (by omega) s⟩
    · rintro ⟨h1, h2⟩
      have e2 : Nat.log 2 s = i := (Nat.log_eq_iff (Or.inr ⟨by omega, hs0⟩)).2 ⟨h1, h2⟩
      rw [e2]
      omega
  · rw [hlog]
    constructor
    · intro e
      have e2 : 15 ≤ Nat.log 2 s := by omega
      exact (Nat.pow_le_iff_le_log (by omega) hs0).2 e2
    · intro h1
      have := (Nat.pow_le_iff_le_log (by omega) hs0).1 h1
      omega
  · intro k hk
    have hL : LISTSIZE - 1 = 15 := rfl
    rw [hL] at hk
    induction k, hk using Nat.le_induction with
    | base => rfl
    | succ k hk ih => rw [bucket_loop_succ k 0 s (by omega)]; exact ih
  · exact bucket_loop_exit 15 0 s (by omega)
  · intro h h' b j hsz hj hrun
    rcases hrun with hrun | hrun
    · exact insert_node_heads hsz hrun j hj
    · exact delete_node_heads hsz hrun j hj

theorem bucket_index_witness : 1 ≤ 4048 ∧ bucket 4048 = min 15 (Nat.log 2 4048) :=
  ⟨by decide, (bucket_index 4048 (by decide)).1⟩

/-! ## The free-list index: insertion and removal -/

/-- The links around the node `x` of a bucket list. -/
theorem LSeg_links {m : Nat → Nat} {l1 l2 : List Nat} {x head : Nat}
    (hl : LSeg m 0 head (l1 ++ x :: l2) 0) :
    m x = lastD l1 0 ∧ m (x + 4) = l2.headD 0 ∧
      (lastD l1 0 = 0 → l1 = [] ∧ head = x) ∧
      (lastD l1 0 ≠ 0 → lastD l1 0 ∈ l1 ∧ m (lastD l1 0 + 4) = x) ∧
      (l2.headD 0 = 0 → l2 = []) ∧
      (l2.headD 0 ≠ 0 → l2.headD 0 ∈ l2 ∧ m (l2.headD 0) = x) := by
  rw [LSeg_append] at hl
  obtain ⟨mid, h1, h2⟩ := hl
  obtain ⟨hmid, hx0, hpred, h3⟩ := h2
  subst hmid
  refine ⟨hpred, LSeg_head h3, ?_, ?_, ?_, ?_⟩
  · rcases nil_or_snoc l1 with rfl | ⟨l', w, rfl⟩
    · intro _
      exact ⟨rfl, h1⟩
    · rw [LSeg_snoc] at h1
      intro e
      rw [lastD_snoc] at e
      exact absurd e h1.2.1
  · rcases nil_or_snoc l1 with rfl | ⟨l', w, rfl⟩
    · intro e
      exact absurd rfl e
    · rw [LSeg_snoc] at h1
      intro _
      rw [lastD_snoc]
      exact ⟨by simp, h1.2.2.2⟩
  · cases l2 with
    | nil => intro _; rfl
    | cons y l2 =>
      obtain ⟨-, hy0, -, -⟩ := h3
      intro e
      exact absurd e hy0
  · cases l2 with
    | nil => intro e; exact absurd rfl e
    | cons y l2 =>
      obtain ⟨-, -, hy, -⟩ := h3
      intro _
      exact ⟨by simp, hy⟩

/-- The index of a well-formed heap is what following the links from the bucket heads
gives. -/
theorem Core.index_eq {h : Heap} {bs : List Blk} {FL : Nat → List Nat} (hc : Core h bs FL)
    (F : Nat → List Nat) (hF : ∀ i, i < LISTSIZE → bucket_nodes h i = Except.ok (F i))
    (hF0 : ∀ i, LISTSIZE ≤ i → F i = []) : FL = F := by
  funext i
  by_cases hi : i < LISTSIZE
  · have := hc.bucket_nodes_eq i hi
    rw [hF i hi] at this
    exact (Except.ok.inj this).symm
  · rw [hF0 i (by omega)]
    rcases List.eq_nil_or_concat (FL i) with e | ⟨l, x, e⟩
    · exact e
    · exfalso
      obtain ⟨c, -, -, -, hb⟩ := hc.node i x (by rw [e]; simp)
      have := bucket_lt c.size
      omega

set_option maxRecDepth 100000 in
theorem fresh_heap_blocks : blocks fresh_heap = Except.ok [⟨24, 64, 0⟩] := by decide!

set_option maxRecDepth 100000 in
theorem fresh_heap_index : ∀ i, i < LISTSIZE →
    bucket_nodes fresh_heap i = Except.ok (if i = 6 then [24] else []) := by decide!

/-- The state after `mm_init` on the fresh arena: one free block of 64 bytes at 24, alone in
bucket 6. -/
theorem core_fresh : Core fresh_heap [⟨24, 64, 0⟩] (fun i => if i = 6 then [24] else []) := by
  obtain ⟨bs, FL, hg, -⟩ := reach_inv reach_fresh
  have e1 : bs = [⟨24, 64, 0⟩] := by
    have := hg.core.blocks_eq
    rw [fresh_heap_blocks] at this
    exact (Except.ok.inj this).symm
  have e2 : FL = fun i => if i = 6 then [24] else [] :=
    hg.core.index_eq _ fresh_heap_index (fun i hi => by
      have hL : LISTSIZE = 16 := rfl
      rw [if_neg (by omega)])
  subst e1 e2
  exact hg.core

theorem unlinked_eq : delete_node fresh_heap 24 = Except.ok unlinked_heap ∧
    Core unlinked_heap [⟨24, 64, 0⟩] (fun _ => []) := by
  obtain ⟨h', hrun, hc, -⟩ := delete_node_spec core_fresh
    (by simp : (⟨24, 64, 0⟩ : Blk) ∈ [(⟨24, 64, 0⟩ : Blk)]) (by decide)
  have e : unlinked_heap = h' := by
    unfold unlinked_heap
    rw [hrun]
    rfl
  rw [e]
  refine ⟨hrun, ?_⟩
  have e2 : (fun j => (if j = 6 then [24] else ([] : List Nat)).erase 24) = fun _ => [] := by
    funext j
    by_cases hj : j = 6
    · subst hj; rfl
    · rw [if_neg hj]; rfl
  rw [← e2]
  exact hc

/-- Claim C29: in a well-formed heap, for a free block `b` that is in no bucket,
`insert_node(b)` succeeds; the bucket of `size(b)` becomes its old list with `b` put in at one
place, every other bucket keeps its list, every bucket is again a null-terminated doubly
linked list; the predecessor word of `b` holds the node before it and the successor word the
node after it (`NULL` when there is none); the bucket head is `b` when `b` has no
predecessor, otherwise the predecessor's successor word holds `b`; and the successor's
predecessor word holds `b`. -/
theorem insert_node_links (h : Heap) (bs : List Blk) (FL : Nat → List Nat) (b : Blk)
    (hc : Core h bs FL) (hb : b ∈ bs) (hfree : b.alloc = 0) (hnot : ∀ i, b.addr ∉ FL i) :
    ∃ h' l1 l2, insert_node h b.addr = Except.ok h' ∧ FL (bucket b.size) = l1 ++ l2 ∧
      bucket b.size < LISTSIZE ∧
      (∀ i, i < LISTSIZE → bucket_nodes h i = Except.ok (FL i) ∧
        bucket_nodes h' i =
          Except.ok (if i = bucket b.size then l1 ++ b.addr :: l2 else FL i) ∧
        LSeg h'.mem 0 (h'.segregated_free_lists i)
          (if i = bucket b.size then l1 ++ b.addr :: l2 else FL i) 0) ∧
      PRED h' b.addr = Except.ok (lastD l1 0) ∧ SUCC h' b.addr = Except.ok (l2.headD 0) ∧
      (lastD l1 0 = 0 → l1 = [] ∧ h'.segregated_free_lists (bucket b.size) = b.addr) ∧
      (lastD l1 0 ≠ 0 → SUCC h' (lastD l1 0) = Except.ok b.addr) ∧
      (l2.headD 0 = 0 → l2 = []) ∧
      (l2.headD 0 ≠ 0 → PRED h' (l2.headD 0) = Except.ok b.addr) := by
  obtain ⟨h', l1, l2, hrun, hsplit, hc', -⟩ := insert_node_spec hc hb hfree hnot
  have hl := hc'.linked (bucket b.size) (bucket_lt _)
  simp only [if_true] at hl
  obtain ⟨k1, k2, k3, k4, k5, k6⟩ := LSeg_links hl
  have hI := hc'.inHeap hb
  have hnode : ∀ z, z ∈ l1 ++ b.addr :: l2 →
      PRED h' z = Except.ok (h'.mem z) ∧ SUCC h' z = Except.ok (h'.mem (z + 4)) := by
    intro z hz
    obtain ⟨c, -, hcz, -, -, hcI⟩ :=
      hc'.node_inHeap (i := bucket b.size) (z := z) (by simp only [if_true]; exact hz)
    subst hcz
    exact ⟨hcI.pred_eq, hcI.succ_eq⟩
  refine ⟨h', l1, l2, hrun, hsplit, bucket_lt _, ?_, ?_, ?_, k3, ?_, k5, ?_⟩
  · intro i hi
    exact ⟨hc.bucket_nodes_eq i hi, hc'.bucket_nodes_eq i hi, hc'.linked i hi⟩
  · rw [hI.pred_eq, k1]
  · rw [hI.succ_eq, k2]
  · intro hp
    obtain ⟨m1, m2⟩ := k4 hp
    rw [(hnode _ (List.mem_append_left _ m1)).2, m2]
  · intro hs
    obtain ⟨m1, m2⟩ := k6 hs
    rw [(hnode _ (List.mem_append_right _ (List.mem_cons_of_mem _ m1))).1, m2]

/-- Claim C29 at the state after `mm_init` on the fresh arena and removal of its one free
block from the index. -/
theorem insert_node_links_witness :
    Core unlinked_heap [⟨24, 64, 0⟩] (fun _ => []) ∧
    ∃ h' l1 l2, insert_node unlinked_heap 24 = Except.ok h' ∧ ([] : List Nat) = l1 ++ l2 ∧
      bucket 64 < LISTSIZE ∧
      (∀ i, i < LISTSIZE → bucket_nodes unlinked_heap i = Except.ok [] ∧
        bucket_nodes h' i = Except.ok (if i = bucket 64 then l1 ++ 24 :: l2 else []) ∧
        LSeg h'.mem 0 (h'.segregated_free_lists i)
          (if i = bucket 64 then l1 ++ 24 :: l2 else []) 0) ∧
      PRED h' 24 = Except.ok (lastD l1 0) ∧ SUCC h' 24 = Except.ok (l2.headD 0) ∧
      (lastD l1 0 = 0 → l1 = [] ∧ h'.segregated_free_lists (bucket 64) = 24) ∧
      (lastD l1 0 ≠ 0 → SUCC h' (lastD l1 0) = Except.ok 24) ∧
      (l2.headD 0 = 0 → l2 = []) ∧
      (l2.headD 0 ≠ 0 → PRED h' (l2.headD 0) = Except.ok 24) :=
  ⟨unlinked_eq.2, insert_node_links unlinked_heap [⟨24, 64, 0⟩] (fun _ => []) ⟨24, 64, 0⟩
    unlinked_eq.2 (by simp) rfl (by simp)⟩

/-- Claim C30: in a well-formed heap, for a block `b` that is a node of its bucket,
`delete_node(b)` succeeds; the bucket of `size(b)` becomes its old list without `b`, every
other bucket keeps its list, every bucket is again a null-terminated doubly linked list, and
the bucket head is `b`'s successor (`NULL` when there is none) when `b` was the head.  For a
free block `b` that is in no bucket, `insert_node(b)` followed by `delete_node(b)` succeeds
and leaves every bucket with the list it had. -/
theorem delete_node_exact (h : Heap) (bs : List Blk) (FL : Nat → List Nat) (b : Blk)
    (hc : Core h bs FL) (hb : b ∈ bs) :
    (b.addr ∈ FL (bucket b.size) →
      ∃ h' l1 l2, delete_node h b.addr = Except.ok h' ∧
        FL (bucket b.size) = l1 ++ b.addr :: l2 ∧ b.addr ∉ l1 ∧ b.addr ∉ l2 ∧
        (∀ i, i < LISTSIZE → bucket_nodes h i = Except.ok (FL i) ∧
          bucket_nodes h' i = Except.ok (if i = bucket b.size then l1 ++ l2 else FL i) ∧
          LSeg h'.mem 0 (h'.segregated_free_lists i)
            (if i = bucket b.size then l1 ++ l2 else FL i) 0) ∧
        (l1 = [] → h'.segregated_free_lists (bucket b.size) = l2.headD 0)) ∧
    (b.alloc = 0 → (∀ i, b.addr ∉ FL i) →
      ∃ h1 h2, insert_node h b.addr = Except.ok h1 ∧ delete_node h1 b.addr = Except.ok h2 ∧
        ∀ i, i < LISTSIZE → bucket_nodes h i = Except.ok (FL i) ∧
          bucket_nodes h2 i = Except.ok (FL i)) := by
  have hdel : ∀ (g : Heap) (G : Nat → List Nat), Core g bs G → b.addr ∈ G (bucket b.size) →
      ∃ g' l1 l2, delete_node g b.addr = Except.ok g' ∧
        G (bucket b.size) = l1 ++ b.addr :: l2 ∧ b.addr ∉ l1 ∧ b.addr ∉ l2 ∧
        Core g' bs (fun i => if i = bucket b.size then l1 ++ l2 else G i) := by
    intro g G hg hx
    obtain ⟨l1, l2, hsplit⟩ := List.append_of_mem hx
    have hnd := hg.nodup (bucket b.size)
    rw [hsplit] at hnd
    have hn1 : b.addr ∉ l1 := fun hm =>
      (List.nodup_append.1 hnd).2.2 hm (List.mem_cons_self _ _)
    have hn2 : b.addr ∉ l2 := (List.nodup_cons.1 (List.nodup_append.1 hnd).2.1).1
    obtain ⟨g', hrun, hg', -⟩ := delete_node_spec hg hb hx
    refine ⟨g', l1, l2, hrun, hsplit, hn1, hn2, ?_⟩
    rw [← erase_fun_eq hg hb, hsplit, erase_middle _ _ _ hn1] at hg'
    exact hg'
  constructor
  · intro hx
    obtain ⟨h', l1, l2, hrun, hsplit, hn1, hn2, hc'⟩ := hdel h FL hc hx
    refine ⟨h', l1, l2, hrun, hsplit, hn1, hn2, ?_, ?_⟩
    · intro i hi
      exact ⟨hc.bucket_nodes_eq i hi, hc'.bucket_nodes_eq i hi, hc'.linked i hi⟩
    · intro e
      subst e
      have hl := hc'.linked (bucket b.size) (bucket_lt _)
      simp only [if_true, List.nil_append] at hl
      exact LSeg_head hl
  · intro hfree hnot
    obtain ⟨h1, l1, l2, hrun1, hsplit, hc1, -⟩ := insert_node_spec hc hb hfree hnot
    obtain ⟨h2, k1, k2, hrun2, hsplit2, hn1, hn2, hc2⟩ := hdel h1 _ hc1 (by simp)
    refine ⟨h1, h2, hrun1, hrun2, ?_⟩
    intro i hi
    refine ⟨hc.bucket_nodes_eq i hi, ?_⟩
    rw [hc2.bucket_nodes_eq i hi]
    by_cases hib : i = bucket b.size
    · subst hib
      simp only [if_true] at hsplit2 ⊢
      have hm1 : b.addr ∉ l1 := fun hm => hnot _ (by rw [hsplit]; simp [hm])
      have := congrArg (fun l => l.erase b.addr) hsplit2
      simp only [erase_middle _ _ _ hm1, erase_middle _ _ _ hn1] at this
      rw [hsplit, this]
    · simp only [if_neg hib]

/-- Claim C30 at the state after `mm_init` on the fresh arena, for its one free block, and at
the state after that block was taken out of the index. -/
theorem delete_node_exact_witness :
    (Core fresh_heap [⟨24, 64, 0⟩] (fun i => if i = 6 then [24] else []) ∧
      ∃ h' l1 l2, delete_node fresh_heap 24 = Except.ok h' ∧
        (if bucket 64 = 6 then [24] else []) = l1 ++ 24 :: l2 ∧ 24 ∉ l1 ∧ 24 ∉ l2 ∧
        (∀ i, i < LISTSIZE →
          bucket_nodes fresh_heap i = Except.ok (if i = 6 then [24] else []) ∧
          bucket_nodes h' i =
            Except.ok (if i = bucket 64 then l1 ++ l2 else if i = 6 then [24] else []) ∧
          LSeg h'.mem 0 (h'.segregated_free_lists i)
            (if i = bucket 64 then l1 ++ l2 else if i = 6 then [24] else []) 0) ∧
        (l1 = [] → h'.segregated_free_lists (bucket 64) = l2.headD 0)) ∧
    (Core unlinked_heap [⟨24, 64, 0⟩] (fun _ => []) ∧
      ∃ h1 h2, insert_node unlinked_heap 24 = Except.ok h1 ∧
        delete_node h1 24 = Except.ok h2 ∧
        ∀ i, i < LISTSIZE → bucket_nodes unlinked_heap i = Except.ok [] ∧
          bucket_nodes h2 i = Except.ok []) :=
  ⟨⟨core_fresh, (delete_node_exact fresh_heap [⟨24, 64, 0⟩]
      (fun i => if i = 6 then [24] else []) ⟨24, 64, 0⟩ core_fresh (by simp)).1 (by decide)⟩,
    ⟨unlinked_eq.2, (delete_node_exact unlinked_heap [⟨24, 64, 0⟩] (fun _ => []) ⟨24, 64, 0⟩
      unlinked_eq.2 (by simp)).2 rfl (by simp)⟩⟩

/-! ## Coalescing -/

theorem free_last_snoc (l : List Blk) (c : Blk) :
    free_last (l ++ [c]) = if c.alloc = 0 then [c] else [] := by
  simp [free_last]

theorem free_last_split (pre : List Blk) :
    pre = pre.take (pre.length - (free_last pre).length) ++ free_last pre ∧
      (∀ c ∈ free_last pre, c.alloc = 0) ∧
      (free_last pre = [] → ∀ l c, pre = l ++ [c] → c.alloc ≠ 0) := by
  rcases nil_or_snoc_blk pre with rfl | ⟨l, c, rfl⟩
  · refine ⟨by simp [free_last], by simp [free_last], ?_⟩
    intro _ l c e
    simp at e
  · rw [free_last_snoc]
    by_cases hc : c.alloc = 0
    · rw [if_pos hc]
      refine ⟨by simp, by simp [hc], by simp⟩
    · rw [if_neg hc]
      refine ⟨by simp, by simp, ?_⟩
      intro _ l' c' e
      have := List.append_inj' e rfl
      simp only [List.cons.injEq, and_true] at this
      rw [← this.2]
      exact hc

theorem free_head_split (post : List Blk) :
    post = free_head post ++ post.drop (free_head post).length ∧
      (∀ c ∈ free_head post, c.alloc = 0) ∧
      (free_head post = [] → ∀ d l, post = d :: l → d.alloc ≠ 0) := by
  cases post with
  | nil => simp [free_head]
  | cons d l =>
    by_cases hd : d.alloc = 0
    · simp [free_head, hd]
    · simp [free_head, hd]

theorem Tiled.laid {m : Nat → Nat} {bs : List Blk} : ∀ {p q : Nat}, Tiled m p bs q →
    Laid p bs q := by
  induction bs with
  | nil => exact fun h => h
  | cons b bs ih =>
    intro p q h
    obtain ⟨h1, h2, h3, h4, -, -, h7⟩ := h
    exact ⟨h1, h2, h3, h4, ih h7⟩

theorem Laid_append (xs ys : List Blk) (p q : Nat) :
    Laid p (xs ++ ys) q ↔ ∃ r, Laid p xs r ∧ Laid r ys q := by
  induction xs generalizing p with
  | nil => simp [Laid]
  | cons b xs ih =>
    constructor
    · rintro ⟨h1, h2, h3, h4, h7⟩
      obtain ⟨r, h8, h9⟩ := (ih _).1 h7
      exact ⟨r, ⟨h1, h2, h3, h4, h8⟩, h9⟩
    · rintro ⟨r, ⟨h1, h2, h3, h4, h7⟩, h8⟩
      exact ⟨h1, h2, h3, h4, (ih _).2 ⟨r, h7, h8⟩⟩

theorem Laid_total {bs : List Blk} : ∀ {p q : Nat}, Laid p bs q →
    q = p + total bs ∧ total bs % 8 = 0 := by
  induction bs with
  | nil =>
    intro p q h
    have e : p = q := h
    simp [total, e]
  | cons b bs ih =>
    intro p q h
    obtain ⟨h1, h2, h3, h4, h7⟩ := h
    have := ih h7
    have e : total (b :: bs) = b.size + total bs := by simp [total]
    rw [e]
    omega

/-- Place of a block of a sequence that lies back to back. -/
theorem Laid_mem {bs : List Blk} {p q : Nat} (h : Laid p bs q) {b : Blk} (hb : b ∈ bs) :
    p ≤ b.addr ∧ b.addr + b.size ≤ q ∧ 8 ≤ b.size := by
  obtain ⟨m, hm⟩ := Laid.tiled bs p q h
  have := Tiled_mem hm hb
  exact ⟨this.lo, this.hi, this.size_ge⟩

/-- Merging a run `ap ++ [b] ++ an` of free blocks into one block keeps the sequence back to
back and the allocated blocks the same, and leaves no two free blocks touching when the
only free blocks that touched were neighbours of `b`. -/
theorem merge_canon {pre' ap an post' : List Blk} {b : Blk} {p q : Nat}
    (hl : Laid p (pre' ++ ap ++ [b] ++ (an ++ post')) q) (hfree : b.alloc = 0)
    (hap : ∀ c ∈ ap, c.alloc = 0) (han : ∀ c ∈ an, c.alloc = 0)
    (hapn : ap = [] → ∀ l c, pre' ++ ap = l ++ [c] → c.alloc ≠ 0)
    (hann : an = [] → ∀ d l, an ++ post' = d :: l → d.alloc ≠ 0)
    (hn : ∀ x ∈ pre' ++ ap ++ [b] ++ (an ++ post'), ∀ y ∈ pre' ++ ap ++ [b] ++ (an ++ post'),
      x.addr + x.size = y.addr → x.alloc ≠ 0 ∨ y.alloc ≠ 0 ∨ x = b ∨ y = b) :
    Laid p (pre' ++ [⟨b.addr - total ap, total ap + b.size + total an, 0⟩] ++ post') q ∧
      NoAdj (pre' ++ [⟨b.addr - total ap, total ap + b.size + total an, 0⟩] ++ post') ∧
      (∀ c : Blk, c.alloc = 1 →
        (c ∈ pre' ++ [⟨b.addr - total ap, total ap + b.size + total an, 0⟩] ++ post' ↔
          c ∈ pre' ++ ap ++ [b] ++ (an ++ post'))) ∧
      total ap ≤ b.addr ∧ (∀ x ∈ pre', x.addr + x.size ≤ b.addr - total ap) ∧
      (∀ y ∈ post', b.addr + b.size + total an ≤ y.addr) ∧
      (ap ≠ [] → 8 ≤ total ap) ∧ (an ≠ [] → 8 ≤ total an) ∧ 8 ≤ b.size := by
  have hin : ∀ x, x ∈ pre' ∨ x ∈ ap ∨ x = b ∨ x ∈ an ∨ x ∈ post' →
      x ∈ pre' ++ ap ++ [b] ++ (an ++ post') := by
    intro x hx
    simp only [List.mem_append, List.mem_singleton]
    tauto
  have hl' := hl
  simp only [List.append_assoc] at hl'
  rw [Laid_append] at hl'
  obtain ⟨s, h1, hl'⟩ := hl'
  rw [Laid_append] at hl'
  obtain ⟨s1, h2, hl'⟩ := hl'
  rw [Laid_append] at hl'
  obtain ⟨e1, h3, hl'⟩ := hl'
  rw [Laid_append] at hl'
  obtain ⟨e, h4, h5⟩ := hl'
  obtain ⟨hb1, hb2, hb3, hb4, hb5⟩ := h3
  have hb5' : s1 + b.size = e1 := hb5
  obtain ⟨t1, t2⟩ := Laid_total h2
  obtain ⟨t3, t4⟩ := Laid_total h4
  have hpre : ∀ x ∈ pre', x.addr + x.size ≤ s ∧ 8 ≤ x.size := fun x hx =>
    ⟨(Laid_mem h1 hx).2.1, (Laid_mem h1 hx).2.2⟩
  have hpost : ∀ y ∈ post', e ≤ y.addr ∧ 8 ≤ y.size := fun y hy =>
    ⟨(Laid_mem h5 hy).1, (Laid_mem h5 hy).2.2⟩
  have hbefore : ∀ x ∈ pre', x.addr + x.size = s → x.alloc ≠ 0 := by
    intro x hx hxs
    rcases ap with _ | ⟨c, ap'⟩
    · rcases nil_or_snoc_blk pre' with rfl | ⟨l, w, rfl⟩
      · simp at hx
      · rw [Laid_append] at h1
        obtain ⟨r, h6, h7⟩ := h1
        obtain ⟨hw1, hw2, -, -, hw5⟩ := h7
        have hw5' : r + w.size = s := hw5
        rcases List.mem_append.1 hx with hx | hx
        · have := (Laid_mem h6 hx).2.1
          omega
        · simp only [List.mem_singleton] at hx
          subst hx
          exact hapn rfl l x (by simp)
    · have hc1 : c.addr = s := h2.1
      have hc2 := Laid_mem h2 (List.mem_cons_self c ap')
      rcases hn x (hin x (Or.inl hx)) c (hin c (Or.inr (Or.inl (List.mem_cons_self _ _))))
        (by omega) with h9 | h9 | h9 | h9
      · exact h9
      · exact absurd (hap c (List.mem_cons_self _ _)) h9
      · subst h9; omega
      · subst h9; omega
  have hafter : ∀ y ∈ post', y.addr = e → y.alloc ≠ 0 := by
    intro y hy hye
    rcases nil_or_snoc_blk an with rfl | ⟨l, d, rfl⟩
    · cases post' with
      | nil => simp at hy
      | cons y0 rest =>
        obtain ⟨hy1, hy2, -, -, hy5⟩ := h5
        rcases List.mem_cons.1 hy with hy | hy
        · subst hy
          exact hann rfl y rest (by simp)
        · have := (Laid_mem hy5 hy).1
          omega
    · rw [Laid_append] at h4
      obtain ⟨r, h6, h7⟩ := h4
      obtain ⟨hd1, hd2, -, -, hd5⟩ := h7
      have hd5' : r + d.size = e := hd5
      have := Tiled_le (Laid.tiled _ _ _ h6).choose_spec
      rcases hn d (hin d (Or.inr (Or.inr (Or.inr (Or.inl (by simp))))))
        y (hin y (Or.inr (Or.inr (Or.inr (Or.inr hy))))) (by omega) with h9 | h9 | h9 | h9
      · exact absurd (han d (by simp)) h9
      · exact h9
      · subst h9; omega
      · subst h9; omega
  have hapt : ap ≠ [] → 8 ≤ total ap := by
    intro hne
    rcases ap with _ | ⟨c, ap'⟩
    · exact absurd rfl hne
    · have := (Laid_mem h2 (List.mem_cons_self c ap')).2.2
      have e : total (c :: ap') = c.size + total ap' := by simp [total]
      omega
  have hant : an ≠ [] → 8 ≤ total an := by
    intro hne
    rcases an with _ | ⟨c, an'⟩
    · exact absurd rfl hne
    · have := (Laid_mem h4 (List.mem_cons_self c an')).2.2
      have e : total (c :: an') = c.size + total an' := by simp [total]
      omega
  refine ⟨?_, ?_, ?_, by omega, fun x hx => by have := hpre x hx; omega,
    fun y hy => by have := hpost y hy; omega, hapt, hant, hb2⟩
  · rw [Laid_append]
    refine ⟨e, ?_, h5⟩
    rw [Laid_append]
    refine ⟨s, h1, ?_, ?_, ?_, ?_, ?_⟩
    · show b.addr - total ap = s
      omega
    · show 8 ≤ total ap + b.size + total an
      omega
    · show (total ap + b.size + total an) % 8 = 0
      omega
    · show 0 ≤ 1
      omega
    · show s + (total ap + b.size + total an) = e
      omega
  · intro x hx y hy hxy
    simp only [List.mem_append, List.mem_singleton] at hx hy
    rcases hx with (hx | rfl) | hx <;> rcases hy with (hy | rfl) | hy
    · have := hpre x hx; have := hpre y hy
      rcases hn x (hin x (Or.inl hx)) y (hin y (Or.inl hy)) hxy with h9 | h9 | h9 | h9
      · exact Or.inl h9
      · exact Or.inr h9
      · subst h9; omega
      · subst h9; omega
    · dsimp only at hxy ⊢
      exact Or.inl (hbefore x hx (by omega))
    · have := hpre x hx; have := hpost y hy
      rcases hn x (hin x (Or.inl hx)) y (hin y (Or.inr (Or.inr (Or.inr (Or.inr hy))))) hxy
        with h9 | h9 | h9 | h9
      · exact Or.inl h9
      · exact Or.inr h9
      · subst h9; omega
      · subst h9; omega
    · have := hpre y hy
      dsimp only at hxy
      omega
    · dsimp only at hxy
      omega
    · dsimp only at hxy ⊢
      exact Or.inr (hafter y hy (by omega))
    · have := hpost x hx; have := hpre y hy
      omega
    · have := hpost x hx
      dsimp only at hxy
      omega
    · have := hpost x hx; have := hpost y hy
      rcases hn x (hin x (Or.inr (Or.inr (Or.inr (Or.inr hx)))))
        y (hin y (Or.inr (Or.inr (Or.inr (Or.inr hy))))) hxy with h9 | h9 | h9 | h9
      · exact Or.inl h9
      · exact Or.inr h9
      · subst h9; omega
      · subst h9; omega
  · intro c hc1
    simp only [List.mem_append, List.mem_singleton]
    constructor
    · rintro ((hx | rfl) | hx)
      · tauto
      · simp at hc1
      · tauto
    · rintro (((hx | hx) | rfl) | (hx | hx))
      · tauto
      · have := hap c hx; omega
      · omega
      · have := han c hx; omega
      · tauto

/-- No bucket beyond the bucket array has a node. -/
theorem Core.index_nil {h : Heap} {bs : List Blk} {FL : Nat → List Nat} (hc : Core h bs FL)
    (i : Nat) (hi : LISTSIZE ≤ i) : FL i = [] := by
  rcases List.eq_nil_or_concat (FL i) with e | ⟨l, x, e⟩
  · exact e
  · exfalso
    obtain ⟨c, -, -, -, hb⟩ := hc.node i x (by rw [e]; simp)
    have := bucket_lt c.size
    omega

/-- Function `coalesce` returns the block and the state unchanged when neither neighbour is
free. -/
theorem coalesce_unchanged {h : Heap} {pre post : List Blk} {b : Blk} {FL : Nat → List Nat}
    (hc : Core h (pre ++ [b] ++ post) FL) (hp : free_last pre = [])
    (hq : free_head post = []) : coalesce h b.addr = Except.ok (b.addr, h) := by
  obtain ⟨pv, pa, hpv, hpa, hprev⟩ := prev_info hc
  obtain ⟨na, hna, hnext⟩ := next_info hc
  have hI := hc.inHeap (b := b) (by simp)
  have hpa0 : pa ≠ 0 := by
    rcases hprev with ⟨h1, -⟩ | ⟨-, pre', c, e, hc0, -⟩
    · exact h1
    · exact absurd hc0 ((free_last_split pre).2.2 hp pre' c e)
  have hna0 : na ≠ 0 := by
    rcases hnext with ⟨h1, -⟩ | ⟨-, d, post', e, hd0, -⟩
    · exact h1
    · exact absurd hd0 ((free_head_split post).2.2 hq d post' e)
  unfold coalesce
  rw [hpv]
  simp only [ok_bind]
  rw [hpa]
  simp only [ok_bind]
  rw [hI.next_eq]
  simp only [ok_bind]
  rw [hna]
  simp only [ok_bind]
  rw [hI.get_size]
  simp only [ok_bind]
  rw [if_pos ⟨hpa0, hna0⟩]

/-- The steps of `mm_free` before its call of `coalesce` succeed on an allocated block of a
well-formed heap and leave consistent tags and index. -/
theorem mm_free_marks {h : Heap} {bs : List Blk} {FL : Nat → List Nat} (hg : Good h bs FL)
    {b : Blk} (hb : b ∈ bs) (hal : b.alloc = 1) :
    ∃ h3 bs3 FL3, (do
      let size ← GET_SIZE h (HDRP b.addr)
      let h1 ← PUT h (HDRP b.addr) (PACK size 0)
      let ft ← FTRP h1 b.addr
      let h2 ← PUT h1 ft (PACK size 0)
      insert_node h2 b.addr) = Except.ok h3 ∧ Core h3 bs3 FL3 := by
  have hW : WORD = 4294967296 := rfl
  obtain ⟨pre, post, rfl⟩ := List.append_of_mem hb
  have hc := hg.core
  rw [mid_eq] at hc hb
  have hI := hc.inHeap hb
  obtain ⟨hpre, hpost, hbefore, hafter⟩ := hc.around
  have hlo := hI.lo; have hhi := hI.hi; have hblt := hI.brk_lt; have ham := hI.addr_mod
  have hsg := hI.size_ge; have hsm := hI.size_mod; have hbm := hI.base_mod
  rw [hI.get_size]
  simp only [ok_bind]
  rw [hI.hdrp_eq, PACK_zero, PUT_ok _ _ _ hI.in_hdr (by omega)]
  simp only [ok_bind]
  have hH2 : HdrAt (setMem h (upd h.mem (b.addr - 4) b.size)) b.addr b.size 0 :=
    ⟨hI.in_hdr, by omega, by omega, hsm, by omega, by simp⟩
  rw [hH2.ftrp_at]
  simp only [ok_bind]
  rw [PUT_setMem _ _ _ _ hI.in_ftr (by omega)]
  simp only [ok_bind]
  have hc2 := hc.retile
    (setMem h (upd (upd h.mem (b.addr - 4) b.size) (b.addr + b.size - 8) b.size))
    [⟨b.addr, b.size, 0⟩] b.addr (b.addr + b.size) rfl rfl rfl rfl hpre hpost
    (by
      intro a ha
      simp only [setMem_mem]
      rw [upd_other _ _ _ _ (by omega), upd_other _ _ _ _ (by omega)])
    (by
      simp only [Tiled, setMem_mem]
      refine ⟨trivial, by omega, hsm, by omega, ?_, by simp, trivial⟩
      rw [upd_other _ _ _ _ (by omega), upd_same]; rfl)
    (by
      intro c hcm
      rw [List.mem_singleton] at hcm
      subst hcm
      exact hsg)
    (by
      intro i x hx c hcm e
      rw [List.mem_singleton] at hcm
      subst hcm
      have := (hc.node_blk hb (e ▸ hx)).1
      omega)
  have hnb : (⟨b.addr, b.size, 0⟩ : Blk) ∈ pre ++ [⟨b.addr, b.size, 0⟩] ++ post := by simp
  have hnot : ∀ i, (⟨b.addr, b.size, 0⟩ : Blk).addr ∉ FL i := by
    intro i hx
    have := (hc.node_blk hb hx).1
    omega
  obtain ⟨h3, FL3, hins, hc3, -⟩ := insert_node_mem hc2 hnb rfl hnot
  exact ⟨h3, _, FL3, hins, hc3⟩

set_option maxRecDepth 100000 in
theorem marked_heap_blocks : blocks marked_heap = Except.ok [⟨24, 16, 0⟩, ⟨40, 48, 0⟩] := by
  decide!

set_option maxRecDepth 100000 in
theorem marked_heap_index : ∀ i, i < LISTSIZE →
    bucket_nodes marked_heap i =
      Except.ok (if i = 4 then [24] else if i = 5 then [40] else []) := by decide!

set_option maxRecDepth 100000 in
theorem one_block_blocks : blocks one_block_heap = Except.ok [⟨24, 16, 1⟩, ⟨40, 48, 0⟩] := by
  decide!

/-- The state of `mm_free(24)` at its call of `coalesce`: free blocks of 16 bytes at 24 and of
48 bytes at 40, in buckets 4 and 5. -/
theorem core_marked : Core marked_heap ([] ++ [⟨24, 16, 0⟩] ++ [⟨40, 48, 0⟩])
    (fun i => if i = 4 then [24] else if i = 5 then [40] else []) := by
  obtain ⟨bs, FL, hg, -⟩ := reach_inv reach_one_block
  have e0 : bs = [⟨24, 16, 1⟩, ⟨40, 48, 0⟩] := by
    have := hg.core.blocks_eq
    rw [one_block_blocks] at this
    exact (Except.ok.inj this).symm
  subst e0
  obtain ⟨h3, bs3, FL3, hrun, hc3⟩ := mm_free_marks hg
    (by simp : (⟨24, 16, 1⟩ : Blk) ∈ [(⟨24, 16, 1⟩ : Blk), ⟨40, 48, 0⟩]) rfl
  have e : marked_heap = h3 := by
    unfold marked_heap
    rw [hrun]
    rfl
  rw [e]
  have e1 : bs3 = [⟨24, 16, 0⟩, ⟨40, 48, 0⟩] := by
    have := hc3.blocks_eq
    rw [← e, marked_heap_blocks] at this
    exact (Except.ok.inj this).symm
  have e2 : FL3 = fun i => if i = 4 then [24] else if i = 5 then [40] else [] :=
    hc3.index_eq _ (by rw [← e]; exact marked_heap_index) (fun i hi => by
      have hL : LISTSIZE = 16 := rfl
      rw [if_neg (by omega), if_neg (by omega)])
  subst e1 e2
  exact hc3

/-- Claim C21: in a heap with consistent tags where every free block is in the index and no two
free blocks touch unless one of them is the free block `b`, `coalesce(b)` succeeds and
returns the address of the block before `b` when that block is free and the address of `b`
otherwise; the block sequence is the old one with `b` and its free neighbours replaced by one
free block whose size is the sum of their sizes; header and footer of that block hold this
size with the flag clear; the block is in the bucket of its size; the address of `b` (when the
block before it was merged) and the address of the block after `b` (when that was merged) are
in no bucket; every bucket holds exactly the free blocks of its size class; no two free blocks
touch; and state and index are unchanged when neither neighbour is free. -/
theorem coalesce_merges (h : Heap) (pre post : List Blk) (b : Blk) (FL : Nat → List Nat)
    (hc : Core h (pre ++ [b] ++ post) FL)
    (hl : ∀ c ∈ pre ++ [b] ++ post, c.alloc = 0 → c.addr ∈ FL (bucket c.size))
    (hfree : b.alloc = 0)
    (hn : ∀ x ∈ pre ++ [b] ++ post, ∀ y ∈ pre ++ [b] ++ post, x.addr + x.size = y.addr →
      x.alloc ≠ 0 ∨ y.alloc ≠ 0 ∨ x = b ∨ y = b) :
    ∃ h' FL',
      coalesce h b.addr = Except.ok (b.addr - total (free_last pre), h') ∧
      (∀ c ∈ free_last pre, c.addr = b.addr - total (free_last pre)) ∧
      (free_last pre = [] → b.addr - total (free_last pre) = b.addr) ∧
      blocks h' = Except.ok (coalesced pre b post) ∧
      (∀ i, i < LISTSIZE → bucket_nodes h' i = Except.ok (FL' i)) ∧
      (∀ j y, y ∈ FL' j ↔
        ∃ c ∈ coalesced pre b post, c.addr = y ∧ c.alloc = 0 ∧ bucket c.size = j) ∧
      GET h' (HDRP (b.addr - total (free_last pre))) =
        Except.ok (PACK (total (free_last pre) + b.size + total (free_head post)) 0) ∧
      (∃ ft, FTRP h' (b.addr - total (free_last pre)) = Except.ok ft ∧
        GET h' ft =
          Except.ok (PACK (total (free_last pre) + b.size + total (free_head post)) 0)) ∧
      b.addr - total (free_last pre) ∈
        FL' (bucket (total (free_last pre) + b.size + total (free_head post))) ∧
      (∀ i, (free_last pre ≠ [] → b.addr ∉ FL' i) ∧
        (free_head post ≠ [] → b.addr + b.size ∉ FL' i)) ∧
      NoAdj (coalesced pre b post) ∧
      (free_last pre = [] → free_head post = [] → h' = h ∧ FL' = FL) := by
  obtain ⟨h', bs', FL', r, hrun, hg', hs, hk, -, hr, hr0, hra, hrb, hiff, -⟩ :=
    coalesce_spec hc hl (by simp) hfree hn
  obtain ⟨e1, hap, hapn⟩ := free_last_split pre
  obtain ⟨e2, han, hann⟩ := free_head_split post
  have hlaid : Laid (h.mem_start_brk + 16) (pre ++ [b] ++ post) h.mem_brk := hc.tiled_bs.laid
  obtain ⟨k1, k2, k3, k4, k5, k6, k7, k8, k9⟩ :=
    @merge_canon (pre.take (pre.length - (free_last pre).length)) (free_last pre)
      (free_head post) (post.drop (free_head post).length) b _ _
      (by rw [← e1, ← e2]; exact hlaid) hfree hap han
      (fun e l c hlc => hapn e l c (by rw [e1]; exact hlc))
      (fun e d l hdl => hann e d l (by rw [e2]; exact hdl))
      (by rw [← e1, ← e2]; exact hn)
  rw [← e1, ← e2] at k3
  have hbs : bs' = coalesced pre b post := by
    refine hg'.blocks_unique _ (by rw [hs, hk]; exact k1) k2 ?_ ?_
    · intro c hcm hc1
      exact (k3 c hc1).2 ((hiff c hc1).1 hcm)
    · intro c hcm hc1
      exact (hiff c hc1).2 ((k3 c hc1).1 hcm)
  subst hbs
  have hrm : r = ⟨b.addr - total (free_last pre),
      total (free_last pre) + b.size + total (free_head post), 0⟩ := by
    unfold coalesced at hr
    simp only [List.mem_append, List.mem_singleton] at hr
    rcases hr with (hr | hr) | hr
    · have := k5 r hr
      omega
    · exact hr
    · have := k6 r hr
      omega
  subst hrm
  have hI := hg'.core.inHeap hr
  obtain ⟨t1, t2, t3⟩ := hI.tags
  have hpos : ∀ c ∈ coalesced pre b post, ∀ y, c.addr = y →
      ¬ (b.addr - total (free_last pre) < y ∧
        y < b.addr + b.size + total (free_head post)) := by
    intro c hcm y hy
    have h16 := hg'.core.size_ge c hcm
    unfold coalesced at hcm
    simp only [List.mem_append, List.mem_singleton] at hcm
    rcases hcm with (hcm | hcm) | hcm
    · have := k5 c hcm
      omega
    · subst hcm
      dsimp only at hy
      omega
    · have := k6 c hcm
      omega
  refine ⟨h', FL', hrun, ?_, ?_, hg'.core.blocks_eq, fun i hi => hg'.core.bucket_nodes_eq i hi,
    hg'.mem_index, t1, ⟨_, t2, t3⟩, hg'.listed _ hr rfl, ?_, hg'.noadj, ?_⟩
  · intro c hcm
    rcases nil_or_snoc_blk pre with e | ⟨l, w, e⟩
    · subst e
      simp [free_last] at hcm
    · subst e
      rw [free_last_snoc] at hcm ⊢
      by_cases hw : w.alloc = 0
      · rw [if_pos hw] at hcm ⊢
        simp only [List.mem_singleton] at hcm
        subst hcm
        have hend : c.addr + c.size = b.addr := by
          have := hc.around.1
          exact (@Tiled_last _ (pro h.mem_start_brk :: l) c _ _ this).1
        simp [total]
        omega
      · rw [if_neg hw] at hcm
        simp at hcm
  · intro e
    rw [e]
    simp [total]
  · intro i
    constructor
    · intro hne hmem
      obtain ⟨c, hcm, hca, -, -⟩ := hg'.core.node i _ hmem
      have := k7 hne
      exact hpos c hcm _ hca ⟨by omega, by omega⟩
    · intro hne hmem
      obtain ⟨c, hcm, hca, -, -⟩ := hg'.core.node i _ hmem
      have := k8 hne
      exact hpos c hcm _ hca ⟨by omega, by omega⟩
  · intro hp hq
    have := coalesce_unchanged hc hp hq
    rw [hrun] at this
    have e : h' = h := (Prod.mk.inj (Except.ok.inj this)).2
    subst e
    exact ⟨rfl, hg'.core.index_eq FL (fun i hi => hc.bucket_nodes_eq i hi)
      (fun i hi => hc.index_nil i hi)⟩

/-- Claim C21 at the call of `coalesce` in `mm_free(24)` after `mm_init` and `mm_malloc(8)`: the
freed block of 16 bytes at 24 takes up the free block of 48 bytes after it. -/
theorem coalesce_merges_witness :
    Core marked_heap ([] ++ [⟨24, 16, 0⟩] ++ [⟨40, 48, 0⟩])
      (fun i => if i = 4 then [24] else if i = 5 then [40] else []) ∧
    ∃ (h' : Heap) (FL' : Nat → List Nat),
      coalesce marked_heap 24 = Except.ok (24, h') ∧
      blocks h' = Except.ok [⟨24, 64, 0⟩] ∧
      (∀ i, i < LISTSIZE → bucket_nodes h' i = Except.ok (FL' i)) ∧
      GET h' (HDRP 24) = Except.ok (PACK 64 0) ∧
      24 ∈ FL' (bucket 64) ∧
      (∀ i, 40 ∉ FL' i) := by
  have hc := core_marked
  obtain ⟨h', FL', k1, -, -, k4, k5, -, k7, -, k9, k10, -, -⟩ :=
    coalesce_merges marked_heap [] [⟨40, 48, 0⟩] ⟨24, 16, 0⟩
      (fun i => if i = 4 then [24] else if i = 5 then [40] else []) hc
      (by
        intro c hcm _
        simp only [List.nil_append, List.singleton_append, List.mem_cons,
          List.mem_singleton, List.not_mem_nil, or_false] at hcm
        rcases hcm with rfl | rfl <;> decide)
      rfl
      (by
        intro x hx y hy e
        simp only [List.nil_append, List.singleton_append, List.mem_cons,
          List.mem_singleton, List.not_mem_nil, or_false] at hx hy
        rcases hx with rfl | rfl
        · exact Or.inr (Or.inr (Or.inl rfl))
        · rcases hy with rfl | rfl
          · exact Or.inr (Or.inr (Or.inr rfl))
          · simp at e)
  exact ⟨hc, h', FL', k1, k4, k5, k7, k9, fun i => (k10 i).2 (by decide)⟩

/-! ## The bucket search of `mm_malloc` -/

set_option maxRecDepth 100000 in
theorem run_skipped_bucket_eq :
    run_skipped_bucket =
      Except.ok ((24, 24), ([⟨24, 70072, 0⟩], [24]), 15, 70096, 140104) := by decide!

set_option maxRecDepth 100000 in
theorem run_first_fit_eq :
    run_first_fit = Except.ok ((24, 112, 112), ([112, 24], [112, 72]), 72, 112) := by decide!

/-- The bucket search looks into the bucket of every free block that is large enough for an
adjusted size below 65536. -/
theorem search_reaches {s z : Nat} (hs : 1 ≤ s) (hlt : s < 65536) (hle : s ≤ z) :
    s >>> bucket z ≤ 1 := by
  rw [Nat.shiftRight_eq_div_pow, bucket_eq_log z (by omega)]
  have h1 : s < 2 ^ (Nat.log 2 s + 1) := Nat.lt_pow_succ_log_self (by omega) s
  have h2 : Nat.log 2 s ≤ Nat.log 2 z := Nat.log_mono_right hle
  have key : s < 2 * 2 ^ min 15 (Nat.log 2 z) := by
    by_cases h15 : 15 ≤ Nat.log 2 z
    · rw [Nat.min_eq_left h15]
      norm_num
      omega
    · rw [Nat.min_eq_right (by omega)]
      have : 2 ^ (Nat.log 2 s + 1) ≤ 2 ^ (Nat.log 2 z + 1) :=
        Nat.pow_le_pow_right (by omega) (by omega)
      rw [pow_succ] at this
      omega
  have := (Nat.div_lt_iff_lt_mul (Nat.pos_pow_of_pos _ (by omega))).2 key
  omega

/-- A request with adjusted size below 65536 does not grow the arena of a well-formed heap
that has a free block large enough. -/
theorem mm_malloc_reuses {h : Heap} {bs : List Blk} {FL : Nat → List Nat} (hg : Good h bs FL)
    (n : Nat) (h0 : 0 < n) (hn : n + 15 < WORD) (hs : adjust n < 65536) {d : Blk}
    (hd : d ∈ bs) (hd0 : d.alloc = 0) (hfit : adjust n ≤ d.size) :
    ∃ p h', mm_malloc h n = Except.ok (p, h') ∧ h'.mem_brk = h.mem_brk := by
  have := (adjust_spec n h0 hn).2.1
  obtain ⟨c, h', bs', FL', -, -, -, -, hrun, -, -, hk, -⟩ :=
    mm_malloc_found hg n h0 hn hd hd0 hfit (search_reaches (by omega) hs hfit)
  exact ⟨c.addr, h', hrun, hk⟩

/-- Claim C22, failing run: after `p = mm_malloc(70000)` and `mm_free(p)` on a fresh arena
the one block of the arena is a free block of 70072 bytes at 24, it is the node of bucket 15,
which is the bucket `insert_node` computes for the adjusted size 70008 of the request, and
`mm_malloc(70000)` still moves the arena end from 70096 to 140104. -/
theorem malloc_skips_bucket :
    run_skipped_bucket =
      Except.ok ((24, 24), ([⟨24, 70072, 0⟩], [24]), 15, 70096, 140104) ∧
      adjust 70000 = 70008 ∧ 70008 ≤ 70072 ∧ (70096 : Nat) < 140104 :=
  ⟨run_skipped_bucket_eq, by decide, by decide, by decide⟩

/-- Claim C28, failing run: after `a = mm_malloc(64)`, `mm_malloc(8)`, `c = mm_malloc(104)`,
`mm_malloc(8)`, `mm_free(a)`, `mm_free(c)` on a fresh arena, bucket 6 holds the block at
`c = 112` of size 112 followed by the block at `a = 24` of size 72; `mm_malloc(64)`, whose
adjusted size is 72, takes the block at 112 of size 112 although the block of size 72 in the
same bucket is large enough. -/
theorem first_fit_not_smallest :
    run_first_fit = Except.ok ((24, 112, 112), ([112, 24], [112, 72]), 72, 112) ∧
      (72 : Nat) ≤ 72 ∧ (72 : Nat) < 112 :=
  ⟨run_first_fit_eq, by decide, by decide⟩

/-! ## Reallocation keeps the heap well formed -/

set_option maxRecDepth 100000 in
theorem run_realloc_wrap_eq :
    run_realloc_wrap =
      Except.ok ((24, 40, 56, 40), [⟨24, 32, 0⟩, ⟨56, 16, 0⟩, ⟨72, 16, 0⟩], [], [24]) := by
  decide!

set_option maxRecDepth 100000 in
theorem grown_heap_fst : (mm_realloc one_block_heap 24 20).map Prod.fst = Except.ok 24 := by
  decide!

theorem grown_heap_eq : mm_realloc one_block_heap 24 20 = Except.ok (24, grown_heap) :=
  ok_of_fst grown_heap_fst

theorem reachR_one_block : ReachR one_block_heap [24] :=
  ReachR.malloc fresh_heap one_block_heap [] 8 24
    (ReachR.init 8 1048576 _ _ fresh_heap (by decide) (by decide) (by decide) fresh_heap_eq)
    (by decide) one_block_eq

/-- A block with the allocated flag set is given by its address and size. -/
theorem Blk.eta_alloc {b : Blk} (hba : b.alloc = 1) : b = ⟨b.addr, b.size, 1⟩ := by
  cases b
  simp only at hba
  subst hba
  rfl

/-- Case 2.1 of `mm_realloc` when the arena cannot grow: `NULL`, nothing changes. -/
theorem realloc_extend_null (h : Heap) (p n c nx : Nat) (h0 : 0 < n)
    (hc : GET_SIZE h (HDRP p) = Except.ok c) (hgt : c < adjust n)
    (hnx : NEXT_BLK_PTR h p = Except.ok nx) (hepi : GET_SIZE h (HDRP nx) = Except.ok 0)
    (hfail : mem_sbrk h (ALIGN (MAX (psub (adjust n) c) CHUNKSIZE)) = none) :
    mm_realloc h p n = Except.ok (0, h) := by
  unfold mm_realloc
  rw [if_neg (by omega)]
  simp only []
  rw [hc]
  simp only [ok_bind]
  rw [if_neg (by omega), hnx]
  simp only [ok_bind]
  rw [hepi]
  simp only [ok_bind, if_true]
  unfold realloc_extend
  rw [hc]
  simp only [ok_bind]
  unfold extend_heap
  simp only []
  rw [hfail]
  rfl

/-- Function `mm_realloc` on an allocated block of a well-formed heap, for a request that does
not wrap around: when it returns, it has returned `NULL` and changed nothing, or the heap is
well formed again and its allocated blocks are the old ones without `b`, and the block at the
returned pointer. -/
theorem mm_realloc_spec {h : Heap} {bs : List Blk} {FL : Nat → List Nat} (hg : Good h bs FL)
    {b : Blk} (hb : b ∈ bs) (hba : b.alloc = 1) (n : Nat) (h0 : 0 < n) (hn : n + 23 < WORD)
    {r : Nat} {h' : Heap} (hrun : mm_realloc h b.addr n = Except.ok (r, h')) :
    (r = 0 ∧ h' = h) ∨
    (r ≠ 0 ∧ ∃ bs' FL' sz, Good h' bs' FL' ∧
      ∀ c : Blk, c.alloc = 1 → (c ∈ bs' ↔ (c ∈ bs ∧ c ≠ b) ∨ c = ⟨r, sz, 1⟩)) := by
  have hW : WORD = 4294967296 := rfl
  have hCH : CHUNKSIZE = 4096 := rfl
  obtain ⟨ha8, ha16, han, hau⟩ := adjust_spec n h0 (by omega)
  obtain ⟨pre, post, rfl⟩ := List.append_of_mem hb
  rw [mid_eq] at hg hb ⊢
  have hc := hg.core
  have hI := hc.inHeap hb
  have hlo := hI.lo; have hhi := hI.hi; have hblt := hI.brk_lt; have hsg := hI.size_ge
  have hsm := hI.size_mod
  obtain ⟨-, -, hbefore, hafter⟩ := hc.around
  have hne : ∀ c, c ∈ pre ∨ c ∈ post → c ≠ b := by
    intro c hcm e
    subst e
    rcases hcm with hcm | hcm
    · have := hbefore c hcm; omega
    · have := hafter c hcm; omega
  by_cases hle : adjust n ≤ b.size
  · have hrun' : mm_realloc h b.addr n = Except.ok (b.addr, h) := by
      unfold mm_realloc
      rw [if_neg (by omega)]
      simp only []
      rw [hI.get_size]
      simp only [ok_bind]
      rw [if_pos hle]
    rw [hrun'] at hrun
    obtain ⟨e1, e2⟩ := Prod.mk.inj (Except.ok.inj hrun)
    subst e1 e2
    refine Or.inr ⟨by omega, _, FL, b.size, hg, ?_⟩
    intro c _
    rw [← Blk.eta_alloc hba]
    constructor
    · intro hcm
      by_cases e : c = b
      · exact Or.inr e
      · exact Or.inl ⟨hcm, e⟩
    · rintro (⟨hcm, -⟩ | e)
      · exact hcm
      · rw [e]; exact hb
  · rcases after_block hc with ⟨hpost, hepi⟩ | ⟨d, post', hpost, hda, hds, hdal, hd16⟩
    · subst hpost
      rw [List.append_nil] at hg hb hc ⊢
      by_cases hfit : h.mem_brk + MAX (adjust n - b.size) CHUNKSIZE ≤ h.mem_max_addr
      · obtain ⟨h2, FL2, hrun2, hg2, -⟩ := realloc_extend_spec hg hba n h0 (by omega) hfit
        rw [hrun2] at hrun
        obtain ⟨e1, e2⟩ := Prod.mk.inj (Except.ok.inj hrun)
        subst e1 e2
        refine Or.inr ⟨by omega, _, FL2, b.size + MAX (adjust n - b.size) CHUNKSIZE, hg2, ?_⟩
        intro c hc1
        simp only [List.mem_append, List.mem_singleton]
        constructor
        · rintro (hcm | e)
          · exact Or.inl ⟨Or.inl hcm, hne c (Or.inl hcm)⟩
          · exact Or.inr e
        · rintro (⟨hcm | e, hcb⟩ | e)
          · exact Or.inl hcm
          · exact absurd e hcb
          · exact Or.inr e
      · have hmax := MAX_spec (adjust n - b.size) CHUNKSIZE
        have hmx := hc.max_lt
        have hble := hc.brk_le
        have hrun' : mm_realloc h b.addr n = Except.ok (0, h) := by
          refine realloc_extend_null h b.addr n b.size _ h0 hI.get_size (by omega) hI.next_eq
            hepi ?_
          rw [psub_eq _ _ (by omega) (by omega)]
          by_cases hbig : MAX (adjust n - b.size) CHUNKSIZE + 7 < WORD
          · rw [ALIGN_of_mod _ (by omega) hbig]
            exact mem_sbrk_fail h _ hfit
          · omega
        rw [hrun'] at hrun
        obtain ⟨e1, e2⟩ := Prod.mk.inj (Except.ok.inj hrun)
        subst e1 e2
        exact Or.inl ⟨rfl, rfl⟩
    · subst hpost
      have hdm : d ∈ pre ++ [b] ++ d :: post' := by simp
      have hdI := hc.inHeap hdm
      have hdhi := hdI.hi; have hdal1 := hdI.alloc_le
      by_cases hm : d.alloc = 0 ∧ adjust n ≤ b.size + d.size
      · have hshape : pre ++ [b] ++ d :: post' = pre ++ [b, d] ++ post' := by simp
        rw [hshape] at hg
        obtain ⟨h2, FL2, hrun2, hg2, -⟩ :=
          realloc_merge_spec hg hba hm.1 n h0 (by omega) hm.2
        rw [hrun2] at hrun
        obtain ⟨e1, e2⟩ := Prod.mk.inj (Except.ok.inj hrun)
        subst e1 e2
        refine Or.inr ⟨by omega, _, FL2, b.size + d.size, hg2, ?_⟩
        intro c hc1
        simp only [List.mem_append, List.mem_singleton]
        simp only [List.mem_cons]
        constructor
        · rintro ((hcm | e) | hcm)
          · exact Or.inl ⟨Or.inl (Or.inl hcm), hne c (Or.inl hcm)⟩
          · exact Or.inr e
          · exact Or.inl ⟨Or.inr (Or.inr hcm), hne c (Or.inr (List.mem_cons_of_mem _ hcm))⟩
        · rintro (⟨(hcm | e) | (e | hcm), hcb⟩ | e)
          · exact Or.inl (Or.inl hcm)
          · exact absurd e hcb
          · rw [e] at hc1; have := hm.1; omega
          · exact Or.inr hcm
          · exact Or.inl (Or.inr e)
      · have hpath := realloc_path_copy h b.addr n b.size d.size d.alloc h0 hI.get_size
          (by omega) hI.next_eq hds (by omega) hdal
          (by
            by_cases hd0 : d.alloc = 0
            · right
              rw [padd_eq _ _ (by omega)]
              have : ¬ adjust n ≤ b.size + d.size := fun hh => hm ⟨hd0, hh⟩
              omega
            · exact Or.inl hd0)
        rw [hpath] at hrun
        obtain ⟨q, h1, -, -, hres⟩ :=
          realloc_copy_live hg hb hba (adjust n) ha8 (by omega) (by omega)
        rcases hres with ⟨-, -, f, hf⟩ | ⟨hq0, h2, h3, bs3, FL3, -, -, hrun3, hg3, -, sz, hiff⟩
        · rw [hf] at hrun
          cases hrun
        · rw [hrun3] at hrun
          obtain ⟨e1, e2⟩ := Prod.mk.inj (Except.ok.inj hrun)
          subst e1 e2
          exact Or.inr ⟨hq0, bs3, FL3, sz, hg3, hiff⟩

/-- Reachable states, calls of `mm_realloc` included, are well formed. -/
theorem reachR_inv {h : Heap} {live : List Nat} (hr : ReachR h live) : Inv h live := by
  induction hr with
  | init base cap m0 l0 h hb8 hb0 hcap hinit =>
    exact reach_inv (Reach.init base cap m0 l0 h hb8 hb0 hcap hinit)
  | malloc h h' live n p _ hn hrun ih =>
    obtain ⟨bs, FL, hg, hlive⟩ := ih
    by_cases h0 : n = 0
    · subst h0
      rw [mm_malloc_zero] at hrun
      obtain ⟨e1, e2⟩ := Prod.mk.inj (Except.ok.inj hrun)
      subst e1 e2
      simp only [if_true]
      exact ⟨bs, FL, hg, hlive⟩
    · obtain ⟨p', h'', hrun', hres⟩ := mm_malloc_spec hg n (by omega) hn
      rw [hrun] at hrun'
      obtain ⟨e1, e2⟩ := Prod.mk.inj (Except.ok.inj hrun')
      subst e1 e2
      rcases hres with ⟨hp0, hh⟩ | ⟨hp0, bs', FL', sz, hg', _, _, _, _, hmem, hiff, -⟩
      · subst hh
        simp only [hp0, if_true]
        exact ⟨bs, FL, hg, hlive⟩
      · simp only [if_neg hp0]
        refine ⟨bs', FL', hg', ?_⟩
        intro q
        simp only [List.mem_cons]
        constructor
        · rintro (rfl | hq)
          · exact ⟨_, hmem, rfl, rfl⟩
          · obtain ⟨c, hc1, hc2, hc3⟩ := (hlive q).1 hq
            exact ⟨c, (hiff c hc3).2 (Or.inl hc1), hc2, hc3⟩
        · rintro ⟨c, hc1, hc2, hc3⟩
          rcases (hiff c hc3).1 hc1 with hc4 | hc4
          · exact Or.inr ((hlive q).2 ⟨c, hc4, hc2, hc3⟩)
          · subst hc4
            exact Or.inl hc2.symm
  | free h h' live p _ hp hrun ih =>
    obtain ⟨bs, FL, hg, hlive⟩ := ih
    obtain ⟨b, hb1, hb2, hb3⟩ := (hlive p).1 hp
    subst hb2
    obtain ⟨h'', bs', FL', hrun', hg', _, _, _, hiff, -⟩ := mm_free_spec hg hb1 hb3
    rw [hrun] at hrun'
    have e1 := Except.ok.inj hrun'
    subst e1
    refine ⟨bs', FL', hg', ?_⟩
    intro q
    simp only [List.mem_filter, decide_eq_true_eq]
    constructor
    · rintro ⟨hq, hqb⟩
      obtain ⟨c, hc1, hc2, hc3⟩ := (hlive q).1 hq
      exact ⟨c, (hiff c hc3).2 ⟨hc1, fun e => hqb (by rw [← hc2, e])⟩, hc2, hc3⟩
    · rintro ⟨c, hc1, hc2, hc3⟩
      obtain ⟨hc4, hc5⟩ := (hiff c hc3).1 hc1
      refine ⟨(hlive q).2 ⟨c, hc4, hc2, hc3⟩, ?_⟩
      intro e
      exact hc5 (hg.core.unique hc4 hb1 (by rw [hc2, e]))
  | realloc h h' live p n q _ hp hn hrun ih =>
    obtain ⟨bs, FL, hg, hlive⟩ := ih
    by_cases h0 : n = 0
    · subst h0
      have : mm_realloc h p 0 = Except.ok (0, h) := rfl
      rw [this] at hrun
      obtain ⟨e1, e2⟩ := Prod.mk.inj (Except.ok.inj hrun)
      subst e1 e2
      simp only [if_true]
      exact ⟨bs, FL, hg, hlive⟩
    · obtain ⟨b, hb1, hb2, hb3⟩ := (hlive p).1 hp
      subst hb2
      rcases mm_realloc_spec hg hb1 hb3 n (by omega) hn hrun with
        ⟨hq0, hh⟩ | ⟨hq0, bs', FL', sz, hg', hiff⟩
      · subst hh
        simp only [hq0, if_true]
        exact ⟨bs, FL, hg, hlive⟩
      · simp only [if_neg hq0]
        refine ⟨bs', FL', hg', ?_⟩
        intro x
        simp only [List.mem_cons, List.mem_filter, decide_eq_true_eq]
        constructor
        · rintro (rfl | ⟨hx, hxb⟩)
          · exact ⟨⟨x, sz, 1⟩, (hiff _ rfl).2 (Or.inr rfl), rfl, rfl⟩
          · obtain ⟨c, hc1, hc2, hc3⟩ := (hlive x).1 hx
            exact ⟨c, (hiff c hc3).2 (Or.inl ⟨hc1, fun e => hxb (by rw [← hc2, e])⟩), hc2, hc3⟩
        · rintro ⟨c, hc1, hc2, hc3⟩
          rcases (hiff c hc3).1 hc1 with ⟨hc4, hc5⟩ | hc4
          · right
            refine ⟨(hlive x).2 ⟨c, hc4, hc2, hc3⟩, ?_⟩
            intro e
            exact hc5 (hg.core.unique hc4 hb1 (by rw [hc2, e]))
          · subst hc4
            exact Or.inl hc2.symm

/-- What the observers show of a well-formed heap: the walk from the prologue block reaches
the epilogue, header and footer of every block hold its packed size and flag, every block
between prologue and epilogue has a size that is a multiple of 8 and at least 16, no two
consecutive blocks are both free, and the nodes of the buckets are exactly the free blocks. -/
theorem Good.observed {h : Heap} {bs : List Blk} {FL : Nat → List Nat} (hg : Good h bs FL) :
    blocks h = Except.ok bs ∧
    walk h (fuel h + 1) (prologue h) = Except.ok (⟨prologue h, DSIZE, 1⟩ :: bs) ∧
    (∀ b ∈ (⟨prologue h, DSIZE, 1⟩ : Blk) :: bs, ∃ ft, FTRP h b.addr = Except.ok ft ∧
      GET h (HDRP b.addr) = Except.ok (PACK b.size b.alloc) ∧
      GET h ft = Except.ok (PACK b.size b.alloc)) ∧
    (∀ b ∈ bs, b.size % 8 = 0 ∧ 2 * DSIZE ≤ b.size) ∧
    bs.Chain' (fun x y => ¬ (x.alloc = 0 ∧ y.alloc = 0)) ∧
    (∀ i, i < LISTSIZE → bucket_nodes h i = Except.ok (FL i)) ∧
    (∀ i, i < LISTSIZE → (FL i).Nodup) ∧
    (∀ i j x, i < LISTSIZE → j < LISTSIZE → x ∈ FL i → x ∈ FL j → i = j) ∧
    (∀ i x, i < LISTSIZE → x ∈ FL i → ∃ b ∈ bs, b.addr = x ∧ b.alloc = 0) ∧
    (∀ b ∈ bs, b.alloc = 0 → ∃ i, i < LISTSIZE ∧ b.addr ∈ FL i) ∧
    (∀ b ∈ bs, b.alloc = 1 → ∀ i, i < LISTSIZE → b.addr ∉ FL i) := by
  have hW : WORD = 4294967296 := rfl
  have hc := hg.core
  refine ⟨hc.blocks_eq, hc.walk_prologue, ?_, ?_, ?_, fun i hi => hc.bucket_nodes_eq i hi,
    fun i _ => hc.nodup i, ?_, ?_, ?_, ?_⟩
  · intro b hb
    have hb' : b ∈ pro h.mem_start_brk :: bs := hb
    have hk := Tiled_mem hc.tiled hb'
    have hmod := (Tiled_addr_mod hc.tiled (by have := hc.base_mod; omega)).2 b hb'
    have hlo := hk.lo; have hhi := hk.hi; have hge := hk.size_ge; have hsm := hk.size_mod
    have hle := hc.brk_le; have hmx := hc.max_lt; have hbm := hc.base_mod
    have hin1 : inArena h (b.addr - 4) := by unfold inArena WSIZE; omega
    have hin2 : inArena h (b.addr + b.size - 8) := by unfold inArena WSIZE; omega
    have hh : HdrAt h b.addr b.size b.alloc :=
      ⟨hin1, by omega, by omega, hsm, hk.alloc_le, hk.hdr⟩
    refine ⟨b.addr + b.size - 8, hh.ftrp_at, ?_, ?_⟩
    · rw [hh.hdrp_at, GET_ok _ _ hin1, hk.hdr, PACK_eq _ _ hsm hk.alloc_le]
    · rw [GET_ok _ _ hin2, hk.ftr, PACK_eq _ _ hsm hk.alloc_le]
  · intro b hb
    have hI := hc.inHeap hb
    exact ⟨hI.size_mod, hI.size_ge⟩
  · refine List.Chain'.imp ?_ (NoAdj.chain bs _ _ hc.tiled_bs hg.noadj)
    intro x y hxy hboth
    rcases hxy with hx | hy
    · exact hx hboth.1
    · exact hy hboth.2
  · intro i j x _ _ hxi hxj
    obtain ⟨b, hb, hbx, -, hbi⟩ := hc.node i x hxi
    subst hbx
    rw [← hbi, (hc.node_blk hb hxj).2]
  · intro i x _ hxi
    obtain ⟨b, hb, hbx, hfree, -⟩ := hc.node i x hxi
    exact ⟨b, hb, hbx, hfree⟩
  · intro b hb hfree
    exact ⟨bucket b.size, bucket_lt _, hg.listed b hb hfree⟩
  · intro b hb hal i _ hxi
    have := (hc.node_blk hb hxi).1
    omega

/-- Claim C23, counterexample: after `a = mm_malloc(8)`, `b = mm_malloc(8)`,
`c = mm_malloc(8)`, `mm_free(b)` on a fresh arena, the call `mm_realloc(a, 4294967280)` on
the live pointer `a = 24` returns the pointer 40, which is not `NULL`; afterwards the walk
from the first block meets the free blocks at 24, 56 and 72 one after the other, and the free
blocks at 56 and 72 are in no bucket of their size class (sizes 16 to 31 are bucket 4). -/
theorem realloc_invariants_counterexample :
    run_realloc_wrap =
      Except.ok ((24, 40, 56, 40), [⟨24, 32, 0⟩, ⟨56, 16, 0⟩, ⟨72, 16, 0⟩], [], [24]) ∧
      (40 : Nat) ≠ 0 ∧ bucket 16 = 4 ∧ 56 ∉ ([] : List Nat) ∧
      ¬ [(⟨24, 32, 0⟩ : Blk), ⟨56, 16, 0⟩, ⟨72, 16, 0⟩].Chain'
        (fun x y => ¬ (x.alloc = 0 ∧ y.alloc = 0)) :=
  ⟨run_realloc_wrap_eq, by decide, by decide, by decide,
    fun hc => (List.chain'_cons.1 hc).1 ⟨rfl, rfl⟩⟩

/-- Claim C23, amended: in a state reached from a successful `mm_init` by calls of
`mm_malloc` with `n + 15 < 2 ^ 32`, of `mm_free` on live pointers and of `mm_realloc` on live
pointers with `n + 23 < 2 ^ 32`, after a call `mm_realloc(p, n)` on a live pointer with
`0 < n` and `n + 23 < 2 ^ 32` that returns: the walk from the prologue block by header sizes
reaches the epilogue, header and footer of every block hold the same packed size and flag,
every block between prologue and epilogue has a size that is a multiple of 8 and at least 16,
no two consecutive blocks are both free, and the nodes found from the 16 bucket heads are
exactly the blocks whose header says free, each met once. -/
theorem realloc_keeps_invariants (h h' : Heap) (live : List Nat) (p n q : Nat)
    (hr : ReachR h live) (hp : p ∈ live) (h0 : 0 < n) (hn : n + 23 < WORD)
    (hrun : mm_realloc h p n = Except.ok (q, h')) :
    ∃ (bs : List Blk) (FL : Nat → List Nat),
      blocks h' = Except.ok bs ∧
      walk h' (fuel h' + 1) (prologue h') = Except.ok (⟨prologue h', DSIZE, 1⟩ :: bs) ∧
      (∀ b ∈ (⟨prologue h', DSIZE, 1⟩ : Blk) :: bs, ∃ ft, FTRP h' b.addr = Except.ok ft ∧
        GET h' (HDRP b.addr) = Except.ok (PACK b.size b.alloc) ∧
        GET h' ft = Except.ok (PACK b.size b.alloc)) ∧
      (∀ b ∈ bs, b.size % 8 = 0 ∧ 2 * DSIZE ≤ b.size) ∧
      bs.Chain' (fun x y => ¬ (x.alloc = 0 ∧ y.alloc = 0)) ∧
      (∀ i, i < LISTSIZE → bucket_nodes h' i = Except.ok (FL i)) ∧
      (∀ i, i < LISTSIZE → (FL i).Nodup) ∧
      (∀ i j x, i < LISTSIZE → j < LISTSIZE → x ∈ FL i → x ∈ FL j → i = j) ∧
      (∀ i x, i < LISTSIZE → x ∈ FL i → ∃ b ∈ bs, b.addr = x ∧ b.alloc = 0) ∧
      (∀ b ∈ bs, b.alloc = 0 → ∃ i, i < LISTSIZE ∧ b.addr ∈ FL i) ∧
      (∀ b ∈ bs, b.alloc = 1 → ∀ i, i < LISTSIZE → b.addr ∉ FL i) := by
  have _ := h0
  obtain ⟨bs, FL, hg, -⟩ := reachR_inv (ReachR.realloc h h' live p n q hr hp hn hrun)
  exact ⟨bs, FL, hg.observed⟩

/-- Claim C23, amended, at the state after `mm_init` and `mm_malloc(8)` on the fresh arena,
for `mm_realloc(24, 20)`, which returns 24. -/
theorem realloc_keeps_invariants_witness :
    ReachR one_block_heap [24] ∧ 24 ∈ [24] ∧ 0 < 20 ∧ 20 + 23 < WORD ∧
    mm_realloc one_block_heap 24 20 = Except.ok (24, grown_heap) ∧
    ∃ (bs : List Blk) (FL : Nat → List Nat),
      blocks grown_heap = Except.ok bs ∧
      walk grown_heap (fuel grown_heap + 1) (prologue grown_heap) =
        Except.ok (⟨prologue grown_heap, DSIZE, 1⟩ :: bs) ∧
      (∀ b ∈ (⟨prologue grown_heap, DSIZE, 1⟩ : Blk) :: bs,
        ∃ ft, FTRP grown_heap b.addr = Except.ok ft ∧
          GET grown_heap (HDRP b.addr) = Except.ok (PACK b.size b.alloc) ∧
          GET grown_heap ft = Except.ok (PACK b.size b.alloc)) ∧
      (∀ b ∈ bs, b.size % 8 = 0 ∧ 2 * DSIZE ≤ b.size) ∧
      bs.Chain' (fun x y => ¬ (x.alloc = 0 ∧ y.alloc = 0)) ∧
      (∀ i, i < LISTSIZE → bucket_nodes grown_heap i = Except.ok (FL i)) ∧
      (∀ i, i < LISTSIZE → (FL i).Nodup) ∧
      (∀ i j x, i < LISTSIZE → j < LISTSIZE → x ∈ FL i → x ∈ FL j → i = j) ∧
      (∀ i x, i < LISTSIZE → x ∈ FL i → ∃ b ∈ bs, b.addr = x ∧ b.alloc = 0) ∧
      (∀ b ∈ bs, b.alloc = 0 → ∃ i, i < LISTSIZE ∧ b.addr ∈ FL i) ∧
      (∀ b ∈ bs, b.alloc = 1 → ∀ i, i < LISTSIZE → b.addr ∉ FL i) :=
  ⟨reachR_one_block, by decide, by decide, by decide, grown_heap_eq,
    realloc_keeps_invariants one_block_heap grown_heap [24] 24 20 24 reachR_one_block
      (by decide) (by decide) (by decide) grown_heap_eq⟩

/-! ## Allocations do not overlap -/

/-- Function `mm_malloc` on a well-formed heap, for a request that does not wrap around: it
returns `NULL` and changes nothing, or it returns the address of a block it has just
allocated, which was not the address of an allocated block before. -/
theorem mm_malloc_new {h : Heap} {bs : List Blk} {FL : Nat → List Nat} (hg : Good h bs FL)
    (n : Nat) (h0 : 0 < n) (hn : n + 15 < WORD) :
    ∃ p h', mm_malloc h n = Except.ok (p, h') ∧
      ((p = 0 ∧ h' = h) ∨
       (p ≠ 0 ∧ ∃ bs' FL' sz, Good h' bs' FL' ∧ h'.mem_start_brk = h.mem_start_brk ∧
          h'.mem_max_addr = h.mem_max_addr ∧ h.mem_brk ≤ h'.mem_brk ∧ adjust n ≤ sz ∧
          (⟨p, sz, 1⟩ : Blk) ∈ bs' ∧
          (∀ c : Blk, c.alloc = 1 → (c ∈ bs' ↔ c ∈ bs ∨ c = ⟨p, sz, 1⟩)) ∧
          (∀ a, Payload bs a → h'.mem a = h.mem a) ∧
          (∀ c ∈ bs, c.alloc = 1 → c.addr ≠ p))) := by
  have hW : WORD = 4294967296 := rfl
  obtain ⟨ha8, ha16, han, hau⟩ := adjust_spec n h0 hn
  obtain ⟨r, hr, hres⟩ := find_loop_spec hg.core (adjust n) LISTSIZE 0 (adjust n) (by simp)
  unfold mm_malloc
  rw [if_neg (by omega)]
  simp only []
  rw [hr]
  simp only [ok_bind]
  by_cases hr0 : r = 0
  · rw [if_pos hr0]
    have hmax := MAX_spec (adjust n) CHUNKSIZE
    have hCH : CHUNKSIZE = 4096 := rfl
    have hal : ALIGN (MAX (adjust n) CHUNKSIZE) = MAX (adjust n) CHUNKSIZE :=
      ALIGN_of_mod _ (by omega) (by omega)
    by_cases hfit : h.mem_brk + ALIGN (MAX (adjust n) CHUNKSIZE) ≤ h.mem_max_addr
    · rw [hal] at hfit
      obtain ⟨h1, bs1, FL1, r1, hext, hg1, hs1, hk1, hx1, hr1, hr1f, hr1s, hiff1, hfr1, -, -⟩ :=
        extend_heap_spec hg (MAX (adjust n) CHUNKSIZE) (by omega) (by omega) hfit
      have hr1I := hg1.core.inHeap hr1
      have hr1a : r1.addr ≠ 0 := by have := hr1I.lo; omega
      rw [hext]
      simp only [ok_bind]
      rw [if_neg hr1a]
      obtain ⟨h2, bs2, FL2, sz, hpl, hg2, hs2, hk2, hx2, hsz, hmem, hiff2, hfr2, -⟩ :=
        place_spec hg1 hr1 hr1f (adjust n) (by omega) ha8 ha16
      refine ⟨r1.addr, h2, hpl, Or.inr ⟨hr1a, bs2, FL2, sz, hg2, by rw [hs2, hs1],
        by rw [hx2, hx1], by rw [hk2, hk1]; omega, hsz, hmem, ?_, ?_, ?_⟩⟩
      · intro c hc1
        rw [hiff2 c hc1, hiff1 c hc1]
      · intro a ha
        have ha1 : Payload bs1 a := by
          obtain ⟨c, hcm, hc1, hc2, hc3⟩ := ha
          exact ⟨c, (hiff1 c hc1).2 hcm, hc1, hc2, hc3⟩
        rw [hfr2 a ha1, hfr1 a ha]
      · intro c hcm hc1 e
        have := hg1.core.unique ((hiff1 c hc1).2 hcm) hr1 e
        rw [this] at hc1
        omega
    · rw [extend_heap_fail h _ hfit]
      simp only [ok_bind]
      exact ⟨0, h, rfl, Or.inl ⟨rfl, rfl⟩⟩
  · rw [if_neg hr0]
    rcases hres with hres | ⟨c, ⟨hcb, hcf⟩, hca, hcs⟩
    · exact absurd hres hr0
    · subst hca
      obtain ⟨h2, bs2, FL2, sz, hpl, hg2, hs2, hk2, hx2, hsz, hmem, hiff2, hfr2, -⟩ :=
        place_spec hg hcb hcf (adjust n) hcs ha8 ha16
      refine ⟨c.addr, h2, hpl, Or.inr ⟨hr0, bs2, FL2, sz, hg2, hs2, hx2, by rw [hk2], hsz,
        hmem, hiff2, hfr2, ?_⟩⟩
      intro d hdm hd1 e
      have := hg.core.unique hdm hcb e
      rw [this] at hd1
      omega

/-- The invariant of the states of `ReachS`: the heap is well formed and every live allocation
of `m` bytes is an allocated block with room for `m` bytes between its tags. -/
theorem reachS_inv {h : Heap} {live : List (Nat × Nat)} (hr : ReachS h live) :
    ∃ bs FL, Good h bs FL ∧
      ∀ q m, (q, m) ∈ live → ∃ sz, (⟨q, sz, 1⟩ : Blk) ∈ bs ∧ m + 8 ≤ sz := by
  induction hr with
  | init base cap m0 l0 h hb8 hb0 hcap hinit =>
    obtain ⟨r, h', hrun, hgood⟩ := mm_init_spec base cap m0 l0 hb8 hb0 hcap
    rw [hinit] at hrun
    injection hrun with hrun
    injection hrun with e1 e2
    subst e1
    subst e2
    obtain ⟨bs, FL, hg, -, -⟩ := hgood.1 rfl
    exact ⟨bs, FL, hg, fun q m hq => absurd hq (List.not_mem_nil _)⟩
  | malloc h h' live n p _ hn hrun ih =>
    obtain ⟨bs, FL, hg, hlive⟩ := ih
    by_cases h0 : n = 0
    · subst h0
      rw [mm_malloc_zero] at hrun
      injection hrun with hrun
      injection hrun with e1 e2
      subst e1
      subst e2
      simp only [if_true]
      exact ⟨bs, FL, hg, hlive⟩
    · obtain ⟨p', h'', hrun', hres⟩ := mm_malloc_spec hg n (by omega) hn
      rw [hrun] at hrun'
      injection hrun' with hrun'
      injection hrun' with e1 e2
      subst e1
      subst e2
      rcases hres with ⟨hp0, hh⟩ | ⟨hp0, bs', FL', sz, hg', _, _, _, hsz, hmem, hiff, -⟩
      · subst hh
        simp only [hp0, if_true]
        exact ⟨bs, FL, hg, hlive⟩
      · simp only [if_neg hp0]
        refine ⟨bs', FL', hg', ?_⟩
        intro q m hq
        rcases List.mem_cons.1 hq with e | hq
        · injection e with e1 e2
          subst e1 e2
          have := (adjust_spec m (by omega) hn).2.2.1
          exact ⟨sz, hmem, by omega⟩
        · obtain ⟨s, hs1, hs2⟩ := hlive q m hq
          exact ⟨s, (hiff _ rfl).2 (Or.inl hs1), hs2⟩
  | free h h' live p _ hp hrun ih =>
    obtain ⟨bs, FL, hg, hlive⟩ := ih
    obtain ⟨⟨p1, m1⟩, hpm, e⟩ := List.mem_map.1 hp
    simp only at e
    subst e
    obtain ⟨s1, hb1, -⟩ := hlive p1 m1 hpm
    obtain ⟨h'', bs', FL', hrun', hg', _, _, _, hiff, -⟩ :=
      mm_free_spec hg hb1 (rfl : (⟨p1, s1, 1⟩ : Blk).alloc = 1)
    rw [hrun] at hrun'
    injection hrun' with e1
    subst e1
    refine ⟨bs', FL', hg', ?_⟩
    intro q m hq
    obtain ⟨hq1, hq2⟩ := List.mem_filter.1 hq
    simp only [decide_eq_true_eq] at hq2
    obtain ⟨s, hs1, hs2⟩ := hlive q m hq1
    refine ⟨s, (hiff _ rfl).2 ⟨hs1, ?_⟩, hs2⟩
    intro e
    exact hq2 (congrArg Blk.addr e)

set_option maxRecDepth 100000 in
theorem run_reused_live_eq : run_reused_live = Except.ok (24, 40, 24, 40) := by decide!

theorem reachS_fresh : ReachS fresh_heap [] :=
  ReachS.init 8 1048576 _ _ fresh_heap (by decide) (by decide) (by decide) fresh_heap_eq

theorem reachS_one_block : ReachS one_block_heap [(24, 8)] :=
  ReachS.malloc fresh_heap one_block_heap [] 8 24 reachS_fresh (by decide) one_block_eq

/-- Claim C34, counterexample: after `a = mm_malloc(8)`, `b = mm_malloc(8)`, `mm_free(a)`,
`c = mm_malloc(4294967288)` on a fresh arena, `b` is 40 and has not been freed, and
`mm_malloc(8)` returns 40 again: the 8 bytes from 40 are the 8 bytes of `b`. -/
theorem malloc_disjoint_counterexample :
    run_reused_live = Except.ok (24, 40, 24, 40) ∧ (0 : Nat) < 8 ∧ 8 + 15 < WORD ∧
      ¬ (40 + 8 ≤ 40 ∨ 40 + 8 ≤ 40) :=
  ⟨run_reused_live_eq, by decide, by decide, by decide⟩

/-- Claim C34, amended: in a state reached from a successful `mm_init` by calls of `mm_malloc`
with `n + 15 < 2 ^ 32` and calls of `mm_free` on live pointers, a call `mm_malloc(n)` with
`0 < n` and `n + 15 < 2 ^ 32` returns; when the returned pointer `p` is not `NULL`, the bytes
`[p, p + n)` lie inside the arena after the words of the prologue block and before the word
of the epilogue, and they are disjoint from the bytes `[q, q + m)` of every live allocation
`q` of `m` bytes. -/
theorem malloc_disjoint (h : Heap) (live : List (Nat × Nat)) (hr : ReachS h live) (n : Nat)
    (h0 : 0 < n) (hn : n + 15 < WORD) :
    ∃ p h', mm_malloc h n = Except.ok (p, h') ∧
      (p ≠ 0 →
        h'.mem_start_brk + 3 * WSIZE ≤ p ∧ p + n ≤ h'.mem_brk - WSIZE ∧
        h'.mem_start_brk = h.mem_start_brk ∧
        ∀ q m, (q, m) ∈ live → p + n ≤ q ∨ q + m ≤ p) := by
  obtain ⟨bs, FL, hg, hlive⟩ := reachS_inv hr
  obtain ⟨p, h', hrun, hres⟩ := mm_malloc_new hg n h0 hn
  refine ⟨p, h', hrun, fun hp => ?_⟩
  rcases hres with ⟨hp0, -⟩ | ⟨-, bs', FL', sz, hg', hs, -, -, hsz, hmem, hiff, -, hnew⟩
  · exact absurd hp0 hp
  · have hI := hg'.core.inHeap hmem
    have hlo := hI.lo; have hhi := hI.hi
    simp only at hlo hhi
    have han := (adjust_spec n h0 hn).2.2.1
    refine ⟨by unfold WSIZE; omega, by unfold WSIZE; omega, hs, ?_⟩
    intro q m hq
    obtain ⟨s, hs1, hs2⟩ := hlive q m hq
    have hs3 : (⟨q, s, 1⟩ : Blk) ∈ bs' := (hiff _ rfl).2 (Or.inl hs1)
    rcases hg'.core.apart hmem hs3 with e | e | e
    · exact absurd (congrArg Blk.addr e).symm (hnew _ hs1 rfl)
    · simp only at e
      omega
    · simp only at e
      omega

/-- Claim C34, amended, at the state after `mm_init` and `mm_malloc(8)` on the fresh arena,
for `mm_malloc(8)`. -/
theorem malloc_disjoint_witness :
    ReachS one_block_heap [(24, 8)] ∧ (0 : Nat) < 8 ∧ 8 + 15 < WORD ∧
    ∃ p h', mm_malloc one_block_heap 8 = Except.ok (p, h') ∧
      (p ≠ 0 →
        h'.mem_start_brk + 3 * WSIZE ≤ p ∧ p + 8 ≤ h'.mem_brk - WSIZE ∧
        h'.mem_start_brk = one_block_heap.mem_start_brk ∧
        ∀ q m, (q, m) ∈ [(24, 8)] → p + 8 ≤ q ∨ q + m ≤ p) :=
  ⟨reachS_one_block, by decide, by decide,
    malloc_disjoint one_block_heap [(24, 8)] reachS_one_block 8 (by decide) (by decide)⟩

/-! ## Tags, buckets and the tiling of the arena -/

/-- The links of a list segment, pair by pair. -/
theorem LSeg_chain {m : Nat → Nat} {l : List Nat} : ∀ {prev cur nxt : Nat},
    LSeg m prev cur l nxt → l.Chain' (fun b c => m (b + 4) = c ∧ m c = b) := by
  induction l with
  | nil => exact fun _ => List.chain'_nil
  | cons x l ih =>
    intro prev cur nxt hl
    obtain ⟨-, -, -, h4⟩ := hl
    cases l with
    | nil => exact List.chain'_singleton _
    | cons y l =>
      have h5 := h4
      obtain ⟨e, -, hy, -⟩ := h5
      exact List.chain'_cons.2 ⟨⟨e, hy⟩, ih h4⟩

/-- The successor word of the last node of a list segment. -/
theorem LSeg_last {m : Nat → Nat} {l : List Nat} : ∀ {prev cur nxt x : Nat},
    LSeg m prev cur l nxt → l.getLast? = some x → m (x + 4) = nxt := by
  induction l with
  | nil => intro _ _ _ _ _ e; cases e
  | cons y l ih =>
    intro prev cur nxt x hl e
    obtain ⟨-, -, -, h4⟩ := hl
    cases l with
    | nil =>
      simp only [List.getLast?_singleton, Option.some.injEq] at e
      subst e
      exact h4
    | cons z l =>
      rw [List.getLast?_cons_cons] at e
      exact ih h4 e

set_option maxRecDepth 100000 in
theorem run_misfiled_eq : run_misfiled = Except.ok (24, [32], [0]) := by decide!

set_option maxRecDepth 100000 in
theorem run_short_walk_eq : run_short_walk = Except.ok ([⟨24, 8, 0⟩], 0, 8, 88) := by decide!

/-- Claim C32: a word that holds `PACK(s, a)` for a size `s` that is a multiple of 8 below
`2 ^ 32` and a flag `a` of 0 or 1 gives `s` to `GET_SIZE` and `a` to `GET_ALLOC`, also when
the word has been stored with `PUT`; so the size read does not depend on the flag packed and
the flag read does not depend on the size packed. -/
theorem pack_round_trip (h : Heap) (p s a : Nat) (hin : inArena h p) (hs : s % 8 = 0)
    (hlt : s < WORD) (ha : a ≤ 1) :
    (h.mem p = PACK s a → GET_SIZE h p = Except.ok s ∧ GET_ALLOC h p = Except.ok a) ∧
    (∃ h', PUT h p (PACK s a) = Except.ok h' ∧ GET h' p = Except.ok (PACK s a) ∧
      GET_SIZE h' p = Except.ok s ∧ GET_ALLOC h' p = Except.ok a) ∧
    (∀ a', a' ≤ 1 → PACK s a' &&& 0xFFFFFFF8 = PACK s a &&& 0xFFFFFFF8) ∧
    (∀ s', s' % 8 = 0 → PACK s' a &&& 1 = PACK s a &&& 1) := by
  have hW : WORD = 4294967296 := rfl
  have key : ∀ g : Heap, inArena g p → g.mem p = PACK s a →
      GET_SIZE g p = Except.ok s ∧ GET_ALLOC g p = Except.ok a := by
    intro g hg hw
    rw [GET_SIZE_ok _ _ hg, GET_ALLOC_ok _ _ hg, hw, PACK_eq _ _ hs ha,
      tag_size _ _ hs ha (by omega), tag_alloc _ _ hs ha]
    exact ⟨rfl, rfl⟩
  refine ⟨key h hin, ?_, ?_, ?_⟩
  · have hv : PACK s a < WORD := by rw [PACK_eq _ _ hs ha]; omega
    have hin' : inArena (setMem h (upd h.mem p (PACK s a))) p := hin
    refine ⟨_, PUT_ok h p _ hin hv, ?_, key _ hin' (by simp)⟩
    rw [GET_ok _ _ hin']
    simp
  · intro a' ha'
    rw [PACK_eq _ _ hs ha, PACK_eq _ _ hs ha', tag_size _ _ hs ha (by omega),
      tag_size _ _ hs ha' (by omega)]
  · intro s' hs'
    rw [PACK_eq _ _ hs ha, PACK_eq _ _ hs' ha, tag_alloc _ _ hs ha, tag_alloc _ _ hs' ha]

/-- Claim C32 for the tag of an allocated block of 64 bytes in the word at 20. -/
theorem pack_round_trip_witness :
    inArena plain_heap 20 ∧ 64 % 8 = 0 ∧ 64 < WORD ∧ 1 ≤ 1 ∧
    (plain_heap.mem 20 = PACK 64 1 →
      GET_SIZE plain_heap 20 = Except.ok 64 ∧ GET_ALLOC plain_heap 20 = Except.ok 1) ∧
    (∃ h', PUT plain_heap 20 (PACK 64 1) = Except.ok h' ∧ GET h' 20 = Except.ok (PACK 64 1) ∧
      GET_SIZE h' 20 = Except.ok 64 ∧ GET_ALLOC h' 20 = Except.ok 1) ∧
    (∀ a', a' ≤ 1 → PACK 64 a' &&& 0xFFFFFFF8 = PACK 64 1 &&& 0xFFFFFFF8) ∧
    (∀ s', s' % 8 = 0 → PACK s' 1 &&& 1 = PACK 64 1 &&& 1) :=
  ⟨by decide, by decide, by decide, by decide,
    pack_round_trip plain_heap 20 64 1 (by decide) (by decide) (by decide) (by decide)⟩

/-- Claim C33, counterexample: after `p = mm_malloc(4294967289)` and `mm_free(p)` on a fresh
arena, bucket 5 holds the node 32, the header of that node gives the size 0, and a block of
size 0 belongs to bucket 0. -/
theorem buckets_linked_counterexample :
    run_misfiled = Except.ok (24, [32], [0]) ∧ bucket 0 ≠ 5 :=
  ⟨run_misfiled_eq, by decide⟩

/-- Claim C33, amended: after a successful `mm_init` and any sequence of calls of `mm_malloc`
with `n + 15 < 2 ^ 32` and of `mm_free` on live pointers, following the successor links from
each of the 16 bucket heads ends at `NULL` and meets no node twice; the first node has the
predecessor `NULL`; for every node `b` with successor `c` the predecessor of `c` is `b`; the
last node has the successor `NULL`; and the size in the header of every node of bucket `i`
has the bucket index `i`. -/
theorem buckets_linked (h : Heap) (live : List Nat) (hr : Reach h live) :
    ∃ FL : Nat → List Nat, ∀ i, i < LISTSIZE →
      bucket_nodes h i = Except.ok (FL i) ∧ (FL i).Nodup ∧
      h.segregated_free_lists i = (FL i).headD 0 ∧
      (∀ x, (FL i).head? = some x → PRED h x = Except.ok 0) ∧
      (FL i).Chain' (fun b c => SUCC h b = Except.ok c ∧ PRED h c = Except.ok b) ∧
      (∀ x, (FL i).getLast? = some x → SUCC h x = Except.ok 0) ∧
      (∀ x ∈ FL i, ∃ s, GET_SIZE h (HDRP x) = Except.ok s ∧ bucket s = i) := by
  obtain ⟨bs, FL, hg, -⟩ := reach_inv hr
  have hc := hg.core
  refine ⟨FL, fun i hi => ?_⟩
  have hl := hc.linked i hi
  have hnode : ∀ z, z ∈ FL i →
      PRED h z = Except.ok (h.mem z) ∧ SUCC h z = Except.ok (h.mem (z + 4)) := by
    intro z hz
    obtain ⟨c, -, hcz, -, -, hcI⟩ := hc.node_inHeap hz
    subst hcz
    exact ⟨hcI.pred_eq, hcI.succ_eq⟩
  refine ⟨hc.bucket_nodes_eq i hi, hc.nodup i, LSeg_head hl, ?_, ?_, ?_, ?_⟩
  · intro x hx
    cases hfl : FL i with
    | nil => rw [hfl] at hx; cases hx
    | cons y l =>
      rw [hfl] at hx hl
      simp only [List.head?_cons, Option.some.injEq] at hx
      subst hx
      rw [(hnode y (by rw [hfl]; simp)).1, hl.2.2.1]
  · have hch := LSeg_chain hl
    refine List.Chain'.imp ?_ (List.Chain'.iff_mem.1 hch)
    rintro b c ⟨hb, hcm, hbc⟩
    rw [(hnode b hb).2, (hnode c hcm).1, hbc.1, hbc.2]
    exact ⟨rfl, rfl⟩
  · intro x hx
    rw [(hnode x (List.mem_of_mem_getLast? hx)).2, LSeg_last hl hx]
  · intro x hx
    obtain ⟨c, -, hcz, -, hcb, hcI⟩ := hc.node_inHeap hx
    subst hcz
    exact ⟨c.size, hcI.get_size, hcb⟩

/-- Claim C33, amended, at the state after `mm_init` and `mm_malloc(8)` on the fresh arena. -/
theorem buckets_linked_witness :
    Reach one_block_heap [24] ∧
    ∃ FL : Nat → List Nat, ∀ i, i < LISTSIZE →
      bucket_nodes one_block_heap i = Except.ok (FL i) ∧ (FL i).Nodup ∧
      one_block_heap.segregated_free_lists i = (FL i).headD 0 ∧
      (∀ x, (FL i).head? = some x → PRED one_block_heap x = Except.ok 0) ∧
      (FL i).Chain' (fun b c =>
        SUCC one_block_heap b = Except.ok c ∧ PRED one_block_heap c = Except.ok b) ∧
      (∀ x, (FL i).getLast? = some x → SUCC one_block_heap x = Except.ok 0) ∧
      (∀ x ∈ FL i, ∃ s, GET_SIZE one_block_heap (HDRP x) = Except.ok s ∧ bucket s = i) :=
  ⟨reach_one_block, buckets_linked one_block_heap [24] reach_one_block⟩

/-- Claim C36, counterexample: after `p = mm_malloc(4294967289)` and `mm_free(p)` on a fresh
arena, which reaches from 8 to 88, the walk from the first block meets one block of 8 bytes
and ends at the header word of the address 32, which holds 0 and is not the last word of the
arena: the block sizes sum to 8, not to 64. -/
theorem blocks_tile_counterexample :
    run_short_walk = Except.ok ([⟨24, 8, 0⟩], 0, 8, 88) ∧ (0 : Nat) ≠ PACK 0 1 ∧
      HDRP 32 ≠ 88 - WSIZE ∧ total [⟨24, 8, 0⟩] ≠ 88 - 8 - 16 :=
  ⟨run_short_walk_eq, by decide, by decide, by decide⟩

/-- Claim C36, amended: after a successful `mm_init` and any sequence of calls of `mm_malloc`
with `n + 15 < 2 ^ 32` and of `mm_free` on live pointers, the walk from the first block by
header sizes ends; its blocks lie back to back from the first block to the end of the arena,
whose last word holds the epilogue tag `PACK(0, 1)`; the block sizes sum to the arena size
minus 16; and a further such call of `mm_malloc` or `mm_free` leaves the start of the arena
in place and does not lower its end. -/
theorem blocks_tile (h : Heap) (live : List Nat) (hr : Reach h live) :
    ∃ bs, blocks h = Except.ok bs ∧ Laid (first_block h) bs h.mem_brk ∧
      GET h (h.mem_brk - WSIZE) = Except.ok (PACK 0 1) ∧
      total bs + 16 = h.mem_brk - h.mem_start_brk ∧
      (∀ n p h', n + 15 < WORD → mm_malloc h n = Except.ok (p, h') →
        h'.mem_start_brk = h.mem_start_brk ∧ h.mem_brk ≤ h'.mem_brk) ∧
      (∀ p h', p ∈ live → mm_free h p = Except.ok h' →
        h'.mem_start_brk = h.mem_start_brk ∧ h'.mem_brk = h.mem_brk) := by
  obtain ⟨bs, FL, hg, hlive⟩ := reach_inv hr
  have hc := hg.core
  have hl : Laid (h.mem_start_brk + 16) bs h.mem_brk := hc.tiled_bs.laid
  have hge := hc.brk_ge
  have hbm := hc.brk_mod
  have hsm := hc.base_mod
  refine ⟨bs, hc.blocks_eq, hl, ?_, ?_, ?_, ?_⟩
  · rw [GET_ok _ _ (by unfold inArena WSIZE; omega)]
    have := hc.epi
    unfold WSIZE
    rw [this]
    rfl
  · have := (Laid_total hl).1
    omega
  · intro n p h' hn hrun
    by_cases h0 : n = 0
    · subst h0
      rw [mm_malloc_zero] at hrun
      injection hrun with hrun
      injection hrun with e1 e2
      subst e2
      exact ⟨rfl, le_refl _⟩
    · obtain ⟨p', h'', hrun', hres⟩ := mm_malloc_spec hg n (by omega) hn
      rw [hrun] at hrun'
      injection hrun' with hrun'
      injection hrun' with e1 e2
      subst e1
      subst e2
      rcases hres with ⟨-, hh⟩ | ⟨-, bs', FL', sz, -, hs, -, hk, -⟩
      · subst hh
        exact ⟨rfl, le_refl _⟩
      · exact ⟨hs, hk⟩
  · intro p h' hp hrun
    obtain ⟨b, hb1, hb2, hb3⟩ := (hlive p).1 hp
    subst hb2
    obtain ⟨h'', bs', FL', hrun', -, hs, hk, -⟩ := mm_free_spec hg hb1 hb3
    rw [hrun] at hrun'
    injection hrun' with e1
    subst e1
    exact ⟨hs, hk⟩

/-- Claim C36, amended, at the state after `mm_init` and `mm_malloc(8)` on the fresh arena. -/
theorem blocks_tile_witness :
    Reach one_block_heap [24] ∧
    ∃ bs, blocks one_block_heap = Except.ok bs ∧
      Laid (first_block one_block_heap) bs one_block_heap.mem_brk ∧
      GET one_block_heap (one_block_heap.mem_brk - WSIZE) = Except.ok (PACK 0 1) ∧
      total bs + 16 = one_block_heap.mem_brk - one_block_heap.mem_start_brk ∧
      (∀ n p h', n + 15 < WORD → mm_malloc one_block_heap n = Except.ok (p, h') →
        h'.mem_start_brk = one_block_heap.mem_start_brk ∧
        one_block_heap.mem_brk ≤ h'.mem_brk) ∧
      (∀ p h', p ∈ [24] → mm_free one_block_heap p = Except.ok h' →
        h'.mem_start_brk = one_block_heap.mem_start_brk ∧
        h'.mem_brk = one_block_heap.mem_brk) :=
  ⟨reach_one_block, blocks_tile one_block_heap [24] reach_one_block⟩

/-! ## Allocation followed by release -/

set_option maxRecDepth 100000 in
theorem run_round_trip_eq :
    run_round_trip = Except.ok ([⟨24, 64, 0⟩], (24, 88, 88), [⟨24, 8, 0⟩]) := by decide!

set_option maxRecDepth 100000 in
theorem one_block_brk : one_block_heap.mem_brk = fresh_heap.mem_brk := by decide!

/-- The index of a well-formed heap holds in bucket `i` the free blocks of size class `i`. -/
theorem Good.index_iff {h : Heap} {bs : List Blk} {FL : Nat → List Nat} (hg : Good h bs FL)
    (i x : Nat) : x ∈ FL i ↔ ∃ c ∈ bs, c.addr = x ∧ c.alloc = 0 ∧ bucket c.size = i := by
  constructor
  · exact hg.core.node i x
  · rintro ⟨c, hc1, rfl, hc3, rfl⟩
    exact hg.listed c hc1 hc3

/-- Claim C37, counterexample: on a fresh arena, whose one block is the free block of 64
bytes at 24, `p = mm_malloc(4294967289)` gives 24 without extending the arena, and after
`mm_free(p)` the walk from the first block meets one free block of 8 bytes. -/
theorem round_trip_counterexample :
    run_round_trip = Except.ok ([⟨24, 64, 0⟩], (24, 88, 88), [⟨24, 8, 0⟩]) ∧
      (0 : Nat) < 4294967289 ∧ (24 : Nat) ≠ 0 ∧
      ([⟨24, 64, 0⟩] : List Blk) ≠ [⟨24, 8, 0⟩] :=
  ⟨run_round_trip_eq, by decide, by decide, by decide⟩

/-- Claim C37, amended: in a state reached from a successful `mm_init` by calls of `mm_malloc`
with `n + 15 < 2 ^ 32` and calls of `mm_free` on live pointers, when `mm_malloc(n)` with
`0 < n` and `n + 15 < 2 ^ 32` returns a pointer `p` other than `NULL` and leaves the end of
the arena where it was, `mm_free(p)` succeeds and after it the walk from the first block
gives the block sequence it gave before the call of `mm_malloc`, and every bucket holds the
nodes it held before, each once. -/
theorem malloc_free_round_trip (h : Heap) (live : List Nat) (hr : Reach h live)
    (n p : Nat) (h1 : Heap) (h0 : 0 < n) (hn : n + 15 < WORD)
    (hrun : mm_malloc h n = Except.ok (p, h1)) (hp : p ≠ 0) (hk : h1.mem_brk = h.mem_brk) :
    ∃ (h2 : Heap) (bs : List Blk) (FL FL2 : Nat → List Nat),
      mm_free h1 p = Except.ok h2 ∧ blocks h = Except.ok bs ∧ blocks h2 = Except.ok bs ∧
      ∀ i, i < LISTSIZE → bucket_nodes h i = Except.ok (FL i) ∧
        bucket_nodes h2 i = Except.ok (FL2 i) ∧ (FL i).Nodup ∧ (FL2 i).Nodup ∧
        ∀ x, x ∈ FL2 i ↔ x ∈ FL i := by
  obtain ⟨bs, FL, hg, -⟩ := reach_inv hr
  obtain ⟨p', h', hrun', hres⟩ := mm_malloc_new hg n h0 hn
  rw [hrun] at hrun'
  injection hrun' with hrun'
  injection hrun' with e1 e2
  subst e1
  subst e2
  rcases hres with ⟨hp0, -⟩ | ⟨-, bs1, FL1, sz, hg1, hs1, -, -, -, hmem, hiff1, -, hnew⟩
  · exact absurd hp0 hp
  · obtain ⟨h2, bs2, FL2, hfree, hg2, hs2, hk2, -, hiff2, -⟩ :=
      mm_free_spec hg1 hmem (rfl : (⟨p, sz, 1⟩ : Blk).alloc = 1)
    simp only at hfree
    have hl : Laid (h2.mem_start_brk + 16) bs h2.mem_brk := by
      rw [hs2, hk2, hs1, hk]
      exact hg.core.tiled_bs.laid
    have e : bs2 = bs := by
      refine hg2.blocks_unique bs hl hg.noadj ?_ ?_
      · intro c hc hc1
        obtain ⟨hc2, hc3⟩ := (hiff2 c hc1).1 hc
        rcases (hiff1 c hc1).1 hc2 with hc4 | hc4
        · exact hc4
        · exact absurd hc4 hc3
      · intro c hc hc1
        refine (hiff2 c hc1).2 ⟨(hiff1 c hc1).2 (Or.inl hc), ?_⟩
        intro e
        exact hnew c hc hc1 (congrArg Blk.addr e)
    subst e
    refine ⟨h2, bs2, FL, FL2, hfree, hg.core.blocks_eq, hg2.core.blocks_eq, fun i hi => ?_⟩
    refine ⟨hg.core.bucket_nodes_eq i hi, hg2.core.bucket_nodes_eq i hi, hg.core.nodup i,
      hg2.core.nodup i, fun x => ?_⟩
    rw [hg2.index_iff, hg.index_iff]

/-- Claim C37, amended, for `mm_malloc(8)` at the state after `mm_init` on the fresh arena. -/
theorem malloc_free_round_trip_witness :
    Reach fresh_heap [] ∧ (0 : Nat) < 8 ∧ 8 + 15 < WORD ∧
    mm_malloc fresh_heap 8 = Except.ok (24, one_block_heap) ∧ (24 : Nat) ≠ 0 ∧
    one_block_heap.mem_brk = fresh_heap.mem_brk ∧
    ∃ (h2 : Heap) (bs : List Blk) (FL FL2 : Nat → List Nat),
      mm_free one_block_heap 24 = Except.ok h2 ∧ blocks fresh_heap = Except.ok bs ∧
      blocks h2 = Except.ok bs ∧
      ∀ i, i < LISTSIZE → bucket_nodes fresh_heap i = Except.ok (FL i) ∧
        bucket_nodes h2 i = Except.ok (FL2 i) ∧ (FL i).Nodup ∧ (FL2 i).Nodup ∧
        ∀ x, x ∈ FL2 i ↔ x ∈ FL i :=
  ⟨reach_fresh, by decide, by decide, one_block_eq, by decide, one_block_brk,
    malloc_free_round_trip fresh_heap [] reach_fresh 8 24 one_block_heap (by decide)
      (by decide) one_block_eq (by decide) one_block_brk⟩

/-! ## The copy of `mm_realloc` -/

set_option maxRecDepth 100000 in
theorem run_copy_overrun_eq :
    run_copy_overrun = Except.ok ((24, 40), 4294967288, (16, 16, 0), 16, 16) := by decide!

theorem reachR_two_block : ReachR two_block_heap [40, 24] :=
  ReachR.malloc one_block_heap two_block_heap [24] 8 40 reachR_one_block (by decide)
    two_block_eq

/-- Claim C38, counterexample: after `a = mm_malloc(8)`, `b = mm_malloc(8)`,
`c = mm_malloc(8)`, `mm_free(b)` on a fresh arena, `mm_realloc(a, 4294967280)` adjusts the
size to 4294967288, finds 16 bytes in the block at `a` and a free block of 16 bytes after it,
which is not enough, and calls `mm_malloc(4294967288)`; that call returns 40, a block of 16
bytes with 8 usable bytes, and `memcpy` is asked to copy the 16 bytes of the old block. -/
theorem copy_bounds_counterexample :
    run_copy_overrun = Except.ok ((24, 40), 4294967288, (16, 16, 0), 16, 16) ∧
      ¬ (4294967288 ≤ 16) ∧ (16 : Nat) ≠ 0 ∧ ¬ (padd 16 16 ≥ 4294967288) ∧ (40 : Nat) ≠ 0 ∧
      ¬ (16 + DSIZE ≤ 16) :=
  ⟨run_copy_overrun_eq, by decide, by decide, by decide, by decide, by decide⟩

/-- Claim C38, amended: in a state reached from a successful `mm_init` by calls of
`mm_malloc` with `n + 15 < 2 ^ 32`, of `mm_free` on live pointers and of `mm_realloc` on live
pointers with `n + 23 < 2 ^ 32`, for a live pointer `p` whose block has size `c`, a request
`0 < n` with `n + 23 < 2 ^ 32` whose adjusted size `t` exceeds `c`, and a next block of size
`x > 0` that is allocated or has `c + x < t`: `mm_realloc(p, n)` runs its case 2.3 and calls
`mm_malloc(t)`; when that returns a pointer `q` other than `NULL`, the block at `q` has a size
`sz` with `c + 8 <= sz`, the `c` bytes from `p` and the `c` bytes from `q` lie inside the
arena, the bytes from `q` end before the footer of the block at `q`, the two ranges do not
overlap, and `memcpy` succeeds. -/
theorem realloc_copy_bounds (h : Heap) (live : List Nat) (p n c x : Nat) (hr : ReachR h live)
    (hp : p ∈ live) (h0 : 0 < n) (hn : n + 23 < WORD)
    (hc : GET_SIZE h (HDRP p) = Except.ok c) (hgt : c < adjust n)
    (hx : GET_SIZE h (HDRP (p + c)) = Except.ok x) (hx0 : x ≠ 0)
    (hno : GET_ALLOC h (HDRP (p + c)) = Except.ok 1 ∨ c + x < adjust n) :
    mm_realloc h p n = realloc_copy h p (adjust n) ∧
    ∃ q h1, mm_malloc h (adjust n) = Except.ok (q, h1) ∧
      GET_SIZE h1 (HDRP p) = Except.ok c ∧
      (q ≠ 0 → ∃ sz h2, GET_SIZE h1 (HDRP q) = Except.ok sz ∧ c + DSIZE ≤ sz ∧
        h1.mem_start_brk ≤ p ∧ p + c ≤ h1.mem_brk ∧
        h1.mem_start_brk ≤ q ∧ q + c ≤ q + sz - DSIZE ∧ q + sz ≤ h1.mem_brk ∧
        (p + c ≤ q ∨ q + c ≤ p) ∧ memcpy h1 q p c = Except.ok h2) := by
  have hW : WORD = 4294967296 := rfl
  have hD : DSIZE = 8 := rfl
  obtain ⟨ha8, -, -, halt⟩ := adjust_spec n h0 (by omega)
  have hw : adjust n + 15 < WORD := by omega
  obtain ⟨bs, FL, hg, hlive⟩ := reachR_inv hr
  obtain ⟨b, hbm, hb1, hb2⟩ := (hlive p).1 hp
  subst hb1
  obtain ⟨pre, post, rfl⟩ := List.append_of_mem hbm
  rw [mid_eq] at hg hbm
  have hI := hg.core.inHeap hbm
  have hcs : c = b.size := by
    have := hI.get_size
    rw [hc] at this
    exact Except.ok.inj this
  subst hcs
  have hpath : mm_realloc h b.addr n = realloc_copy h b.addr (adjust n) := by
    rcases after_block hg.core with ⟨-, hepi⟩ | ⟨d, post', hpost, hda, hds, hdal, hd16⟩
    · rw [hx] at hepi
      exact absurd (Except.ok.inj hepi) hx0
    · subst hpost
      have hdm : d ∈ pre ++ [b] ++ d :: post' := by simp
      have hdI := hg.core.inHeap hdm
      have hdhi := hdI.hi; have hblt := hI.brk_lt
      rw [hx] at hds
      have hxs : x = d.size := Except.ok.inj hds
      subst hxs
      exact realloc_path_copy h b.addr n b.size d.size d.alloc h0 hc hgt
        hI.next_eq hx hx0 hdal
        (by
          rcases hno with hno | hno
          · rw [hdal] at hno
            have := Except.ok.inj hno
            exact Or.inl (by omega)
          · right
            rw [padd_eq _ _ (by omega)]
            omega)
  refine ⟨hpath, ?_⟩
  have hsg := hI.size_ge; have hsm := hI.size_mod
  obtain ⟨-, -, hat, -⟩ := adjust_spec (adjust n) (by omega) hw
  obtain ⟨q, h1, hrun1, hres⟩ := mm_malloc_spec hg (adjust n) (by omega) hw
  rcases hres with ⟨hq0, hh⟩ | ⟨hq0, bs1, FL1, sz, hg1, hs1, hx1, hk1, hsz, hQ, hiff1, hfr1⟩
  · subst hh
    exact ⟨q, h1, hrun1, hI.get_size, fun hq => absurd hq0 hq⟩
  · have hb1 : b ∈ bs1 := (hiff1 b hb2).2 (Or.inl hbm)
    have hI1 := hg1.core.inHeap hb1
    have hQI := hg1.core.inHeap hQ
    have hlo := hI1.lo; have hhi := hI1.hi; have hblt := hI1.brk_lt; have ham := hI1.addr_mod
    have hqlo := hQI.lo; have hqhi := hQI.hi; have hqm := hQI.addr_mod
    simp only at hqlo hqhi hqm
    have hdis : b.addr + b.size ≤ q ∨ q + sz ≤ b.addr := by
      rcases hg1.core.apart hb1 hQ with e | e | e
      · rw [e] at hgt; simp only at hgt; omega
      · exact Or.inl e
      · exact Or.inr e
    obtain ⟨m', hrun2, -, -⟩ := memcpy_spec h1 q b.addr b.size (by omega)
      ⟨by omega, by omega, by omega⟩ ⟨by omega, by omega, by omega⟩ (by omega) hblt
    refine ⟨q, h1, hrun1, hI1.get_size, fun _ => ⟨sz, _, hQI.get_size, by omega, by omega,
      by omega, by omega, by omega, by omega, by omega, hrun2⟩⟩

/-- Claim C38, amended, at the state after `mm_init`, `mm_malloc(8)` and `mm_malloc(8)` on
the fresh arena, with `p = 24` and `n = 24`. -/
theorem realloc_copy_bounds_witness :
    ReachR two_block_heap [40, 24] ∧ 24 ∈ [40, 24] ∧ 0 < 24 ∧ 24 + 23 < WORD ∧
    GET_SIZE two_block_heap (HDRP 24) = Except.ok 16 ∧ 16 < adjust 24 ∧
    GET_SIZE two_block_heap (HDRP (24 + 16)) = Except.ok 16 ∧
    16 ≠ 0 ∧ (GET_ALLOC two_block_heap (HDRP (24 + 16)) = Except.ok 1 ∨ 16 + 16 < adjust 24) ∧
    mm_realloc two_block_heap 24 24 = realloc_copy two_block_heap 24 (adjust 24) ∧
    ∃ q h1, mm_malloc two_block_heap (adjust 24) = Except.ok (q, h1) ∧
      GET_SIZE h1 (HDRP 24) = Except.ok 16 ∧
      (q ≠ 0 → ∃ sz h2, GET_SIZE h1 (HDRP q) = Except.ok sz ∧ 16 + DSIZE ≤ sz ∧
        h1.mem_start_brk ≤ 24 ∧ 24 + 16 ≤ h1.mem_brk ∧
        h1.mem_start_brk ≤ q ∧ q + 16 ≤ q + sz - DSIZE ∧ q + sz ≤ h1.mem_brk ∧
        (24 + 16 ≤ q ∨ q + 16 ≤ 24) ∧ memcpy h1 q 24 16 = Except.ok h2) :=
  ⟨reachR_two_block, by decide, by decide, by decide, two_block_size, by decide,
    two_block_next_size, by decide, Or.inl two_block_next_alloc,
    realloc_copy_bounds two_block_heap [40, 24] 24 24 16 16 reachR_two_block (by decide)
      (by decide) (by decide) two_block_size (by decide) two_block_next_size (by decide)
      (Or.inl two_block_next_alloc)⟩

/-! ## Placing a block -/

/-- The state after `mm_init` on the fresh arena is well formed. -/
theorem good_fresh :
    Good fresh_heap ([] ++ [⟨24, 64, 0⟩] ++ []) (fun i => if i = 6 then [24] else []) := by
  refine ⟨core_fresh, ?_, ?_⟩
  · intro c hcm _
    simp only [List.nil_append, List.append_nil, List.mem_singleton] at hcm
    subst hcm
    decide
  · intro x hx y hy hxy
    simp only [List.nil_append, List.append_nil, List.mem_singleton] at hx hy
    subst hx hy
    simp at hxy

/-- Claim C31: in a well-formed heap, for a free block `b` of size `f` and a size `s` with
`s <= f`, `s` a multiple of 8 and `16 <= s`: `b` is in the index, `place(b, s)` succeeds and
returns `b`, and afterwards `b` is in no bucket.  When `f - s < 16` the block sequence is the
old one with `b` allocated at its full size `f`, header and footer hold `PACK(f, 1)`, and
every bucket holds what it held except `b`.  Otherwise the sequence is the old one with `b`
replaced by an allocated block of size `s` at `b` and a free block of size `f - s` at `b + s`,
both with header and footer that hold their size and flag; the free block is in the bucket
of `f - s`, and every bucket holds what it held except `b`, and this block.  In both cases
the arena bounds stay and every word outside the old block that is no link word of a free
block keeps its value. -/
theorem place_splits (h : Heap) (pre post : List Blk) (b : Blk) (FL : Nat → List Nat)
    (size : Nat) (hg : Good h (pre ++ [b] ++ post) FL) (hfree : b.alloc = 0)
    (h1 : size ≤ b.size) (h2 : size % 8 = 0) (h3 : 16 ≤ size) :
    b.addr ∈ FL (bucket b.size) ∧
    ∃ (h' : Heap) (FL' : Nat → List Nat), place h b.addr size = Except.ok (b.addr, h') ∧
      (∀ i, i < LISTSIZE →
        bucket_nodes h i = Except.ok (FL i) ∧ bucket_nodes h' i = Except.ok (FL' i)) ∧
      (∀ i, (FL' i).Nodup ∧ b.addr ∉ FL' i) ∧
      (b.size - size < DSIZE * 2 →
        blocks h' = Except.ok (pre ++ [⟨b.addr, b.size, 1⟩] ++ post) ∧
        GET h' (HDRP b.addr) = Except.ok (PACK b.size 1) ∧
        (∃ ft, FTRP h' b.addr = Except.ok ft ∧ GET h' ft = Except.ok (PACK b.size 1)) ∧
        ∀ i y, y ∈ FL' i ↔ y ∈ FL i ∧ y ≠ b.addr) ∧
      (DSIZE * 2 ≤ b.size - size →
        blocks h' =
          Except.ok (pre ++ [⟨b.addr, size, 1⟩, ⟨b.addr + size, b.size - size, 0⟩] ++ post) ∧
        GET h' (HDRP b.addr) = Except.ok (PACK size 1) ∧
        (∃ ft, FTRP h' b.addr = Except.ok ft ∧ GET h' ft = Except.ok (PACK size 1)) ∧
        GET h' (HDRP (b.addr + size)) = Except.ok (PACK (b.size - size) 0) ∧
        (∃ ft, FTRP h' (b.addr + size) = Except.ok ft ∧
          GET h' ft = Except.ok (PACK (b.size - size) 0)) ∧
        b.addr + size ∈ FL' (bucket (b.size - size)) ∧
        total [⟨b.addr, size, 1⟩, ⟨b.addr + size, b.size - size, 0⟩] = b.size ∧
        ∀ i y, y ∈ FL' i ↔
          (y ∈ FL i ∧ y ≠ b.addr) ∨ (i = bucket (b.size - size) ∧ y = b.addr + size)) ∧
      h'.mem_start_brk = h.mem_start_brk ∧ h'.mem_brk = h.mem_brk ∧
      (∀ a, (a + 4 < b.addr ∨ b.addr + b.size ≤ a + 4) →
        (∀ c ∈ pre ++ [b] ++ post, c.alloc = 0 → a ≠ c.addr ∧ a ≠ c.addr + 4) →
        h'.mem a = h.mem a) := by
  have hD : DSIZE * 2 = 16 := rfl
  have hb : b ∈ pre ++ [b] ++ post := by simp
  refine ⟨hg.listed b hb hfree, ?_⟩
  obtain ⟨h', FL', mid, hrun, hg', hmid, hs, hk, -, hfl, hfr⟩ :=
    place_exact hg hfree size h1 h2 h3
  have hnot : ∀ i, b.addr ∉ FL' i := by
    intro i hx
    rcases (hfl i b.addr).1 hx with ⟨-, hne⟩ | ⟨-, -, hne⟩
    · exact hne rfl
    · omega
  refine ⟨h', FL', hrun,
    fun i hi => ⟨hg.core.bucket_nodes_eq i hi, hg'.core.bucket_nodes_eq i hi⟩,
    fun i => ⟨hg'.core.nodup i, hnot i⟩, ?_, ?_, hs, hk, hfr⟩
  · intro hsmall
    rw [if_pos hsmall] at hmid
    subst hmid
    have hI := hg'.core.inHeap (by simp : (⟨b.addr, b.size, 1⟩ : Blk) ∈
      pre ++ [⟨b.addr, b.size, 1⟩] ++ post)
    obtain ⟨t1, t2, t2'⟩ := hI.tags
    refine ⟨hg'.core.blocks_eq, t1, ⟨_, t2, t2'⟩, ?_⟩
    intro i y
    rw [hfl]
    constructor
    · rintro (hy | ⟨hy, -⟩)
      · exact hy
      · omega
    · exact Or.inl
  · intro hbig
    rw [if_neg (by omega)] at hmid
    subst hmid
    have hI := hg'.core.inHeap (by simp : (⟨b.addr, size, 1⟩ : Blk) ∈
      pre ++ [⟨b.addr, size, 1⟩, ⟨b.addr + size, b.size - size, 0⟩] ++ post)
    have hJ := hg'.core.inHeap (by simp : (⟨b.addr + size, b.size - size, 0⟩ : Blk) ∈
      pre ++ [⟨b.addr, size, 1⟩, ⟨b.addr + size, b.size - size, 0⟩] ++ post)
    obtain ⟨t1, t2, t2'⟩ := hI.tags
    obtain ⟨t3, t4, t4'⟩ := hJ.tags
    refine ⟨hg'.core.blocks_eq, t1, ⟨_, t2, t2'⟩, t3, ⟨_, t4, t4'⟩, ?_, ?_, ?_⟩
    · exact (hfl _ _).2 (Or.inr ⟨by omega, rfl, rfl⟩)
    · simp only [total, List.map_cons, List.map_nil, List.sum_cons, List.sum_nil]
      omega
    · intro i y
      rw [hfl]
      constructor
      · rintro (hy | ⟨-, hy⟩)
        · exact Or.inl hy
        · exact Or.inr hy
      · rintro (hy | hy)
        · exact Or.inl hy
        · exact Or.inr ⟨by omega, hy⟩

/-- Claim C31 at the state after `mm_init` on the fresh arena: `place` splits 16 bytes off
the free block of 64 bytes at 24. -/
theorem place_splits_witness :
    Good fresh_heap ([] ++ [⟨24, 64, 0⟩] ++ []) (fun i => if i = 6 then [24] else []) ∧
    (16 : Nat) ≤ 64 ∧ 16 % 8 = 0 ∧
    ∃ (h' : Heap) (FL' : Nat → List Nat), place fresh_heap 24 16 = Except.ok (24, h') ∧
      (∀ i, i < LISTSIZE → bucket_nodes h' i = Except.ok (FL' i)) ∧
      blocks h' = Except.ok [⟨24, 16, 1⟩, ⟨40, 48, 0⟩] ∧
      GET h' (HDRP 24) = Except.ok (PACK 16 1) ∧
      GET h' (HDRP 40) = Except.ok (PACK 48 0) ∧
      40 ∈ FL' (bucket 48) ∧ (∀ i, 24 ∉ FL' i) := by
  obtain ⟨-, h', FL', k1, k2, k3, -, k5, -⟩ :=
    place_splits fresh_heap [] [] ⟨24, 64, 0⟩ (fun i => if i = 6 then [24] else []) 16
      good_fresh rfl (by decide) (by decide) (by decide)
  obtain ⟨m1, m2, -, m4, -, m6, -⟩ := k5 (by decide)
  exact ⟨good_fresh, by decide, by decide, h', FL', k1, fun i hi => (k2 i hi).2, m1, m2, m4,
    m6, fun i => (k3 i).2⟩

/-! ## What a call leaves as it is -/

set_option maxRecDepth 100000 in
theorem run_footer_lost_eq :
    run_footer_lost = Except.ok ((24, 40, 56, 40), (17, 17), (17, 1)) := by decide!

/-- An allocated block that two well-formed heaps share has the same tag words in both. -/
theorem shared_tags {h h' : Heap} {bs bs' : List Blk} {FL FL' : Nat → List Nat}
    (hc : Core h bs FL) (hc' : Core h' bs' FL') {c : Blk} (hm : c ∈ bs) (hm' : c ∈ bs') :
    GET h' (HDRP c.addr) = GET h (HDRP c.addr) ∧
      ∃ ft, FTRP h c.addr = Except.ok ft ∧ FTRP h' c.addr = Except.ok ft ∧
        GET h' ft = GET h ft := by
  obtain ⟨t1, t2, t3⟩ := (hc.inHeap hm).tags
  obtain ⟨u1, u2, u3⟩ := (hc'.inHeap hm').tags
  exact ⟨by rw [t1, u1], _, t2, u2, by rw [t3, u3]⟩

/-- Claim C35, counterexample: after `a = mm_malloc(8)`, `b = mm_malloc(8)`,
`c = mm_malloc(8)`, `mm_free(b)` on a fresh arena, the block at `a` has the header word 17 and
the footer word 17; the call `mm_malloc(4294967288)` leaves the header word, which says
allocated, and makes the footer word 1. -/
theorem calls_frame_counterexample :
    run_footer_lost = Except.ok ((24, 40, 56, 40), (17, 17), (17, 1)) ∧
      (17 : Nat) &&& 1 = 1 ∧ (17 : Nat) ≠ 1 :=
  ⟨run_footer_lost_eq, by decide, by decide⟩

/-- Claim C35, amended: in a state reached from a successful `mm_init` by calls of `mm_malloc`
with `n + 15 < 2 ^ 32` and calls of `mm_free` on live pointers, with the block sequence `bs`:
a call `mm_malloc(n)` with `n + 15 < 2 ^ 32` keeps every allocated block of `bs` in the block
sequence, with its header word, its footer word and every payload word as they were; a call
`mm_free(p)` on a live pointer `p` does the same for every allocated block of `bs` other than
the block at `p`, and every word it changes is the header word, the predecessor word, the
successor word or the footer word of a block of `bs` that is free or is the block at `p`. -/
theorem calls_frame (h : Heap) (live : List Nat) (hr : Reach h live) :
    ∃ bs, blocks h = Except.ok bs ∧
      (∀ n p h', n + 15 < WORD → mm_malloc h n = Except.ok (p, h') →
        ∃ bs', blocks h' = Except.ok bs' ∧ ∀ c ∈ bs, c.alloc = 1 →
          c ∈ bs' ∧ GET h' (HDRP c.addr) = GET h (HDRP c.addr) ∧
          (∃ ft, FTRP h c.addr = Except.ok ft ∧ FTRP h' c.addr = Except.ok ft ∧
            GET h' ft = GET h ft) ∧
          ∀ a, c.addr ≤ a → a + 8 < c.addr + c.size → h'.mem a = h.mem a) ∧
      (∀ p h', p ∈ live → mm_free h p = Except.ok h' →
        ∃ bs', blocks h' = Except.ok bs' ∧
          (∀ c ∈ bs, c.alloc = 1 → c.addr ≠ p →
            c ∈ bs' ∧ GET h' (HDRP c.addr) = GET h (HDRP c.addr) ∧
            (∃ ft, FTRP h c.addr = Except.ok ft ∧ FTRP h' c.addr = Except.ok ft ∧
              GET h' ft = GET h ft) ∧
            ∀ a, c.addr ≤ a → a + 8 < c.addr + c.size → h'.mem a = h.mem a) ∧
          ∀ a, h'.mem a ≠ h.mem a → ∃ c ∈ bs, (c.alloc = 0 ∨ c.addr = p) ∧
            (a = c.addr - 4 ∨ a = c.addr ∨ a = c.addr + 4 ∨ a = c.addr + c.size - 8)) := by
  obtain ⟨bs, FL, hg, hlive⟩ := reach_inv hr
  refine ⟨bs, hg.core.blocks_eq, ?_, ?_⟩
  · intro n p h' hn hrun
    have hsame : ∃ bs', blocks h = Except.ok bs' ∧ ∀ c ∈ bs, c.alloc = 1 →
        c ∈ bs' ∧ GET h (HDRP c.addr) = GET h (HDRP c.addr) ∧
        (∃ ft, FTRP h c.addr = Except.ok ft ∧ FTRP h c.addr = Except.ok ft ∧
          GET h ft = GET h ft) ∧
        ∀ a, c.addr ≤ a → a + 8 < c.addr + c.size → h.mem a = h.mem a :=
      ⟨bs, hg.core.blocks_eq, fun c hc _ =>
        ⟨hc, rfl, ⟨_, (hg.core.inHeap hc).ftrp_eq, (hg.core.inHeap hc).ftrp_eq, rfl⟩,
          fun _ _ _ => rfl⟩⟩
    by_cases h0 : n = 0
    · subst h0
      rw [mm_malloc_zero] at hrun
      obtain ⟨-, e2⟩ := Prod.mk.inj (Except.ok.inj hrun)
      subst e2
      exact hsame
    · obtain ⟨p', h'', hrun', hres⟩ := mm_malloc_spec hg n (by omega) hn
      rw [hrun] at hrun'
      obtain ⟨e1, e2⟩ := Prod.mk.inj (Except.ok.inj hrun')
      subst e1 e2
      rcases hres with ⟨-, hh⟩ | ⟨-, bs', FL', sz, hg', -, -, -, -, -, hiff, hfr⟩
      · subst hh
        exact hsame
      · refine ⟨bs', hg'.core.blocks_eq, fun c hc hc1 => ?_⟩
        have hc' : c ∈ bs' := (hiff c hc1).2 (Or.inl hc)
        obtain ⟨t1, t2⟩ := shared_tags hg.core hg'.core hc hc'
        exact ⟨hc', t1, t2, fun a ha1 ha2 => hfr a ⟨c, hc, hc1, ha1, ha2⟩⟩
  · intro p h' hp hrun
    obtain ⟨b, hb1, hb2, hb3⟩ := (hlive p).1 hp
    subst hb2
    obtain ⟨h'', bs', FL', hrun', hg', -, -, -, hiff, hfr, hfrS⟩ := mm_free_spec hg hb1 hb3
    rw [hrun] at hrun'
    cases Except.ok.inj hrun'
    refine ⟨bs', hg'.core.blocks_eq, fun c hc hc1 hne => ?_, fun a ha => ?_⟩
    · have hc' : c ∈ bs' := (hiff c hc1).2 ⟨hc, fun e => hne (by rw [e])⟩
      obtain ⟨t1, t2⟩ := shared_tags hg.core hg'.core hc hc'
      exact ⟨hc', t1, t2, fun a ha1 ha2 => hfr a ⟨c, hc', hc1, ha1, ha2⟩⟩
    · by_contra hcon
      refine ha (hfrS a ?_)
      intro c hc hcb
      refine ⟨fun e => hcon ⟨c, hc, ?_, Or.inl e⟩, fun e => hcon ⟨c, hc, ?_, Or.inr (Or.inl e)⟩,
        fun e => hcon ⟨c, hc, ?_, Or.inr (Or.inr (Or.inl e))⟩,
        fun e => hcon ⟨c, hc, ?_, Or.inr (Or.inr (Or.inr e))⟩⟩ <;>
      · rcases hcb with hcb | hcb
        · exact Or.inl hcb
        · exact Or.inr (by rw [hcb])

/-- Claim C35, amended, at the state after `mm_init` and `mm_malloc(8)` on the fresh arena. -/
theorem calls_frame_witness :
    Reach one_block_heap [24] ∧
    ∃ bs, blocks one_block_heap = Except.ok bs ∧
      (∀ n p h', n + 15 < WORD → mm_malloc one_block_heap n = Except.ok (p, h') →
        ∃ bs', blocks h' = Except.ok bs' ∧ ∀ c ∈ bs, c.alloc = 1 →
          c ∈ bs' ∧ GET h' (HDRP c.addr) = GET one_block_heap (HDRP c.addr) ∧
          (∃ ft, FTRP one_block_heap c.addr = Except.ok ft ∧
            FTRP h' c.addr = Except.ok ft ∧ GET h' ft = GET one_block_heap ft) ∧
          ∀ a, c.addr ≤ a → a + 8 < c.addr + c.size → h'.mem a = one_block_heap.mem a) ∧
      (∀ p h', p ∈ [24] → mm_free one_block_heap p = Except.ok h' →
        ∃ bs', blocks h' = Except.ok bs' ∧
          (∀ c ∈ bs, c.alloc = 1 → c.addr ≠ p →
            c ∈ bs' ∧ GET h' (HDRP c.addr) = GET one_block_heap (HDRP c.addr) ∧
            (∃ ft, FTRP one_block_heap c.addr = Except.ok ft ∧
              FTRP h' c.addr = Except.ok ft ∧ GET h' ft = GET one_block_heap ft) ∧
            ∀ a, c.addr ≤ a → a + 8 < c.addr + c.size → h'.mem a = one_block_heap.mem a) ∧
          ∀ a, h'.mem a ≠ one_block_heap.mem a → ∃ c ∈ bs, (c.alloc = 0 ∨ c.addr = p) ∧
            (a = c.addr - 4 ∨ a = c.addr ∨ a = c.addr + 4 ∨ a = c.addr + c.size - 8)) :=
  ⟨reach_one_block, calls_frame one_block_heap [24] reach_one_block⟩

/-! ## In-place growth of `mm_realloc` after a request that wraps -/

set_option maxRecDepth 100000 in
theorem run_extend_wrapped_eq :
    run_extend_wrapped = Except.ok ([24, 32], [112, 0, 0, 4096], [88, 32, 4184],
      [8192, 8193, 8216], Except.error Fault.access) := by decide!

set_option maxRecDepth 100000 in
theorem run_merge_wrapped_eq :
    run_merge_wrapped = Except.ok ([24, 40, 56, 40], [32, 16, 40, 16, 0],
      [[], [], [], [], [56, 72], [], [], [], [], [], [], [], [], [], [], []],
      [[], [], [], [], [72], [], [], [], [], [], [], [], [], [], [], []],
      [17, 24, 33, 88, 88]) := by decide!

/-- A live pointer of a state reached with `mm_realloc` calls is the address of an allocated
block of a well-formed heap. -/
theorem live_blockR {h : Heap} {live : List Nat} {p : Nat} (hr : ReachR h live)
    (hp : p ∈ live) :
    ∃ (pre post : List Blk) (b : Blk) (FL : Nat → List Nat),
      Good h (pre ++ [b] ++ post) FL ∧ b.addr = p ∧ b.alloc = 1 ∧
      ∀ q, q ∈ live ↔ ∃ c ∈ pre ++ [b] ++ post, c.addr = q ∧ c.alloc = 1 := by
  obtain ⟨bs, FL, hg, hlive⟩ := reachR_inv hr
  obtain ⟨b, hb, hb1, hb2⟩ := (hlive p).1 hp
  obtain ⟨pre, post, rfl⟩ := List.append_of_mem hb
  rw [mid_eq] at hg hlive
  exact ⟨pre, post, b, FL, hg, hb1, hb2, hlive⟩

theorem reachR_full_block : ReachR full_block_heap [24] :=
  ReachR.malloc fresh_heap full_block_heap [] 56 24
    (ReachR.init 8 1048576 _ _ fresh_heap (by decide) (by decide) (by decide) fresh_heap_eq)
    (by decide) full_block_eq

/-- Claim C18, counterexample: after `p = mm_malloc(4294967289)`, `q = mm_malloc(40)`,
`mm_free(p)` on a fresh arena, the header of the live pointer `q = 32` holds size `c = 0`
and the block after it reads as the epilogue (size 0).  `mm_realloc(q, 100)` has target size
112 > 0 and takes case 2.1: `extend_heap(4096)` succeeds (it returns 32 and moves the end of
the arena from 88 to 4184), but the header of `q` is then written with size 8192, which is not
`c + 4096`, and the footer write goes to address 8216, beyond the end of the arena, where the
model faults, so no pointer is returned. -/
theorem realloc_extends_counterexample :
    run_extend_wrapped = Except.ok ([24, 32], [112, 0, 0, 4096], [88, 32, 4184],
      [8192, 8193, 8216], Except.error Fault.access) ∧
      (0 : Nat) < 112 ∧ MAX (psub 112 0) CHUNKSIZE = 4096 ∧ (32 : Nat) ≠ 0 ∧
      8193 = PACK 8192 1 ∧ 8193 ≠ PACK (0 + 4096) 1 ∧ ¬ (8216 + WSIZE ≤ 4184) :=
  ⟨run_extend_wrapped_eq, by decide, by decide, by decide, by decide, by decide, by decide⟩

/-- Claim C18, amended: in a state reached from a successful `mm_init` by calls of
`mm_malloc` with `n + 15 < 2 ^ 32`, of `mm_free` on live pointers and of `mm_realloc` on live
pointers with `n + 23 < 2 ^ 32`, for a live pointer `p` whose block has size `c` and is
followed by the epilogue, a request `n > 0` whose adjusted size exceeds `c`, and an arena that
can grow by `MAX(size - c, CHUNKSIZE)` bytes: `mm_realloc(p, n)` returns `p`, the arena has
grown by exactly that many bytes, header and footer of the block at `p` hold the packed size
`c + MAX(size - c, CHUNKSIZE)` with the allocated flag, the last word of the arena is the
epilogue tag, every bucket ends and holds the blocks it held before, and the state is again
well formed with the same live pointers. -/
theorem realloc_extends_arena (h : Heap) (live : List Nat) (p n c : Nat) (hr : ReachR h live)
    (hp : p ∈ live) (h0 : 0 < n) (hc : GET_SIZE h (HDRP p) = Except.ok c)
    (hepi : GET_SIZE h (HDRP (p + c)) = Except.ok 0) (hgt : c < adjust n)
    (hfit : h.mem_brk + MAX (adjust n - c) CHUNKSIZE ≤ h.mem_max_addr) :
    ∃ h', mm_realloc h p n = Except.ok (p, h') ∧
      h'.mem_brk = h.mem_brk + MAX (adjust n - c) CHUNKSIZE ∧
      GET h' (HDRP p) = Except.ok (PACK (c + MAX (adjust n - c) CHUNKSIZE) 1) ∧
      (∃ ft, FTRP h' p = Except.ok ft ∧
        GET h' ft = Except.ok (PACK (c + MAX (adjust n - c) CHUNKSIZE) 1)) ∧
      GET h' (h'.mem_brk - WSIZE) = Except.ok (PACK 0 1) ∧
      (∀ i, i < LISTSIZE → ∃ l l', bucket_nodes h i = Except.ok l ∧
        bucket_nodes h' i = Except.ok l' ∧ ∀ y, y ∈ l' ↔ y ∈ l) ∧
      Inv h' live := by
  obtain ⟨pre, post, b, FL, hg, hb1, hb2, hlive⟩ := live_blockR hr hp
  subst hb1
  have hI := hg.core.inHeap (by simp : b ∈ pre ++ [b] ++ post)
  have hcs : c = b.size := by
    have := hI.get_size
    rw [hc] at this
    exact Except.ok.inj this
  subst hcs
  have hpost : post = [] := by
    rcases after_block hg.core with ⟨e, -⟩ | ⟨d, post', -, -, hds, -, hd16⟩
    · exact e
    · rw [hepi] at hds
      have := Except.ok.inj hds
      omega
  subst hpost
  rw [List.append_nil] at hg hlive
  obtain ⟨h', FL', hrun, hg', hs, hk, hm, hfl, -⟩ := realloc_extend_spec hg hb2 n h0 hgt hfit
  have hc' := hg'.core
  have hnb : (⟨b.addr, b.size + MAX (adjust n - b.size) CHUNKSIZE, 1⟩ : Blk) ∈
      pre ++ [⟨b.addr, b.size + MAX (adjust n - b.size) CHUNKSIZE, 1⟩] := by simp
  obtain ⟨t1, t2, t3⟩ := (hc'.inHeap hnb).tags
  have hge := hc'.brk_ge
  have hbm := hc'.brk_mod
  refine ⟨h', hrun, hk, t1, ⟨_, t2, t3⟩, ?_, ?_, ⟨_, FL', hg', ?_⟩⟩
  · rw [GET_ok _ _ ⟨by unfold WSIZE; omega, by unfold WSIZE; omega, by unfold WSIZE; omega⟩]
    unfold WSIZE
    rw [hc'.epi]
    rfl
  · intro i hi
    refine ⟨FL i, FL' i, hg.core.bucket_nodes_eq i hi, hc'.bucket_nodes_eq i hi, ?_⟩
    exact fun y => hfl i y
  · intro q
    rw [hlive q]
    constructor
    · rintro ⟨d, hd, hd1, hd2⟩
      simp only [List.mem_append, List.mem_singleton] at hd
      rcases hd with hd | hd
      · exact ⟨d, by simp [hd], hd1, hd2⟩
      · subst hd
        exact ⟨_, hnb, hd1, rfl⟩
    · rintro ⟨d, hd, hd1, hd2⟩
      simp only [List.mem_append, List.mem_singleton] at hd
      rcases hd with hd | hd
      · exact ⟨d, by simp [hd], hd1, hd2⟩
      · subst hd
        exact ⟨b, by simp, hd1, hb2⟩

/-- Claim C18, amended, at the state after `mm_init` and `p = mm_malloc(56)` on the fresh
arena, with `n = 100`. -/
theorem realloc_extends_arena_witness :
    ReachR full_block_heap [24] ∧ 24 ∈ [24] ∧ 0 < 100 ∧
    GET_SIZE full_block_heap (HDRP 24) = Except.ok 64 ∧
    GET_SIZE full_block_heap (HDRP (24 + 64)) = Except.ok 0 ∧ 64 < adjust 100 ∧
    full_block_heap.mem_brk + MAX (adjust 100 - 64) CHUNKSIZE ≤ full_block_heap.mem_max_addr ∧
    ∃ h', mm_realloc full_block_heap 24 100 = Except.ok (24, h') ∧
      h'.mem_brk = full_block_heap.mem_brk + MAX (adjust 100 - 64) CHUNKSIZE ∧
      GET h' (HDRP 24) = Except.ok (PACK (64 + MAX (adjust 100 - 64) CHUNKSIZE) 1) ∧
      (∃ ft, FTRP h' 24 = Except.ok ft ∧
        GET h' ft = Except.ok (PACK (64 + MAX (adjust 100 - 64) CHUNKSIZE) 1)) ∧
      GET h' (h'.mem_brk - WSIZE) = Except.ok (PACK 0 1) ∧
      (∀ i, i < LISTSIZE → ∃ l l', bucket_nodes full_block_heap i = Except.ok l ∧
        bucket_nodes h' i = Except.ok l' ∧ ∀ y, y ∈ l' ↔ y ∈ l) ∧
      Inv h' [24] :=
  ⟨reachR_full_block, by decide, by decide, full_block_size, full_block_epilogue, by decide,
    full_block_fit,
    realloc_extends_arena full_block_heap [24] 24 100 64 reachR_full_block (by decide)
      (by decide) full_block_size full_block_epilogue (by decide) full_block_fit⟩

/-- Claim C19, counterexample: after `a = mm_malloc(8)`, `b = mm_malloc(8)`,
`c = mm_malloc(8)`, `mm_free(b)`, `d = mm_malloc(4294967288)` on a fresh arena, the block at
40 after the live pointer `a = 24` is free by its header, with 16 + 16 >= 32 > 16, but it is
in no bucket: the only bucket that is not empty is bucket 4 with `[56, 72]`, where 56 is the
allocated block of `c` (header word 17).  `mm_realloc(a, 20)` returns `a` with header word 33
and leaves the arena size as it is, and bucket 4 is then `[72]`: the block removed from the
index is 56, not the next block 40. -/
theorem realloc_merges_counterexample :
    run_merge_wrapped = Except.ok ([24, 40, 56, 40], [32, 16, 40, 16, 0],
      [[], [], [], [], [56, 72], [], [], [], [], [], [], [], [], [], [], []],
      [[], [], [], [], [72], [], [], [], [], [], [], [], [], [], [], []],
      [17, 24, 33, 88, 88]) ∧
      (16 : Nat) < 32 ∧ 32 ≤ 16 + 16 ∧ 40 ∉ [56, 72] ∧ 56 ∈ [56, 72] ∧ 56 ∉ [72] ∧
      (56 : Nat) ≠ 40 ∧ 17 = PACK 16 1 ∧ 33 = PACK (16 + 16) 1 :=
  ⟨run_merge_wrapped_eq, by decide, by decide, by decide, by decide, by decide, by decide,
    by decide, by decide⟩

/-- Claim C19, amended: in a state reached from a successful `mm_init` by calls of
`mm_malloc` with `n + 15 < 2 ^ 32`, of `mm_free` on live pointers and of `mm_realloc` on live
pointers with `n + 23 < 2 ^ 32`, for a live pointer `p` whose block has size `c`
and is followed by a free block of size `x > 0`, and a request `n > 0` whose adjusted size
exceeds `c` but not `c + x`: `mm_realloc(p, n)` returns `p`, the arena keeps its size, header and
footer of the block at `p` hold the packed size `c + x` with the allocated flag, the block
`p + c` was in a bucket, every bucket ends and holds the blocks it held before except
`p + c`, and the state is again well formed with the same live pointers. -/
theorem realloc_merges_next (h : Heap) (live : List Nat) (p n c x : Nat) (hr : ReachR h live)
    (hp : p ∈ live) (h0 : 0 < n) (hc : GET_SIZE h (HDRP p) = Except.ok c)
    (hx : GET_SIZE h (HDRP (p + c)) = Except.ok x) (hx0 : x ≠ 0)
    (ha : GET_ALLOC h (HDRP (p + c)) = Except.ok 0) (hgt : c < adjust n)
    (hle : adjust n ≤ c + x) :
    ∃ h', mm_realloc h p n = Except.ok (p, h') ∧ h'.mem_brk = h.mem_brk ∧
      GET h' (HDRP p) = Except.ok (PACK (c + x) 1) ∧
      (∃ ft, FTRP h' p = Except.ok ft ∧ GET h' ft = Except.ok (PACK (c + x) 1)) ∧
      (∃ i l, i < LISTSIZE ∧ bucket_nodes h i = Except.ok l ∧ p + c ∈ l) ∧
      (∀ i, i < LISTSIZE → ∃ l l', bucket_nodes h i = Except.ok l ∧
        bucket_nodes h' i = Except.ok l' ∧ ∀ y, y ∈ l' ↔ y ∈ l ∧ y ≠ p + c) ∧
      Inv h' live := by
  obtain ⟨pre, post, b, FL, hg, hb1, hb2, hlive⟩ := live_blockR hr hp
  subst hb1
  have hI := hg.core.inHeap (by simp : b ∈ pre ++ [b] ++ post)
  have hcs : c = b.size := by
    have := hI.get_size
    rw [hc] at this
    exact Except.ok.inj this
  subst hcs
  rcases after_block hg.core with ⟨-, hz⟩ | ⟨d, post', hpost, hda, hds, hdal, -⟩
  · rw [hx] at hz
    exact absurd (Except.ok.inj hz) hx0
  · subst hpost
    rw [hx] at hds
    have hxs : x = d.size := Except.ok.inj hds
    subst hxs
    rw [ha] at hdal
    have hd0 : d.alloc = 0 := (Except.ok.inj hdal).symm
    have hl3 : pre ++ [b] ++ d :: post' = pre ++ [b, d] ++ post' := list3' pre post' b d
    rw [hl3] at hg hlive
    obtain ⟨h', FL', hrun, hg', hs, hk, hm, hfl, -⟩ := realloc_merge_spec hg hb2 hd0 n h0 hgt hle
    have hc' := hg'.core
    have hnb : (⟨b.addr, b.size + d.size, 1⟩ : Blk) ∈
        pre ++ [⟨b.addr, b.size + d.size, 1⟩] ++ post' := by simp
    have hdm : d ∈ pre ++ [b, d] ++ post' := by simp
    obtain ⟨t1, t2, t3⟩ := (hc'.inHeap hnb).tags
    refine ⟨h', hrun, hk, t1, ⟨_, t2, t3⟩, ?_, ?_, ⟨_, FL', hg', ?_⟩⟩
    · exact ⟨bucket d.size, FL (bucket d.size), bucket_lt _,
        hg.core.bucket_nodes_eq _ (bucket_lt _), by rw [← hda]; exact hg.listed d hdm hd0⟩
    · intro i hi
      refine ⟨FL i, FL' i, hg.core.bucket_nodes_eq i hi, hc'.bucket_nodes_eq i hi, ?_⟩
      intro y
      rw [hfl i y, hda]
    · intro q
      rw [hlive q]
      constructor
      · rintro ⟨e, he, he1, he2⟩
        simp only [List.mem_append, List.mem_cons, List.mem_singleton, List.not_mem_nil,
          or_false] at he
        rcases he with (he | he | he) | he
        · exact ⟨e, by simp [he], he1, he2⟩
        · subst he
          exact ⟨_, hnb, he1, rfl⟩
        · subst he; omega
        · exact ⟨e, by simp [he], he1, he2⟩
      · rintro ⟨e, he, he1, he2⟩
        simp only [List.mem_append, List.mem_singleton] at he
        rcases he with (he | he) | he
        · exact ⟨e, by simp [he], he1, he2⟩
        · subst he
          exact ⟨b, by simp, he1, hb2⟩
        · exact ⟨e, by simp [he], he1, he2⟩

/-- Claim C19, amended, at the state after `mm_init` and `p = mm_malloc(8)` on the fresh
arena, with `n = 40`. -/
theorem realloc_merges_next_witness :
    ReachR one_block_heap [24] ∧ 24 ∈ [24] ∧ 0 < 40 ∧
    GET_SIZE one_block_heap (HDRP 24) = Except.ok 16 ∧
    GET_SIZE one_block_heap (HDRP (24 + 16)) = Except.ok 48 ∧ 48 ≠ 0 ∧
    GET_ALLOC one_block_heap (HDRP (24 + 16)) = Except.ok 0 ∧ 16 < adjust 40 ∧
    adjust 40 ≤ 16 + 48 ∧
    ∃ h', mm_realloc one_block_heap 24 40 = Except.ok (24, h') ∧
      h'.mem_brk = one_block_heap.mem_brk ∧
      GET h' (HDRP 24) = Except.ok (PACK (16 + 48) 1) ∧
      (∃ ft, FTRP h' 24 = Except.ok ft ∧ GET h' ft = Except.ok (PACK (16 + 48) 1)) ∧
      (∃ i l, i < LISTSIZE ∧ bucket_nodes one_block_heap i = Except.ok l ∧ 24 + 16 ∈ l) ∧
      (∀ i, i < LISTSIZE → ∃ l l', bucket_nodes one_block_heap i = Except.ok l ∧
        bucket_nodes h' i = Except.ok l' ∧ ∀ y, y ∈ l' ↔ y ∈ l ∧ y ≠ 24 + 16) ∧
      Inv h' [24] :=
  ⟨reachR_one_block, by decide, by decide, one_block_size, one_block_next_size, by decide,
    one_block_next_alloc, by decide, by decide,
    realloc_merges_next one_block_heap [24] 24 40 16 48 reachR_one_block (by decide)
      (by decide) one_block_size one_block_next_size (by decide) one_block_next_alloc
      (by decide) (by decide)⟩

end MM

namespace CacheLab

/-! ## Theorems -/

/-! ## Basic facts -/

@[simp] theorem bind_of_ok {α β : Type} (a : α) (f : α → R β) : (Except.ok a >>= f) = f a := rfl

@[simp] theorem bind_of_error {α β : Type} (e : Err) (f : α → R β) :
    ((Except.error e : R α) >>= f) = Except.error e := rfl

@[simp] theorem pure_ok {α : Type} (a : α) : (pure a : R α) = Except.ok a := rfl

theorem iadd_ok (a b : Int) (h1 : -2147483648 ≤ a + b) (h2 : a + b ≤ 2147483647) :
    iadd a b = Except.ok (a + b) := by
  unfold iadd INT_MIN INT_MAX
  rw [if_pos ⟨h1, h2⟩]

theorem iadd_overflow (a b : Int) (h : 2147483647 < a + b) :
    iadd a b = Except.error Err.overflow := by
  unfold iadd INT_MIN INT_MAX
  rw [if_neg (by omega)]

theorem isub_ok (a b : Int) (h1 : -2147483648 ≤ a - b) (h2 : a - b ≤ 2147483647) :
    isub a b = Except.ok (a - b) := by
  unfold isub INT_MIN INT_MAX
  rw [if_pos ⟨h1, h2⟩]

theorem rd_ok (X : Mat) (rows cols r c : Int) (h1 : 0 ≤ r) (h2 : r < rows) (h3 : 0 ≤ c)
    (h4 : c < cols) : rd X rows cols r c = Except.ok (X r c) := by
  unfold rd
  rw [if_pos ⟨h1, h2, h3, h4⟩]

theorem wr_ok (X : Mat) (rows cols r c v : Int) (h1 : 0 ≤ r) (h2 : r < rows) (h3 : 0 ≤ c)
    (h4 : c < cols) : wr X rows cols r c v = Except.ok (upd2 X r c v) := by
  unfold wr
  rw [if_pos ⟨h1, h2, h3, h4⟩]

theorem loop_succ {σ : Type} (cond : Int → R Bool) (body : Int → σ → R σ) (step : Int → R Int)
    (f : Nat) (i : Int) (s : σ) :
    loop cond body step (f + 1) i s =
      (cond i >>= fun c =>
        if c then body i s >>= fun s => step i >>= fun i => loop cond body step f i s
        else pure s) := rfl

/-- A counting loop: when every iteration below the bound `hi` succeeds, advances the loop
variable by `d > 0` and keeps the invariant `P`, the loop ends with the invariant at a value
of the loop variable that is not below `hi`. -/
theorem loop_count {σ : Type} (cond : Int → R Bool) (body : Int → σ → R σ) (step : Int → R Int)
    (d hi : Int) (hd : 0 < d) (P : Int → σ → Prop)
    (hstep : ∀ i s, P i s → cond i = Except.ok (decide (i < hi)) ∧
      (i < hi → ∃ s', body i s = Except.ok s' ∧ step i = Except.ok (i + d) ∧ P (i + d) s')) :
    ∀ (f : Nat) (i : Int) (s : σ), P i s → hi - i < f → 0 < f →
      ∃ s' i', loop cond body step f i s = Except.ok s' ∧ hi ≤ i' ∧ P i' s' := by
  intro f
  induction f with
  | zero => intro i s _ _ h0; exact absurd h0 (by omega)
  | succ f ih =>
    intro i s hP hf _
    obtain ⟨hc, hb⟩ := hstep i s hP
    rw [loop_succ, hc]
    simp only [bind_of_ok]
    by_cases hlt : i < hi
    · obtain ⟨s', h1, h2, h3⟩ := hb hlt
      rw [decide_eq_true hlt]
      simp only [if_true]
      rw [h1]
      simp only [bind_of_ok]
      rw [h2]
      simp only [bind_of_ok]
      exact ih (i + d) s' h3 (by push_cast at hf ⊢; omega) (by
        have : (0 : Int) < f := by push_cast at hf; omega
        exact_mod_cast this)
    · rw [decide_eq_false hlt]
      exact ⟨s, i, rfl, by omega, hP⟩

/-- A counting loop that meets a fault: when every iteration before the value `istar` of the
loop variable succeeds and keeps the invariant `P`, and the iteration at `istar` faults with
`e`, the loop faults with `e`. -/
theorem loop_fault {σ : Type} (cond : Int → R Bool) (body : Int → σ → R σ) (step : Int → R Int)
    (d istar : Int) (hd : 0 < d) (e : Err) (P : Int → σ → Prop)
    (hle : ∀ i s, P i s → i ≤ istar)
    (hstep : ∀ i s, P i s → i < istar → cond i = Except.ok true ∧
      ∃ s', body i s = Except.ok s' ∧ step i = Except.ok (i + d) ∧ P (i + d) s')
    (hfault : ∀ s, P istar s → cond istar = Except.ok true ∧ body istar s = Except.error e) :
    ∀ (f : Nat) (i : Int) (s : σ), P i s → istar - i < f →
      loop cond body step f i s = Except.error e := by
  intro f
  induction f with
  | zero =>
    intro i s hP hf
    have := hle i s hP
    simp at hf
    omega
  | succ f ih =>
    intro i s hP hf
    have hi := hle i s hP
    rw [loop_succ]
    by_cases hlt : i < istar
    · obtain ⟨hc, s', h1, h2, h3⟩ := hstep i s hP hlt
      rw [hc]
      simp only [bind_of_ok, if_true]
      rw [h1]
      simp only [bind_of_ok]
      rw [h2]
      simp only [bind_of_ok]
      exact ih (i + d) s' h3 (by push_cast at hf ⊢; omega)
    · have e1 : i = istar := by omega
      subst e1
      obtain ⟨hc, hb⟩ := hfault s hP
      rw [hc]
      simp only [bind_of_ok, if_true]
      rw [hb]
      rfl

/-! ## The transposed region -/

theorem fill_cols (A B : Mat) (r0 r1 c0 c1 c2 : Int) (h1 : c0 ≤ c1) (h2 : c1 ≤ c2) :
    fill A (fill A B r0 r1 c0 c1) r0 r1 c1 c2 = fill A B r0 r1 c0 c2 := by
  funext r c
  simp only [fill]
  split_ifs <;> first | rfl | omega

theorem fill_rows (A B : Mat) (r0 r1 r2 c0 c1 : Int) (h1 : r0 ≤ r1) (h2 : r1 ≤ r2) :
    fill A (fill A B r0 r1 c0 c1) r1 r2 c0 c1 = fill A B r0 r2 c0 c1 := by
  funext r c
  simp only [fill]
  split_ifs <;> first | rfl | omega

theorem fill_empty_cols (A B : Mat) (r0 r1 c0 : Int) : fill A B r0 r1 c0 c0 = B := by
  funext r c
  simp only [fill]
  rw [if_neg (by omega)]

theorem fill_empty_rows (A B : Mat) (r0 c0 c1 : Int) : fill A B r0 r0 c0 c1 = B := by
  funext r c
  simp only [fill]
  rw [if_neg (by omega)]

/-! ## The last branch of `transpose_submit`, and `trans` -/

theorem cond16_eq (y Z x : Int) (hy : y + 16 ≤ 2147483647) (hy0 : -2147483648 ≤ y + 16) :
    cond16 y Z x = Except.ok (decide (x < min (y + 16) Z)) := by
  unfold cond16
  rw [iadd_ok _ _ hy0 hy]
  simp only [bind_of_ok]
  by_cases h1 : x < y + 16
  · rw [if_pos h1]
    by_cases h2 : x < Z
    · rw [decide_eq_true h2, decide_eq_true (by omega : x < min (y + 16) Z)]; rfl
    · rw [decide_eq_false h2, decide_eq_false (by omega : ¬ x < min (y + 16) Z)]; rfl
  · rw [if_neg h1, decide_eq_false (by omega : ¬ x < min (y + 16) Z)]; rfl

/-- One row of a tile of the last branch: `B[l][k] = A[k][l]` for the columns `l` of the
tile. -/
theorem row16_eq (M N : Int) (A B : Mat) (j k : Int) (hj0 : 0 ≤ j) (hj : j + 16 ≤ 2147483647)
    (hk0 : 0 ≤ k) (hk : k < N) (hjM : j < M) :
    row16 M N A j k B = Except.ok (fill A B j (min (j + 16) M) k (k + 1)) := by
  obtain ⟨s', l', hrun, hl', hP⟩ := loop_count (cond16 j M) (cell M N A k) (fun l => iadd l 1)
    1 (min (j + 16) M) (by omega)
    (fun l s => j ≤ l ∧ l ≤ min (j + 16) M ∧
      s.1 = (fun r c => if c = k ∧ j ≤ r ∧ r < l ∧ r ≠ k then A k r else B r c) ∧
      (if j ≤ k ∧ k < l then s.2.1 = k ∧ s.2.2 = A k k else s.2.1 = -1))
    (by
      intro l s ⟨h1, h2, h3, h4⟩
      refine ⟨cond16_eq j M l hj (by omega), ?_⟩
      intro hlt
      by_cases hlk : l = k
      · subst hlk
        refine ⟨(s.1, l, A l l), ?_, iadd_ok _ _ (by omega) (by omega), by omega,
          by omega, ?_, ?_⟩
        · unfold cell
          rw [if_pos rfl, rd_ok _ _ _ _ _ hk0 hk (by omega) (by omega)]
          rfl
        · show s.1 = _
          rw [h3]
          funext r c
          by_cases hc : c = l ∧ j ≤ r ∧ r < l ∧ r ≠ l
          · rw [if_pos hc, if_pos ⟨hc.1, hc.2.1, by omega, hc.2.2.2⟩]
          · rw [if_neg hc, if_neg (by omega)]
        · rw [if_pos ⟨h1, by omega⟩]
          exact ⟨rfl, rfl⟩
      · refine ⟨(upd2 s.1 l k (A k l), s.2.1, s.2.2), ?_, iadd_ok _ _ (by omega) (by omega),
          by omega, by omega, ?_, ?_⟩
        · unfold cell
          rw [if_neg hlk, rd_ok _ _ _ _ _ hk0 hk (by omega) (by omega)]
          simp only [bind_of_ok]
          rw [wr_ok _ _ _ _ _ _ (by omega) (by omega) hk0 hk]
          rfl
        · show upd2 s.1 l k (A k l) = _
          rw [h3]
          funext r c
          simp only [upd2]
          by_cases hrc : r = l ∧ c = k
          · rw [if_pos hrc, if_pos ⟨hrc.2, by omega, by omega, by omega⟩, hrc.1]
          · rw [if_neg hrc]
            by_cases hc : c = k ∧ j ≤ r ∧ r < l ∧ r ≠ k
            · rw [if_pos hc, if_pos ⟨hc.1, hc.2.1, by omega, hc.2.2.2⟩]
            · rw [if_neg hc, if_neg (by omega)]
        · show if j ≤ k ∧ k < l + 1 then s.2.1 = k ∧ s.2.2 = A k k else s.2.1 = -1
          by_cases hkl : j ≤ k ∧ k < l
          · rw [if_pos hkl] at h4
            rw [if_pos ⟨hkl.1, by omega⟩]
            exact h4
          · rw [if_neg hkl] at h4
            rw [if_neg (by omega)]
            exact h4)
    17 j (B, -1, 0)
    ⟨le_refl _, by omega, by
      funext r c
      rw [if_neg (by omega)], by rw [if_neg (by omega)]⟩
    (by omega) (by omega)
  obtain ⟨h1, h2, h3, h4⟩ := hP
  unfold row16
  rw [hrun]
  simp only [bind_of_ok]
  by_cases hkin : j ≤ k ∧ k < l'
  · rw [if_pos hkin] at h4
    have h5 : s'.2.1 ≠ -1 := by rw [h4.1]; omega
    rw [if_pos h5, h4.1, h4.2,
      wr_ok _ _ _ _ _ _ hk0 (by omega) hk0 hk, h3]
    congr 1
    funext r c
    simp only [upd2, fill]
    by_cases hrc : r = k ∧ c = k
    · rw [if_pos hrc, if_pos (by omega), hrc.1, hrc.2]
    · rw [if_neg hrc]
      by_cases hc : c = k ∧ j ≤ r ∧ r < l' ∧ r ≠ k
      · rw [if_pos hc, if_pos (by omega), hc.1]
      · rw [if_neg hc, if_neg (by omega)]
  · rw [if_neg hkin] at h4
    have h5 : ¬ s'.2.1 ≠ -1 := by rw [h4]; simp
    rw [if_neg h5, h3]
    congr 1
    funext r c
    simp only [fill]
    by_cases hc : c = k ∧ j ≤ r ∧ r < l' ∧ r ≠ k
    · rw [if_pos hc, if_pos (by omega), hc.1]
    · rw [if_neg hc, if_neg (by omega)]

/-- One tile of the last branch: the rows `k` of the tile, each over the columns of the
tile. -/
theorem tile16_eq (M N : Int) (A B : Mat) (i j : Int) (hi0 : 0 ≤ i) (hi : i + 16 ≤ 2147483647)
    (hiN : i < N) (hj0 : 0 ≤ j) (hj : j + 16 ≤ 2147483647) (hjM : j < M) :
    loop (cond16 i N) (fun k B => row16 M N A j k B) (fun k => iadd k 1) 17 i B =
      Except.ok (fill A B j (min (j + 16) M) i (min (i + 16) N)) := by
  obtain ⟨B', k', hrun, hk', h1, h2, h3⟩ := loop_count (cond16 i N)
    (fun k B => row16 M N A j k B) (fun k => iadd k 1) 1 (min (i + 16) N) (by omega)
    (fun k B' => i ≤ k ∧ k ≤ min (i + 16) N ∧ B' = fill A B j (min (j + 16) M) i k)
    (by
      intro k B' ⟨h1, h2, h3⟩
      refine ⟨cond16_eq i N k hi (by omega), ?_⟩
      intro hlt
      refine ⟨_, row16_eq M N A B' j k hj0 hj (by omega) (by omega) hjM,
        iadd_ok _ _ (by omega) (by omega), by omega, by omega, ?_⟩
      rw [h3, fill_cols _ _ _ _ _ _ _ h1 (by omega)])
    17 i B ⟨le_refl _, by omega, (fill_empty_cols _ _ _ _ _).symm⟩ (by omega) (by omega)
  rw [hrun, h3]
  have : k' = min (i + 16) N := by omega
  rw [this]

/-- One band of tiles of the last branch: all tiles of the rows `i ≤ k < i + 16` of `A`. -/
theorem band16_eq (M N : Int) (A B : Mat) (i : Int) (hi0 : 0 ≤ i) (hi : i + 16 ≤ 2147483647)
    (hiN : i < N) (hM0 : 0 ≤ M) (hM : M + 15 ≤ 2147483647) :
    loop (fun j => pure (decide (j < M)))
        (fun j B => loop (cond16 i N) (fun k B => row16 M N A j k B) (fun k => iadd k 1) 17 i B)
        (fun j => iadd j 16) (M.toNat + 1) 0 B =
      Except.ok (fill A B 0 M i (min (i + 16) N)) := by
  obtain ⟨B', j', hrun, hj', h1, h3⟩ := loop_count (fun j => pure (decide (j < M)))
    (fun j B => loop (cond16 i N) (fun k B => row16 M N A j k B) (fun k => iadd k 1) 17 i B)
    (fun j => iadd j 16) 16 M (by omega)
    (fun j B' => 0 ≤ j ∧ B' = fill A B 0 (min j M) i (min (i + 16) N))
    (by
      intro j B' ⟨h1, h3⟩
      refine ⟨rfl, ?_⟩
      intro hlt
      refine ⟨_, tile16_eq M N A B' i j hi0 hi hiN h1 (by omega) hlt,
        iadd_ok _ _ (by omega) (by omega), by omega, ?_⟩
      rw [h3, min_eq_left (by omega : j ≤ M), fill_rows _ _ _ _ _ _ _ h1 (by omega)])
    (M.toNat + 1) 0 B
    ⟨le_refl _, by rw [min_eq_left hM0, fill_empty_rows]⟩
    (by push_cast; rw [Int.toNat_of_nonneg hM0]; omega) (by omega)
  rw [hrun, h3, min_eq_right hj']

/-- The last branch of `transpose_submit` on sizes for which `i + 16` and `j + 16` stay
within `int`. -/
theorem transpose16_eq (M N : Int) (A B : Mat) (hM0 : 0 ≤ M) (hM : M + 15 ≤ 2147483647)
    (hN0 : 0 ≤ N) (hN : N + 15 ≤ 2147483647) :
    transpose16 M N A B = Except.ok (fill A B 0 M 0 N) := by
  unfold transpose16
  obtain ⟨B', i', hrun, hi', h1, h3⟩ := loop_count (fun i => pure (decide (i < N)))
    (fun i B =>
      loop (fun j => pure (decide (j < M)))
        (fun j B => loop (cond16 i N) (fun k B => row16 M N A j k B) (fun k => iadd k 1) 17 i B)
        (fun j => iadd j 16) (M.toNat + 1) 0 B)
    (fun i => iadd i 16) 16 N (by omega)
    (fun i B' => 0 ≤ i ∧ B' = fill A B 0 M 0 (min i N))
    (by
      intro i B' ⟨h1, h3⟩
      refine ⟨rfl, ?_⟩
      intro hlt
      refine ⟨_, band16_eq M N A B' i h1 (by omega) hlt hM0 hM,
        iadd_ok _ _ (by omega) (by omega), by omega, ?_⟩
      rw [h3, min_eq_left (by omega : i ≤ N), fill_cols _ _ _ _ _ _ _ h1 (by omega)])
    (N.toNat + 1) 0 B
    ⟨le_refl _, by rw [min_eq_left hN0, fill_empty_cols]⟩
    (by push_cast; rw [Int.toNat_of_nonneg hN0]; omega) (by omega)
  rw [hrun, h3, min_eq_right hi']

theorem upd2_fill (A B : Mat) (i j : Int) :
    upd2 B j i (A i j) = fill A B j (j + 1) i (i + 1) := by
  funext r c
  simp only [upd2, fill]
  by_cases h : r = j ∧ c = i
  · rw [if_pos h, if_pos (by omega), h.1, h.2]
  · rw [if_neg h, if_neg (by omega)]

/-- The function `trans` on arrays with sizes `0 ≤ M, N ≤ INT_MAX`. -/
theorem trans_eq (M N : Int) (A B : Mat) (hM0 : 0 ≤ M) (hM : M ≤ 2147483647)
    (hN0 : 0 ≤ N) (hN : N ≤ 2147483647) :
    trans M N A B = Except.ok (fill A B 0 M 0 N) := by
  unfold trans
  have hrow : ∀ (i : Int) (B : Mat), 0 ≤ i → i < N →
      loop (fun j => pure (decide (j < M)))
        (fun j B => rd A N M i j >>= fun tmp => wr B M N j i tmp)
        (fun j => iadd j 1) (M.toNat + 1) 0 B = Except.ok (fill A B 0 M i (i + 1)) := by
    intro i B hi0 hiN
    obtain ⟨B', j', hrun, hj', h1, h2, h3⟩ := loop_count (fun j => pure (decide (j < M)))
      (fun j B => rd A N M i j >>= fun tmp => wr B M N j i tmp)
      (fun j => iadd j 1) 1 M (by omega)
      (fun j B' => 0 ≤ j ∧ j ≤ M ∧ B' = fill A B 0 j i (i + 1))
      (by
        intro j B' ⟨h1, h2, h3⟩
        refine ⟨rfl, ?_⟩
        intro hlt
        refine ⟨upd2 B' j i (A i j), ?_, iadd_ok _ _ (by omega) (by omega), by omega,
          by omega, ?_⟩
        · show (rd A N M i j >>= fun tmp => wr B' M N j i tmp) = _
          rw [rd_ok _ _ _ _ _ hi0 hiN h1 hlt]
          simp only [bind_of_ok]
          rw [wr_ok _ _ _ _ _ _ h1 hlt hi0 hiN]
        · rw [upd2_fill, h3, fill_rows _ _ _ _ _ _ _ h1 (by omega)])
      (M.toNat + 1) 0 B ⟨le_refl _, hM0, (fill_empty_rows _ _ _ _ _).symm⟩
      (by push_cast; rw [Int.toNat_of_nonneg hM0]; omega) (by omega)
    rw [hrun, h3]
    have : j' = M := by omega
    rw [this]
  obtain ⟨B', i', hrun, hi', h1, h2, h3⟩ := loop_count (fun i => pure (decide (i < N)))
    (fun i B =>
      loop (fun j => pure (decide (j < M)))
        (fun j B => do
          let tmp ← rd A N M i j
          wr B M N j i tmp)
        (fun j => iadd j 1) (M.toNat + 1) 0 B)
    (fun i => iadd i 1) 1 N (by omega)
    (fun i B' => 0 ≤ i ∧ i ≤ N ∧ B' = fill A B 0 M 0 i)
    (by
      intro i B' ⟨h1, h2, h3⟩
      refine ⟨rfl, ?_⟩
      intro hlt
      refine ⟨_, hrow i B' h1 hlt, iadd_ok _ _ (by omega) (by omega), by omega, by omega, ?_⟩
      rw [h3, fill_cols _ _ _ _ _ _ _ h1 (by omega)])
    (N.toNat + 1) 0 B ⟨le_refl _, hN0, (fill_empty_cols _ _ _ _ _).symm⟩
    (by push_cast; rw [Int.toNat_of_nonneg hN0]; omega) (by omega)
  rw [hrun, h3]
  have : i' = N := by omega
  rw [this]

/-! ## The branches `N == 32` and `N == 64` of `transpose_submit` -/

/-- The two outer loops of the branches `N == 32` and `N == 64`, for a tile body `T` that
transposes the 8 by 8 tile at rows `i`, columns `j` of `A`. -/
theorem tiles8_eq (M N : Int) (A : Mat) (T : Int → Int → Mat → R Mat)
    (hM0 : 0 ≤ M) (hM8 : M % 8 = 0) (hM : M ≤ 2147483647)
    (hN0 : 0 ≤ N) (hN8 : N % 8 = 0) (hN : N ≤ 2147483647)
    (hT : ∀ i j B, 0 ≤ i → i + 8 ≤ N → 0 ≤ j → j + 8 ≤ M →
      T i j B = Except.ok (fill A B j (j + 8) i (i + 8))) (B : Mat) :
    loop (fun i => pure (decide (i < N)))
        (fun i B => loop (fun j => pure (decide (j < M))) (fun j B => T i j B)
          (fun j => iadd j 8) (M.toNat + 1) 0 B)
        (fun i => iadd i 8) (N.toNat + 1) 0 B =
      Except.ok (fill A B 0 M 0 N) := by
  have hband : ∀ (i : Int) (B : Mat), 0 ≤ i → i + 8 ≤ N →
      loop (fun j => pure (decide (j < M))) (fun j B => T i j B)
        (fun j => iadd j 8) (M.toNat + 1) 0 B = Except.ok (fill A B 0 M i (i + 8)) := by
    intro i B hi0 hi8
    obtain ⟨B', j', hrun, hj', h1, h2, h4, h3⟩ := loop_count (fun j => pure (decide (j < M)))
      (fun j B => T i j B) (fun j => iadd j 8) 8 M (by omega)
      (fun j B' => 0 ≤ j ∧ j ≤ M ∧ j % 8 = 0 ∧ B' = fill A B 0 j i (i + 8))
      (by
        intro j B' ⟨h1, h2, h4, h3⟩
        refine ⟨rfl, ?_⟩
        intro hlt
        refine ⟨_, hT i j B' hi0 hi8 h1 (by omega), iadd_ok _ _ (by omega) (by omega),
          by omega, by omega, by omega, ?_⟩
        rw [h3, fill_rows _ _ _ _ _ _ _ h1 (by omega)])
      (M.toNat + 1) 0 B ⟨le_refl _, hM0, by omega, (fill_empty_rows _ _ _ _ _).symm⟩
      (by push_cast; rw [Int.toNat_of_nonneg hM0]; omega) (by omega)
    rw [hrun, h3]
    have : j' = M := by omega
    rw [this]
  obtain ⟨B', i', hrun, hi', h1, h2, h4, h3⟩ := loop_count (fun i => pure (decide (i < N)))
    (fun i B => loop (fun j => pure (decide (j < M))) (fun j B => T i j B)
      (fun j => iadd j 8) (M.toNat + 1) 0 B)
    (fun i => iadd i 8) 8 N (by omega)
    (fun i B' => 0 ≤ i ∧ i ≤ N ∧ i % 8 = 0 ∧ B' = fill A B 0 M 0 i)
    (by
      intro i B' ⟨h1, h2, h4, h3⟩
      refine ⟨rfl, ?_⟩
      intro hlt
      refine ⟨_, hband i B' h1 (by omega), iadd_ok _ _ (by omega) (by omega),
        by omega, by omega, by omega, ?_⟩
      rw [h3, fill_cols _ _ _ _ _ _ _ h1 (by omega)])
    (N.toNat + 1) 0 B ⟨le_refl _, hN0, by omega, (fill_empty_cols _ _ _ _ _).symm⟩
    (by push_cast; rw [Int.toNat_of_nonneg hN0]; omega) (by omega)
  rw [hrun, h3]
  have : i' = N := by omega
  rw [this]

/-- One row of a tile of the branch `N == 32`. -/
theorem row32_eq (M N : Int) (A B : Mat) (j k : Int) (hj0 : 0 ≤ j) (hj : j + 8 ≤ M)
    (hM : M ≤ 2147483647) (hk0 : 0 ≤ k) (hk : k < N) :
    row32 M N A j k B = Except.ok (fill A B j (j + 8) k (k + 1)) := by
  unfold row32
  simp (disch := omega) only [iadd_ok, rd_ok, wr_ok, bind_of_ok]
  congr 1
  funext r c
  simp only [upd2, fill]
  split_ifs <;> first | rfl | omega | (congr 1 <;> omega)

/-- The branch `N == 32` of `transpose_submit` on sizes that are multiples of 8. -/
theorem transpose32_eq (M N : Int) (A B : Mat) (hM0 : 0 ≤ M) (hM8 : M % 8 = 0)
    (hM : M ≤ 2147483647) (hN0 : 0 ≤ N) (hN8 : N % 8 = 0) (hN : N ≤ 2147483647) :
    transpose32 M N A B = Except.ok (fill A B 0 M 0 N) := by
  unfold transpose32
  refine tiles8_eq M N A
    (fun i j B => loop (fun k => do let e ← iadd i 8; pure (decide (k < e)))
      (fun k B => row32 M N A j k B) (fun k => iadd k 1) 9 i B)
    hM0 hM8 hM hN0 hN8 hN ?_ B
  intro i j B hi0 hi8 hj0 hj8
  obtain ⟨B', k', hrun, hk', h1, h2, h3⟩ := loop_count
    (fun k => do let e ← iadd i 8; pure (decide (k < e)))
    (fun k B => row32 M N A j k B) (fun k => iadd k 1) 1 (i + 8) (by omega)
    (fun k B' => i ≤ k ∧ k ≤ i + 8 ∧ B' = fill A B j (j + 8) i k)
    (by
      intro k B' ⟨h1, h2, h3⟩
      refine ⟨by rw [iadd_ok _ _ (by omega) (by omega)]; rfl, ?_⟩
      intro hlt
      refine ⟨_, row32_eq M N A B' j k hj0 hj8 hM (by omega) (by omega),
        iadd_ok _ _ (by omega) (by omega), by omega, by omega, ?_⟩
      rw [h3, fill_cols _ _ _ _ _ _ _ h1 (by omega)])
    9 i B ⟨le_refl _, by omega, (fill_empty_cols _ _ _ _ _).symm⟩ (by omega) (by omega)
  show loop _ _ _ 9 i B = _
  rw [hrun, h3]
  have : k' = i + 8 := by omega
  rw [this]

theorem stage1_start (A B : Mat) (i j : Int) : stage1 A B i j i = B := by
  funext r c
  simp only [stage1]
  rw [if_neg (by omega), if_neg (by omega)]

theorem stage1_end (A B : Mat) (i j : Int) : stage1 A B i j (i + 4) = stage2 A B i j 0 := by
  funext r c
  simp only [stage1, stage2]
  split_ifs <;> first | rfl | omega | (congr 1 <;> omega)

theorem stage2_end (A B : Mat) (i j : Int) :
    stage2 A B i j 4 = fill A B j (j + 8) i (i + 8) := by
  funext r c
  simp only [stage2, fill]
  split_ifs <;> first | rfl | omega | (congr 1 <;> omega)

/-- One iteration of the first inner loop of the branch `N == 64`. -/
theorem row64_eq (M N : Int) (A B : Mat) (i j k : Int) (hj0 : 0 ≤ j) (hj : j + 8 ≤ M)
    (hM : M ≤ 2147483647) (hi0 : 0 ≤ i) (hi : i + 8 ≤ N) (hN : N ≤ 2147483647)
    (hk0 : i ≤ k) (hk : k < i + 4) :
    row64 M N A j k (stage1 A B i j k) = Except.ok (stage1 A B i j (k + 1)) := by
  unfold row64
  simp (disch := omega) only [iadd_ok, rd_ok, wr_ok, bind_of_ok]
  congr 1
  funext r c
  simp only [upd2, stage1]
  have hr : r = j ∨ r = j + 1 ∨ r = j + 2 ∨ r = j + 3 ∨ (r < j ∨ j + 4 ≤ r) := by omega
  have hc : c = k ∨ c = k + 4 ∨ (i ≤ c ∧ c < k) ∨ (i + 4 ≤ c ∧ c < k + 4) ∨
      (c ≠ k ∧ c ≠ k + 4 ∧ ¬ (i ≤ c ∧ c < k) ∧ ¬ (i + 4 ≤ c ∧ c < k + 4)) := by omega
  rcases hr with h | h | h | h | h <;> rcases hc with h' | h' | h' | h' | h' <;>
    (repeat (first | rw [if_pos (by omega)] | rw [if_neg (by omega)])) <;>
    first | with_reducible rfl | (congr 1 <;> omega)

/-- One iteration of the second inner loop of the branch `N == 64`. -/
theorem fix64_eq (M N : Int) (A B : Mat) (i j l : Int) (hj0 : 0 ≤ j) (hj : j + 8 ≤ M)
    (hM : M ≤ 2147483647) (hi0 : 0 ≤ i) (hi : i + 8 ≤ N) (hN : N ≤ 2147483647)
    (hl0 : 0 ≤ l) (hl : l < 4) :
    fix64 M N A i j l (stage2 A B i j l) = Except.ok (stage2 A B i j (l + 1)) := by
  unfold fix64 idx_down idx_up
  simp (disch := omega) only [iadd_ok, isub_ok, rd_ok, wr_ok, bind_of_ok]
  congr 1
  funext r c
  simp only [upd2, stage2]
  have hr : r = j + 3 - l ∨ r = j + 4 + l ∨ (j ≤ r ∧ r < j + 3 - l) ∨
      (j + 4 - l ≤ r ∧ r < j + 4) ∨ (j + 4 ≤ r ∧ r < j + 4 + l) ∨
      (r < j ∨ j + 5 + l ≤ r) := by omega
  rcases hr with h | h | h | h | h | h
  · have hc : c = i ∨ c = i + 1 ∨ c = i + 2 ∨ c = i + 3 ∨ c = i + 4 ∨ c = i + 5 ∨
        c = i + 6 ∨ c = i + 7 ∨ (c < i ∨ i + 8 ≤ c) := by omega
    rcases hc with h' | h' | h' | h' | h' | h' | h' | h' | h' <;>
      (repeat (first | rw [if_pos (by omega)] | rw [if_neg (by omega)])) <;>
      first | with_reducible rfl | (congr 1 <;> omega)
  · have hc : c = i ∨ c = i + 1 ∨ c = i + 2 ∨ c = i + 3 ∨ c = i + 4 ∨ c = i + 5 ∨
        c = i + 6 ∨ c = i + 7 ∨ (c < i ∨ i + 8 ≤ c) := by omega
    rcases hc with h' | h' | h' | h' | h' | h' | h' | h' | h' <;>
      (repeat (first | rw [if_pos (by omega)] | rw [if_neg (by omega)])) <;>
      first | with_reducible rfl | (congr 1 <;> omega)
  all_goals
    have hc : (i ≤ c ∧ c < i + 4) ∨ (i + 4 ≤ c ∧ c < i + 8) ∨ (c < i ∨ i + 8 ≤ c) := by omega
    rcases hc with h' | h' | h' <;>
      (repeat (first | rw [if_pos (by omega)] | rw [if_neg (by omega)]))

/-- The branch `N == 64` of `transpose_submit` on sizes that are multiples of 8. -/
theorem transpose64_eq (M N : Int) (A B : Mat) (hM0 : 0 ≤ M) (hM8 : M % 8 = 0)
    (hM : M ≤ 2147483647) (hN0 : 0 ≤ N) (hN8 : N % 8 = 0) (hN : N ≤ 2147483647) :
    transpose64 M N A B = Except.ok (fill A B 0 M 0 N) := by
  unfold transpose64
  refine tiles8_eq M N A
    (fun i j B => do
      let B ← loop (fun k => do let e ← iadd i 4; pure (decide (k < e)))
        (fun k B => row64 M N A j k B) (fun k => iadd k 1) 5 i B
      loop (fun l => pure (decide (l < 4)))
        (fun l B => fix64 M N A i j l B) (fun l => iadd l 1) 5 0 B)
    hM0 hM8 hM hN0 hN8 hN ?_ B
  intro i j B hi0 hi8 hj0 hj8
  obtain ⟨B1, k', hrun1, hk', h1, h2, h3⟩ := loop_count
    (fun k => do let e ← iadd i 4; pure (decide (k < e)))
    (fun k B => row64 M N A j k B) (fun k => iadd k 1) 1 (i + 4) (by omega)
    (fun k B' => i ≤ k ∧ k ≤ i + 4 ∧ B' = stage1 A B i j k)
    (by
      intro k B' ⟨h1, h2, h3⟩
      refine ⟨by rw [iadd_ok _ _ (by omega) (by omega)]; rfl, ?_⟩
      intro hlt
      refine ⟨stage1 A B i j (k + 1), ?_, iadd_ok _ _ (by omega) (by omega), by omega,
        by omega, rfl⟩
      rw [h3]
      exact row64_eq M N A B i j k hj0 hj8 hM hi0 hi8 hN h1 hlt)
    5 i B ⟨le_refl _, by omega, (stage1_start _ _ _ _).symm⟩ (by omega) (by omega)
  have hk4 : k' = i + 4 := by omega
  rw [hk4, stage1_end] at h3
  obtain ⟨B2, l', hrun2, hl', h4, h5, h6⟩ := loop_count
    (fun l => pure (decide (l < 4)))
    (fun l B => fix64 M N A i j l B) (fun l => iadd l 1) 1 4 (by omega)
    (fun l B' => 0 ≤ l ∧ l ≤ 4 ∧ B' = stage2 A B i j l)
    (by
      intro l B' ⟨h1, h2, h3⟩
      refine ⟨rfl, ?_⟩
      intro hlt
      refine ⟨stage2 A B i j (l + 1), ?_, iadd_ok _ _ (by omega) (by omega), by omega,
        by omega, rfl⟩
      rw [h3]
      exact fix64_eq M N A B i j l hj0 hj8 hM hi0 hi8 hN h1 hlt)
    5 0 B1 ⟨le_refl _, by omega, h3⟩ (by omega) (by omega)
  have hl4 : l' = 4 := by omega
  rw [hl4, stage2_end] at h6
  show (loop _ _ _ 5 i B >>= fun B => loop _ _ _ 5 0 B) = _
  rw [hrun1]
  simp only [bind_of_ok]
  rw [hrun2, h6]

/-- The function `is_transpose` gives 1 on an array `B` that holds the transpose of `A`. -/
theorem is_transpose_eq (M N : Int) (A B : Mat) (hM0 : 0 ≤ M) (hM : M ≤ 2147483647)
    (hN0 : 0 ≤ N) (hN : N ≤ 2147483647)
    (hB : ∀ i j, 0 ≤ i → i < N → 0 ≤ j → j < M → B j i = A i j) :
    is_transpose M N A B = Except.ok 1 := by
  have hrow : ∀ (i : Int), 0 ≤ i → i < N → ∀ (f : Nat) (j : Int), 0 ≤ j → M - j < f →
      0 < f → is_transpose_row M N A B i f j = Except.ok false := by
    intro i hi0 hiN f
    induction f with
    | zero => intro j _ _ h0; exact absurd h0 (by omega)
    | succ f ih =>
      intro j hj0 hf _
      unfold is_transpose_row
      by_cases hlt : j < M
      · rw [if_pos hlt, rd_ok _ _ _ _ _ hi0 hiN hj0 hlt]
        simp only [bind_of_ok]
        rw [rd_ok _ _ _ _ _ hj0 hlt hi0 hiN]
        simp only [bind_of_ok]
        rw [if_neg (by rw [hB i j hi0 hiN hj0 hlt]; simp), iadd_ok _ _ (by omega) (by omega)]
        simp only [bind_of_ok]
        exact ih (j + 1) (by omega) (by push_cast at hf ⊢; omega) (by
          have : (0 : Int) < f := by push_cast at hf; omega
          exact_mod_cast this)
      · rw [if_neg hlt]
        rfl
  have hrows : ∀ (f : Nat) (i : Int), 0 ≤ i → N - i < f → 0 < f →
      is_transpose_rows M N A B f i = Except.ok false := by
    intro f
    induction f with
    | zero => intro i _ _ h0; exact absurd h0 (by omega)
    | succ f ih =>
      intro i hi0 hf _
      unfold is_transpose_rows
      by_cases hlt : i < N
      · rw [if_pos hlt, hrow i hi0 hlt (M.toNat + 1) 0 (le_refl _)
          (by push_cast; rw [Int.toNat_of_nonneg hM0]; omega) (by omega)]
        simp only [bind_of_ok]
        rw [if_neg (by simp), iadd_ok _ _ (by omega) (by omega)]
        simp only [bind_of_ok]
        exact ih (i + 1) (by omega) (by push_cast at hf ⊢; omega) (by
          have : (0 : Int) < f := by push_cast at hf; omega
          exact_mod_cast this)
      · rw [if_neg hlt]
        rfl
  unfold is_transpose
  rw [hrows (N.toNat + 1) 0 (le_refl _)
    (by push_cast; rw [Int.toNat_of_nonneg hN0]; omega) (by omega)]
  rfl

/-! ## The claims about `transpose_submit` -/

theorem fill_spec (A B : Mat) (M N : Int) :
    (∀ i j, 0 ≤ i → i < N → 0 ≤ j → j < M → fill A B 0 M 0 N j i = A i j) ∧
      (∀ r c, ¬ (0 ≤ r ∧ r < M ∧ 0 ≤ c ∧ c < N) → fill A B 0 M 0 N r c = B r c) := by
  constructor
  · intro i j h1 h2 h3 h4
    simp only [fill]
    rw [if_pos ⟨h3, h4, h1, h2⟩]
  · intro r c h
    simp only [fill]
    rw [if_neg h]

/-- The last branch of `transpose_submit` for `N = 2147483647` and `M = 1`: the tile loop
reaches `i = 2147483632`, where `i + 16` is not an `int`. -/
theorem transpose16_overflow (A B : Mat) :
    transpose16 1 2147483647 A B = Except.error Err.overflow := by
  unfold transpose16
  refine loop_fault _ _ _ 16 2147483632 (by omega) Err.overflow
    (fun i _ => 0 ≤ i ∧ i ≤ 2147483632 ∧ i % 16 = 0) (fun i s h => h.2.1) ?_ ?_
    ((2147483647 : Int).toNat + 1) 0 B ⟨le_refl _, by omega, by omega⟩
    (by norm_num)
  · intro i B' ⟨h1, h2, h3⟩ hlt
    refine ⟨by
      show (pure (decide (i < 2147483647)) : R Bool) = _
      rw [decide_eq_true (by omega : i < 2147483647)]
      rfl, ?_⟩
    exact ⟨_, band16_eq 1 2147483647 A B' i h1 (by omega) (by omega) (by omega) (by omega),
      iadd_ok _ _ (by omega) (by omega), by omega, by omega, by omega⟩
  · intro B' _
    refine ⟨rfl, ?_⟩
    have e : (1 : Int).toNat + 1 = 1 + 1 := rfl
    show loop _ _ _ ((1 : Int).toNat + 1) 0 B' = _
    rw [e, loop_succ]
    simp only [pure_ok, bind_of_ok]
    rw [decide_eq_true (by omega : (0 : Int) < 1)]
    simp only [if_true]
    rw [loop_succ]
    unfold cond16
    rw [iadd_overflow _ _ (by omega)]
    rfl

/-- Claim C24: for `M = N = 32` and for `M = N = 64`, whatever the arrays `A` and `B` hold,
`transpose_submit(M, N, A, B)` runs without a fault and leaves `B[j][i] = A[i][j]` for all
`0 ≤ i < N`, `0 ≤ j < M`; it writes no other element; and `is_transpose` gives 1 on the
result.  The array `A` is only read. -/
theorem transpose_submit_square (A B : Mat) :
    (∃ B', transpose_submit 32 32 A B = Except.ok B' ∧
      (∀ i j : Int, 0 ≤ i → i < 32 → 0 ≤ j → j < 32 → B' j i = A i j) ∧
      (∀ r c : Int, ¬ (0 ≤ r ∧ r < 32 ∧ 0 ≤ c ∧ c < 32) → B' r c = B r c) ∧
      is_transpose 32 32 A B' = Except.ok 1) ∧
    (∃ B', transpose_submit 64 64 A B = Except.ok B' ∧
      (∀ i j : Int, 0 ≤ i → i < 64 → 0 ≤ j → j < 64 → B' j i = A i j) ∧
      (∀ r c : Int, ¬ (0 ≤ r ∧ r < 64 ∧ 0 ≤ c ∧ c < 64) → B' r c = B r c) ∧
      is_transpose 64 64 A B' = Except.ok 1) := by
  constructor
  · have h := transpose32_eq 32 32 A B (by omega) (by omega) (by omega) (by omega) (by omega)
      (by omega)
    obtain ⟨f1, f2⟩ := fill_spec A B 32 32
    refine ⟨_, ?_, f1, f2, is_transpose_eq 32 32 A _ (by omega) (by omega) (by omega)
      (by omega) f1⟩
    unfold transpose_submit
    rw [if_pos rfl]
    exact h
  · have h := transpose64_eq 64 64 A B (by omega) (by omega) (by omega) (by omega) (by omega)
      (by omega)
    obtain ⟨f1, f2⟩ := fill_spec A B 64 64
    refine ⟨_, ?_, f1, f2, is_transpose_eq 64 64 A _ (by omega) (by omega) (by omega)
      (by omega) f1⟩
    unfold transpose_submit
    rw [if_neg (by omega), if_pos rfl]
    exact h

/-- Claim C25, counterexample: for `M = 1` and `N = 2147483647`, which is not 32 or 64,
`trans` transposes the array while `transpose_submit` has no defined result: it evaluates
`i + 16` for `i = 2147483632`, which is not an `int`. -/
theorem transpose_submit_counterexample :
    (1 : Int) ≤ 1 ∧ (1 : Int) ≤ 2147483647 ∧ (2147483647 : Int) ≠ 32 ∧
      (2147483647 : Int) ≠ 64 ∧ (2147483647 : Int) ≤ INT_MAX ∧
      transpose_submit 1 2147483647 sample_A zero_B = Except.error Err.overflow ∧
      trans 1 2147483647 sample_A zero_B =
        Except.ok (fill sample_A zero_B 0 1 0 2147483647) := by
  refine ⟨by omega, by omega, by omega, by omega, by unfold INT_MAX; omega, ?_,
    trans_eq 1 2147483647 _ _ (by omega) (by omega) (by omega) (by omega)⟩
  unfold transpose_submit
  rw [if_neg (by omega), if_neg (by omega)]
  exact transpose16_overflow _ _

/-- Claim C25, amended: for `1 ≤ M ≤ 2147483632` and `1 ≤ N ≤ 2147483632` with `N` not 32 or
64, whatever the arrays `A` and `B` hold, `transpose_submit(M, N, A, B)` runs without a fault
(no access outside `A[0..N-1][0..M-1]` and `B[0..M-1][0..N-1]`), gives the same array as
`trans(M, N, A, B)`, leaves `B[j][i] = A[i][j]` for all `0 ≤ i < N`, `0 ≤ j < M`, diagonal
elements included, and writes no other element. -/
theorem transpose_submit_general (M N : Int) (A B : Mat) (hM : 1 ≤ M) (hN : 1 ≤ N)
    (hN32 : N ≠ 32) (hN64 : N ≠ 64) (hMb : M ≤ 2147483632) (hNb : N ≤ 2147483632) :
    ∃ B', transpose_submit M N A B = Except.ok B' ∧ trans M N A B = Except.ok B' ∧
      (∀ i j : Int, 0 ≤ i → i < N → 0 ≤ j → j < M → B' j i = A i j) ∧
      (∀ r c : Int, ¬ (0 ≤ r ∧ r < M ∧ 0 ≤ c ∧ c < N) → B' r c = B r c) := by
  obtain ⟨f1, f2⟩ := fill_spec A B M N
  refine ⟨_, ?_, trans_eq M N A B (by omega) (by omega) (by omega) (by omega), f1, f2⟩
  unfold transpose_submit
  rw [if_neg hN32, if_neg hN64]
  exact transpose16_eq M N A B (by omega) (by omega) (by omega) (by omega)

/-- Claim C25, amended, for `M = 61` and `N = 67`. -/
theorem transpose_submit_general_witness :
    (1 : Int) ≤ 61 ∧ (1 : Int) ≤ 67 ∧ (67 : Int) ≠ 32 ∧ (67 : Int) ≠ 64 ∧
    ∃ B', transpose_submit 61 67 sample_A zero_B = Except.ok B' ∧
      trans 61 67 sample_A zero_B = Except.ok B' ∧
      (∀ i j : Int, 0 ≤ i → i < 67 → 0 ≤ j → j < 61 → B' j i = sample_A i j) ∧
      (∀ r c : Int, ¬ (0 ≤ r ∧ r < 61 ∧ 0 ≤ c ∧ c < 67) → B' r c = zero_B r c) :=
  ⟨by omega, by omega, by omega, by omega,
    transpose_submit_general 61 67 sample_A zero_B (by omega) (by omega) (by omega) (by omega)
      (by omega) (by omega)⟩

end CacheLab

namespace CSim

/-! ## Theorems -/

/-- Claim C39, failing run: the clock reading `(1, 0)` is later than `(0, 999999)` and gets
the smaller time stamp, 1000 against 999999000000.  On a set of two lines, after an access
with tag 1 at `(0, 999999)` and an access with tag 2 at `(1, 0)`, the miss with tag 3 at
`(1, 1)` evicts tag 2, the line used last, and keeps tag 1, the line used least recently. -/
theorem time_stamp_order_fails :
    GetSystemTime 0 999999 = Except.ok 999999000000 ∧ GetSystemTime 1 0 = Except.ok 1000 ∧
      (0 : Nat) < 1 ∧ ¬ (999999000000 < (1000 : Nat)) ∧
      run_two_lines =
        Except.ok ([⟨true, 1, 999999000000⟩, ⟨true, 3, 1001000⟩], ⟨0, 3, 1⟩) := by
  refine ⟨rfl, rfl, by decide, by decide, rfl⟩

end CSim
